import Mathlib

/-! Manhattan-world dynamic programme (`manhattan_dp.cpp`).

A shallow embedding of the solver in `src/source/manhattan_dp.cpp`: the search
state `DPState`, the memo table `DPCache`, the memoised recursion
`ManhattanDP::Solve` / `Solve_Impl`, the driver `ManhattanDP::Compute` and the
backtracking pass `ManhattanDP::PopulateSolution`; and of the row filters
`FastSobel::ConvolveRowX` / `ConvolveRowY` of `src/source/fast_sobel.cpp`.

Conventions of the embedding.

* `double` values are exact rationals.  A score is a `Score`: a rational, negative
  infinity, or NaN (the "unvisited" marker of the memo table).
* C++ `int` values are `Int`, without a bound: the definitions agree with the
  program where no 32-bit operation overflows, which needs the vanishing
  columns `vpt_cols` to fit a 32-bit `int` with the grid width to spare.  The
  section on machine integers gives `OcclusionValid` and the line of the walk
  with 32-bit arithmetic and shows where they part from the unbounded ones.
* The solver object is the record `ManhattanDP`; its methods take the record
  and return the updated record.  `geom`, `payoffs` and `jump_thresh`, which are
  fixed during one `Compute`, are passed as arguments.
* `roundi` (declared in the absent `numeric_utils.tpp`) and `FillPolygon`
  (absent `fill_polygon.tpp`) are parameters of the definitions that call them;
  the helper `Clamp` and the constants declared in absent headers are modelled.
* A failed `CHECK` is the result `none` or an error value.
* Recursion is bounded by a fuel argument; `solveFuel` is shown to be enough.
-/

namespace IndoorContext

/-! ## Numeric helpers -/

/-- Conversion of a `double` to `int` as done by a C++ implicit conversion:
truncation toward zero. The result is not reduced to 32 bits; `toInt32` is the
conversion to a 32-bit `int`. -/
def truncToInt (x : ℚ) : Int := Int.tdiv x.num (x.den : Int)

/-- A `double` score: NaN, negative infinity, or a finite value. Positive
infinity cannot arise from finite payoffs and is not represented. -/
inductive Score where
  | nan : Score
  | negInf : Score
  | fin (q : ℚ) : Score
deriving DecidableEq

namespace Score

/-- Floating-point `score + delta` for a finite `delta`. -/
def add (s : Score) (delta : ℚ) : Score :=
  match s with
  | nan => nan
  | negInf => negInf
  | fin q => fin (q + delta)

/-- Floating-point `a > b`: false as soon as one side is NaN. -/
def gt (a b : Score) : Bool :=
  match a, b with
  | fin x, fin y => decide (y < x)
  | fin _, negInf => true
  | _, _ => false

/-- The test `isnan(score)`. -/
def isnan (s : Score) : Bool :=
  match s with
  | nan => true
  | _ => false

/-- The order value of a score: negative infinity (and NaN) is the bottom
element, a finite score is itself. -/
def val (s : Score) : WithBot ℚ :=
  match s with
  | fin q => (q : WithBot ℚ)
  | _ => ⊥

end Score

/-! ## Small vectors and matrices -/

/-- A two-vector of doubles (`Vec2`). -/
abbrev Vec2 := ℚ × ℚ

/-- A three-vector of doubles (`Vec3`). -/
abbrev Vec3 := ℚ × ℚ × ℚ

/-- A 3x3 matrix (`Mat3`), given by its rows. -/
abbrev Mat3 := Vec3 × Vec3 × Vec3

/-- Inner product of two three-vectors. -/
def dot3 (a b : Vec3) : ℚ := a.1 * b.1 + a.2.1 * b.2.1 + a.2.2 * b.2.2

/-- Matrix-vector product `m * v`. -/
def Mat3.mulVec (m : Mat3) (v : Vec3) : Vec3 := (dot3 m.1 v, dot3 m.2.1 v, dot3 m.2.2 v)

/-- The helper `unproject`: append a homogeneous coordinate 1. -/
def unproject (x : Vec2) : Vec3 := (x.1, x.2, 1)

/-- The helper `project`: divide by the last coordinate. -/
def project (x : Vec3) : Vec2 := (x.1 / x.2.2, x.2.1 / x.2.2)

/-- A dense matrix with its dimensions (`MatF`, `MatI`, `MatD`). -/
structure Mat (α : Type) where
  rows : Int
  cols : Int
  elem : Int → Int → α

/-- An integer vector (`VecI`). -/
abbrev VecI := List Int

/-- The assignment `v[i] = a`; indices outside the vector are ignored. -/
def VecI.set (v : VecI) (i : Int) (a : Int) : VecI :=
  if 0 ≤ i then List.set v i.toNat a else v

/-- The read `v[i]`. -/
def VecI.get (v : VecI) (i : Int) : Int :=
  if 0 ≤ i then v.getD i.toNat 0 else 0

/-- A line segment with homogeneous endpoints (`LineSeg`). -/
structure LineSeg where
  start : Vec3
  end_ : Vec3
deriving DecidableEq

/-! ## DPState -/

/-- A node of the search graph (`DPState`). -/
structure DPState where
  row : Int
  col : Int
  axis : Int
  dir : Int
deriving DecidableEq

/-- Modelled from the spec: the enumerators `DPState::DIR_IN`, `DIR_OUT`,
`DIR_UP`, `DIR_DOWN` are declared in the absent header `manhattan_dp.h`. They
are four distinct values that index the last dimension (of size 4) of the memo
table; they are numbered here in the order in which the source prints them. -/
abbrev DIR_IN : Int := 0

/-- Modelled from the spec: see `DIR_IN`. -/
abbrev DIR_OUT : Int := 1

/-- Modelled from the spec: see `DIR_IN`. -/
abbrev DIR_UP : Int := 2

/-- Modelled from the spec: see `DIR_IN`. -/
abbrev DIR_DOWN : Int := 3

/-- The default constructor `DPState::DPState()` and the constant `DPState::none`. -/
def DPState.none : DPState := ⟨-1, -1, -1, -1⟩

/-! ## DPSubSolution -/

/-- A memo-table entry (`DPSubSolution`): a score and the state it came from. -/
structure DPSubSolution where
  score : Score
  src : DPState
deriving DecidableEq

/-- The constructor `DPSubSolution()`: NaN score, no source. -/
def DPSubSolution.default : DPSubSolution := ⟨Score.nan, DPState.none⟩

/-- The constructor `DPSubSolution(double s)`. -/
def DPSubSolution.ofScore (s : Score) : DPSubSolution := ⟨s, DPState.none⟩

/-- The method `DPSubSolution::ReplaceIfSuperior`: the updated object and the
returned flag. -/
def DPSubSolution.ReplaceIfSuperior (self other : DPSubSolution) (state : DPState)
    (delta : ℚ) : DPSubSolution × Bool :=
  if (other.score.add delta).gt self.score then
    (⟨other.score.add delta, state⟩, true)
  else
    (self, false)

/-! ## DPCache -/

/-- The memo table (`DPCache`): a dense four-dimensional table addressed by
`(col, row, axis, dir)`, with its dimensions. -/
structure DPCache where
  dims : Int × Int × Int × Int
  table : Int → Int → Int → Int → DPSubSolution

/-- The method `DPCache::clear`: fill the table with `DPSubSolution()`. -/
def DPCache.clear (c : DPCache) : DPCache :=
  { c with table := fun _ _ _ _ => DPSubSolution.default }

/-- The method `DPCache::reset`: resize to `(W+1) x H x 2 x 4`, then clear. -/
def DPCache.reset (c : DPCache) (grid_size : Int × Int) : DPCache :=
  DPCache.clear { c with dims := (grid_size.1 + 1, grid_size.2, 2, 4) }

/-- The accessor `DPCache::operator[]`. -/
def DPCache.get (c : DPCache) (x : DPState) : DPSubSolution :=
  c.table x.col x.row x.axis x.dir

/-- The assignment `cache[x] = v`. -/
def DPCache.set (c : DPCache) (x : DPState) (v : DPSubSolution) : DPCache :=
  { c with table := fun col row axis dir =>
      if col = x.col ∧ row = x.row ∧ axis = x.axis ∧ dir = x.dir then v
      else c.table col row axis dir }

/-- The method `DPCache::find`: `none` stands for `end()`. -/
def DPCache.find (c : DPCache) (x : DPState) : Option DPSubSolution :=
  if (c.get x).score.isnan then Option.none else some (c.get x)

/-! ## Payoffs and geometry -/

/-- The cost field (`DPPayoffs`): one score matrix per axis and two penalties. -/
structure DPPayoffs where
  wall_scores : Int → Mat ℚ
  wall_penalty : ℚ
  occl_penalty : ℚ

/-- The rectified geometry (`DPGeometry`), with the image size of its camera. -/
structure DPGeometry where
  nx : Int
  ny : Int
  grid_size : Int × Int
  horizon_row : Int
  vpt_cols : Int → ℚ
  imageToGrid : Mat3
  gridToImage : Mat3
  grid_floorToCeil : Mat3
  grid_ceilToFloor : Mat3

/-- The method `DPGeometry::GridToImage`. -/
def DPGeometry.GridToImage (g : DPGeometry) (x : Vec2) : Vec3 :=
  g.gridToImage.mulVec (unproject x)

/-- The method `DPGeometry::ImageToGrid`. -/
def DPGeometry.ImageToGrid (g : DPGeometry) (x : Vec3) : Vec2 :=
  project (g.imageToGrid.mulVec x)

/-- The method `DPGeometry::Transfer(const Vec3&)`. -/
def DPGeometry.Transfer3 (g : DPGeometry) (grid_pt : Vec3) : Vec3 :=
  (if grid_pt.2.1 < (g.horizon_row : ℚ) then g.grid_ceilToFloor else g.grid_floorToCeil).mulVec
    grid_pt

/-- The method `DPGeometry::Transfer(const Vec2&)`. -/
def DPGeometry.Transfer (g : DPGeometry) (grid_pt : Vec2) : Vec2 :=
  project (g.Transfer3 (unproject grid_pt))

/-- Modelled from the spec: the constant `kVerticalAxis` is declared in an absent
header; it is the distinguished "vertical surface" label, different from the
two wall orientations 0 and 1. -/
abbrev kVerticalAxis : Int := 2

/-- Modelled from the spec: the helper `Clamp<int>(x, lo, hi)` is defined in an
absent header; it returns `x` clamped to the bounds `lo` and `hi`. -/
def Clamp (x lo hi : Int) : Int :=
  if x < lo then lo else if hi < x then hi else x

/-- The method `DPGeometry::GetWallExtent`: the pair `(y0, y1)` it writes. The
row of the transferred point is converted to `int` where it is passed to
`Clamp<int>`. -/
def DPGeometry.GetWallExtent (g : DPGeometry) (roundi : ℚ → Int) (grid_pt : Vec2) : Int × Int :=
  let opp_pt : Vec2 := g.Transfer grid_pt
  let opp_y : Int := Clamp (truncToInt opp_pt.2) 0 (g.grid_size.2 - 1)
  -- Rounding and clamping must come after Transfer()
  let y : Int := Clamp (roundi grid_pt.2) 0 (g.grid_size.2 - 1)
  -- Swap if necessary
  (min y opp_y, max y opp_y)

/-- The assignment `m[y][x] = a`. -/
def Mat.set {α : Type} (m : Mat α) (y x : Int) (a : α) : Mat α :=
  { m with elem := fun y1 x1 => if y1 = y ∧ x1 = x then a else m.elem y1 x1 }

/-- The first loop of `DPGeometry::PathToOrients`, from column `x` on for `n`
more columns: the two checks on the path and the wall extent of every column;
`none` when a check fails. -/
def DPGeometry.extentLoop (g : DPGeometry) (roundi : ℚ → Int) (path_ys path_axes : VecI) :
    Nat → Int → VecI × VecI → Option (VecI × VecI)
  | 0, _, acc => some acc
  | n + 1, x, (y0s, y1s) =>
    if VecI.get path_ys x = -1 then Option.none
    else if VecI.get path_axes x = -1 then Option.none
    else
      let e := g.GetWallExtent roundi ((x : ℚ), (VecI.get path_ys x : ℚ))
      g.extentLoop roundi path_ys path_axes n (x + 1) (VecI.set y0s x e.1, VecI.set y1s x e.2)

/-- The inner loop of the second loop of `DPGeometry::PathToOrients`: row `y` of
the output. -/
def DPGeometry.orientRow (g : DPGeometry) (path_axes y0s y1s : VecI) (y : Int)
    (grid_orients : Mat Int) : Mat Int :=
  (List.range g.grid_size.1.toNat).foldl
    (fun (m : Mat Int) (x : Nat) =>
      let orient : Int := 1 - VecI.get path_axes (x : Int)
      m.set y (x : Int)
        (if y ≥ VecI.get y0s (x : Int) ∧ y ≤ VecI.get y1s (x : Int) then orient
         else kVerticalAxis))
    grid_orients

/-- The method `DPGeometry::PathToOrients`: the output matrix, or `none` when
one of its checks fails. -/
def DPGeometry.PathToOrients (g : DPGeometry) (roundi : ℚ → Int) (path_ys path_axes : VecI)
    (grid_orients : Mat Int) : Option (Mat Int) :=
  if (path_ys.length : Int) ≠ g.grid_size.1 then Option.none
  else if (path_axes.length : Int) ≠ g.grid_size.1 then Option.none
  else
    let grid_orients : Mat Int := { grid_orients with rows := g.grid_size.2, cols := g.grid_size.1 }
    let W : Nat := g.grid_size.1.toNat
    match g.extentLoop roundi path_ys path_axes W 0 (List.replicate W 0, List.replicate W 0) with
    | Option.none => Option.none
    | some (y0s, y1s) =>
      some ((List.range g.grid_size.2.toNat).foldl
        (fun (m : Mat Int) (y : Nat) => g.orientRow path_axes y0s y1s (y : Int) m) grid_orients)

/-! ## The solution and the solver object -/

/-- The reconstructed layout (`DPSolution`). -/
structure DPSolution where
  node : DPSubSolution
  score : Score
  num_walls : Int
  num_occlusions : Int
  wall_segments : List LineSeg
  wall_orients : List Int
  pixel_orients : Mat Int
  path_ys : VecI
  path_axes : VecI

/-- The loop of `DPSolution::GetTotalPayoff`: the sum of
`wall_scores[path_axes[x]][path_ys[x]][x]` over `0 ≤ x < path_ys.Size()`. -/
def DPSolution.pathSum (s : DPSolution) (po : DPPayoffs) : ℚ :=
  ((List.range s.path_ys.length).map fun (x : Nat) =>
    ((po.wall_scores (VecI.get s.path_axes (x : Int))).elem (VecI.get s.path_ys (x : Int))
      (x : Int))).sum

/-- The method `DPSolution::GetTotalPayoff`; `none` when one of its three size
checks fails. -/
def DPSolution.GetTotalPayoff (s : DPSolution) (po : DPPayoffs) (subtract_penalties : Bool) :
    Option ℚ :=
  if (s.path_ys.length : Int) ≠ (po.wall_scores 0).cols then Option.none
  else if (s.path_axes.length : Int) ≠ (po.wall_scores 0).cols then Option.none
  else if ¬ ((po.wall_scores 0).rows = (po.wall_scores 1).rows ∧
      (po.wall_scores 0).cols = (po.wall_scores 1).cols) then Option.none
  else
    let score : ℚ := s.pathSum po
    if subtract_penalties then
      some (score - (s.num_walls : ℚ) * po.wall_penalty - (s.num_occlusions : ℚ) * po.occl_penalty)
    else some score

/-- The method `DPSolution::GetPathSum`; `none` when one of its two size checks
fails. -/
def DPSolution.GetPathSum (s : DPSolution) (payoffs : Mat ℚ) : Option ℚ :=
  if (s.path_ys.length : Int) ≠ payoffs.cols then Option.none
  else if (s.path_axes.length : Int) ≠ payoffs.cols then Option.none
  else
    some ((List.range s.path_ys.length).map fun (x : Nat) =>
      payoffs.elem (VecI.get s.path_ys (x : Int)) (x : Int)).sum

/-- The solver object (`ManhattanDP`). -/
structure ManhattanDP where
  jump_thresh : ℚ
  cache : DPCache
  cache_lookups : Int
  cache_hits : Int
  cur_depth : Int
  max_depth : Int
  solution : DPSolution
  full_backtrack : List DPState
  abbrev_backtrack : List DPState

/-- The failures of `Compute`: the `CHECK`s of the source, and `fuel` for a
recursion bound that is too small (shown not to happen). -/
inductive DPError where
  | fuel : DPError
  | infeasible : DPError
  | noCachedSolution : DPError
  | colOutOfRange : DPError
  | missesColumn (x : Int) : DPError
  | invalidOrientation (x : Int) : DPError
deriving DecidableEq

/-! ## The occlusion test -/

namespace ManhattanDP

/-- The method `ManhattanDP::OcclusionValid`. -/
def OcclusionValid (geom : DPGeometry) (col left_axis right_axis occl_side : Int) : Bool :=
  let occl_axis : Int := if occl_side < 0 then left_axis else right_axis
  let occl_vpt_col : Int := truncToInt (geom.vpt_cols occl_axis)
  let occl_vpt_side : Int := if occl_vpt_col < col then -1 else 1
  let opp_vpt_col : Int := truncToInt (geom.vpt_cols (1 - occl_axis))
  let opp_vpt_side : Int := if opp_vpt_col < col then -1 else 1
  let occl_vpt_behind : Bool := decide (occl_side = occl_vpt_side)
  let opp_vpt_between : Bool :=
    decide (opp_vpt_side = occl_vpt_side) && decide (|col - opp_vpt_col| < |col - occl_vpt_col|)
  occl_vpt_behind == opp_vpt_between

/-- The method `ManhattanDP::CanMoveVert`. -/
def CanMoveVert (geom : DPGeometry) (cur next : DPState) : Bool :=
  let on_ceil : Bool := decide (cur.row < geom.horizon_row)
  let going_up : Bool := decide (next.dir = DIR_UP)
  let occl_side : Int := if on_ceil = going_up then -1 else 1
  OcclusionValid geom cur.col next.axis cur.axis occl_side

/-! ## The memoised recursion -/

/-- The type of `Solve` once its fuel is fixed: the sub-solution and the
updated solver, or `none` when the fuel ran out. -/
abbrev Solver := DPState → ManhattanDP → Option (DPSubSolution × ManhattanDP)

/-- The statement `best.ReplaceIfSuperior(Solve(next), next, delta)`. -/
def trySolve (solve : Solver) (next : DPState) (delta : ℚ) (best : DPSubSolution)
    (dp : ManhattanDP) : Option (DPSubSolution × ManhattanDP) :=
  match solve next dp with
  | Option.none => Option.none
  | some (sub, dp1) => some ((best.ReplaceIfSuperior sub next delta).1, dp1)

/-- One round of the `for (next.axis ...)` loop in the `DIR_IN` branch of
`Solve_Impl`. -/
def inAxis (po : DPPayoffs) (geom : DPGeometry) (solve : Solver) (state : DPState)
    (axis : Int) (best : DPSubSolution) (dp : ManhattanDP) :
    Option (DPSubSolution × ManhattanDP) :=
  let occl_wall_penalty : ℚ := po.wall_penalty + po.occl_penalty
  -- Try going out from this point directly
  let next : DPState := { state with axis := axis, dir := DIR_OUT }
  match trySolve solve next (-po.wall_penalty) best dp with
  | Option.none => Option.none
  | some (best1, dp1) =>
    -- Try going up from here
    let next : DPState := { next with dir := DIR_UP }
    match (if CanMoveVert geom state next then trySolve solve next (-occl_wall_penalty) best1 dp1
           else some (best1, dp1)) with
    | Option.none => Option.none
    | some (best2, dp2) =>
      -- Try going down from here
      let next : DPState := { next with dir := DIR_DOWN }
      if CanMoveVert geom state next then trySolve solve next (-occl_wall_penalty) best2 dp2
      else some (best2, dp2)

/-- The loop `for (next.col = state.col-1; next.col >= 0; next.col--)` in the
`DIR_OUT` branch of `Solve_Impl`. The first argument counts the columns still to
visit: `walk (k+1)` visits `next.col = k`. -/
def walk (po : DPPayoffs) (geom : DPGeometry) (jump_thresh : ℚ) (roundi : ℚ → Int)
    (solve : Solver) (state : DPState) (vpt_col : Int) (m c : ℚ) :
    Nat → ℚ → DPSubSolution → ManhattanDP → Option (DPSubSolution × ManhattanDP)
  | 0, _, best, dp => some (best, dp)
  | k + 1, delta_score, best, dp =>
    let col : Int := (k : Int)
    -- Check that we don't cross the vpt
    if col = vpt_col then some (best, dp)
    else
      let next_y : ℚ := m * (col : ℚ) + c
      let row : Int := roundi next_y
      -- Check bounds and that we don't cross the horizon
      if row < 0 ∨ row ≥ geom.grid_size.2 ∨ row = geom.horizon_row then some (best, dp)
      else
        let delta_score : ℚ := delta_score + (po.wall_scores state.axis).elem row col
        let next : DPState := ⟨row, col, state.axis, DIR_IN⟩
        match trySolve solve next delta_score best dp with
        | Option.none => Option.none
        | some (best1, dp1) =>
          let jump_error : ℚ := |(row : ℚ) - next_y|
          let dist : ℚ := ((|row - state.row| + |col - state.col| : Int) : ℚ)
          let rel_jump_error : ℚ := jump_error / dist
          if rel_jump_error < jump_thresh then
            trySolve solve { next with dir := DIR_OUT } delta_score best1 dp1
          else
            walk po geom jump_thresh roundi solve state vpt_col m c k delta_score best1 dp1

/-- The method `ManhattanDP::Solve_Impl`, with the recursive calls to `Solve`
made through `solve`. -/
def Solve_Impl (po : DPPayoffs) (geom : DPGeometry) (jump_thresh : ℚ) (roundi : ℚ → Int)
    (solve : Solver) (state : DPState) (dp : ManhattanDP) :
    Option (DPSubSolution × ManhattanDP) :=
  let best : DPSubSolution := DPSubSolution.ofScore Score.negInf
  if state.col = 0 then
    -- base case
    some ({ best with score := Score.fin 0 }, dp)
  else if state.dir = DIR_IN then
    match inAxis po geom solve state 0 best dp with
    | Option.none => Option.none
    | some (best1, dp1) => inAxis po geom solve state 1 best1 dp1
  else if state.dir = DIR_UP ∨ state.dir = DIR_DOWN then
    -- Try going out
    let next_out : DPState := { state with dir := DIR_OUT }
    match trySolve solve next_out 0 best dp with
    | Option.none => Option.none
    | some (best1, dp1) =>
      -- Try going up/down. Never cross the horizon or the image bounds.
      let next_row : Int := state.row + (if state.dir = DIR_UP then -1 else 1)
      if next_row ≠ geom.horizon_row ∧ next_row ≥ 0 ∧ next_row < geom.grid_size.2 then
        trySolve solve { state with row := next_row } 0 best1 dp1
      else some (best1, dp1)
  else if state.dir = DIR_OUT then
    let vpt_col : Int := truncToInt (geom.vpt_cols state.axis)
    if state.col ≠ vpt_col then
      let m : ℚ := ((state.row - geom.horizon_row : Int) : ℚ) / ((state.col - vpt_col : Int) : ℚ)
      let c : ℚ := (geom.horizon_row : ℚ) - m * (vpt_col : ℚ)
      walk po geom jump_thresh roundi solve state vpt_col m c state.col.toNat 0 best dp
    else some (best, dp)
  else some (best, dp)

/-- The method `ManhattanDP::Solve`; the first argument bounds the depth of the
recursion. -/
def Solve (po : DPPayoffs) (geom : DPGeometry) (jump_thresh : ℚ) (roundi : ℚ → Int) :
    Nat → Solver
  | 0, _, _ => Option.none
  | fuel + 1, state, dp =>
    let dp : ManhattanDP := { dp with cache_lookups := dp.cache_lookups + 1 }
    match dp.cache.find state with
    | Option.none =>
      let dp : ManhattanDP := { dp with cur_depth := dp.cur_depth + 1 }
      let dp : ManhattanDP := { dp with max_depth := max dp.max_depth dp.cur_depth }
      match Solve_Impl po geom jump_thresh roundi (Solve po geom jump_thresh roundi fuel)
          state dp with
      | Option.none => Option.none
      | some (soln, dp1) =>
        some (soln, { dp1 with cache := dp1.cache.set state soln, cur_depth := dp1.cur_depth - 1 })
    | some soln =>
      -- The key was already in the map, return the precomputed value
      some (soln, { dp with cache_hits := dp.cache_hits + 1 })

/-! ## Backtracking -/

/-- The image-space segment of the wall between the states `cur` and `out`
(`image_seg` in `PopulateSolution`). -/
def wallSegment (geom : DPGeometry) (cur out : DPState) : LineSeg :=
  let grid_seg : LineSeg := ⟨((cur.col : ℚ), (cur.row : ℚ), 1), ((out.col : ℚ), (out.row : ℚ), 1)⟩
  ⟨geom.GridToImage (project grid_seg.start), geom.GridToImage (project grid_seg.end_)⟩

/-- The four vertices of the wall's image-space quadrilateral (`verts` in
`PopulateSolution`). -/
def wallVerts (geom : DPGeometry) (cur out : DPState) : List Vec3 :=
  let grid_seg : LineSeg := ⟨((cur.col : ℚ), (cur.row : ℚ), 1), ((out.col : ℚ), (out.row : ℚ), 1)⟩
  let image_seg : LineSeg := wallSegment geom cur out
  [image_seg.start, image_seg.end_,
   geom.GridToImage (geom.Transfer (project grid_seg.end_)),
   geom.GridToImage (geom.Transfer (project grid_seg.start))]

/-- The body of the `do ... while` loop of `PopulateSolution` for the state
`cur`, whose memo entry points to `next`: the updated solver and the updated
pointer `out` (`none` is `NULL`). -/
def backtrackStep (geom : DPGeometry) (FillPolygon : List Vec3 → Mat Int → Int → Mat Int)
    (cur next : DPState) (out : Option DPState) (dp : ManhattanDP) :
    ManhattanDP × Option DPState :=
  let dp : ManhattanDP := { dp with full_backtrack := dp.full_backtrack ++ [cur] }
  match out with
  | some o =>
    if cur.dir = DIR_IN then
      let orient : Int := 1 - cur.axis
      let sol : DPSolution := dp.solution
      let sol : DPSolution := { sol with num_walls := sol.num_walls + 1 }
      let sol : DPSolution :=
        if next.dir = DIR_UP ∨ next.dir = DIR_DOWN then
          { sol with num_occlusions := sol.num_occlusions + 1 }
        else sol
      let sol : DPSolution :=
        { sol with
          wall_segments := sol.wall_segments ++ [wallSegment geom cur o]
          wall_orients := sol.wall_orients ++ [orient]
          pixel_orients := FillPolygon (wallVerts geom cur o) sol.pixel_orients orient }
      ({ dp with abbrev_backtrack := dp.abbrev_backtrack ++ [cur], solution := sol }, Option.none)
    else (dp, some o)
  | Option.none =>
    if cur.dir = DIR_OUT then
      ({ dp with abbrev_backtrack := dp.abbrev_backtrack ++ [cur] }, some cur)
    else (dp, Option.none)

/-- The `do ... while (*cur != DPState::none)` loop of `PopulateSolution`; the
first argument bounds the number of rounds. -/
def backtrack (geom : DPGeometry) (FillPolygon : List Vec3 → Mat Int → Int → Mat Int) :
    Nat → DPState → Option DPState → ManhattanDP → Except DPError ManhattanDP
  | 0, _, _, _ => Except.error DPError.fuel
  | fuel + 1, cur, out, dp =>
    let next : DPState := (dp.cache.get cur).src
    if (dp.cache.find cur).isNone then Except.error DPError.noCachedSolution
    else
      let r := backtrackStep geom FillPolygon cur next out dp
      if next ≠ DPState.none then backtrack geom FillPolygon fuel next r.2 r.1
      else Except.ok r.1

/-- The loop `for (int x = state.col-1; x >= next.col; x--)` of
`PopulateSolution`: the first argument counts the columns still to write, the
second is `x`. -/
def fillCols (roundi : ℚ → Int) (axis : Int) (m c : ℚ) :
    Nat → Int → VecI × VecI → VecI × VecI
  | 0, _, p => p
  | n + 1, x, p =>
    fillCols roundi axis m c n (x - 1)
      (VecI.set p.1 x (roundi (m * (x : ℚ) + c)), VecI.set p.2 x axis)

/-- The loop over consecutive pairs of `full_backtrack` in `PopulateSolution`
that writes `path_ys` and `path_axes`. -/
def pathLoop (geom : DPGeometry) (roundi : ℚ → Int) :
    List DPState → VecI × VecI → Except DPError (VecI × VecI)
  | state :: next :: rest, p =>
    if ¬ (state.col ≤ geom.grid_size.1) then Except.error DPError.colOutOfRange
    else if state.dir = DIR_OUT then
      let vpt_col : Int := truncToInt (geom.vpt_cols state.axis)
      let m : ℚ := ((state.row - geom.horizon_row : Int) : ℚ) / ((state.col - vpt_col : Int) : ℚ)
      let c : ℚ := (geom.horizon_row : ℚ) - m * (vpt_col : ℚ)
      pathLoop geom roundi (next :: rest)
        (fillCols roundi state.axis m c (state.col - next.col).toNat (state.col - 1) p)
    else pathLoop geom roundi (next :: rest) p
  | _, p => Except.ok p

/-- The final loop of `PopulateSolution`, which checks that the path spans all
columns; the first argument counts the columns still to check, the second is
`x`. -/
def checkPath (path_ys path_axes : VecI) : Nat → Int → Except DPError Unit
  | 0, _ => Except.ok ()
  | n + 1, x =>
    if VecI.get path_ys x = -1 then Except.error (DPError.missesColumn x)
    else if VecI.get path_axes x = -1 then Except.error (DPError.invalidOrientation x)
    else checkPath path_ys path_axes n (x + 1)

/-- A bound on the depth of the recursion of `Solve` and on the length of the
backtrack, for a grid of the given size. -/
def solveFuel (geom : DPGeometry) : Nat :=
  (geom.grid_size.1.toNat + 1) * (geom.grid_size.2.toNat + 4) + 1

/-- The method `ManhattanDP::PopulateSolution`. The buffers resized with a fill
value (`pixel_orients`, `path_ys`, `path_axes`) are taken to be filled anew. -/
def PopulateSolution (geom : DPGeometry) (roundi : ℚ → Int)
    (FillPolygon : List Vec3 → Mat Int → Int → Mat Int)
    (soln_node : DPSubSolution) (dp : ManhattanDP) : Except DPError ManhattanDP :=
  let dp : ManhattanDP := { dp with full_backtrack := [], abbrev_backtrack := [] }
  -- Initialize the solution
  let sol : DPSolution :=
    { dp.solution with
      node := soln_node
      score := soln_node.score
      num_walls := 0
      num_occlusions := 0
      wall_segments := []
      wall_orients := []
      pixel_orients := ⟨geom.ny, geom.nx, fun _ _ => kVerticalAxis⟩ }
  let dp : ManhattanDP := { dp with solution := sol }
  -- Backtrack through the graph
  match backtrack geom FillPolygon (solveFuel geom) soln_node.src Option.none dp with
  | Except.error e => Except.error e
  | Except.ok dp1 =>
    -- Compute the solution path
    let W : Nat := geom.grid_size.1.toNat
    match pathLoop geom roundi dp1.full_backtrack (List.replicate W (-1), List.replicate W (-1)) with
    | Except.error e => Except.error e
    | Except.ok p =>
      let dp2 : ManhattanDP := { dp1 with solution := { dp1.solution with path_ys := p.1, path_axes := p.2 } }
      -- Check that the path spans all columns
      match checkPath p.1 p.2 W 0 with
      | Except.error e => Except.error e
      | Except.ok _ => Except.ok dp2

/-! ## Compute -/

/-- The terminal states enumerated by `Compute`, in the order of its two nested
loops: axis 0 with rows `0 .. H-1`, then axis 1 with rows `0 .. H-1`. -/
def terminals (geom : DPGeometry) : List DPState :=
  ([0, 1] : List Int).flatMap fun axis =>
    (List.range geom.grid_size.2.toNat).map fun (row : Nat) =>
      (⟨(row : Int), geom.grid_size.1, axis, DIR_OUT⟩ : DPState)

/-- The search loops of `Compute` run over the given terminal states: the best
sub-solution, the flag `feasible` and the solver. -/
def searchLoop (po : DPPayoffs) (geom : DPGeometry) (jump_thresh : ℚ) (roundi : ℚ → Int) :
    List DPState → DPSubSolution × Bool × ManhattanDP → Option (DPSubSolution × Bool × ManhattanDP)
  | [], acc => some acc
  | init :: rest, (best, feasible, dp) =>
    match Solve po geom jump_thresh roundi (solveFuel geom) init dp with
    | Option.none => Option.none
    | some (sub, dp1) =>
      let r := best.ReplaceIfSuperior sub init (-po.wall_penalty)
      searchLoop po geom jump_thresh roundi rest (r.1, (r.2 || feasible), dp1)

/-- The method `ManhattanDP::Compute`. -/
def Compute (roundi : ℚ → Int) (FillPolygon : List Vec3 → Mat Int → Int → Mat Int)
    (po : DPPayoffs) (geom : DPGeometry) (dp : ManhattanDP) : Except DPError ManhattanDP :=
  -- Reset the cache
  let dp : ManhattanDP :=
    { dp with cache_lookups := 0, cache_hits := 0, cache := dp.cache.reset geom.grid_size }
  -- Begin the search
  let best : DPSubSolution := DPSubSolution.ofScore Score.negInf
  let dp : ManhattanDP := { dp with max_depth := 0, cur_depth := 0 }
  match searchLoop po geom dp.jump_thresh roundi (terminals geom) (best, false, dp) with
  | Option.none => Except.error DPError.fuel
  | some (best1, feasible, dp1) =>
    if ¬ feasible then Except.error DPError.infeasible
    else
      -- Backtrack from the solution
      PopulateSolution geom roundi FillPolygon best1 dp1

/-! ## The recurrence without the memo table

The candidate moves of `Solve_Impl`, as a list in the order in which the source
tries them, and the value function they define. These are the terms in which
the properties of the solver are stated. -/

/-- The moves tried in one round of the `for (next.axis ...)` loop of the
`DIR_IN` branch, each with the score delta passed to `ReplaceIfSuperior`. -/
def inTrans (po : DPPayoffs) (geom : DPGeometry) (state : DPState) (axis : Int) :
    List (DPState × ℚ) :=
  let next : DPState := { state with axis := axis, dir := DIR_OUT }
  [(next, -po.wall_penalty)] ++
    ((if CanMoveVert geom state { next with dir := DIR_UP } then
        [(({ next with dir := DIR_UP } : DPState), -(po.wall_penalty + po.occl_penalty))]
      else []) ++
     (if CanMoveVert geom state { next with dir := DIR_DOWN } then
        [(({ next with dir := DIR_DOWN } : DPState), -(po.wall_penalty + po.occl_penalty))]
      else []))

/-- The moves tried by the leftward walk of the `DIR_OUT` branch, with their
accumulated deltas; the arguments are those of `walk`. -/
def walkTrans (po : DPPayoffs) (geom : DPGeometry) (jump_thresh : ℚ) (roundi : ℚ → Int)
    (state : DPState) (vpt_col : Int) (m c : ℚ) : Nat → ℚ → List (DPState × ℚ)
  | 0, _ => []
  | k + 1, delta_score =>
    let col : Int := (k : Int)
    if col = vpt_col then []
    else
      let next_y : ℚ := m * (col : ℚ) + c
      let row : Int := roundi next_y
      if row < 0 ∨ row ≥ geom.grid_size.2 ∨ row = geom.horizon_row then []
      else
        let delta_score : ℚ := delta_score + (po.wall_scores state.axis).elem row col
        let next : DPState := ⟨row, col, state.axis, DIR_IN⟩
        let jump_error : ℚ := |(row : ℚ) - next_y|
        let dist : ℚ := ((|row - state.row| + |col - state.col| : Int) : ℚ)
        let rel_jump_error : ℚ := jump_error / dist
        (next, delta_score) ::
          (if rel_jump_error < jump_thresh then
            [(({ next with dir := DIR_OUT } : DPState), delta_score)]
          else walkTrans po geom jump_thresh roundi state vpt_col m c k delta_score)

/-- The moves tried by `Solve_Impl` at a state that is not a base case, in the
order in which they are tried. -/
def transitions (po : DPPayoffs) (geom : DPGeometry) (jump_thresh : ℚ) (roundi : ℚ → Int)
    (state : DPState) : List (DPState × ℚ) :=
  if state.dir = DIR_IN then inTrans po geom state 0 ++ inTrans po geom state 1
  else if state.dir = DIR_UP ∨ state.dir = DIR_DOWN then
    let next_row : Int := state.row + (if state.dir = DIR_UP then -1 else 1)
    (({ state with dir := DIR_OUT } : DPState), (0 : ℚ)) ::
      (if next_row ≠ geom.horizon_row ∧ next_row ≥ 0 ∧ next_row < geom.grid_size.2 then
        [(({ state with row := next_row } : DPState), (0 : ℚ))]
      else [])
  else if state.dir = DIR_OUT then
    let vpt_col : Int := truncToInt (geom.vpt_cols state.axis)
    if state.col ≠ vpt_col then
      let m : ℚ := ((state.row - geom.horizon_row : Int) : ℚ) / ((state.col - vpt_col : Int) : ℚ)
      let c : ℚ := (geom.horizon_row : ℚ) - m * (vpt_col : ℚ)
      walkTrans po geom jump_thresh roundi state vpt_col m c state.col.toNat 0
    else []
  else []

/-- The statements `best.ReplaceIfSuperior(Solve(next), next, delta)` for a
list of moves, one after the other. -/
def foldSolve (solve : Solver) :
    List (DPState × ℚ) → DPSubSolution → ManhattanDP → Option (DPSubSolution × ManhattanDP)
  | [], best, dp => some (best, dp)
  | t :: rest, best, dp =>
    match trySolve solve t.1 t.2 best dp with
    | Option.none => Option.none
    | some (best1, dp1) => foldSolve solve rest best1 dp1

/-- The best sub-solution over a list of moves, given the value of every state:
`ReplaceIfSuperior` applied move by move. -/
def bestOf (value : DPState → DPSubSolution) :
    List (DPState × ℚ) → DPSubSolution → DPSubSolution
  | [], best => best
  | t :: rest, best => bestOf value rest (best.ReplaceIfSuperior (value t.1) t.1 t.2).1

/-- One unfolding of the recurrence of `Solve_Impl`, given the value of every
state it moves to. -/
def recurrence (po : DPPayoffs) (geom : DPGeometry) (jump_thresh : ℚ) (roundi : ℚ → Int)
    (value : DPState → DPSubSolution) (state : DPState) : DPSubSolution :=
  if state.col = 0 then ⟨Score.fin 0, DPState.none⟩
  else bestOf value (transitions po geom jump_thresh roundi state)
    (DPSubSolution.ofScore Score.negInf)

/-- The recurrence unfolded a bounded number of times, without a memo table. -/
def solveRec (po : DPPayoffs) (geom : DPGeometry) (jump_thresh : ℚ) (roundi : ℚ → Int) :
    Nat → DPState → DPSubSolution
  | 0, _ => DPSubSolution.ofScore Score.negInf
  | fuel + 1, state =>
    recurrence po geom jump_thresh roundi (solveRec po geom jump_thresh roundi fuel) state

/-- A measure of a state that every move of the recurrence decreases. -/
def rank (geom : DPGeometry) (s : DPState) : Nat :=
  let H : Nat := geom.grid_size.2.toNat
  s.col.toNat * (H + 4) +
    (if s.dir = DIR_IN then H + 3
     else if s.dir = DIR_UP then 1 + min s.row.toNat H
     else if s.dir = DIR_DOWN then 1 + min (geom.grid_size.2 - s.row).toNat (H + 1)
     else 0)

/-- The value of a state under the unmemoised recurrence. -/
def value (po : DPPayoffs) (geom : DPGeometry) (jump_thresh : ℚ) (roundi : ℚ → Int)
    (s : DPState) : DPSubSolution :=
  solveRec po geom jump_thresh roundi (rank geom s + 1) s

/-- The slope `m` of the line through a `DIR_OUT` state and the vanishing point
of its axis on the horizon, as computed in `Solve_Impl` and in
`PopulateSolution`. -/
def lineSlope (geom : DPGeometry) (s : DPState) : ℚ :=
  ((s.row - geom.horizon_row : Int) : ℚ) /
    ((s.col - truncToInt (geom.vpt_cols s.axis) : Int) : ℚ)

/-- The intercept `c` of that line. -/
def lineOffset (geom : DPGeometry) (s : DPState) : ℚ :=
  (geom.horizon_row : ℚ) - lineSlope geom s * (truncToInt (geom.vpt_cols s.axis) : ℚ)

/-- The grid row `roundi(m*x + c)` at which that line crosses column `x`. -/
def lineRow (geom : DPGeometry) (roundi : ℚ → Int) (s : DPState) (x : Int) : Int :=
  roundi (lineSlope geom s * (x : ℚ) + lineOffset geom s)

/-- The cost-field values collected along the line of the state `s` over the
columns `lo ≤ x < hi`. -/
def segCost (po : DPPayoffs) (geom : DPGeometry) (roundi : ℚ → Int) (s : DPState)
    (lo hi : Nat) : ℚ :=
  ∑ x ∈ Finset.Ico lo hi, (po.wall_scores s.axis).elem (lineRow geom roundi s (x : Int)) (x : Int)

/-- The score `(value next).score + delta` offered by a move. -/
def offer (value : DPState → DPSubSolution) (t : DPState × ℚ) : Score :=
  (value t.1).score.add t.2

/-- The memo table is sound and closed: every entry that is present holds the
value of its state, and the states it moves to are present too. -/
def CacheOK (po : DPPayoffs) (geom : DPGeometry) (jump_thresh : ℚ) (roundi : ℚ → Int)
    (c : DPCache) : Prop :=
  ∀ x : DPState, (c.get x).score.isnan = false →
    c.get x = value po geom jump_thresh roundi x ∧
    (x.col ≠ 0 → ∀ t ∈ transitions po geom jump_thresh roundi x,
      (c.get t.1).score.isnan = false)

/-- The search loops of `Compute` over a list of terminal states, given the
value of every state: the best sub-solution and the flag `feasible`. -/
def searchPure (value : DPState → DPSubSolution) (wall_penalty : ℚ) :
    List DPState → DPSubSolution × Bool → DPSubSolution × Bool
  | [], acc => acc
  | init :: rest, acc =>
    let r := acc.1.ReplaceIfSuperior (value init) init (-wall_penalty)
    searchPure value wall_penalty rest (r.1, (r.2 || acc.2))

/-- The sub-solution that `Compute` hands to `PopulateSolution`. -/
def bestTerminal (po : DPPayoffs) (geom : DPGeometry) (jump_thresh : ℚ) (roundi : ℚ → Int) :
    DPSubSolution :=
  (searchPure (value po geom jump_thresh roundi) po.wall_penalty (terminals geom)
    (DPSubSolution.ofScore Score.negInf, false)).1

/-- The flag `feasible` at the end of the search loops of `Compute`. -/
def isFeasible (po : DPPayoffs) (geom : DPGeometry) (jump_thresh : ℚ) (roundi : ℚ → Int) : Bool :=
  (searchPure (value po geom jump_thresh roundi) po.wall_penalty (terminals geom)
    (DPSubSolution.ofScore Score.negInf, false)).2

/-- The states met by following the links `src` from `cur` until the link is
`DPState::none`; the first argument bounds the length. -/
def chain (value : DPState → DPSubSolution) : Nat → DPState → List DPState
  | 0, _ => []
  | fuel + 1, cur =>
    cur :: (if (value cur).src ≠ DPState.none then chain value fuel (value cur).src else [])

/-- The loop body of the backtrack applied along a list of states, each state
linked to the one that follows it in the list and the last state linked to
`DPState::none`. -/
def stepsOver (geom : DPGeometry) (FillPolygon : List Vec3 → Mat Int → Int → Mat Int) :
    List DPState → Option DPState → ManhattanDP → ManhattanDP
  | [], _, dp => dp
  | cur :: rest, out, dp =>
    let r := backtrackStep geom FillPolygon cur (rest.head?.getD DPState.none) out dp
    stepsOver geom FillPolygon rest r.2 r.1

/-- The moves of `Compute` into the terminal states: each costs one wall
penalty, which pays for the first wall. -/
def terminalMoves (po : DPPayoffs) (geom : DPGeometry) : List (DPState × ℚ) :=
  (terminals geom).map fun t => (t, -po.wall_penalty)

/-- The solver as `PopulateSolution` initialises it before the backtrack. -/
def initBacktrack (geom : DPGeometry) (soln_node : DPSubSolution) (dp : ManhattanDP) :
    ManhattanDP :=
  { dp with
    full_backtrack := []
    abbrev_backtrack := []
    solution :=
      { dp.solution with
        node := soln_node
        score := soln_node.score
        num_walls := 0
        num_occlusions := 0
        wall_segments := []
        wall_orients := []
        pixel_orients := ⟨geom.ny, geom.nx, fun _ _ => kVerticalAxis⟩ } }

/-- The part of `PopulateSolution` that follows the backtrack: the path, and
the check that it spans all columns. -/
def finishPath (geom : DPGeometry) (roundi : ℚ → Int) (dp1 : ManhattanDP) :
    Except DPError ManhattanDP :=
  let W : Nat := geom.grid_size.1.toNat
  match pathLoop geom roundi dp1.full_backtrack (List.replicate W (-1), List.replicate W (-1)) with
  | Except.error e => Except.error e
  | Except.ok p =>
    let dp2 : ManhattanDP := { dp1 with solution := { dp1.solution with path_ys := p.1, path_axes := p.2 } }
    match checkPath p.1 p.2 W 0 with
    | Except.error e => Except.error e
    | Except.ok _ => Except.ok dp2

/-- An admissible chain: a list of states in which every state but the last
moves to the next by one of the moves that `Solve_Impl` tries, and the last
state is a base case (column 0). The number is the chain's accumulated score:
cost-field values minus the wall and occlusion penalties of its moves. -/
inductive Admissible (po : DPPayoffs) (geom : DPGeometry) (jump_thresh : ℚ) (roundi : ℚ → Int) :
    List DPState → ℚ → Prop where
  | base (s : DPState) : s.col = 0 → Admissible po geom jump_thresh roundi [s] 0
  | step (s n : DPState) (rest : List DPState) (d v : ℚ) :
      s.col ≠ 0 → (n, d) ∈ transitions po geom jump_thresh roundi s →
      Admissible po geom jump_thresh roundi (n :: rest) v →
      Admissible po geom jump_thresh roundi (s :: n :: rest) (v + d)

/-- The cost-field values collected by a chain: for every `DIR_OUT` state, the
values along its line from the column before it down to the column of the
next state. -/
def pathCost (po : DPPayoffs) (geom : DPGeometry) (roundi : ℚ → Int) : List DPState → ℚ
  | s :: n :: rest =>
    (if s.dir = DIR_OUT then segCost po geom roundi s n.col.toNat s.col.toNat else 0) +
      pathCost po geom roundi (n :: rest)
  | _ => 0

/-- The axis of a state is one of the two wall orientations, unless the state
is a `DIR_IN` state (whose axis is not used). -/
def AxisOK (s : DPState) : Prop := s.dir = DIR_IN ∨ s.axis = 0 ∨ s.axis = 1

/-- The states of the backtrack of `Compute`: the chain of links from the
winning terminal state. -/
def backChain (po : DPPayoffs) (geom : DPGeometry) (jump_thresh : ℚ) (roundi : ℚ → Int) :
    List DPState :=
  chain (value po geom jump_thresh roundi) (solveFuel geom)
    (bestTerminal po geom jump_thresh roundi).src

/-- Two solutions agree on everything but the path vectors. -/
def SameWalls (a b : DPSolution) : Prop :=
  a.node = b.node ∧ a.score = b.score ∧ a.num_walls = b.num_walls ∧
    a.num_occlusions = b.num_occlusions ∧ a.wall_segments = b.wall_segments ∧
    a.wall_orients = b.wall_orients ∧ a.pixel_orients = b.pixel_orients

/-! ## Example inputs -/

/-- Rounding to the nearest integer, halves upward: one possible `roundi`. -/
def roundHalfUp (x : ℚ) : Int := Rat.floor (x + 1 / 2)

/-- A `FillPolygon` that leaves the buffer as it is. -/
def noFill : List Vec3 → Mat Int → Int → Mat Int := fun _ m _ => m

/-- The identity homography. -/
def identity3 : Mat3 := ((1, 0, 0), (0, 1, 0), (0, 0, 1))

/-- A geometry with a `W x H` grid over a `W x H` image, the given horizon row
and vanishing-point columns, and identity homographies. -/
def gridGeom (W H horizon : Int) (v0 v1 : ℚ) : DPGeometry :=
  { nx := W, ny := H, grid_size := (W, H), horizon_row := horizon,
    vpt_cols := fun a => if a = 0 then v0 else v1,
    imageToGrid := identity3, gridToImage := identity3,
    grid_floorToCeil := identity3, grid_ceilToFloor := identity3 }

/-- A cost field over a `W x H` grid that is zero everywhere, with wall penalty
1 and occlusion penalty 1/2. -/
def zeroPayoffs (W H : Int) : DPPayoffs :=
  { wall_scores := fun _ => ⟨H, W, fun _ _ => 0⟩, wall_penalty := 1, occl_penalty := 1 / 2 }

/-- The cost field of the 4x4 scenario: zero everywhere but
`wall_scores[0][1][2] = 10`, wall penalty 1, occlusion penalty 1/2. -/
def scenarioPayoffs : DPPayoffs :=
  { wall_scores := fun a => ⟨4, 4, fun r c => if a = 0 ∧ r = 1 ∧ c = 2 then 10 else 0⟩,
    wall_penalty := 1, occl_penalty := 1 / 2 }

/-- A solver that has not run yet, with the given jump threshold. -/
def freshSolver (jump_thresh : ℚ) : ManhattanDP :=
  { jump_thresh := jump_thresh
    cache := ⟨(0, 0, 0, 0), fun _ _ _ _ => DPSubSolution.default⟩
    cache_lookups := 0, cache_hits := 0, cur_depth := 0, max_depth := 0
    solution :=
      { node := DPSubSolution.default, score := Score.nan, num_walls := 0, num_occlusions := 0,
        wall_segments := [], wall_orients := [], pixel_orients := ⟨0, 0, fun _ _ => 0⟩,
        path_ys := [], path_axes := [] }
    full_backtrack := [], abbrev_backtrack := [] }

/-- A solver left in an arbitrary state by earlier use: every memo entry is
present with score 5, and the solution holds three walls and a path. -/
def usedSolver (jump_thresh : ℚ) : ManhattanDP :=
  { jump_thresh := jump_thresh
    cache := ⟨(9, 9, 2, 4), fun _ _ _ _ => ⟨Score.fin 5, ⟨0, 0, 0, DIR_IN⟩⟩⟩
    cache_lookups := 7, cache_hits := 3, cur_depth := 0, max_depth := 4
    solution :=
      { node := ⟨Score.fin 5, ⟨1, 1, 1, DIR_OUT⟩⟩, score := Score.fin 5, num_walls := 3,
        num_occlusions := 2, wall_segments := [⟨(0, 0, 1), (1, 1, 1)⟩], wall_orients := [1],
        pixel_orients := ⟨1, 1, fun _ _ => 1⟩, path_ys := [7, 7], path_axes := [1, 1] }
    full_backtrack := [⟨1, 1, 1, DIR_OUT⟩], abbrev_backtrack := [] }

/-- The solution of a run of `Compute`, or its failure. -/
def solutionOf (r : Except DPError ManhattanDP) : Except DPError DPSolution :=
  match r with
  | Except.ok d => Except.ok d.solution
  | Except.error e => Except.error e

/-- Whether a run of `Compute` succeeded. -/
def isOk (r : Except DPError ManhattanDP) : Bool :=
  match r with
  | Except.ok _ => true
  | Except.error _ => false

/-- Whether an unclosed `DIR_OUT` state precedes: given the states met so far
on the backtrack, most recent first, whether there is a `DIR_OUT` state among
them with no `DIR_IN` state after it. -/
def unclosedOut : List DPState → Bool
  | [] => false
  | s :: earlier =>
    if s.dir = DIR_OUT then true
    else if s.dir = DIR_IN then false
    else unclosedOut earlier

/-- Whether the state at position `i` of a backtrack is a `DIR_IN` state
reached while an unclosed `DIR_OUT` state precedes it. -/
def closesWall (l : List DPState) (i : Nat) : Bool :=
  decide ((l.getD i DPState.none).dir = DIR_IN) && unclosedOut (l.take i).reverse

/-- Whether the state at position `i` of a backtrack closes a wall and is
linked to a `DIR_UP` or `DIR_DOWN` state; its link is the next state of the
backtrack, or `DPState::none` for the last state. -/
def closesOcclusion (l : List DPState) (i : Nat) : Bool :=
  closesWall l i &&
    decide ((l.getD (i + 1) DPState.none).dir = DIR_UP ∨
      (l.getD (i + 1) DPState.none).dir = DIR_DOWN)

/-- A geometry whose rectifier doubles and shifts the image and whose
floor-to-ceiling homology mirrors the rows about the horizon row 3; each
matrix is paired with its exact inverse. -/
def mirrorGeom : DPGeometry :=
  { nx := 4, ny := 7, grid_size := (4, 7), horizon_row := 3,
    vpt_cols := fun a => if a = 0 then 100000000 else -100000000,
    imageToGrid := ((2, 0, 1), (0, 2, 0), (0, 0, 1)),
    gridToImage := ((1 / 2, 0, -1 / 2), (0, 1 / 2, 0), (0, 0, 1)),
    grid_floorToCeil := ((1, 0, 0), (0, -1, 6), (0, 0, 1)),
    grid_ceilToFloor := ((1, 0, 0), (0, -1, 6), (0, 0, 1)) }

/-- A geometry whose floor-to-ceiling homology sends the grid point `(0, 1)` to
infinity; `grid_ceilToFloor` is its exact inverse. -/
def vanishingGeom : DPGeometry :=
  { nx := 2, ny := 3, grid_size := (2, 3), horizon_row := 1,
    vpt_cols := fun a => if a = 0 then 100000000 else -100000000,
    imageToGrid := identity3, gridToImage := identity3,
    grid_floorToCeil := ((1, 0, 0), (0, -1, 0), (0, 1, -1)),
    grid_ceilToFloor := ((1, 0, 0), (0, -1, 0), (0, -1, -1)) }

/-- The matrix `b` is the exact inverse of the matrix `a`. -/
def IsInverse (a b : Mat3) : Prop :=
  (∀ v : Vec3, a.mulVec (b.mulVec v) = v) ∧ (∀ v : Vec3, b.mulVec (a.mulVec v) = v)

/-- The label that `DPGeometry::PathToOrients` gives to the cell in row `y` of
column `x`, given the wall extents of the columns. -/
def orientCell (path_axes y0s y1s : VecI) (y x : Int) : Int :=
  if y ≥ VecI.get y0s x ∧ y ≤ VecI.get y1s x then 1 - VecI.get path_axes x else kVerticalAxis

/-- The solver as `Compute` sets it up before its search loops: counters
zeroed and the memo table reset. -/
def searchStart (geom : DPGeometry) (dp : ManhattanDP) : ManhattanDP :=
  { dp with cache_lookups := 0, cache_hits := 0, cache := dp.cache.reset geom.grid_size,
            max_depth := 0, cur_depth := 0 }

/-- The states on which `Solve` is invoked during `Compute`: the terminal
states, and every state that `Solve_Impl` moves to from such a state that is not
a base case. -/
inductive Reached (po : DPPayoffs) (geom : DPGeometry) (jump_thresh : ℚ) (roundi : ℚ → Int) :
    DPState → Prop where
  | terminal (t : DPState) : t ∈ terminals geom → Reached po geom jump_thresh roundi t
  | move (s : DPState) (t : DPState × ℚ) : Reached po geom jump_thresh roundi s → s.col ≠ 0 →
      t ∈ transitions po geom jump_thresh roundi s → Reached po geom jump_thresh roundi t.1

/-- The state-range invariant: row in `[0, H)`, column in `[0, W]`, axis 0 or 1,
one of the four directions, and column `W` only for `DIR_OUT`. -/
def InRange (geom : DPGeometry) (s : DPState) : Prop :=
  (0 ≤ s.row ∧ s.row < geom.grid_size.2) ∧ (0 ≤ s.col ∧ s.col ≤ geom.grid_size.1) ∧
  (s.axis = 0 ∨ s.axis = 1) ∧
  (s.dir = DIR_IN ∨ s.dir = DIR_OUT ∨ s.dir = DIR_UP ∨ s.dir = DIR_DOWN) ∧
  (s.col = geom.grid_size.1 → s.dir = DIR_OUT)

/-- The state is a valid index of the memo table: `table(col, row, axis, dir)`
lies within the dimensions of the table. -/
def InTable (c : DPCache) (s : DPState) : Prop :=
  (0 ≤ s.col ∧ s.col < c.dims.1) ∧ (0 ≤ s.row ∧ s.row < c.dims.2.1) ∧
  (0 ≤ s.axis ∧ s.axis < c.dims.2.2.1) ∧ (0 ≤ s.dir ∧ s.dir < c.dims.2.2.2)

/-- What a call of `Solve` may change in the solver: the dimensions of the memo
table and the current depth are kept, every new entry of the table is a state
with the property `Q`, and the depth record grows by at most `B` above the
current depth. -/
def Frame (Q : DPState → Prop) (B : Int) (dp dp1 : ManhattanDP) : Prop :=
  dp1.cache.dims = dp.cache.dims ∧
  (∀ x, (dp1.cache.get x).score.isnan = false → (dp.cache.get x).score.isnan = false ∨ Q x) ∧
  dp1.cur_depth = dp.cur_depth ∧
  (dp1.max_depth ≤ dp.max_depth ∨ dp1.max_depth ≤ dp.cur_depth + B) ∧
  dp.max_depth ≤ dp1.max_depth

/-- The depth record `max_depth` left by a run of `Compute`, if it succeeded. -/
def depthOf (r : Except DPError ManhattanDP) : Option Int :=
  match r with
  | Except.ok d => some d.max_depth
  | Except.error _ => Option.none

/-- Whether the wall lines of a backtrack pass exactly through grid rows: for
every `DIR_OUT` state of the list and the state that follows it, the line of
the `DIR_OUT` state has, at every column from that of the next state up to the
one before its own, exactly the row that `roundi` returns for it. -/
def exactLines (geom : DPGeometry) (roundi : ℚ → Int) : List DPState → Bool
  | s :: n :: rest =>
    (if s.dir = DIR_OUT then
      (List.range (s.col.toNat - n.col.toNat)).all fun (i : Nat) =>
        decide (((lineRow geom roundi s ((n.col.toNat + i : Nat) : Int) : Int) : ℚ) =
          lineSlope geom s * (((n.col.toNat + i : Nat) : Int) : ℚ) + lineOffset geom s)
     else true) && exactLines geom roundi (n :: rest)
  | _ => true

/-- Whether a run of `Compute` succeeded with a backtrack whose wall lines pass
exactly through grid rows. -/
def exactRun (geom : DPGeometry) (roundi : ℚ → Int) (r : Except DPError ManhattanDP) : Bool :=
  match r with
  | Except.ok d => exactLines geom roundi d.full_backtrack
  | Except.error _ => false

/-- A grid of 2 columns and 8 rows with horizon row 3, the vanishing point of
axis 0 in column -1 and that of axis 1 far outside the grid. -/
def kinkGeom : DPGeometry := gridGeom 2 8 3 (-1) 100000000

/-- A cost field over `kinkGeom`: on axis 0, value 10 in rows 6 and 1 of column
1 and in row 5 of column 0, value 19/2 in row 2 of column 0, zero elsewhere;
wall penalty 1 and occlusion penalty 1/2. -/
def kinkPayoffs : DPPayoffs :=
  { wall_scores := fun a => ⟨8, 2, fun r c =>
      if a = 0 ∧ r = 6 ∧ c = 1 then 10
      else if a = 0 ∧ r = 5 ∧ c = 0 then 10
      else if a = 0 ∧ r = 1 ∧ c = 1 then 10
      else if a = 0 ∧ r = 2 ∧ c = 0 then 19 / 2
      else 0⟩,
    wall_penalty := 1, occl_penalty := 1 / 2 }

/-- A solver that never returns a result: a stand-in for `Solve` that shows
when a result does not come from a recursive call. -/
def noSolver : Solver := fun _ _ => Option.none

/-- A grid of 2 columns and 3 rows with horizon row 1 and both vanishing points
in column 1. -/
def obliqueGeom : DPGeometry := gridGeom 2 3 1 1 1

/-- The dependence of the recurrence: the state `s` is not a base case and
`Solve_Impl` at `s` calls `Solve` on the state `t`. -/
def DependsOn (po : DPPayoffs) (geom : DPGeometry) (jump_thresh : ℚ) (roundi : ℚ → Int)
    (s t : DPState) : Prop :=
  s.col ≠ 0 ∧ ∃ d : ℚ, (t, d) ∈ transitions po geom jump_thresh roundi s

/-- The checks of the leftward walk of the `DIR_OUT` state `s` pass in column
`x`: the column is not the vanishing column of the axis, and the row of the
line there is inside the grid and is not the horizon row. -/
def walkOK (geom : DPGeometry) (roundi : ℚ → Int) (s : DPState) (x : Nat) : Prop :=
  (x : Int) ≠ truncToInt (geom.vpt_cols s.axis) ∧
  0 ≤ lineRow geom roundi s (x : Int) ∧ lineRow geom roundi s (x : Int) < geom.grid_size.2 ∧
  lineRow geom roundi s (x : Int) ≠ geom.horizon_row

/-- The kink test of the leftward walk of the `DIR_OUT` state `s` in column
`x`: the relative jump error `|row_x - (m*x + c)| / (|row_x - row| + |x - col|)`
is below the jump threshold. -/
def kinkAt (geom : DPGeometry) (jump_thresh : ℚ) (roundi : ℚ → Int) (s : DPState) (x : Nat) :
    Prop :=
  |((lineRow geom roundi s (x : Int) : Int) : ℚ) -
      (lineSlope geom s * ((x : Int) : ℚ) + lineOffset geom s)| /
    ((|lineRow geom roundi s (x : Int) - s.row| + |(x : Int) - s.col| : Int) : ℚ) < jump_thresh

/-- The walls closed by the loop of `PopulateSolution` over a list of states,
as pairs of the closing `DIR_IN` state and the pending `DIR_OUT` state; the
second argument is the pointer `out` (`none` is `NULL`). -/
def wallPairs : List DPState → Option DPState → List (DPState × DPState)
  | [], _ => []
  | cur :: rest, some o =>
    if cur.dir = DIR_IN then (cur, o) :: wallPairs rest Option.none
    else wallPairs rest (some o)
  | cur :: rest, Option.none =>
    if cur.dir = DIR_OUT then wallPairs rest (some cur)
    else wallPairs rest Option.none

/-- The states that index the memo table of a grid: columns `0 .. W`, rows
`0 .. H-1`, two axes and four directions. -/
def tableStates (geom : DPGeometry) : Finset DPState :=
  (Finset.range (geom.grid_size.1 + 1).toNat ×ˢ Finset.range geom.grid_size.2.toNat ×ˢ
    Finset.range 2 ×ˢ Finset.range 4).image
      (fun q => (⟨(q.2.1 : Int), (q.1 : Int), (q.2.2.1 : Int), (q.2.2.2 : Int)⟩ : DPState))

/-- The number of entries of the memo table of a grid that are present, that
is, whose score is not NaN. -/
def filled (geom : DPGeometry) (c : DPCache) : Nat :=
  ((tableStates geom).filter (fun x => (c.get x).score.isnan = false)).card

/-- The number of lookups that missed, each of which evaluates the recurrence
once: `cache_lookups - cache_hits`. -/
def misses (dp : ManhattanDP) : Int := dp.cache_lookups - dp.cache_hits

/-- The column at which the next wall of a backtrack starts: that of the pending
`DIR_OUT` state, or that of the current state when none is pending. -/
def pendCol (out : Option DPState) (s : DPState) : Int :=
  match out with
  | some o => o.col
  | Option.none => s.col

/-- The condition under which the backtrack loop meets the state `s` with the
pointer `out`: a pending `DIR_OUT` state is followed by states of its axis that
are `DIR_OUT` or `DIR_IN` and lie to its left, and a `DIR_IN` state is met only
while a `DIR_OUT` state is pending. -/
def PendOK (out : Option DPState) (s : DPState) : Prop :=
  match out with
  | some o =>
    o.dir = DIR_OUT ∧ o.axis = s.axis ∧ (s.dir = DIR_IN ∨ s.dir = DIR_OUT) ∧ s.col ≤ o.col ∧
      (s.dir = DIR_IN → s.col < o.col)
  | Option.none => s.dir ≠ DIR_IN

/-- The result of a 32-bit `int` operation whose exact value is `n`:
two's-complement wrap-around. -/
def wrap32 (n : Int) : Int := (n + 2147483648) % 4294967296 - 2147483648

/-- Conversion of a `double` to a 32-bit `int`: truncation toward zero. Out of
range the conversion is undefined in C++; the x86 conversion instruction yields
`INT_MIN`, which is the value taken here. -/
def toInt32 (x : ℚ) : Int :=
  if -2147483648 ≤ truncToInt x ∧ truncToInt x ≤ 2147483647 then truncToInt x else -2147483648

/-- The function `abs` on a 32-bit `int`: `abs(INT_MIN)` wraps to `INT_MIN`. -/
def abs32 (n : Int) : Int := wrap32 |n|

/-- The method `ManhattanDP::OcclusionValid` with 32-bit `int` arithmetic. -/
def OcclusionValid32 (geom : DPGeometry) (col left_axis right_axis occl_side : Int) : Bool :=
  let occl_axis : Int := if occl_side < 0 then left_axis else right_axis
  let occl_vpt_col : Int := toInt32 (geom.vpt_cols occl_axis)
  let occl_vpt_side : Int := if occl_vpt_col < col then -1 else 1
  let opp_vpt_col : Int := toInt32 (geom.vpt_cols (wrap32 (1 - occl_axis)))
  let opp_vpt_side : Int := if opp_vpt_col < col then -1 else 1
  let occl_vpt_behind : Bool := decide (occl_side = occl_vpt_side)
  let opp_vpt_between : Bool :=
    decide (opp_vpt_side = occl_vpt_side) &&
      decide (abs32 (wrap32 (col - opp_vpt_col)) < abs32 (wrap32 (col - occl_vpt_col)))
  occl_vpt_behind == opp_vpt_between

/-- The slope `m` computed in the `DIR_OUT` branch of `Solve_Impl`, with 32-bit
`int` arithmetic for `vpt_col`, `state.row - geom->horizon_row` and
`state.col - vpt_col`. -/
def lineSlope32 (geom : DPGeometry) (s : DPState) : ℚ :=
  ((wrap32 (s.row - geom.horizon_row) : Int) : ℚ) /
    ((wrap32 (s.col - toInt32 (geom.vpt_cols s.axis)) : Int) : ℚ)

/-- The intercept `c = geom->horizon_row - m*vpt_col` computed there. -/
def lineOffset32 (geom : DPGeometry) (s : DPState) : ℚ :=
  (geom.horizon_row : ℚ) - lineSlope32 geom s * (toInt32 (geom.vpt_cols s.axis) : ℚ)

/-- The row `next.row = roundi(m*next.col + c)` that the walk computes for the
column `x`. -/
def lineRow32 (geom : DPGeometry) (roundi : ℚ → Int) (s : DPState) (x : Int) : Int :=
  roundi (lineSlope32 geom s * (x : ℚ) + lineOffset32 geom s)

/-- A 32-bit `int` holds the integer `n`. -/
def Fits32 (n : Int) : Prop := -2147483648 ≤ n ∧ n ≤ 2147483647

/-- A 4x4 grid with horizon row 2 whose vanishing-point columns are `1e10` for
axis 0, which does not fit a 32-bit `int`, and `-1e8` for axis 1. -/
def farGeom : DPGeometry := gridGeom 4 4 2 10000000000 (-100000000)

end ManhattanDP

/-! ## The Sobel row filters (`fast_sobel.cpp`)

A row of `PixelF` is a function from the column to the component `y` of the
pixel, the only component that the filters read and write. -/

namespace FastSobel

/-- The loop `for (int c = 1; c < w-1; c++)` of `ConvolveRowX`; the first
argument bounds the number of rounds, the second is `c`. -/
def ConvolveRowX.loop (w : Int) (r1 r2 r3 : Int → ℚ) : Nat → Int → (Int → ℚ) → (Int → ℚ)
  | 0, _, out => out
  | n + 1, c, out =>
    if c < w - 1 then
      ConvolveRowX.loop w r1 r2 r3 n (c + 1)
        (Function.update out c
          (r1 (c - 1) - r1 (c + 1) + 2 * (r2 (c - 1) - r2 (c + 1)) + r3 (c - 1) - r3 (c + 1)))
    else out

/-- The function `FastSobel::ConvolveRowX`: the row `out` after the call. -/
def ConvolveRowX (w : Int) (r1 r2 r3 out : Int → ℚ) : Int → ℚ :=
  let out := Function.update out 0 (r1 0 - r1 1 + 2 * (r2 0 - r2 1) + r3 0 - r3 1)
  let out := ConvolveRowX.loop w r1 r2 r3 (w - 2).toNat 1 out
  Function.update out (w - 1)
    (r1 (w - 2) - r1 (w - 1) + 2 * (r2 (w - 2) - r2 (w - 1)) + r3 (w - 2) - r3 (w - 1))

/-- The loop `for (int c = 1; c < w-1; c++)` of `ConvolveRowY`; the first
argument bounds the number of rounds, the second is `c`. -/
def ConvolveRowY.loop (w : Int) (r1 r3 : Int → ℚ) : Nat → Int → (Int → ℚ) → (Int → ℚ)
  | 0, _, out => out
  | n + 1, c, out =>
    if c < w - 1 then
      ConvolveRowY.loop w r1 r3 n (c + 1)
        (Function.update out c
          (r1 (c - 1) + 2 * r1 c + r1 (c + 1) - r3 (c - 1) - 2 * r3 c - r3 (c + 1)))
    else out

set_option linter.unusedVariables false in
/-- The function `FastSobel::ConvolveRowY`: the row `out` after the call. The
middle row `r2` is not read. -/
def ConvolveRowY (w : Int) (r1 r2 r3 out : Int → ℚ) : Int → ℚ :=
  let out := Function.update out 0 (3 * r1 0 + r1 1 - 3 * r3 0 - r3 1)
  let out := ConvolveRowY.loop w r1 r3 (w - 2).toNat 1 out
  Function.update out (w - 1) (r1 (w - 2) + 3 * r1 (w - 1) - r3 (w - 2) - 3 * r3 (w - 1))

/-- A column index clamped into `[0, w-1]` (replicate padding). -/
def clampCol (w c : Int) : Int := max 0 (min (w - 1) c)

/-- The interior 3x3 formula of `ConvolveRowX` at column `c`, with the column
indices `c-1` and `c+1` clamped into `[0, w-1]`. -/
def paddedX (w : Int) (r1 r2 r3 : Int → ℚ) (c : Int) : ℚ :=
  r1 (clampCol w (c - 1)) - r1 (clampCol w (c + 1)) +
    2 * (r2 (clampCol w (c - 1)) - r2 (clampCol w (c + 1))) +
    r3 (clampCol w (c - 1)) - r3 (clampCol w (c + 1))

/-- The interior 3x3 formula of `ConvolveRowY` at column `c`, with the column
indices `c-1` and `c+1` clamped into `[0, w-1]`. -/
def paddedY (w : Int) (r1 r3 : Int → ℚ) (c : Int) : ℚ :=
  r1 (clampCol w (c - 1)) + 2 * r1 c + r1 (clampCol w (c + 1)) -
    r3 (clampCol w (c - 1)) - 2 * r3 c - r3 (clampCol w (c + 1))

end FastSobel

/-! # Properties -/

theorem Score.gt_iff (a b : Score) (hb : b.isnan = false) :
    a.gt b = true ↔ b.val < a.val := by
  cases a <;> cases b <;> simp [Score.gt, Score.val, Score.isnan] at hb ⊢

theorem Score.gt_not_nan (a b : Score) (h : a.gt b = true) : a.isnan = false := by
  cases a <;> cases b <;> simp [Score.gt, Score.isnan] at h ⊢

theorem Score.val_add (a : Score) (d : ℚ) : (a.add d).val = a.val + (d : WithBot ℚ) := by
  cases a <;> simp [Score.add, Score.val]

theorem Score.add_not_nan (a : Score) (d : ℚ) (h : a.isnan = false) : (a.add d).isnan = false := by
  cases a <;> simp [Score.add, Score.isnan] at h ⊢

theorem Score.eq_of_val (a b : Score) (ha : a.isnan = false) (hb : b.isnan = false)
    (h : a.val = b.val) : a = b := by
  cases a <;> cases b <;> simp [Score.val, Score.isnan] at ha hb h ⊢
  exact h

theorem Score.val_fin (q : ℚ) : (Score.fin q).val = (q : WithBot ℚ) := rfl

theorem Score.val_eq_coe (a : Score) (q : ℚ) (h : a.val = (q : WithBot ℚ)) : a = Score.fin q := by
  cases a <;> simp [Score.val] at h ⊢
  exact h

namespace ManhattanDP

theorem foldSolve_append (solve : Solver) (l1 l2 : List (DPState × ℚ)) (best : DPSubSolution)
    (dp : ManhattanDP) :
    foldSolve solve (l1 ++ l2) best dp =
      match foldSolve solve l1 best dp with
      | Option.none => Option.none
      | some (best1, dp1) => foldSolve solve l2 best1 dp1 := by
  induction l1 generalizing best dp with
  | nil => simp [foldSolve]
  | cons t rest ih =>
    simp only [List.cons_append, foldSolve]
    cases h : trySolve solve t.1 t.2 best dp with
    | none => simp
    | some r => simp [ih]

theorem inAxis_eq (po : DPPayoffs) (geom : DPGeometry) (solve : Solver) (state : DPState)
    (axis : Int) (best : DPSubSolution) (dp : ManhattanDP) :
    inAxis po geom solve state axis best dp =
      foldSolve solve (inTrans po geom state axis) best dp := by
  unfold inAxis inTrans
  simp only [List.singleton_append, foldSolve]
  split
  · rfl
  · split_ifs <;>
      simp only [foldSolve, List.nil_append, List.append_nil, List.singleton_append] <;>
      split <;> first | rfl | assumption | (split <;> first | rfl | assumption)

theorem walk_eq (po : DPPayoffs) (geom : DPGeometry) (jump_thresh : ℚ) (roundi : ℚ → Int)
    (solve : Solver) (state : DPState) (vpt_col : Int) (m c : ℚ) (k : Nat) (delta_score : ℚ)
    (best : DPSubSolution) (dp : ManhattanDP) :
    walk po geom jump_thresh roundi solve state vpt_col m c k delta_score best dp =
      foldSolve solve (walkTrans po geom jump_thresh roundi state vpt_col m c k delta_score)
        best dp := by
  induction k generalizing delta_score best dp with
  | zero => simp [walk, walkTrans, foldSolve]
  | succ k ih =>
    unfold walk walkTrans
    simp only
    split_ifs with h1 h2 h3
    · rfl
    · rfl
    · simp only [foldSolve]
      split
      · rfl
      · split <;> first | rfl | assumption
    · simp only [foldSolve]
      split
      · rfl
      · exact ih _ _ _

theorem Solve_Impl_eq (po : DPPayoffs) (geom : DPGeometry) (jump_thresh : ℚ) (roundi : ℚ → Int)
    (solve : Solver) (state : DPState) (dp : ManhattanDP) :
    Solve_Impl po geom jump_thresh roundi solve state dp =
      if state.col = 0 then some (⟨Score.fin 0, DPState.none⟩, dp)
      else foldSolve solve (transitions po geom jump_thresh roundi state)
        (DPSubSolution.ofScore Score.negInf) dp := by
  unfold Solve_Impl transitions
  by_cases h0 : state.col = 0
  · simp only [h0, if_true]
    rfl
  · simp only [h0, if_false]
    by_cases h1 : state.dir = DIR_IN
    · simp only [h1, if_true, inAxis_eq, foldSolve_append]
      try rfl
    · simp only [h1, if_false]
      by_cases h2 : state.dir = DIR_UP ∨ state.dir = DIR_DOWN
      · simp only [h2, if_true, foldSolve]
        split
        · rfl
        · split_ifs <;>
            first
            | rfl
            | (simp only [foldSolve]
               split <;> first | rfl | assumption)
      · simp only [h2, if_false]
        by_cases h3 : state.dir = DIR_OUT
        · simp only [h3, if_true]
          split_ifs
          · exact walk_eq _ _ _ _ _ _ _ _ _ _ _ _ _
          · rfl
        · simp only [h3, if_false]
          rfl

/-- Facts about a move found by the leftward walk. -/
theorem walkTrans_mem (po : DPPayoffs) (geom : DPGeometry) (jump_thresh : ℚ) (roundi : ℚ → Int)
    (state : DPState) (vpt_col : Int) (m c : ℚ) (k : Nat) (delta_score : ℚ) (t : DPState × ℚ)
    (ht : t ∈ walkTrans po geom jump_thresh roundi state vpt_col m c k delta_score) :
    ∃ j : Nat, j < k ∧ t.1.col = (j : Int) ∧ t.1.row = roundi (m * ((j : Int) : ℚ) + c) ∧
      t.1.axis = state.axis ∧ (t.1.dir = DIR_IN ∨ t.1.dir = DIR_OUT) ∧
      (∀ x : Nat, j ≤ x → x < k → (x : Int) ≠ vpt_col ∧
        0 ≤ roundi (m * ((x : Int) : ℚ) + c) ∧
        roundi (m * ((x : Int) : ℚ) + c) < geom.grid_size.2 ∧
        roundi (m * ((x : Int) : ℚ) + c) ≠ geom.horizon_row) ∧
      t.2 = delta_score + ∑ x ∈ Finset.Ico j k,
        (po.wall_scores state.axis).elem (roundi (m * ((x : Int) : ℚ) + c)) (x : Int) := by
  induction k generalizing delta_score with
  | zero => simp [walkTrans] at ht
  | succ k ih =>
    unfold walkTrans at ht
    simp only at ht
    split_ifs at ht with h1 h2 h3
    · simp at ht
    · simp at ht
    · -- kink
      have hgood : ∀ x : Nat, k ≤ x → x < k + 1 → (x : Int) ≠ vpt_col ∧
          0 ≤ roundi (m * ((x : Int) : ℚ) + c) ∧
          roundi (m * ((x : Int) : ℚ) + c) < geom.grid_size.2 ∧
          roundi (m * ((x : Int) : ℚ) + c) ≠ geom.horizon_row := by
        intro x hx1 hx2
        have : x = k := by omega
        subst this
        push_neg at h2
        exact ⟨h1, h2.1, h2.2.1, h2.2.2⟩
      simp only [List.mem_cons, List.mem_singleton, List.not_mem_nil, or_false] at ht
      rcases ht with rfl | rfl <;>
        exact ⟨k, Nat.lt_succ_self k, rfl, rfl, rfl, by simp, hgood, by simp⟩
    · have hgood : ∀ x : Nat, k ≤ x → x < k + 1 → (x : Int) ≠ vpt_col ∧
          0 ≤ roundi (m * ((x : Int) : ℚ) + c) ∧
          roundi (m * ((x : Int) : ℚ) + c) < geom.grid_size.2 ∧
          roundi (m * ((x : Int) : ℚ) + c) ≠ geom.horizon_row := by
        intro x hx1 hx2
        have : x = k := by omega
        subst this
        push_neg at h2
        exact ⟨h1, h2.1, h2.2.1, h2.2.2⟩
      simp only [List.mem_cons] at ht
      rcases ht with rfl | ht
      · exact ⟨k, Nat.lt_succ_self k, rfl, rfl, rfl, by simp, hgood, by simp⟩
      · obtain ⟨j, hj, hc, hr, ha, hd, hg, hs⟩ := ih _ ht
        refine ⟨j, Nat.lt_succ_of_lt hj, hc, hr, ha, hd, ?_, ?_⟩
        · intro x hx1 hx2
          by_cases hxk : x < k
          · exact hg x hx1 hxk
          · exact hgood x (by omega) hx2
        · rw [hs, Finset.sum_Ico_succ_top (Nat.le_of_lt hj)]
          ring

/-- The moves of a `DIR_IN` state. -/
theorem transitions_in (po : DPPayoffs) (geom : DPGeometry) (jump_thresh : ℚ) (roundi : ℚ → Int)
    (s : DPState) (hs : s.dir = DIR_IN) (t : DPState × ℚ)
    (ht : t ∈ transitions po geom jump_thresh roundi s) :
    t.1.row = s.row ∧ t.1.col = s.col ∧ (t.1.axis = 0 ∨ t.1.axis = 1) ∧
      ((t.1.dir = DIR_OUT ∧ t.2 = -po.wall_penalty) ∨
       ((t.1.dir = DIR_UP ∨ t.1.dir = DIR_DOWN) ∧ t.2 = -(po.wall_penalty + po.occl_penalty))) := by
  unfold transitions at ht
  simp only [hs, if_true, inTrans, List.mem_append, List.mem_singleton] at ht
  rcases ht with (rfl | ht | ht) | (rfl | ht | ht)
  · simp
  · split_ifs at ht
    · simp only [List.mem_singleton] at ht; subst ht; simp
    · simp at ht
  · split_ifs at ht
    · simp only [List.mem_singleton] at ht; subst ht; simp
    · simp at ht
  · simp
  · split_ifs at ht
    · simp only [List.mem_singleton] at ht; subst ht; simp
    · simp at ht
  · split_ifs at ht
    · simp only [List.mem_singleton] at ht; subst ht; simp
    · simp at ht

/-- The moves of a `DIR_UP` or `DIR_DOWN` state. -/
theorem transitions_vert (po : DPPayoffs) (geom : DPGeometry) (jump_thresh : ℚ) (roundi : ℚ → Int)
    (s : DPState) (hs : s.dir = DIR_UP ∨ s.dir = DIR_DOWN) (t : DPState × ℚ)
    (ht : t ∈ transitions po geom jump_thresh roundi s) :
    t.1.col = s.col ∧ t.1.axis = s.axis ∧ t.2 = 0 ∧
      ((t.1.dir = DIR_OUT ∧ t.1.row = s.row) ∨
       (t.1.dir = s.dir ∧ t.1.row = s.row + (if s.dir = DIR_UP then -1 else 1) ∧
        t.1.row ≠ geom.horizon_row ∧ 0 ≤ t.1.row ∧ t.1.row < geom.grid_size.2)) := by
  have hne : s.dir ≠ DIR_IN := by rcases hs with h | h <;> rw [h] <;> decide
  unfold transitions at ht
  rw [if_neg hne, if_pos hs] at ht
  simp only [List.mem_cons] at ht
  rcases ht with rfl | ht
  · simp
  · split_ifs at ht with h1 h2 h2
    · simp only [List.mem_singleton] at ht
      subst ht
      exact ⟨rfl, rfl, rfl, Or.inr ⟨rfl, by simp [h1], h2.1, h2.2.1, h2.2.2⟩⟩
    · simp at ht
    · simp only [List.mem_singleton] at ht
      subst ht
      exact ⟨rfl, rfl, rfl, Or.inr ⟨rfl, by simp [h1], h2.1, h2.2.1, h2.2.2⟩⟩
    · simp at ht

/-- The moves of a `DIR_OUT` state. -/
theorem transitions_out (po : DPPayoffs) (geom : DPGeometry) (jump_thresh : ℚ) (roundi : ℚ → Int)
    (s : DPState) (hs : s.dir = DIR_OUT) (t : DPState × ℚ)
    (ht : t ∈ transitions po geom jump_thresh roundi s) :
    s.col ≠ truncToInt (geom.vpt_cols s.axis) ∧
    ∃ j : Nat, j < s.col.toNat ∧ t.1.col = (j : Int) ∧ t.1.row = lineRow geom roundi s (j : Int) ∧
      t.1.axis = s.axis ∧ (t.1.dir = DIR_IN ∨ t.1.dir = DIR_OUT) ∧
      (∀ x : Nat, j ≤ x → x < s.col.toNat →
        (x : Int) ≠ truncToInt (geom.vpt_cols s.axis) ∧
        0 ≤ lineRow geom roundi s (x : Int) ∧
        lineRow geom roundi s (x : Int) < geom.grid_size.2 ∧
        lineRow geom roundi s (x : Int) ≠ geom.horizon_row) ∧
      t.2 = segCost po geom roundi s j s.col.toNat := by
  have hne : s.dir ≠ DIR_IN := by rw [hs]; decide
  have hne2 : ¬ (s.dir = DIR_UP ∨ s.dir = DIR_DOWN) := by rw [hs]; decide
  unfold transitions at ht
  rw [if_neg hne, if_neg hne2, if_pos hs] at ht
  simp only at ht
  split_ifs at ht with h1
  · refine ⟨h1, ?_⟩
    obtain ⟨j, hj, hc, hr, ha, hd, hg, hsum⟩ := walkTrans_mem _ _ _ _ _ _ _ _ _ _ _ ht
    refine ⟨j, hj, hc, hr, ha, hd, hg, ?_⟩
    rw [hsum, zero_add]
    rfl
  · simp at ht

/-- A state whose direction is none of the four has no move. -/
theorem transitions_other (po : DPPayoffs) (geom : DPGeometry) (jump_thresh : ℚ) (roundi : ℚ → Int)
    (s : DPState) (h0 : s.dir ≠ DIR_IN) (h1 : s.dir ≠ DIR_OUT) (h2 : s.dir ≠ DIR_UP)
    (h3 : s.dir ≠ DIR_DOWN) : transitions po geom jump_thresh roundi s = [] := by
  unfold transitions
  simp [h0, h1, h2, h3]

/-- The direction of a state is one of the four, or the state has no move. -/
theorem dir_cases (po : DPPayoffs) (geom : DPGeometry) (jump_thresh : ℚ) (roundi : ℚ → Int)
    (s : DPState) (t : DPState × ℚ) (ht : t ∈ transitions po geom jump_thresh roundi s) :
    s.dir = DIR_IN ∨ (s.dir = DIR_UP ∨ s.dir = DIR_DOWN) ∨ s.dir = DIR_OUT := by
  by_contra h
  push_neg at h
  rw [transitions_other po geom jump_thresh roundi s h.1 h.2.2 h.2.1.1 h.2.1.2] at ht
  simp at ht

/-- Every move of the recurrence decreases the rank. -/
theorem rank_lt (po : DPPayoffs) (geom : DPGeometry) (jump_thresh : ℚ) (roundi : ℚ → Int)
    (s : DPState) (t : DPState × ℚ) (ht : t ∈ transitions po geom jump_thresh roundi s) :
    rank geom t.1 < rank geom s := by
  rcases dir_cases po geom jump_thresh roundi s t ht with hs | hs | hs
  · obtain ⟨_, hc, _, hd⟩ := transitions_in po geom jump_thresh roundi s hs t ht
    unfold rank
    simp only [hc, hs, if_true]
    rcases hd with ⟨hd, _⟩ | ⟨hd | hd, _⟩
    · simp [hd]
    · simp only [hd]; simp; omega
    · simp only [hd]; simp; omega
  · obtain ⟨hc, _, _, hd⟩ := transitions_vert po geom jump_thresh roundi s hs t ht
    unfold rank
    simp only [hc]
    rcases hd with ⟨hd, _⟩ | ⟨hd, hr, _, h0, hH⟩
    · rcases hs with hs | hs <;> simp [hd, hs]
    · rcases hs with hs | hs
      · simp only [hs, if_true] at hr
        simp only [hd, hs]
        simp
        omega
      · simp only [hs] at hr
        simp only [hd, hs]
        simp at hr ⊢
        omega
  · obtain ⟨_, j, hj, hc, _, _, hd, _, _⟩ := transitions_out po geom jump_thresh roundi s hs t ht
    have h1 : (j + 1) * (geom.grid_size.2.toNat + 4) ≤ s.col.toNat * (geom.grid_size.2.toNat + 4) :=
      Nat.mul_le_mul_right _ hj
    have h2 : rank geom s = s.col.toNat * (geom.grid_size.2.toNat + 4) := by
      unfold rank
      simp [hs]
    have h3 : rank geom t.1 ≤ j * (geom.grid_size.2.toNat + 4) + (geom.grid_size.2.toNat + 3) := by
      unfold rank
      rcases hd with hd | hd <;> simp [hd, hc]
    rw [h2]
    have h4 : (j + 1) * (geom.grid_size.2.toNat + 4) =
        j * (geom.grid_size.2.toNat + 4) + (geom.grid_size.2.toNat + 4) := by ring
    omega

/-- One application of `ReplaceIfSuperior` keeps a score that is not NaN. -/
theorem replace_not_nan (b other : DPSubSolution) (n : DPState) (d : ℚ)
    (hb : b.score.isnan = false) : (b.ReplaceIfSuperior other n d).1.score.isnan = false := by
  unfold DPSubSolution.ReplaceIfSuperior
  split_ifs with h
  · exact Score.gt_not_nan _ _ h
  · exact hb

theorem bestOf_not_nan (value : DPState → DPSubSolution) (l : List (DPState × ℚ))
    (b : DPSubSolution) (hb : b.score.isnan = false) : (bestOf value l b).score.isnan = false := by
  induction l generalizing b with
  | nil => exact hb
  | cons t rest ih => exact ih _ (replace_not_nan _ _ _ _ hb)

theorem bestOf_congr (v1 v2 : DPState → DPSubSolution) (l : List (DPState × ℚ))
    (b : DPSubSolution) (h : ∀ t ∈ l, v1 t.1 = v2 t.1) : bestOf v1 l b = bestOf v2 l b := by
  induction l generalizing b with
  | nil => rfl
  | cons t rest ih =>
    simp only [bestOf]
    rw [h t (List.mem_cons_self _ _)]
    exact ih _ (fun u hu => h u (List.mem_cons_of_mem _ hu))

theorem bestOf_append (value : DPState → DPSubSolution) (l1 l2 : List (DPState × ℚ))
    (b : DPSubSolution) : bestOf value (l1 ++ l2) b = bestOf value l2 (bestOf value l1 b) := by
  induction l1 generalizing b with
  | nil => rfl
  | cons t rest ih =>
    rw [List.cons_append]
    simp only [bestOf]
    exact ih _

/-- The outcome of `bestOf`: either no move beat the initial sub-solution, or the
result is the first move offering the greatest score. -/
theorem bestOf_spec (value : DPState → DPSubSolution) (l : List (DPState × ℚ))
    (b : DPSubSolution) (hb : b.score.isnan = false) :
    (bestOf value l b = b ∧ ∀ u ∈ l, (offer value u).val ≤ b.score.val) ∨
    (∃ l1 t l2, l = l1 ++ t :: l2 ∧ bestOf value l b = ⟨offer value t, t.1⟩ ∧
      b.score.val < (offer value t).val ∧
      (∀ u ∈ l1, (offer value u).val < (offer value t).val) ∧
      (∀ u ∈ l2, (offer value u).val ≤ (offer value t).val)) := by
  induction l generalizing b with
  | nil => exact Or.inl ⟨rfl, by simp⟩
  | cons t rest ih =>
    simp only [bestOf]
    by_cases hgt : (offer value t).gt b.score = true
    · have hrep : (b.ReplaceIfSuperior (value t.1) t.1 t.2).1 = ⟨offer value t, t.1⟩ := by
        unfold DPSubSolution.ReplaceIfSuperior
        unfold offer at hgt
        rw [if_pos hgt]
        rfl
      rw [hrep]
      have hlt := (Score.gt_iff _ _ hb).1 hgt
      have hnn : (offer value t).isnan = false := Score.gt_not_nan _ _ hgt
      rcases ih ⟨offer value t, t.1⟩ hnn with ⟨h1, h2⟩ | ⟨l1, u, l2, h1, h2, h3, h4, h5⟩
      · refine Or.inr ⟨[], t, rest, rfl, h1, hlt, by simp, h2⟩
      · refine Or.inr ⟨t :: l1, u, l2, by simp [h1], h2, lt_trans hlt h3, ?_, h5⟩
        intro w hw
        rcases List.mem_cons.1 hw with rfl | hw
        · exact h3
        · exact h4 w hw
    · have hrep : (b.ReplaceIfSuperior (value t.1) t.1 t.2).1 = b := by
        unfold DPSubSolution.ReplaceIfSuperior
        unfold offer at hgt
        rw [if_neg hgt]
      rw [hrep]
      have hle : (offer value t).val ≤ b.score.val := by
        by_contra hc
        exact hgt ((Score.gt_iff _ _ hb).2 (lt_of_not_le hc))
      rcases ih b hb with ⟨h1, h2⟩ | ⟨l1, u, l2, h1, h2, h3, h4, h5⟩
      · refine Or.inl ⟨h1, ?_⟩
        intro w hw
        rcases List.mem_cons.1 hw with rfl | hw
        · exact hle
        · exact h2 w hw
      · refine Or.inr ⟨t :: l1, u, l2, by simp [h1], h2, h3, ?_, h5⟩
        intro w hw
        rcases List.mem_cons.1 hw with rfl | hw
        · exact lt_of_le_of_lt hle h3
        · exact h4 w hw

/-- Enough fuel: the unmemoised recurrence does not depend on the fuel once it
exceeds the rank of the state. -/
theorem solveRec_stable (po : DPPayoffs) (geom : DPGeometry) (jump_thresh : ℚ) (roundi : ℚ → Int)
    (f : Nat) : ∀ s : DPState, rank geom s < f →
      solveRec po geom jump_thresh roundi f s = value po geom jump_thresh roundi s := by
  induction f using Nat.strong_induction_on with
  | _ f ih =>
    intro s hs
    unfold value
    cases f with
    | zero => omega
    | succ f =>
      simp only [solveRec, recurrence]
      split_ifs with h0
      · rfl
      · apply bestOf_congr
        intro t ht
        have hlt := rank_lt po geom jump_thresh roundi s t ht
        rw [ih f (Nat.lt_succ_self f) t.1 (by omega),
          ih (rank geom s) (by omega) t.1 hlt]

/-- The value function satisfies the recurrence of `Solve_Impl`. -/
theorem value_eq (po : DPPayoffs) (geom : DPGeometry) (jump_thresh : ℚ) (roundi : ℚ → Int)
    (s : DPState) :
    value po geom jump_thresh roundi s =
      recurrence po geom jump_thresh roundi (value po geom jump_thresh roundi) s := by
  conv_lhs => unfold value
  simp only [solveRec, recurrence]
  split_ifs with h0
  · rfl
  · apply bestOf_congr
    intro t ht
    exact solveRec_stable po geom jump_thresh roundi _ t.1 (rank_lt po geom jump_thresh roundi s t ht)

/-- The value of a state is never NaN. -/
theorem value_not_nan (po : DPPayoffs) (geom : DPGeometry) (jump_thresh : ℚ) (roundi : ℚ → Int)
    (s : DPState) : (value po geom jump_thresh roundi s).score.isnan = false := by
  rw [value_eq]
  unfold recurrence
  split_ifs
  · rfl
  · exact bestOf_not_nan _ _ _ rfl

theorem DPCache.get_set (c : DPCache) (s x : DPState) (v : DPSubSolution) :
    (c.set s v).get x = if x = s then v else c.get x := by
  unfold DPCache.set DPCache.get
  simp only
  by_cases h : x = s
  · subst h; simp
  · rw [if_neg h, if_neg]
    intro hc
    apply h
    cases x; cases s
    simp only [DPState.mk.injEq]
    simp only at hc
    exact ⟨hc.2.1, hc.1, hc.2.2.1, hc.2.2.2⟩

/-- The moves of a list are solved one after the other, each with the value of
its state, when `solve` does so for every state of the list. -/
theorem foldSolve_ok (po : DPPayoffs) (geom : DPGeometry) (jump_thresh : ℚ) (roundi : ℚ → Int)
    (solve : Solver) (l : List (DPState × ℚ))
    (hsolve : ∀ t ∈ l, ∀ dp : ManhattanDP, CacheOK po geom jump_thresh roundi dp.cache →
      ∃ dp1, solve t.1 dp = some (value po geom jump_thresh roundi t.1, dp1) ∧
        CacheOK po geom jump_thresh roundi dp1.cache ∧
        (∀ x, (dp.cache.get x).score.isnan = false → (dp1.cache.get x).score.isnan = false) ∧
        (dp1.cache.get t.1).score.isnan = false) :
    ∀ (best : DPSubSolution) (dp : ManhattanDP), CacheOK po geom jump_thresh roundi dp.cache →
      ∃ dp1, foldSolve solve l best dp =
          some (bestOf (value po geom jump_thresh roundi) l best, dp1) ∧
        CacheOK po geom jump_thresh roundi dp1.cache ∧
        (∀ x, (dp.cache.get x).score.isnan = false → (dp1.cache.get x).score.isnan = false) ∧
        (∀ t ∈ l, (dp1.cache.get t.1).score.isnan = false) := by
  induction l with
  | nil =>
    intro best dp hdp
    exact ⟨dp, rfl, hdp, fun _ h => h, by simp⟩
  | cons t rest ih =>
    intro best dp hdp
    obtain ⟨dp1, h1, h2, h3, h4⟩ := hsolve t (List.mem_cons_self _ _) dp hdp
    obtain ⟨dp2, k1, k2, k3, k4⟩ :=
      ih (fun u hu => hsolve u (List.mem_cons_of_mem _ hu))
        (best.ReplaceIfSuperior (value po geom jump_thresh roundi t.1) t.1 t.2).1 dp1 h2
    refine ⟨dp2, ?_, k2, fun x hx => k3 x (h3 x hx), ?_⟩
    · simp only [foldSolve, trySolve, h1, bestOf]
      exact k1
    · intro u hu
      rcases List.mem_cons.1 hu with rfl | hu
      · exact k3 _ h4
      · exact k4 u hu

/-- Memoisation is sound: with enough fuel, `Solve` returns the value of the
state under the unmemoised recurrence and keeps the memo table sound. -/
theorem Solve_ok (po : DPPayoffs) (geom : DPGeometry) (jump_thresh : ℚ) (roundi : ℚ → Int)
    (f : Nat) : ∀ (s : DPState) (dp : ManhattanDP), rank geom s < f →
      CacheOK po geom jump_thresh roundi dp.cache →
      ∃ dp1, Solve po geom jump_thresh roundi f s dp =
          some (value po geom jump_thresh roundi s, dp1) ∧
        CacheOK po geom jump_thresh roundi dp1.cache ∧
        (∀ x, (dp.cache.get x).score.isnan = false → (dp1.cache.get x).score.isnan = false) ∧
        (dp1.cache.get s).score.isnan = false := by
  induction f with
  | zero => intro s dp h; omega
  | succ f ih =>
    intro s dp hrank hdp
    unfold Solve
    simp only
    by_cases hnan : (dp.cache.get s).score.isnan = true
    · -- a miss
      have hfind : dp.cache.find s = Option.none := by
        unfold DPCache.find
        rw [if_pos hnan]
      simp only [hfind]
      rw [Solve_Impl_eq]
      -- the value computed by `Solve_Impl`
      have key : ∃ dp1, (if s.col = 0 then some ((⟨Score.fin 0, DPState.none⟩ : DPSubSolution),
            ({ dp with cache_lookups := dp.cache_lookups + 1, cur_depth := dp.cur_depth + 1,
                       max_depth := max dp.max_depth (dp.cur_depth + 1) } : ManhattanDP))
          else foldSolve (Solve po geom jump_thresh roundi f)
            (transitions po geom jump_thresh roundi s) (DPSubSolution.ofScore Score.negInf)
            ({ dp with cache_lookups := dp.cache_lookups + 1, cur_depth := dp.cur_depth + 1,
                       max_depth := max dp.max_depth (dp.cur_depth + 1) } : ManhattanDP)) =
            some (value po geom jump_thresh roundi s, dp1) ∧
          CacheOK po geom jump_thresh roundi dp1.cache ∧
          (∀ x, (dp.cache.get x).score.isnan = false → (dp1.cache.get x).score.isnan = false) ∧
          (s.col ≠ 0 → ∀ t ∈ transitions po geom jump_thresh roundi s,
            (dp1.cache.get t.1).score.isnan = false) := by
        by_cases h0 : s.col = 0
        · rw [if_pos h0]
          have hval : value po geom jump_thresh roundi s = ⟨Score.fin 0, DPState.none⟩ := by
            rw [value_eq]
            unfold recurrence
            rw [if_pos h0]
          rw [hval]
          exact ⟨_, rfl, hdp, fun _ h => h, fun h => absurd h0 h⟩
        · rw [if_neg h0]
          obtain ⟨dp1, h1, h2, h3, h4⟩ := foldSolve_ok po geom jump_thresh roundi
            (Solve po geom jump_thresh roundi f) (transitions po geom jump_thresh roundi s)
            (fun t ht d hd => ih t.1 d
              (by have := rank_lt po geom jump_thresh roundi s t ht; omega) hd)
            (DPSubSolution.ofScore Score.negInf)
            ({ dp with cache_lookups := dp.cache_lookups + 1, cur_depth := dp.cur_depth + 1,
                       max_depth := max dp.max_depth (dp.cur_depth + 1) } : ManhattanDP) hdp
          refine ⟨dp1, ?_, h2, h3, fun _ => h4⟩
          rw [h1, value_eq]
          conv_rhs => unfold recurrence
          rw [if_neg h0]
      obtain ⟨dp1, k1, k2, k3, k4⟩ := key
      rw [k1]
      simp only
      have hv := value_not_nan po geom jump_thresh roundi s
      refine ⟨_, rfl, ?_, ?_, ?_⟩
      · intro x hx
        simp only [DPCache.get_set] at hx ⊢
        by_cases hxs : x = s
        · subst hxs
          simp only [if_true]
          refine ⟨trivial, fun h0 t ht => ?_⟩
          split_ifs
          · exact hv
          · exact k4 h0 t ht
        · simp only [if_neg hxs] at hx ⊢
          obtain ⟨e1, e2⟩ := k2 x hx
          refine ⟨e1, fun h0 t ht => ?_⟩
          split_ifs
          · exact hv
          · exact e2 h0 t ht
      · intro x hx
        simp only [DPCache.get_set]
        split_ifs
        · exact hv
        · exact k3 x hx
      · simp only [DPCache.get_set, if_true]
        exact hv
    · -- a hit
      have hnn : (dp.cache.get s).score.isnan = false := by
        cases h : (dp.cache.get s).score.isnan
        · rfl
        · exact absurd h hnan
      have hfind : dp.cache.find s = some (dp.cache.get s) := by
        unfold DPCache.find
        rw [if_neg hnan]
      simp only [hfind]
      rw [(hdp s hnn).1]
      exact ⟨_, rfl, hdp, fun _ h => h, hnn⟩

/-- The direction of a state reached by a move is one of the four. -/
theorem transitions_dir (po : DPPayoffs) (geom : DPGeometry) (jump_thresh : ℚ) (roundi : ℚ → Int)
    (s : DPState) (t : DPState × ℚ) (ht : t ∈ transitions po geom jump_thresh roundi s) :
    t.1.dir = DIR_IN ∨ t.1.dir = DIR_OUT ∨ t.1.dir = DIR_UP ∨ t.1.dir = DIR_DOWN := by
  rcases dir_cases po geom jump_thresh roundi s t ht with hs | hs | hs
  · obtain ⟨_, _, _, hd⟩ := transitions_in po geom jump_thresh roundi s hs t ht
    rcases hd with ⟨hd, _⟩ | ⟨hd | hd, _⟩ <;> simp [hd]
  · obtain ⟨_, _, _, hd⟩ := transitions_vert po geom jump_thresh roundi s hs t ht
    rcases hd with ⟨hd, _⟩ | ⟨hd, _⟩
    · simp [hd]
    · rcases hs with hs | hs <;> simp [hd, hs]
  · obtain ⟨_, j, _, _, _, _, hd, _, _⟩ := transitions_out po geom jump_thresh roundi s hs t ht
    rcases hd with hd | hd <;> simp [hd]

/-- No move leads to the sentinel `DPState::none`. -/
theorem transitions_ne_none (po : DPPayoffs) (geom : DPGeometry) (jump_thresh : ℚ)
    (roundi : ℚ → Int) (s : DPState) (t : DPState × ℚ)
    (ht : t ∈ transitions po geom jump_thresh roundi s) : t.1 ≠ DPState.none := by
  intro h
  have hd := transitions_dir po geom jump_thresh roundi s t ht
  rw [h] at hd
  simp [DPState.none] at hd

/-- The three shapes of the value of a state: a base case, an infeasible
state, or the first move offering the greatest score. -/
theorem value_cases (po : DPPayoffs) (geom : DPGeometry) (jump_thresh : ℚ) (roundi : ℚ → Int)
    (s : DPState) :
    (s.col = 0 ∧ value po geom jump_thresh roundi s = ⟨Score.fin 0, DPState.none⟩) ∨
    (s.col ≠ 0 ∧ value po geom jump_thresh roundi s = DPSubSolution.ofScore Score.negInf ∧
      ∀ u ∈ transitions po geom jump_thresh roundi s,
        (offer (value po geom jump_thresh roundi) u).val = ⊥) ∨
    (s.col ≠ 0 ∧ ∃ l1 t l2, transitions po geom jump_thresh roundi s = l1 ++ t :: l2 ∧
      value po geom jump_thresh roundi s = ⟨offer (value po geom jump_thresh roundi) t, t.1⟩ ∧
      ⊥ < (offer (value po geom jump_thresh roundi) t).val ∧
      (∀ u ∈ l1, (offer (value po geom jump_thresh roundi) u).val <
        (offer (value po geom jump_thresh roundi) t).val) ∧
      (∀ u ∈ l2, (offer (value po geom jump_thresh roundi) u).val ≤
        (offer (value po geom jump_thresh roundi) t).val)) := by
  by_cases h0 : s.col = 0
  · left
    refine ⟨h0, ?_⟩
    rw [value_eq]
    unfold recurrence
    rw [if_pos h0]
  · right
    have hv : value po geom jump_thresh roundi s =
        bestOf (value po geom jump_thresh roundi) (transitions po geom jump_thresh roundi s)
          (DPSubSolution.ofScore Score.negInf) := by
      conv_lhs => rw [value_eq]
      unfold recurrence
      rw [if_neg h0]
    rcases bestOf_spec (value po geom jump_thresh roundi)
      (transitions po geom jump_thresh roundi s) (DPSubSolution.ofScore Score.negInf) rfl with
      ⟨h1, h2⟩ | ⟨l1, t, l2, h1, h2, h3, h4, h5⟩
    · left
      refine ⟨h0, by rw [hv, h1], fun u hu => ?_⟩
      have := h2 u hu
      simpa [DPSubSolution.ofScore, Score.val] using this
    · right
      refine ⟨h0, l1, t, l2, h1, by rw [hv, h2], ?_, h4, h5⟩
      simpa [DPSubSolution.ofScore, Score.val] using h3

/-- A state whose link is not the sentinel: the link is one of its moves, and
the move accounts for the score. -/
theorem value_src (po : DPPayoffs) (geom : DPGeometry) (jump_thresh : ℚ) (roundi : ℚ → Int)
    (s : DPState) (h : (value po geom jump_thresh roundi s).src ≠ DPState.none) :
    s.col ≠ 0 ∧ ∃ t ∈ transitions po geom jump_thresh roundi s,
      t.1 = (value po geom jump_thresh roundi s).src ∧
      (value po geom jump_thresh roundi s).score = offer (value po geom jump_thresh roundi) t ∧
      ⊥ < (value po geom jump_thresh roundi s).score.val := by
  rcases value_cases po geom jump_thresh roundi s with ⟨_, h1⟩ | ⟨_, h1, _⟩ |
    ⟨h0, l1, t, l2, h1, h2, h3, _, _⟩
  · rw [h1] at h; exact absurd rfl h
  · rw [h1] at h; exact absurd rfl h
  · refine ⟨h0, t, ?_, ?_, ?_, ?_⟩
    · rw [h1]; simp
    · rw [h2]
    · rw [h2]
    · rw [h2]; exact h3

/-- A state with a finite value that is not a base case has a link. -/
theorem value_finite_src (po : DPPayoffs) (geom : DPGeometry) (jump_thresh : ℚ)
    (roundi : ℚ → Int) (s : DPState) (h0 : s.col ≠ 0)
    (h : ⊥ < (value po geom jump_thresh roundi s).score.val) :
    (value po geom jump_thresh roundi s).src ≠ DPState.none := by
  rcases value_cases po geom jump_thresh roundi s with ⟨h1, _⟩ | ⟨_, h1, _⟩ |
    ⟨_, l1, t, l2, h1, h2, _, _, _⟩
  · exact absurd h1 h0
  · rw [h1] at h
    simp [DPSubSolution.ofScore, Score.val] at h
  · rw [h2]
    exact transitions_ne_none po geom jump_thresh roundi s t (by rw [h1]; simp)

/-- The loop body of the backtrack leaves the memo table alone. -/
theorem backtrackStep_cache (geom : DPGeometry) (FillPolygon : List Vec3 → Mat Int → Int → Mat Int)
    (cur next : DPState) (out : Option DPState) (dp : ManhattanDP) :
    (backtrackStep geom FillPolygon cur next out dp).1.cache = dp.cache := by
  unfold backtrackStep
  cases out with
  | none => simp only; split_ifs <;> rfl
  | some o => simp only; split_ifs <;> rfl

/-- The chain of a state starts with that state. -/
theorem chain_succ (value : DPState → DPSubSolution) (fuel : Nat) (cur : DPState) :
    chain value (fuel + 1) cur =
      cur :: (if (value cur).src ≠ DPState.none then chain value fuel (value cur).src else []) :=
  rfl

/-- The backtrack over a sound memo table follows the links of the value
function and does not fail. -/
theorem backtrack_eq (po : DPPayoffs) (geom : DPGeometry) (jump_thresh : ℚ) (roundi : ℚ → Int)
    (FillPolygon : List Vec3 → Mat Int → Int → Mat Int) (fuel : Nat) :
    ∀ (cur : DPState) (out : Option DPState) (dp : ManhattanDP), rank geom cur < fuel →
      CacheOK po geom jump_thresh roundi dp.cache → (dp.cache.get cur).score.isnan = false →
      backtrack geom FillPolygon fuel cur out dp =
        Except.ok (stepsOver geom FillPolygon
          (chain (value po geom jump_thresh roundi) fuel cur) out dp) := by
  induction fuel with
  | zero => intro cur out dp h; omega
  | succ fuel ih =>
    intro cur out dp hrank hdp hnn
    unfold backtrack
    have hget := (hdp cur hnn).1
    have hfind : (dp.cache.find cur).isNone = false := by
      unfold DPCache.find
      rw [hnn]
      rfl
    simp only [hfind, hget, chain_succ, stepsOver]
    by_cases hsrc : (value po geom jump_thresh roundi cur).src = DPState.none
    · simp [hsrc, stepsOver]
    · obtain ⟨h0, t, ht, hts, _, _⟩ := value_src po geom jump_thresh roundi cur hsrc
      have hlt : rank geom (value po geom jump_thresh roundi cur).src < fuel := by
        have := rank_lt po geom jump_thresh roundi cur t ht
        rw [hts] at this
        omega
      obtain ⟨f1, hf1⟩ : ∃ f1, fuel = f1 + 1 := ⟨fuel - 1, by omega⟩
      have hhead : (chain (value po geom jump_thresh roundi) fuel
          (value po geom jump_thresh roundi cur).src).head?.getD DPState.none =
          (value po geom jump_thresh roundi cur).src := by
        rw [hf1, chain_succ]
        rfl
      simp only [ne_eq, hsrc, not_false_eq_true, if_true, hhead]
      rw [if_neg (by simp)]
      apply ih
      · exact hlt
      · rw [backtrackStep_cache]; exact hdp
      · rw [backtrackStep_cache, ← hts]
        exact (hdp cur hnn).2 h0 t ht

/-- A terminal state of `Compute`. -/
theorem mem_terminals (geom : DPGeometry) (t : DPState) :
    t ∈ terminals geom ↔
      (t.axis = 0 ∨ t.axis = 1) ∧ 0 ≤ t.row ∧ t.row < geom.grid_size.2 ∧
        t.col = geom.grid_size.1 ∧ t.dir = DIR_OUT := by
  unfold terminals
  simp only [List.mem_flatMap, List.mem_cons, List.mem_singleton, List.not_mem_nil, or_false,
    List.mem_map, List.mem_range]
  constructor
  · rintro ⟨a, ha, r, hr, rfl⟩
    refine ⟨ha, by simp, ?_, rfl, rfl⟩
    simp only
    omega
  · rintro ⟨ha, h0, hH, hc, hd⟩
    refine ⟨t.axis, ha, t.row.toNat, by omega, ?_⟩
    cases t
    simp only at h0 hH hc hd ⊢
    subst hc hd
    simp [Int.toNat_of_nonneg h0]

/-- The fuel of `Compute` exceeds the rank of every terminal state. -/
theorem rank_terminal (geom : DPGeometry) (t : DPState) (ht : t ∈ terminals geom) :
    rank geom t < solveFuel geom := by
  obtain ⟨_, _, _, hc, hd⟩ := (mem_terminals geom t).1 ht
  unfold rank solveFuel
  simp only [hc, hd]
  simp
  have : geom.grid_size.1.toNat * (geom.grid_size.2.toNat + 4) ≤
      (geom.grid_size.1.toNat + 1) * (geom.grid_size.2.toNat + 4) :=
    Nat.mul_le_mul_right _ (Nat.le_succ _)
  omega

/-- The search loops of `Compute` over a sound memo table: they do not run out
of fuel, and they compute `searchPure`. -/
theorem searchLoop_ok (po : DPPayoffs) (geom : DPGeometry) (jump_thresh : ℚ) (roundi : ℚ → Int)
    (l : List DPState) (hl : ∀ t ∈ l, rank geom t < solveFuel geom) :
    ∀ (best : DPSubSolution) (feasible : Bool) (dp : ManhattanDP),
      CacheOK po geom jump_thresh roundi dp.cache →
      ∃ dp1, searchLoop po geom jump_thresh roundi l (best, feasible, dp) =
          some ((searchPure (value po geom jump_thresh roundi) po.wall_penalty l
                  (best, feasible)).1,
                (searchPure (value po geom jump_thresh roundi) po.wall_penalty l
                  (best, feasible)).2, dp1) ∧
        CacheOK po geom jump_thresh roundi dp1.cache ∧
        (∀ x, (dp.cache.get x).score.isnan = false → (dp1.cache.get x).score.isnan = false) ∧
        (∀ t ∈ l, (dp1.cache.get t).score.isnan = false) := by
  induction l with
  | nil =>
    intro best feasible dp hdp
    exact ⟨dp, rfl, hdp, fun _ h => h, by simp⟩
  | cons t rest ih =>
    intro best feasible dp hdp
    obtain ⟨dp1, h1, h2, h3, h4⟩ := Solve_ok po geom jump_thresh roundi (solveFuel geom) t dp
      (hl t (List.mem_cons_self _ _)) hdp
    obtain ⟨dp2, k1, k2, k3, k4⟩ := ih (fun u hu => hl u (List.mem_cons_of_mem _ hu))
      (best.ReplaceIfSuperior (value po geom jump_thresh roundi t) t (-po.wall_penalty)).1
      ((best.ReplaceIfSuperior (value po geom jump_thresh roundi t) t (-po.wall_penalty)).2 ||
        feasible) dp1 h2
    refine ⟨dp2, ?_, k2, fun x hx => k3 x (h3 x hx), ?_⟩
    · simp only [searchLoop, h1, searchPure]
      exact k1
    · intro u hu
      rcases List.mem_cons.1 hu with rfl | hu
      · exact k3 _ h4
      · exact k4 u hu

/-- A memo table that has just been reset is sound. -/
theorem CacheOK_reset (po : DPPayoffs) (geom : DPGeometry) (jump_thresh : ℚ) (roundi : ℚ → Int)
    (c : DPCache) (grid_size : Int × Int) :
    CacheOK po geom jump_thresh roundi (c.reset grid_size) := by
  intro x hx
  simp [DPCache.reset, DPCache.clear, DPCache.get, DPSubSolution.default, Score.isnan] at hx

/-- The search part of `Compute`: it does not run out of fuel; it fails exactly
when `isFeasible` is false and otherwise calls `PopulateSolution` on
`bestTerminal` with a sound memo table that holds every terminal state. -/
theorem Compute_search (roundi : ℚ → Int) (FillPolygon : List Vec3 → Mat Int → Int → Mat Int)
    (po : DPPayoffs) (geom : DPGeometry) (dp : ManhattanDP) :
    ∃ dp1, CacheOK po geom dp.jump_thresh roundi dp1.cache ∧
      (∀ t ∈ terminals geom, (dp1.cache.get t).score.isnan = false) ∧
      Compute roundi FillPolygon po geom dp =
        if isFeasible po geom dp.jump_thresh roundi = true then
          PopulateSolution geom roundi FillPolygon (bestTerminal po geom dp.jump_thresh roundi) dp1
        else Except.error DPError.infeasible := by
  obtain ⟨dp1, h1, h2, _, h4⟩ := searchLoop_ok po geom dp.jump_thresh roundi (terminals geom)
    (rank_terminal geom) (DPSubSolution.ofScore Score.negInf) false
    ({ dp with cache_lookups := 0, cache_hits := 0, cache := dp.cache.reset geom.grid_size,
               max_depth := 0, cur_depth := 0 } : ManhattanDP)
    (CacheOK_reset po geom dp.jump_thresh roundi dp.cache geom.grid_size)
  refine ⟨dp1, h2, h4, ?_⟩
  unfold Compute
  simp only
  rw [h1]
  simp only [isFeasible, bestTerminal]
  cases hf : (searchPure (value po geom dp.jump_thresh roundi) po.wall_penalty (terminals geom)
      (DPSubSolution.ofScore Score.negInf, false)).2 <;> simp

theorem searchPure_fst (value : DPState → DPSubSolution) (wp : ℚ) (l : List DPState)
    (b : DPSubSolution) (f : Bool) :
    (searchPure value wp l (b, f)).1 = bestOf value (l.map fun t => (t, -wp)) b := by
  induction l generalizing b f with
  | nil => rfl
  | cons t rest ih =>
    simp only [searchPure, List.map_cons, bestOf]
    exact ih _ _

/-- The score kept by `bestOf` is at least the initial one. -/
theorem bestOf_ge (value : DPState → DPSubSolution) (l : List (DPState × ℚ))
    (b : DPSubSolution) (hb : b.score.isnan = false) :
    b.score.val ≤ (bestOf value l b).score.val := by
  rcases bestOf_spec value l b hb with ⟨h1, _⟩ | ⟨_, t, _, _, h2, h3, _, _⟩
  · rw [h1]
  · rw [h2]; exact le_of_lt h3

theorem searchPure_snd (value : DPState → DPSubSolution) (wp : ℚ) (l : List DPState)
    (b : DPSubSolution) (f : Bool) (hb : b.score.isnan = false) :
    (searchPure value wp l (b, f)).2 =
      (f || decide (b.score.val < (bestOf value (l.map fun t => (t, -wp)) b).score.val)) := by
  induction l generalizing b f with
  | nil => simp [searchPure, bestOf]
  | cons t rest ih =>
    simp only [searchPure, List.map_cons, bestOf]
    rw [ih _ _ (replace_not_nan _ _ _ _ hb)]
    have hge := bestOf_ge value (rest.map fun t => (t, -wp))
      (b.ReplaceIfSuperior (value t) t (-wp)).1 (replace_not_nan _ _ _ _ hb)
    unfold DPSubSolution.ReplaceIfSuperior at hge ⊢
    by_cases hgt : ((value t).score.add (-wp)).gt b.score = true
    · simp only [hgt, if_true] at hge ⊢
      have hlt := (Score.gt_iff _ _ hb).1 hgt
      have : b.score.val < (bestOf value (rest.map fun t => (t, -wp))
          ⟨(value t).score.add (-wp), t⟩).score.val := lt_of_lt_of_le hlt hge
      simp [this]
    · simp only [hgt] at hge ⊢
      simp

/-- The outcome of the search loops of `Compute`: either no terminal state has a
score above negative infinity once a wall penalty is subtracted, or the best
sub-solution is the first terminal state attaining the greatest such score. -/
theorem search_cases (po : DPPayoffs) (geom : DPGeometry) (jump_thresh : ℚ) (roundi : ℚ → Int) :
    (isFeasible po geom jump_thresh roundi = false ∧
      ∀ t ∈ terminals geom,
        ((value po geom jump_thresh roundi t).score.add (-po.wall_penalty)).val = ⊥) ∨
    (isFeasible po geom jump_thresh roundi = true ∧
      ∃ l1 t l2, terminals geom = l1 ++ t :: l2 ∧
        bestTerminal po geom jump_thresh roundi =
          ⟨(value po geom jump_thresh roundi t).score.add (-po.wall_penalty), t⟩ ∧
        ⊥ < ((value po geom jump_thresh roundi t).score.add (-po.wall_penalty)).val ∧
        (∀ u ∈ l1, ((value po geom jump_thresh roundi u).score.add (-po.wall_penalty)).val <
          ((value po geom jump_thresh roundi t).score.add (-po.wall_penalty)).val) ∧
        (∀ u ∈ l2, ((value po geom jump_thresh roundi u).score.add (-po.wall_penalty)).val ≤
          ((value po geom jump_thresh roundi t).score.add (-po.wall_penalty)).val)) := by
  unfold isFeasible bestTerminal
  rw [searchPure_fst, searchPure_snd _ _ _ (DPSubSolution.ofScore Score.negInf) false rfl]
  rcases bestOf_spec (value po geom jump_thresh roundi)
    ((terminals geom).map fun t => (t, -po.wall_penalty))
    (DPSubSolution.ofScore Score.negInf) rfl with ⟨h1, h2⟩ | ⟨l1, t, l2, h1, h2, h3, h4, h5⟩
  · left
    rw [h1]
    refine ⟨by simp, fun t ht => ?_⟩
    have := h2 (t, -po.wall_penalty) (List.mem_map.2 ⟨t, ht, rfl⟩)
    simpa [offer, DPSubSolution.ofScore, Score.val] using this
  · right
    rw [h2]
    have h3' : (⊥ : WithBot ℚ) < (offer (value po geom jump_thresh roundi) t).val := by
      simpa [DPSubSolution.ofScore, Score.val] using h3
    refine ⟨by simpa [DPSubSolution.ofScore, Score.val] using h3', ?_⟩
    obtain ⟨m1, m2, hm, hm1, hm2⟩ := List.map_eq_append_iff.1 h1
    obtain ⟨t0, m3, hm3, ht0, hm4⟩ := List.map_eq_cons_iff.1 hm2
    subst ht0
    refine ⟨m1, t0, m3, by rw [hm, hm3], rfl, h3', ?_, ?_⟩
    · intro u hu
      exact h4 (u, -po.wall_penalty) (by rw [← hm1]; exact List.mem_map.2 ⟨u, hu, rfl⟩)
    · intro u hu
      exact h5 (u, -po.wall_penalty) (by rw [← hm4]; exact List.mem_map.2 ⟨u, hu, rfl⟩)

theorem backtrackStep_full (geom : DPGeometry) (FillPolygon : List Vec3 → Mat Int → Int → Mat Int)
    (cur next : DPState) (out : Option DPState) (dp : ManhattanDP) :
    (backtrackStep geom FillPolygon cur next out dp).1.full_backtrack =
      dp.full_backtrack ++ [cur] := by
  unfold backtrackStep
  cases out with
  | none => simp only; split_ifs <;> rfl
  | some o => simp only; split_ifs <;> rfl

theorem stepsOver_full (geom : DPGeometry) (FillPolygon : List Vec3 → Mat Int → Int → Mat Int)
    (l : List DPState) (out : Option DPState) (dp : ManhattanDP) :
    (stepsOver geom FillPolygon l out dp).full_backtrack = dp.full_backtrack ++ l := by
  induction l generalizing out dp with
  | nil => simp [stepsOver]
  | cons s rest ih =>
    simp only [stepsOver]
    rw [ih, backtrackStep_full]
    simp

/-- `PopulateSolution` over a sound memo table that holds the state it starts
from: the backtrack follows the links of the value function. -/
theorem PopulateSolution_eq (po : DPPayoffs) (geom : DPGeometry) (jump_thresh : ℚ)
    (roundi : ℚ → Int) (FillPolygon : List Vec3 → Mat Int → Int → Mat Int)
    (best : DPSubSolution) (dp : ManhattanDP)
    (hdp : CacheOK po geom jump_thresh roundi dp.cache)
    (hnn : (dp.cache.get best.src).score.isnan = false)
    (hrank : rank geom best.src < solveFuel geom) :
    PopulateSolution geom roundi FillPolygon best dp =
      finishPath geom roundi
        (stepsOver geom FillPolygon
          (chain (value po geom jump_thresh roundi) (solveFuel geom) best.src) Option.none
          (initBacktrack geom best dp)) := by
  unfold PopulateSolution
  simp only
  have h := backtrack_eq po geom jump_thresh roundi FillPolygon (solveFuel geom) best.src
    Option.none (initBacktrack geom best dp) hrank hdp hnn
  unfold initBacktrack at h
  rw [h]
  rfl

/-- The value of a state is at least what any of its moves offers. -/
theorem value_ge_offer (po : DPPayoffs) (geom : DPGeometry) (jump_thresh : ℚ) (roundi : ℚ → Int)
    (s : DPState) (h0 : s.col ≠ 0) (t : DPState × ℚ)
    (ht : t ∈ transitions po geom jump_thresh roundi s) :
    (offer (value po geom jump_thresh roundi) t).val ≤
      (value po geom jump_thresh roundi s).score.val := by
  rcases value_cases po geom jump_thresh roundi s with ⟨h1, _⟩ | ⟨_, h1, h2⟩ |
    ⟨_, l1, u, l2, h1, h2, h3, h4, h5⟩
  · exact absurd h1 h0
  · rw [h2 t ht]; exact bot_le
  · rw [h2]
    rw [h1] at ht
    rcases List.mem_append.1 ht with hm | hm
    · exact le_of_lt (h4 t hm)
    · rcases List.mem_cons.1 hm with rfl | hm
      · exact le_refl _
      · exact h5 t hm

/-- No admissible chain scores more than the value of its first state. -/
theorem admissible_le (po : DPPayoffs) (geom : DPGeometry) (jump_thresh : ℚ) (roundi : ℚ → Int)
    (l : List DPState) (v : ℚ) (h : Admissible po geom jump_thresh roundi l v) :
    ∀ s ∈ l.head?, ((v : ℚ) : WithBot ℚ) ≤ (value po geom jump_thresh roundi s).score.val := by
  induction h with
  | base s h0 =>
    intro x hx
    simp only [List.head?_cons, Option.mem_def, Option.some.injEq] at hx
    subst hx
    rcases value_cases po geom jump_thresh roundi s with ⟨_, h1⟩ | ⟨h1, _⟩ | ⟨h1, _⟩
    · rw [h1]; exact le_refl _
    · exact absurd h0 h1
    · exact absurd h0 h1
  | step s n rest d v h0 ht _ ih =>
    intro x hx
    simp only [List.head?_cons, Option.mem_def, Option.some.injEq] at hx
    subst hx
    have h1 := ih n (by simp)
    have h2 := value_ge_offer po geom jump_thresh roundi s h0 (n, d) ht
    refine le_trans ?_ h2
    unfold offer
    rw [Score.val_add]
    simp only
    rw [WithBot.coe_add]
    exact add_le_add_right h1 _

/-- The chain of links from a state with a finite value is admissible and
scores exactly that value. -/
theorem chain_admissible (po : DPPayoffs) (geom : DPGeometry) (jump_thresh : ℚ)
    (roundi : ℚ → Int) (fuel : Nat) : ∀ s : DPState, rank geom s < fuel →
      ⊥ < (value po geom jump_thresh roundi s).score.val →
      ∃ q, (value po geom jump_thresh roundi s).score = Score.fin q ∧
        Admissible po geom jump_thresh roundi
          (chain (value po geom jump_thresh roundi) fuel s) q := by
  induction fuel with
  | zero => intro s h; omega
  | succ fuel ih =>
    intro s hrank hfin
    rw [chain_succ]
    by_cases h0 : s.col = 0
    · rcases value_cases po geom jump_thresh roundi s with ⟨_, h1⟩ | ⟨h1, _⟩ | ⟨h1, _⟩
      · refine ⟨0, by rw [h1], ?_⟩
        rw [h1]
        simp only [ne_eq, not_true_eq_false, if_false]
        exact Admissible.base s h0
      · exact absurd h0 h1
      · exact absurd h0 h1
    · have hsrc := value_finite_src po geom jump_thresh roundi s h0 hfin
      obtain ⟨_, t, ht, hts, hsc, _⟩ := value_src po geom jump_thresh roundi s hsrc
      have hlt : rank geom t.1 < fuel := by
        have := rank_lt po geom jump_thresh roundi s t ht
        omega
      have hfin' : ⊥ < (value po geom jump_thresh roundi t.1).score.val := by
        rw [hsc] at hfin
        unfold offer at hfin
        rw [Score.val_add] at hfin
        by_contra hc
        rw [not_bot_lt_iff] at hc
        rw [hc] at hfin
        simp at hfin
      obtain ⟨q, hq, hadm⟩ := ih t.1 hlt hfin'
      refine ⟨q + t.2, ?_, ?_⟩
      · rw [hsc]
        unfold offer
        rw [hq]
        rfl
      · rw [if_pos hsrc, ← hts]
        obtain ⟨f1, hf1⟩ : ∃ f1, fuel = f1 + 1 := ⟨fuel - 1, by omega⟩
        rw [hf1, chain_succ] at hadm ⊢
        exact Admissible.step s t.1 _ t.2 q h0 ht hadm

/-- In the leftward walk, the kink move into `DIR_OUT` at a column comes after
the move into `DIR_IN` at the same point with the same delta. -/
theorem walkTrans_kink_after (po : DPPayoffs) (geom : DPGeometry) (jump_thresh : ℚ)
    (roundi : ℚ → Int) (state : DPState) (vpt_col : Int) (m c : ℚ) (k : Nat) :
    ∀ (delta_score : ℚ) (l1 : List (DPState × ℚ)) (t : DPState × ℚ) (l2 : List (DPState × ℚ)),
      walkTrans po geom jump_thresh roundi state vpt_col m c k delta_score = l1 ++ t :: l2 →
      t.1.dir = DIR_OUT → (({ t.1 with dir := DIR_IN } : DPState), t.2) ∈ l1 := by
  induction k with
  | zero =>
    intro delta_score l1 t l2 h
    simp [walkTrans] at h
  | succ k ih =>
    intro delta_score l1 t l2 h hd
    unfold walkTrans at h
    simp only at h
    split_ifs at h with h1 h2 h3
    · simp at h
    · simp at h
    · cases l1 with
      | nil =>
        simp only [List.nil_append, List.cons.injEq] at h
        rw [← h.1] at hd
        simp at hd
      | cons a l1 =>
        simp only [List.cons_append, List.cons.injEq] at h
        obtain ⟨ha, hrest⟩ := h
        cases l1 with
        | nil =>
          simp only [List.nil_append, List.cons.injEq] at hrest
          rw [← hrest.1, ← ha]
          simp
        | cons b l1 =>
          simp only [List.cons_append, List.cons.injEq] at hrest
          have := hrest.2
          simp at this
    · cases l1 with
      | nil =>
        simp only [List.nil_append, List.cons.injEq] at h
        rw [← h.1] at hd
        simp at hd
      | cons a l1 =>
        simp only [List.cons_append, List.cons.injEq] at h
        exact List.mem_cons_of_mem _ (ih _ l1 t l2 h.2 hd)

/-- The link of a `DIR_OUT` state is never a `DIR_OUT` state in column 0: the
`DIR_IN` state at the same point is tried first and offers the same score. -/
theorem value_src_not_out0 (po : DPPayoffs) (geom : DPGeometry) (jump_thresh : ℚ)
    (roundi : ℚ → Int) (s : DPState) (hs : s.dir = DIR_OUT)
    (hsrc : (value po geom jump_thresh roundi s).src ≠ DPState.none) :
    ¬ ((value po geom jump_thresh roundi s).src.dir = DIR_OUT ∧
       (value po geom jump_thresh roundi s).src.col = 0) := by
  rintro ⟨hd, hc⟩
  rcases value_cases po geom jump_thresh roundi s with ⟨_, h1⟩ | ⟨_, h1, _⟩ |
    ⟨h0, l1, t, l2, h1, h2, h3, h4, _⟩
  · rw [h1] at hsrc; exact hsrc rfl
  · rw [h1] at hsrc; exact hsrc rfl
  · rw [h2] at hd hc
    simp only at hd hc
    have hne : s.dir ≠ DIR_IN := by rw [hs]; decide
    have hne2 : ¬ (s.dir = DIR_UP ∨ s.dir = DIR_DOWN) := by rw [hs]; decide
    unfold transitions at h1
    rw [if_neg hne, if_neg hne2, if_pos hs] at h1
    simp only at h1
    split_ifs at h1 with h5
    · have hmem := walkTrans_kink_after _ _ _ _ _ _ _ _ _ _ l1 t l2 h1 hd
      have := h4 _ hmem
      unfold offer at this
      simp only at this
      have e1 : value po geom jump_thresh roundi
          { row := t.1.row, col := t.1.col, axis := t.1.axis, dir := DIR_IN } =
          ⟨Score.fin 0, DPState.none⟩ := by
        rcases value_cases po geom jump_thresh roundi
          { row := t.1.row, col := t.1.col, axis := t.1.axis, dir := DIR_IN } with
          ⟨_, e⟩ | ⟨e, _⟩ | ⟨e, _⟩
        · exact e
        · exact absurd hc e
        · exact absurd hc e
      have e2 : value po geom jump_thresh roundi t.1 = ⟨Score.fin 0, DPState.none⟩ := by
        rcases value_cases po geom jump_thresh roundi t.1 with ⟨_, e⟩ | ⟨e, _⟩ | ⟨e, _⟩
        · exact e
        · exact absurd hc e
        · exact absurd hc e
      rw [e1, e2] at this
      exact lt_irrefl _ this
    · simp at h1

theorem VecI.length_set (v : VecI) (i a : Int) : (VecI.set v i a).length = v.length := by
  unfold VecI.set
  split_ifs <;> simp

theorem VecI.get_of_set (v : VecI) (i a j : Int) (h0 : 0 ≤ i) (h1 : i < v.length) :
    VecI.get (VecI.set v i a) j = if j = i then a else VecI.get v j := by
  unfold VecI.set VecI.get
  rw [if_pos h0]
  by_cases hj : j = i
  · subst hj
    rw [if_pos h0, if_pos rfl]
    have : j.toNat < v.length := by omega
    simp [List.getD_eq_getElem?_getD, List.getElem?_set, this]
  · rw [if_neg hj]
    split_ifs with h2
    · have : i.toNat ≠ j.toNat := by omega
      simp [List.getD_eq_getElem?_getD, List.getElem?_set, this]
    · rfl

/-- The columns written by `fillCols`, and those it leaves alone. -/
theorem fillCols_spec (roundi : ℚ → Int) (axis : Int) (m c : ℚ) (n : Nat) :
    ∀ (x : Int) (p : VecI × VecI), (n : Int) ≤ x + 1 → x < p.1.length → x < p.2.length →
      (fillCols roundi axis m c n x p).1.length = p.1.length ∧
      (fillCols roundi axis m c n x p).2.length = p.2.length ∧
      ∀ j : Int,
        (x - n < j ∧ j ≤ x →
          VecI.get (fillCols roundi axis m c n x p).1 j = roundi (m * (j : ℚ) + c) ∧
          VecI.get (fillCols roundi axis m c n x p).2 j = axis) ∧
        (¬ (x - n < j ∧ j ≤ x) →
          VecI.get (fillCols roundi axis m c n x p).1 j = VecI.get p.1 j ∧
          VecI.get (fillCols roundi axis m c n x p).2 j = VecI.get p.2 j) := by
  induction n with
  | zero =>
    intro x p _ _ _
    refine ⟨rfl, rfl, fun j => ⟨fun h => ?_, fun _ => ⟨rfl, rfl⟩⟩⟩
    simp only [Nat.cast_zero, sub_zero] at h
    omega
  | succ n ih =>
    intro x p hn h1 h2
    have hx0 : 0 ≤ x := by push_cast at hn; omega
    unfold fillCols
    obtain ⟨e1, e2, e3⟩ := ih (x - 1)
      (VecI.set p.1 x (roundi (m * (x : ℚ) + c)), VecI.set p.2 x axis)
      (by push_cast at hn; omega) (by rw [VecI.length_set]; omega)
      (by rw [VecI.length_set]; omega)
    simp only [VecI.length_set] at e1 e2
    refine ⟨e1, e2, fun j => ⟨fun h => ?_, fun h => ?_⟩⟩
    · by_cases hjx : j = x
      · subst hjx
        have := (e3 j).2 (by omega)
        rw [this.1, this.2, VecI.get_of_set _ _ _ _ hx0 h1, VecI.get_of_set _ _ _ _ hx0 h2]
        simp
      · exact (e3 j).1 (by push_cast at h; omega)
    · have hjx : j ≠ x := by
        intro hjx; apply h; subst hjx; push_cast; omega
      have := (e3 j).2 (by push_cast at h; omega)
      rw [this.1, this.2, VecI.get_of_set _ _ _ _ hx0 h1, VecI.get_of_set _ _ _ _ hx0 h2]
      simp [hjx]

/-- `AxisOK` is kept by every move. -/
theorem AxisOK_step (po : DPPayoffs) (geom : DPGeometry) (jump_thresh : ℚ) (roundi : ℚ → Int)
    (s : DPState) (t : DPState × ℚ) (ht : t ∈ transitions po geom jump_thresh roundi s)
    (hs : AxisOK s) : AxisOK t.1 := by
  rcases dir_cases po geom jump_thresh roundi s t ht with hd | hd | hd
  · obtain ⟨_, _, ha, _⟩ := transitions_in po geom jump_thresh roundi s hd t ht
    exact Or.inr ha
  · obtain ⟨_, ha, _, _⟩ := transitions_vert po geom jump_thresh roundi s hd t ht
    rcases hs with hs | hs
    · rcases hd with hd | hd <;> rw [hd] at hs <;> exact absurd hs (by decide)
    · right; rw [ha]; exact hs
  · obtain ⟨_, j, _, _, _, ha, _, _, _⟩ := transitions_out po geom jump_thresh roundi s hd t ht
    rcases hs with hs | hs
    · rw [hd] at hs; exact absurd hs (by decide)
    · right; rw [ha]; exact hs

/-- The path written by `pathLoop` along an admissible chain: the loop does not
fail, the columns at or beyond the first state are left alone, every column
before it receives a row inside the grid and off the horizon and an axis 0 or
1, and the cost-field values along the path add up to `pathCost`. -/
theorem pathLoop_spec (po : DPPayoffs) (geom : DPGeometry) (jump_thresh : ℚ) (roundi : ℚ → Int)
    (l : List DPState) (q : ℚ) (h : Admissible po geom jump_thresh roundi l q) :
    ∀ (s : DPState), s ∈ l.head? → AxisOK s → s.col ≤ geom.grid_size.1 →
      ∀ p : VecI × VecI, p.1.length = geom.grid_size.1.toNat →
        p.2.length = geom.grid_size.1.toNat →
        ∃ p1, pathLoop geom roundi l p = Except.ok p1 ∧
          p1.1.length = geom.grid_size.1.toNat ∧ p1.2.length = geom.grid_size.1.toNat ∧
          0 ≤ s.col ∧
          (∀ j : Int, s.col ≤ j → VecI.get p1.1 j = VecI.get p.1 j ∧
            VecI.get p1.2 j = VecI.get p.2 j) ∧
          (∀ j : Int, 0 ≤ j → j < s.col →
            0 ≤ VecI.get p1.1 j ∧ VecI.get p1.1 j < geom.grid_size.2 ∧
            VecI.get p1.1 j ≠ geom.horizon_row ∧
            (VecI.get p1.2 j = 0 ∨ VecI.get p1.2 j = 1)) ∧
          ∑ x ∈ Finset.Ico 0 s.col.toNat,
            (po.wall_scores (VecI.get p1.2 (x : Int))).elem (VecI.get p1.1 (x : Int)) (x : Int) =
            pathCost po geom roundi l := by
  induction h with
  | base s h0 =>
    intro x hx _ _ p hp1 hp2
    simp only [List.head?_cons, Option.mem_def, Option.some.injEq] at hx
    subst hx
    refine ⟨p, rfl, hp1, hp2, by omega, fun j _ => ⟨rfl, rfl⟩, fun j hj0 hj1 => by omega, ?_⟩
    simp [h0, pathCost]
  | step s n rest d v h0 ht hadm ih =>
    intro x hx hax hW p hp1 hp2
    simp only [List.head?_cons, Option.mem_def, Option.some.injEq] at hx
    subst hx
    have haxn : AxisOK n := AxisOK_step po geom jump_thresh roundi s (n, d) ht hax
    rcases dir_cases po geom jump_thresh roundi s (n, d) ht with hd | hd | hd
    · -- DIR_IN: no column is written
      obtain ⟨_, hc, _, _⟩ := transitions_in po geom jump_thresh roundi s hd (n, d) ht
      simp only at hc
      have hne : s.dir ≠ DIR_OUT := by rw [hd]; decide
      obtain ⟨p1, k1, k2, k3, k4, k5, k6, k7⟩ := ih n (by simp) haxn (by omega) p hp1 hp2
      refine ⟨p1, ?_, k2, k3, by omega, ?_, ?_, ?_⟩
      · unfold pathLoop
        rw [if_neg (by simpa using hW), if_neg hne]
        exact k1
      · intro j hj; exact k5 j (by omega)
      · intro j hj0 hj1; exact k6 j hj0 (by omega)
      · rw [← hc, k7]
        simp [pathCost, hne]
    · -- DIR_UP / DIR_DOWN: no column is written
      obtain ⟨hc, _, _, _⟩ := transitions_vert po geom jump_thresh roundi s hd (n, d) ht
      simp only at hc
      have hne : s.dir ≠ DIR_OUT := by rcases hd with hd | hd <;> rw [hd] <;> decide
      obtain ⟨p1, k1, k2, k3, k4, k5, k6, k7⟩ := ih n (by simp) haxn (by omega) p hp1 hp2
      refine ⟨p1, ?_, k2, k3, by omega, ?_, ?_, ?_⟩
      · unfold pathLoop
        rw [if_neg (by simpa using hW), if_neg hne]
        exact k1
      · intro j hj; exact k5 j (by omega)
      · intro j hj0 hj1; exact k6 j hj0 (by omega)
      · rw [← hc, k7]
        simp [pathCost, hne]
    · -- DIR_OUT: the columns from `n.col` to `s.col - 1` are written
      obtain ⟨_, j, hj, hc, _, _, _, hgood, _⟩ :=
        transitions_out po geom jump_thresh roundi s hd (n, d) ht
      simp only at hc
      have hs0 : 0 ≤ s.col := by omega
      have hax' : s.axis = 0 ∨ s.axis = 1 := by
        rcases hax with hax | hax
        · rw [hd] at hax; exact absurd hax (by decide)
        · exact hax
      have hfill := fillCols_spec roundi s.axis (lineSlope geom s) (lineOffset geom s)
        (s.col - n.col).toNat (s.col - 1) p (by omega) (by omega) (by omega)
      obtain ⟨f1, f2, f3⟩ := hfill
      obtain ⟨p1, k1, k2, k3, k4, k5, k6, k7⟩ := ih n (by simp) haxn (by omega)
        (fillCols roundi s.axis (lineSlope geom s) (lineOffset geom s)
          (s.col - n.col).toNat (s.col - 1) p) (by rw [f1]; exact hp1) (by rw [f2]; exact hp2)
      have hnew : ∀ i : Int, n.col ≤ i → i < s.col →
          VecI.get p1.1 i = lineRow geom roundi s i ∧ VecI.get p1.2 i = s.axis := by
        intro i hi0 hi1
        have a1 := k5 i hi0
        have a2 := (f3 i).1 (by omega)
        rw [a1.1, a1.2, a2.1, a2.2]
        exact ⟨rfl, rfl⟩
      refine ⟨p1, ?_, k2, k3, hs0, ?_, ?_, ?_⟩
      · unfold pathLoop
        rw [if_neg (by simpa using hW), if_pos hd]
        exact k1
      · intro i hi
        have a1 := k5 i (by omega)
        have a2 := (f3 i).2 (by omega)
        rw [a1.1, a1.2, a2.1, a2.2]
        exact ⟨rfl, rfl⟩
      · intro i hi0 hi1
        by_cases hin : i < n.col
        · exact k6 i hi0 hin
        · have a := hnew i (by omega) hi1
          have g := hgood i.toNat (by omega) (by omega)
          rw [Int.toNat_of_nonneg hi0] at g
          rw [a.1, a.2]
          exact ⟨g.2.1, g.2.2.1, g.2.2.2, hax'⟩
      · have hsplit := Finset.sum_Ico_consecutive
          (fun x : Nat => (po.wall_scores (VecI.get p1.2 (x : Int))).elem
            (VecI.get p1.1 (x : Int)) (x : Int)) (Nat.zero_le n.col.toNat)
          (show n.col.toNat ≤ s.col.toNat by omega)
        rw [← hsplit, k7]
        simp only [pathCost, if_pos hd]
        rw [add_comm]
        congr 1
        unfold segCost
        apply Finset.sum_congr rfl
        intro x hx
        rw [Finset.mem_Ico] at hx
        have a := hnew (x : Int) (by omega) (by omega)
        rw [a.1, a.2]

/-- The final check of `PopulateSolution` passes when no entry is `-1`. -/
theorem checkPath_ok (path_ys path_axes : VecI) (n : Nat) :
    ∀ x : Int, (∀ j : Int, x ≤ j → j < x + n →
        VecI.get path_ys j ≠ -1 ∧ VecI.get path_axes j ≠ -1) →
      checkPath path_ys path_axes n x = Except.ok () := by
  induction n with
  | zero => intro x _; rfl
  | succ n ih =>
    intro x h
    unfold checkPath
    have h1 := h x (le_refl _) (by push_cast; omega)
    rw [if_neg h1.1, if_neg h1.2]
    exact ih (x + 1) (fun j hj0 hj1 => h j (by omega) (by push_cast at hj1 ⊢; omega))

theorem sum_map_range (f : Nat → ℚ) (n : Nat) :
    ((List.range n).map f).sum = ∑ x ∈ Finset.Ico 0 n, f x := by
  induction n with
  | zero => simp
  | succ n ih =>
    rw [List.range_succ, List.map_append, List.sum_append, ih,
      Finset.sum_Ico_succ_top (Nat.zero_le n)]
    simp

/-- The loop body of the backtrack at a `DIR_IN` state with a pending `out`:
one more wall, one more occlusion if the link is a vertical move, and `out` is
cleared. -/
theorem backtrackStep_in (geom : DPGeometry) (FillPolygon : List Vec3 → Mat Int → Int → Mat Int)
    (cur next o : DPState) (dp : ManhattanDP) (hd : cur.dir = DIR_IN) :
    (backtrackStep geom FillPolygon cur next (some o) dp).1.solution.num_walls =
        dp.solution.num_walls + 1 ∧
    (backtrackStep geom FillPolygon cur next (some o) dp).1.solution.num_occlusions =
        dp.solution.num_occlusions + (if next.dir = DIR_UP ∨ next.dir = DIR_DOWN then 1 else 0) ∧
    (backtrackStep geom FillPolygon cur next (some o) dp).2 = Option.none := by
  unfold backtrackStep
  simp only [hd, if_true]
  split_ifs <;> simp

/-- The loop body of the backtrack at a state that closes no wall: the counts
are unchanged. -/
theorem backtrackStep_counts (geom : DPGeometry)
    (FillPolygon : List Vec3 → Mat Int → Int → Mat Int)
    (cur next : DPState) (out : Option DPState) (dp : ManhattanDP)
    (h : cur.dir ≠ DIR_IN ∨ out = Option.none) :
    (backtrackStep geom FillPolygon cur next out dp).1.solution.num_walls =
        dp.solution.num_walls ∧
    (backtrackStep geom FillPolygon cur next out dp).1.solution.num_occlusions =
        dp.solution.num_occlusions := by
  unfold backtrackStep
  cases out with
  | none => simp only; split_ifs <;> simp
  | some o =>
    have hd : cur.dir ≠ DIR_IN := by
      rcases h with h | h
      · exact h
      · simp at h
    simp [hd]

/-- The pointer `out` after the loop body of the backtrack. -/
theorem backtrackStep_out (geom : DPGeometry) (FillPolygon : List Vec3 → Mat Int → Int → Mat Int)
    (cur next : DPState) (out : Option DPState) (dp : ManhattanDP) :
    (backtrackStep geom FillPolygon cur next out dp).2 =
      if cur.dir = DIR_IN then Option.none
      else if cur.dir = DIR_OUT then (if out.isSome then out else some cur)
      else out := by
  unfold backtrackStep
  cases out with
  | none =>
    simp only
    by_cases h1 : cur.dir = DIR_OUT
    · have h2 : cur.dir ≠ DIR_IN := by rw [h1]; decide
      simp [h1]
    · by_cases h2 : cur.dir = DIR_IN
      · simp [h2]
      · simp [h1, h2]
  | some o =>
    simp only
    by_cases h2 : cur.dir = DIR_IN
    · simp [h2]
    · by_cases h1 : cur.dir = DIR_OUT
      · simp [h1]
      · simp [h1, h2]

theorem stepsOver_cons (geom : DPGeometry) (FillPolygon : List Vec3 → Mat Int → Int → Mat Int)
    (cur : DPState) (rest : List DPState) (out : Option DPState) (dp : ManhattanDP) :
    stepsOver geom FillPolygon (cur :: rest) out dp =
      stepsOver geom FillPolygon rest
        (backtrackStep geom FillPolygon cur (rest.head?.getD DPState.none) out dp).2
        (backtrackStep geom FillPolygon cur (rest.head?.getD DPState.none) out dp).1 := rfl

/-- Accounting along an admissible chain that ends in a `DIR_IN` state: the
score of the chain is the cost-field values collected by the path, minus one
wall penalty for every wall counted by the backtrack but the last, minus one
occlusion penalty for every occlusion counted. -/
theorem stepsOver_account (po : DPPayoffs) (geom : DPGeometry) (jump_thresh : ℚ)
    (roundi : ℚ → Int) (FillPolygon : List Vec3 → Mat Int → Int → Mat Int)
    (l : List DPState) (q : ℚ) (h : Admissible po geom jump_thresh roundi l q) :
    ∀ (s : DPState), s ∈ l.head? → (∀ x ∈ l.getLast?, x.dir = DIR_IN) →
      ∀ (out : Option DPState) (dp : ManhattanDP), (s.dir = DIR_IN → out.isSome = true) →
        ∃ nW nO : Int,
          (stepsOver geom FillPolygon l out dp).solution.num_walls =
            dp.solution.num_walls + nW ∧
          (stepsOver geom FillPolygon l out dp).solution.num_occlusions =
            dp.solution.num_occlusions + nO ∧
          0 ≤ nO ∧ nO + 1 ≤ nW ∧
          q = pathCost po geom roundi l - po.wall_penalty * ((nW : ℚ) - 1) -
            po.occl_penalty * (nO : ℚ) := by
  induction h with
  | base s h0 =>
    intro x hx hlast out dp hout
    simp only [List.head?_cons, Option.mem_def, Option.some.injEq] at hx
    subst hx
    have hd : s.dir = DIR_IN := hlast s (by simp)
    obtain ⟨o, ho⟩ := Option.isSome_iff_exists.1 (hout hd)
    subst ho
    obtain ⟨e1, e2, _⟩ := backtrackStep_in geom FillPolygon s DPState.none o dp hd
    refine ⟨1, 0, ?_, ?_, le_refl _, le_refl _, ?_⟩
    · rw [stepsOver_cons]
      simp only [stepsOver, List.head?_nil, Option.getD_none]
      exact e1
    · rw [stepsOver_cons]
      simp only [stepsOver, List.head?_nil, Option.getD_none]
      rw [e2]
      simp [DPState.none]
    · simp [pathCost]
  | step s n rest d v h0 ht hadm ih =>
    intro x hx hlast out dp hout
    simp only [List.head?_cons, Option.mem_def, Option.some.injEq] at hx
    subst hx
    have hlast' : ∀ x ∈ (n :: rest).getLast?, x.dir = DIR_IN := by
      intro x hx
      apply hlast x
      rw [List.getLast?_cons_cons]
      exact hx
    rw [stepsOver_cons]
    simp only [List.head?_cons, Option.getD_some]
    rcases dir_cases po geom jump_thresh roundi s (n, d) ht with hd | hd | hd
    · -- DIR_IN closes a wall
      obtain ⟨o, ho⟩ := Option.isSome_iff_exists.1 (hout hd)
      subst ho
      obtain ⟨e1, e2, e3⟩ := backtrackStep_in geom FillPolygon s n o dp hd
      obtain ⟨_, _, _, hnd⟩ := transitions_in po geom jump_thresh roundi s hd (n, d) ht
      simp only at hnd
      have hne : s.dir ≠ DIR_OUT := by rw [hd]; decide
      have hnin : n.dir ≠ DIR_IN := by
        rcases hnd with ⟨k, _⟩ | ⟨k | k, _⟩ <;> rw [k] <;> decide
      obtain ⟨nW, nO, k1, k2, k3, k4, k5⟩ := ih n (by simp) hlast'
        (backtrackStep geom FillPolygon s n (some o) dp).2
        (backtrackStep geom FillPolygon s n (some o) dp).1 (fun hc => absurd hc hnin)
      refine ⟨nW + 1, nO + (if n.dir = DIR_UP ∨ n.dir = DIR_DOWN then 1 else 0),
        ?_, ?_, ?_, ?_, ?_⟩
      · rw [k1, e1]; ring
      · rw [k2, e2]; ring
      · split_ifs <;> omega
      · split_ifs <;> omega
      · rw [k5]
        simp only [pathCost, if_neg hne, zero_add]
        rcases hnd with ⟨k, hdv⟩ | ⟨k, hdv⟩
        · have : ¬ (n.dir = DIR_UP ∨ n.dir = DIR_DOWN) := by rw [k]; decide
          rw [if_neg this, hdv]
          push_cast
          ring
        · rw [if_pos k, hdv]
          push_cast
          ring
    · -- DIR_UP / DIR_DOWN
      obtain ⟨_, _, hdv, hnd⟩ := transitions_vert po geom jump_thresh roundi s hd (n, d) ht
      simp only at hnd hdv
      have hne : s.dir ≠ DIR_OUT := by rcases hd with hd | hd <;> rw [hd] <;> decide
      have hnin' : s.dir ≠ DIR_IN := by rcases hd with hd | hd <;> rw [hd] <;> decide
      have hnin : n.dir ≠ DIR_IN := by
        rcases hnd with ⟨k, _⟩ | ⟨k, _⟩
        · rw [k]; decide
        · rw [k]; exact hnin'
      obtain ⟨e1, e2⟩ := backtrackStep_counts geom FillPolygon s n out dp (Or.inl hnin')
      obtain ⟨nW, nO, k1, k2, k3, k4, k5⟩ := ih n (by simp) hlast'
        (backtrackStep geom FillPolygon s n out dp).2
        (backtrackStep geom FillPolygon s n out dp).1 (fun hc => absurd hc hnin)
      refine ⟨nW, nO, by rw [k1, e1], by rw [k2, e2], k3, k4, ?_⟩
      rw [k5, hdv]
      simp only [pathCost, if_neg hne, zero_add]
      ring
    · -- DIR_OUT
      obtain ⟨_, j, _, hc, _, _, _, _, hdv⟩ :=
        transitions_out po geom jump_thresh roundi s hd (n, d) ht
      simp only at hc hdv
      have hnin' : s.dir ≠ DIR_IN := by rw [hd]; decide
      obtain ⟨e1, e2⟩ := backtrackStep_counts geom FillPolygon s n out dp (Or.inl hnin')
      have hout' : (backtrackStep geom FillPolygon s n out dp).2.isSome = true := by
        rw [backtrackStep_out, if_neg hnin', if_pos hd]
        split_ifs with hs
        · exact hs
        · rfl
      obtain ⟨nW, nO, k1, k2, k3, k4, k5⟩ := ih n (by simp) hlast'
        (backtrackStep geom FillPolygon s n out dp).2
        (backtrackStep geom FillPolygon s n out dp).1 (fun _ => hout')
      refine ⟨nW, nO, by rw [k1, e1], by rw [k2, e2], k3, k4, ?_⟩
      rw [k5, hdv]
      simp only [pathCost, if_pos hd]
      rw [hc]
      simp only [Int.toNat_ofNat]
      ring

/-- The chain of links from a state with a finite value ends in a `DIR_IN`
state, unless the state is itself a base case in another direction. -/
theorem chain_last_in (po : DPPayoffs) (geom : DPGeometry) (jump_thresh : ℚ)
    (roundi : ℚ → Int) (fuel : Nat) : ∀ s : DPState, rank geom s < fuel →
      ⊥ < (value po geom jump_thresh roundi s).score.val →
      (s.col = 0 → s.dir = DIR_IN) →
      ∀ x ∈ (chain (value po geom jump_thresh roundi) fuel s).getLast?, x.dir = DIR_IN := by
  induction fuel with
  | zero => intro s h; omega
  | succ fuel ih =>
    intro s hrank hfin hs x hx
    rw [chain_succ] at hx
    by_cases h0 : s.col = 0
    · rcases value_cases po geom jump_thresh roundi s with ⟨_, h1⟩ | ⟨h1, _⟩ | ⟨h1, _⟩
      · rw [h1] at hx
        simp only [ne_eq, not_true_eq_false, if_false, List.getLast?_singleton,
          Option.mem_def, Option.some.injEq] at hx
        subst hx
        exact hs h0
      · exact absurd h0 h1
      · exact absurd h0 h1
    · have hsrc := value_finite_src po geom jump_thresh roundi s h0 hfin
      obtain ⟨_, t, ht, hts, hsc, _⟩ := value_src po geom jump_thresh roundi s hsrc
      have hlt : rank geom t.1 < fuel := by
        have := rank_lt po geom jump_thresh roundi s t ht
        omega
      have hfin' : ⊥ < (value po geom jump_thresh roundi t.1).score.val := by
        rw [hsc] at hfin
        unfold offer at hfin
        rw [Score.val_add] at hfin
        by_contra hc
        rw [not_bot_lt_iff] at hc
        rw [hc] at hfin
        simp at hfin
      have hnext : t.1.col = 0 → t.1.dir = DIR_IN := by
        intro hc0
        rcases dir_cases po geom jump_thresh roundi s t ht with hd | hd | hd
        · obtain ⟨_, hc, _, _⟩ := transitions_in po geom jump_thresh roundi s hd t ht
          exact absurd (hc ▸ hc0) h0
        · obtain ⟨hc, _, _, _⟩ := transitions_vert po geom jump_thresh roundi s hd t ht
          exact absurd (hc ▸ hc0) h0
        · obtain ⟨_, j, _, _, _, _, hdt, _, _⟩ :=
            transitions_out po geom jump_thresh roundi s hd t ht
          rcases hdt with hdt | hdt
          · exact hdt
          · exact absurd ⟨hts ▸ hdt, hts ▸ hc0⟩
              (value_src_not_out0 po geom jump_thresh roundi s hd hsrc)
      rw [if_pos hsrc, ← hts] at hx
      obtain ⟨f1, hf1⟩ : ∃ f1, fuel = f1 + 1 := ⟨fuel - 1, by omega⟩
      have hih := ih t.1 hlt hfin' hnext
      rw [hf1, chain_succ] at hx hih
      rw [List.getLast?_cons_cons] at hx
      exact hih x hx

/-- The winning terminal state and its chain, when the search is feasible. -/
theorem backChain_facts (po : DPPayoffs) (geom : DPGeometry) (jump_thresh : ℚ)
    (roundi : ℚ → Int) (hf : isFeasible po geom jump_thresh roundi = true) :
    ∃ (t : DPState) (qv : ℚ) (rest : List DPState), t ∈ terminals geom ∧
      bestTerminal po geom jump_thresh roundi = ⟨Score.fin (qv + -po.wall_penalty), t⟩ ∧
      (value po geom jump_thresh roundi t).score = Score.fin qv ∧
      backChain po geom jump_thresh roundi = t :: rest ∧
      Admissible po geom jump_thresh roundi (backChain po geom jump_thresh roundi) qv ∧
      (geom.grid_size.1 ≠ 0 →
        ∀ x ∈ (backChain po geom jump_thresh roundi).getLast?, x.dir = DIR_IN) := by
  rcases search_cases po geom jump_thresh roundi with ⟨h1, _⟩ | ⟨_, l1, t, l2, h1, h2, h3, _, _⟩
  · rw [h1] at hf; exact absurd hf (by decide)
  · have htm : t ∈ terminals geom := by rw [h1]; simp
    have hfin : ⊥ < (value po geom jump_thresh roundi t).score.val := by
      rw [Score.val_add] at h3
      by_contra hc
      rw [not_bot_lt_iff] at hc
      rw [hc] at h3
      simp at h3
    have hrank := rank_terminal geom t htm
    obtain ⟨qv, hq, hadm⟩ := chain_admissible po geom jump_thresh roundi (solveFuel geom) t
      hrank hfin
    have hsrc : (bestTerminal po geom jump_thresh roundi).src = t := by rw [h2]
    have hchain : backChain po geom jump_thresh roundi =
        chain (value po geom jump_thresh roundi) (solveFuel geom) t := by
      unfold backChain
      rw [hsrc]
    obtain ⟨f1, hf1⟩ : ∃ f1, solveFuel geom = f1 + 1 := ⟨_, rfl⟩
    refine ⟨t, qv, (if (value po geom jump_thresh roundi t).src ≠ DPState.none then
        chain (value po geom jump_thresh roundi) f1 (value po geom jump_thresh roundi t).src
        else []), htm, ?_, hq, ?_, ?_, ?_⟩
    · rw [h2, hq]
      rfl
    · rw [hchain, hf1, chain_succ]
    · rw [hchain]; exact hadm
    · intro hW
      rw [hchain]
      apply chain_last_in po geom jump_thresh roundi (solveFuel geom) t hrank hfin
      intro hc
      obtain ⟨_, _, _, hcW, _⟩ := (mem_terminals geom t).1 htm
      rw [hcW] at hc
      exact absurd hc hW

theorem backtrackStep_same (geom : DPGeometry) (FillPolygon : List Vec3 → Mat Int → Int → Mat Int)
    (cur next : DPState) (out : Option DPState) (dp dp' : ManhattanDP)
    (h : SameWalls dp.solution dp'.solution) :
    SameWalls (backtrackStep geom FillPolygon cur next out dp).1.solution
        (backtrackStep geom FillPolygon cur next out dp').1.solution ∧
      (backtrackStep geom FillPolygon cur next out dp).2 =
        (backtrackStep geom FillPolygon cur next out dp').2 := by
  obtain ⟨h1, h2, h3, h4, h5, h6, h7⟩ := h
  unfold backtrackStep SameWalls
  cases out with
  | none => simp only; split_ifs <;> exact ⟨⟨h1, h2, h3, h4, h5, h6, h7⟩, rfl⟩
  | some o =>
    simp only
    split_ifs <;> simp [h1, h2, h3, h4, h5, h6, h7]

theorem stepsOver_same (geom : DPGeometry) (FillPolygon : List Vec3 → Mat Int → Int → Mat Int)
    (l : List DPState) : ∀ (out : Option DPState) (dp dp' : ManhattanDP),
      SameWalls dp.solution dp'.solution →
      SameWalls (stepsOver geom FillPolygon l out dp).solution
        (stepsOver geom FillPolygon l out dp').solution := by
  induction l with
  | nil => intro out dp dp' h; exact h
  | cons s rest ih =>
    intro out dp dp' h
    rw [stepsOver_cons, stepsOver_cons]
    obtain ⟨e1, e2⟩ := backtrackStep_same geom FillPolygon s (rest.head?.getD DPState.none)
      out dp dp' h
    rw [e2]
    exact ih _ _ _ e1

theorem backtrackStep_score (geom : DPGeometry) (FillPolygon : List Vec3 → Mat Int → Int → Mat Int)
    (cur next : DPState) (out : Option DPState) (dp : ManhattanDP) :
    (backtrackStep geom FillPolygon cur next out dp).1.solution.score = dp.solution.score ∧
    (backtrackStep geom FillPolygon cur next out dp).1.solution.node = dp.solution.node := by
  unfold backtrackStep
  cases out with
  | none => simp only; split_ifs <;> exact ⟨rfl, rfl⟩
  | some o => simp only; split_ifs <;> simp

theorem stepsOver_score (geom : DPGeometry) (FillPolygon : List Vec3 → Mat Int → Int → Mat Int)
    (l : List DPState) : ∀ (out : Option DPState) (dp : ManhattanDP),
      (stepsOver geom FillPolygon l out dp).solution.score = dp.solution.score ∧
      (stepsOver geom FillPolygon l out dp).solution.node = dp.solution.node := by
  induction l with
  | nil => intro out dp; exact ⟨rfl, rfl⟩
  | cons s rest ih =>
    intro out dp
    rw [stepsOver_cons]
    obtain ⟨e1, e2⟩ := backtrackStep_score geom FillPolygon s (rest.head?.getD DPState.none) out dp
    obtain ⟨k1, k2⟩ := ih (backtrackStep geom FillPolygon s (rest.head?.getD DPState.none) out dp).2
      (backtrackStep geom FillPolygon s (rest.head?.getD DPState.none) out dp).1
    exact ⟨k1.trans e1, k2.trans e2⟩

theorem stepsOver_cache (geom : DPGeometry) (FillPolygon : List Vec3 → Mat Int → Int → Mat Int)
    (l : List DPState) : ∀ (out : Option DPState) (dp : ManhattanDP),
      (stepsOver geom FillPolygon l out dp).cache = dp.cache := by
  induction l with
  | nil => intro out dp; rfl
  | cons s rest ih =>
    intro out dp
    rw [stepsOver_cons, ih, backtrackStep_cache]

/-- The path vectors of a feasible search: `pathLoop` does not fail on the
backtrack, and the path it writes has a row inside the grid and off the horizon
and an axis 0 or 1 in every column, and collects `pathCost`. -/
theorem backChain_path (po : DPPayoffs) (geom : DPGeometry) (jump_thresh : ℚ)
    (roundi : ℚ → Int) (hf : isFeasible po geom jump_thresh roundi = true) :
    ∃ p, pathLoop geom roundi (backChain po geom jump_thresh roundi)
        (List.replicate geom.grid_size.1.toNat (-1), List.replicate geom.grid_size.1.toNat (-1)) =
          Except.ok p ∧
      p.1.length = geom.grid_size.1.toNat ∧ p.2.length = geom.grid_size.1.toNat ∧
      0 ≤ geom.grid_size.1 ∧
      (∀ j : Int, 0 ≤ j → j < geom.grid_size.1 →
        0 ≤ VecI.get p.1 j ∧ VecI.get p.1 j < geom.grid_size.2 ∧
        VecI.get p.1 j ≠ geom.horizon_row ∧ (VecI.get p.2 j = 0 ∨ VecI.get p.2 j = 1)) ∧
      ∑ x ∈ Finset.Ico 0 geom.grid_size.1.toNat,
        (po.wall_scores (VecI.get p.2 (x : Int))).elem (VecI.get p.1 (x : Int)) (x : Int) =
        pathCost po geom roundi (backChain po geom jump_thresh roundi) := by
  obtain ⟨t, qv, rest, htm, _, _, hch, hadm, _⟩ := backChain_facts po geom jump_thresh roundi hf
  obtain ⟨hax, _, _, hcW, hd⟩ := (mem_terminals geom t).1 htm
  obtain ⟨p, k1, k2, k3, k4, _, k6, k7⟩ := pathLoop_spec po geom jump_thresh roundi _ qv hadm t
    (by rw [hch]; simp) (Or.inr hax) (le_of_eq hcW)
    (List.replicate geom.grid_size.1.toNat (-1), List.replicate geom.grid_size.1.toNat (-1))
    (by simp) (by simp)
  rw [hcW] at k4 k6 k7
  exact ⟨p, k1, k2, k3, k4, k6, k7⟩

/-- A feasible search is followed by a backtrack and a path computation that do
not fail: `Compute` returns the solver `stepsOver` leaves, with the path
written by `pathLoop`. -/
theorem Compute_feasible (roundi : ℚ → Int) (FillPolygon : List Vec3 → Mat Int → Int → Mat Int)
    (po : DPPayoffs) (geom : DPGeometry) (dp : ManhattanDP)
    (hf : isFeasible po geom dp.jump_thresh roundi = true) :
    ∃ dp1 p, CacheOK po geom dp.jump_thresh roundi dp1.cache ∧
      (∀ t ∈ terminals geom, (dp1.cache.get t).score.isnan = false) ∧
      pathLoop geom roundi (backChain po geom dp.jump_thresh roundi)
        (List.replicate geom.grid_size.1.toNat (-1), List.replicate geom.grid_size.1.toNat (-1)) =
          Except.ok p ∧
      Compute roundi FillPolygon po geom dp =
        Except.ok
          { stepsOver geom FillPolygon (backChain po geom dp.jump_thresh roundi) Option.none
              (initBacktrack geom (bestTerminal po geom dp.jump_thresh roundi) dp1) with
            solution :=
              { (stepsOver geom FillPolygon (backChain po geom dp.jump_thresh roundi) Option.none
                  (initBacktrack geom (bestTerminal po geom dp.jump_thresh roundi)
                    dp1)).solution with
                path_ys := p.1, path_axes := p.2 } } := by
  obtain ⟨dp1, h1, h2, h3⟩ := Compute_search roundi FillPolygon po geom dp
  obtain ⟨t, qv, rest, htm, hbest, _, _, _, _⟩ := backChain_facts po geom dp.jump_thresh roundi hf
  obtain ⟨p, k1, k2, k3, k4, k5, _⟩ := backChain_path po geom dp.jump_thresh roundi hf
  have hsrc : (bestTerminal po geom dp.jump_thresh roundi).src = t := by rw [hbest]
  refine ⟨dp1, p, h1, h2, k1, ?_⟩
  clear k2 k3 k4
  rw [h3, if_pos hf, PopulateSolution_eq po geom dp.jump_thresh roundi FillPolygon _ dp1 h1
    (by rw [hsrc]; exact h2 t htm) (by rw [hsrc]; exact rank_terminal geom t htm)]
  unfold finishPath
  simp only
  have hfull : (stepsOver geom FillPolygon
      (chain (value po geom dp.jump_thresh roundi) (solveFuel geom)
        (bestTerminal po geom dp.jump_thresh roundi).src) Option.none
      (initBacktrack geom (bestTerminal po geom dp.jump_thresh roundi) dp1)).full_backtrack =
      backChain po geom dp.jump_thresh roundi := by
    rw [stepsOver_full]
    rfl
  rw [← hfull] at k1
  rw [k1]
  simp only
  rw [checkPath_ok p.1 p.2 geom.grid_size.1.toNat 0 (fun j hj0 hj1 => by
    have := k5 j hj0 (by omega)
    constructor
    · intro hc; rw [hc] at this; omega
    · intro hc; rw [hc] at this; omega)]
  rfl

/-- `Compute` fails with the infeasibility error exactly when the search is not
feasible. -/
theorem Compute_infeasible_iff (roundi : ℚ → Int)
    (FillPolygon : List Vec3 → Mat Int → Int → Mat Int)
    (po : DPPayoffs) (geom : DPGeometry) (dp : ManhattanDP) :
    Compute roundi FillPolygon po geom dp = Except.error DPError.infeasible ↔
      isFeasible po geom dp.jump_thresh roundi = false := by
  constructor
  · intro h
    cases hf : isFeasible po geom dp.jump_thresh roundi
    · rfl
    · obtain ⟨_, _, _, _, _, h1⟩ := Compute_feasible roundi FillPolygon po geom dp hf
      rw [h1] at h
      exact absurd h (by simp)
  · intro h
    obtain ⟨_, _, _, h1⟩ := Compute_search roundi FillPolygon po geom dp
    rw [h1, h]
    simp

/-- C4. `Compute` fails with the check "No feasible solution found" if and only
if no terminal state (column `W`, `DIR_OUT`, axis 0 or 1, row in `[0,H)`) has a
solved score that is greater than negative infinity once one wall penalty is
subtracted; otherwise it goes on to `PopulateSolution` with the best terminal
sub-solution. -/
theorem C4_infeasible_iff (roundi : ℚ → Int) (FillPolygon : List Vec3 → Mat Int → Int → Mat Int)
    (po : DPPayoffs) (geom : DPGeometry) (dp : ManhattanDP) :
    (Compute roundi FillPolygon po geom dp = Except.error DPError.infeasible ↔
      ∀ t ∈ terminals geom,
        ((value po geom dp.jump_thresh roundi t).score.add (-po.wall_penalty)).gt Score.negInf =
          false) ∧
    (Compute roundi FillPolygon po geom dp ≠ Except.error DPError.infeasible →
      ∃ dp1, Compute roundi FillPolygon po geom dp =
        PopulateSolution geom roundi FillPolygon (bestTerminal po geom dp.jump_thresh roundi)
          dp1) := by
  constructor
  · rw [Compute_infeasible_iff]
    constructor
    · intro h t ht
      rcases search_cases po geom dp.jump_thresh roundi with ⟨_, h2⟩ | ⟨h1, _⟩
      · have := h2 t ht
        cases hg : ((value po geom dp.jump_thresh roundi t).score.add (-po.wall_penalty)).gt
            Score.negInf
        · rfl
        · rw [Score.gt_iff _ Score.negInf rfl, this] at hg
          exact absurd hg (lt_irrefl _)
      · rw [h] at h1; exact absurd h1 (by decide)
    · intro h
      rcases search_cases po geom dp.jump_thresh roundi with ⟨h1, _⟩ | ⟨_, l1, t, l2, h1, _, h3, _⟩
      · exact h1
      · have := h t (by rw [h1]; simp)
        have h4 := (Score.gt_iff _ Score.negInf rfl).2 h3
        rw [this] at h4
        exact absurd h4 (by decide)
  · intro h
    obtain ⟨dp1, _, _, h1⟩ := Compute_search roundi FillPolygon po geom dp
    refine ⟨dp1, ?_⟩
    rw [h1]
    have hf : isFeasible po geom dp.jump_thresh roundi = true := by
      cases hf : isFeasible po geom dp.jump_thresh roundi
      · exact absurd ((Compute_infeasible_iff roundi FillPolygon po geom dp).2 hf) h
      · rfl
    rw [if_pos hf]

theorem initBacktrack_cache (geom : DPGeometry) (best : DPSubSolution) (dp : ManhattanDP) :
    (initBacktrack geom best dp).cache = dp.cache := rfl

/-- C6. On success the score of the solution is the greatest, over all terminal
states, of the solved score minus one wall penalty, and the terminal state
chosen is the first one attaining it in the order axis 0 rows `0..H-1`, then
axis 1 rows `0..H-1`: every terminal before it scores strictly less, every
terminal after it scores at most as much. The solved score of a terminal state
is its entry in the memo table of the returned solver, which is its value under
the recurrence. -/
theorem C6_terminal_selection (roundi : ℚ → Int)
    (FillPolygon : List Vec3 → Mat Int → Int → Mat Int)
    (po : DPPayoffs) (geom : DPGeometry) (dp dp1 : ManhattanDP)
    (h : Compute roundi FillPolygon po geom dp = Except.ok dp1) :
    (∀ u ∈ terminals geom, dp1.cache.find u = some (value po geom dp.jump_thresh roundi u)) ∧
    ∃ l1 t l2, terminals geom = l1 ++ t :: l2 ∧
      dp1.solution.node.src = t ∧
      dp1.solution.score = (value po geom dp.jump_thresh roundi t).score.add (-po.wall_penalty) ∧
      (∀ u ∈ l1, ((value po geom dp.jump_thresh roundi u).score.add (-po.wall_penalty)).val <
        dp1.solution.score.val) ∧
      (∀ u ∈ l2, ((value po geom dp.jump_thresh roundi u).score.add (-po.wall_penalty)).val ≤
        dp1.solution.score.val) := by
  have hf : isFeasible po geom dp.jump_thresh roundi = true := by
    cases hf : isFeasible po geom dp.jump_thresh roundi
    · rw [(Compute_infeasible_iff roundi FillPolygon po geom dp).2 hf] at h
      exact absurd h (by simp)
    · rfl
  obtain ⟨d, p, hd, hnn, _, h1⟩ := Compute_feasible roundi FillPolygon po geom dp hf
  rw [h1] at h
  have hdp1 := Except.ok.inj h
  have hscore : dp1.solution.score = (bestTerminal po geom dp.jump_thresh roundi).score := by
    rw [← hdp1]
    exact (stepsOver_score geom FillPolygon _ _ _).1
  have hnode : dp1.solution.node = bestTerminal po geom dp.jump_thresh roundi := by
    rw [← hdp1]
    exact (stepsOver_score geom FillPolygon _ _ _).2
  have hcache : dp1.cache = d.cache := by
    rw [← hdp1]
    simp only
    rw [stepsOver_cache, initBacktrack_cache]
  constructor
  · intro u hu
    unfold DPCache.find
    rw [hcache, hnn u hu, (hd u (hnn u hu)).1]
    rfl
  · rcases search_cases po geom dp.jump_thresh roundi with ⟨h2, _⟩ | ⟨_, l1, t, l2, k1, k2, _, k4, k5⟩
    · rw [h2] at hf; exact absurd hf (by decide)
    · refine ⟨l1, t, l2, k1, ?_, ?_, ?_, ?_⟩
      · rw [hnode, k2]
      · rw [hscore, k2]
      · rw [hscore, k2]; exact k4
      · rw [hscore, k2]; exact k5

/-- A successful `Compute` had a feasible search. -/
theorem feasible_of_ok (roundi : ℚ → Int) (FillPolygon : List Vec3 → Mat Int → Int → Mat Int)
    (po : DPPayoffs) (geom : DPGeometry) (dp dp1 : ManhattanDP)
    (h : Compute roundi FillPolygon po geom dp = Except.ok dp1) :
    isFeasible po geom dp.jump_thresh roundi = true := by
  cases hf : isFeasible po geom dp.jump_thresh roundi
  · rw [(Compute_infeasible_iff roundi FillPolygon po geom dp).2 hf] at h
    exact absurd h (by simp)
  · rfl

/-- The solver returned by a successful `Compute`, field by field. -/
theorem Compute_ok_fields (roundi : ℚ → Int) (FillPolygon : List Vec3 → Mat Int → Int → Mat Int)
    (po : DPPayoffs) (geom : DPGeometry) (dp dp1 : ManhattanDP)
    (h : Compute roundi FillPolygon po geom dp = Except.ok dp1) :
    ∃ d p, CacheOK po geom dp.jump_thresh roundi d.cache ∧
      (∀ t ∈ terminals geom, (d.cache.get t).score.isnan = false) ∧
      pathLoop geom roundi (backChain po geom dp.jump_thresh roundi)
        (List.replicate geom.grid_size.1.toNat (-1), List.replicate geom.grid_size.1.toNat (-1)) =
          Except.ok p ∧
      dp1.cache = d.cache ∧
      dp1.full_backtrack = backChain po geom dp.jump_thresh roundi ∧
      dp1.solution.path_ys = p.1 ∧ dp1.solution.path_axes = p.2 ∧
      dp1.solution.score = (bestTerminal po geom dp.jump_thresh roundi).score ∧
      dp1.solution.node = bestTerminal po geom dp.jump_thresh roundi ∧
      dp1.solution.num_walls =
        (stepsOver geom FillPolygon (backChain po geom dp.jump_thresh roundi) Option.none
          (initBacktrack geom (bestTerminal po geom dp.jump_thresh roundi) d)).solution.num_walls ∧
      dp1.solution.num_occlusions =
        (stepsOver geom FillPolygon (backChain po geom dp.jump_thresh roundi) Option.none
          (initBacktrack geom (bestTerminal po geom dp.jump_thresh roundi)
            d)).solution.num_occlusions := by
  have hf := feasible_of_ok roundi FillPolygon po geom dp dp1 h
  obtain ⟨d, p, hd, hnn, hp, h1⟩ := Compute_feasible roundi FillPolygon po geom dp hf
  rw [h1] at h
  have hdp1 := Except.ok.inj h
  refine ⟨d, p, hd, hnn, hp, ?_, ?_, ?_, ?_, ?_, ?_, ?_, ?_⟩
  · rw [← hdp1]
    simp only
    rw [stepsOver_cache, initBacktrack_cache]
  · rw [← hdp1]
    simp only
    rw [stepsOver_full]
    rfl
  · rw [← hdp1]
  · rw [← hdp1]
  · rw [← hdp1]
    exact (stepsOver_score geom FillPolygon _ _ _).1
  · rw [← hdp1]
    exact (stepsOver_score geom FillPolygon _ _ _).2
  · rw [← hdp1]
  · rw [← hdp1]

/-- C3. Column coverage: whenever the search finds a feasible terminal state
(`Compute` does not fail with the infeasibility error), `Compute` succeeds, so
none of the checks of `PopulateSolution` fails, and every grid column `x` in
`[0,W)` has `path_ys[x] ≠ -1` and `path_axes[x] ≠ -1`. -/
theorem C3_column_coverage (roundi : ℚ → Int) (FillPolygon : List Vec3 → Mat Int → Int → Mat Int)
    (po : DPPayoffs) (geom : DPGeometry) (dp : ManhattanDP)
    (hfeas : Compute roundi FillPolygon po geom dp ≠ Except.error DPError.infeasible) :
    ∃ dp1, Compute roundi FillPolygon po geom dp = Except.ok dp1 ∧
      (dp1.solution.path_ys.length : Int) = geom.grid_size.1 ∧
      (dp1.solution.path_axes.length : Int) = geom.grid_size.1 ∧
      ∀ x : Int, 0 ≤ x → x < geom.grid_size.1 →
        VecI.get dp1.solution.path_ys x ≠ -1 ∧ VecI.get dp1.solution.path_axes x ≠ -1 := by
  have hf : isFeasible po geom dp.jump_thresh roundi = true := by
    cases hf : isFeasible po geom dp.jump_thresh roundi
    · exact absurd ((Compute_infeasible_iff roundi FillPolygon po geom dp).2 hf) hfeas
    · rfl
  obtain ⟨d, p, _, _, hp, h1⟩ := Compute_feasible roundi FillPolygon po geom dp hf
  obtain ⟨p', k1, k2, k3, k4, k5, _⟩ := backChain_path po geom dp.jump_thresh roundi hf
  rw [hp] at k1
  have hpp := Except.ok.inj k1
  subst hpp
  refine ⟨_, h1, ?_, ?_, ?_⟩
  · simp only [k2]; omega
  · simp only [k3]; omega
  · intro x hx0 hx1
    have := k5 x hx0 hx1
    simp only
    constructor
    · intro hc; rw [hc] at this; omega
    · intro hc; rw [hc] at this; omega

/-- C2. Optimality: on success the score of the solution is the greatest score
of an admissible chain. No chain of moves admitted by the recurrence from a
terminal state down to a column-0 state scores strictly more, once the wall
penalty charged on entry is subtracted, and the backtracked chain
(`full_backtrack`) is such a chain, starts at a terminal state, and attains the
score. -/
theorem C2_optimality (roundi : ℚ → Int) (FillPolygon : List Vec3 → Mat Int → Int → Mat Int)
    (po : DPPayoffs) (geom : DPGeometry) (dp dp1 : ManhattanDP)
    (h : Compute roundi FillPolygon po geom dp = Except.ok dp1) :
    ∃ q : ℚ, dp1.solution.score = Score.fin q ∧
      (∀ t ∈ terminals geom, ∀ (l : List DPState) (v : ℚ),
        Admissible po geom dp.jump_thresh roundi (t :: l) v → v - po.wall_penalty ≤ q) ∧
      (∃ t ∈ terminals geom, ∃ rest, dp1.full_backtrack = t :: rest) ∧
      Admissible po geom dp.jump_thresh roundi dp1.full_backtrack (q + po.wall_penalty) := by
  have hf := feasible_of_ok roundi FillPolygon po geom dp dp1 h
  obtain ⟨d, p, _, _, _, _, hfull, _, _, hscore, _, _, _⟩ :=
    Compute_ok_fields roundi FillPolygon po geom dp dp1 h
  obtain ⟨t, qv, rest, htm, hbest, hval, hch, hadm, _⟩ :=
    backChain_facts po geom dp.jump_thresh roundi hf
  refine ⟨qv + -po.wall_penalty, by rw [hscore, hbest], ?_, ⟨t, htm, rest, by rw [hfull, hch]⟩, ?_⟩
  · intro u hu l v hadm'
    have h1 := admissible_le po geom dp.jump_thresh roundi _ v hadm' u (by simp)
    rcases search_cases po geom dp.jump_thresh roundi with ⟨h2, _⟩ | ⟨_, l1, t', l2, k1, k2, _, k4, k5⟩
    · rw [h2] at hf; exact absurd hf (by decide)
    · have ht' : t' = t := by
        have := congrArg DPSubSolution.src k2
        rw [hbest] at this
        exact this.symm
      subst ht'
      have hu' : ((value po geom dp.jump_thresh roundi u).score.add (-po.wall_penalty)).val ≤
          ((value po geom dp.jump_thresh roundi t').score.add (-po.wall_penalty)).val := by
        rw [k1] at hu
        rcases List.mem_append.1 hu with hm | hm
        · exact le_of_lt (k4 u hm)
        · rcases List.mem_cons.1 hm with rfl | hm
          · exact le_refl _
          · exact k5 u hm
      rw [Score.val_add, Score.val_add, hval, Score.val_fin] at hu'
      have h3 : ((v : ℚ) : WithBot ℚ) + ((-po.wall_penalty : ℚ) : WithBot ℚ) ≤
          ((qv : ℚ) : WithBot ℚ) + ((-po.wall_penalty : ℚ) : WithBot ℚ) :=
        le_trans (add_le_add_right h1 _) hu'
      rw [← WithBot.coe_add, ← WithBot.coe_add, WithBot.coe_le_coe] at h3
      linarith
  · rw [hfull]
    have : qv + -po.wall_penalty + po.wall_penalty = qv := by ring
    rw [this]
    exact hadm

/-- Score decomposition on a grid of width at least 1, with the bounds on the
counts that come with it. -/
theorem score_decomposition (roundi : ℚ → Int)
    (FillPolygon : List Vec3 → Mat Int → Int → Mat Int)
    (po : DPPayoffs) (geom : DPGeometry) (dp dp1 : ManhattanDP)
    (hW : 1 ≤ geom.grid_size.1)
    (h : Compute roundi FillPolygon po geom dp = Except.ok dp1) :
    dp1.solution.score =
      Score.fin (dp1.solution.pathSum po - (dp1.solution.num_walls : ℚ) * po.wall_penalty -
        (dp1.solution.num_occlusions : ℚ) * po.occl_penalty) ∧
    0 ≤ dp1.solution.num_occlusions ∧
    dp1.solution.num_occlusions + 1 ≤ dp1.solution.num_walls ∧
    (dp1.solution.path_ys.length : Int) = geom.grid_size.1 ∧
    (dp1.solution.path_axes.length : Int) = geom.grid_size.1 := by
  have hf := feasible_of_ok roundi FillPolygon po geom dp dp1 h
  obtain ⟨d, p, _, _, hp, _, hfull, hys, haxes, hscore, _, hwalls, hoccl⟩ :=
    Compute_ok_fields roundi FillPolygon po geom dp dp1 h
  obtain ⟨t, qv, rest, htm, hbest, hval, hch, hadm, hlast⟩ :=
    backChain_facts po geom dp.jump_thresh roundi hf
  obtain ⟨p', k1, k2, k3, k4, k5, k6⟩ := backChain_path po geom dp.jump_thresh roundi hf
  rw [hp] at k1
  have hpp := Except.ok.inj k1
  subst hpp
  obtain ⟨_, _, _, _, htd⟩ := (mem_terminals geom t).1 htm
  obtain ⟨nW, nO, a1, a2, a3, a4, a5⟩ := stepsOver_account po geom dp.jump_thresh roundi
    FillPolygon _ qv hadm t (by rw [hch]; simp) (hlast (by omega)) Option.none
    (initBacktrack geom (bestTerminal po geom dp.jump_thresh roundi) d)
    (fun hc => by rw [htd] at hc; exact absurd hc (by decide))
  have hnw : dp1.solution.num_walls = nW := by
    rw [hwalls, a1]
    simp [initBacktrack]
  have hno : dp1.solution.num_occlusions = nO := by
    rw [hoccl, a2]
    simp [initBacktrack]
  have hsum : dp1.solution.pathSum po = pathCost po geom roundi
      (backChain po geom dp.jump_thresh roundi) := by
    unfold DPSolution.pathSum
    rw [sum_map_range, hys, haxes, k2, k6]
  refine ⟨?_, by rw [hno]; exact a3, by rw [hno, hnw]; exact a4, ?_, ?_⟩
  · rw [hscore, hbest, hsum, hnw, hno, a5]
    simp only
    congr 1
    ring
  · rw [hys, k2]; omega
  · rw [haxes, k3]; omega

/-- C1 (amended). Score decomposition on a grid of width at least 1: for every
successful `Compute`, the score of the solution is the sum over all grid
columns `x` of `wall_scores[path_axes[x]][path_ys[x]][x]`, minus
`num_walls * wall_penalty`, minus `num_occlusions * occl_penalty`; when the
cost field has the size of the grid this is
`DPSolution::GetTotalPayoff(payoffs, true)`. -/
theorem C1_score_decomposition (roundi : ℚ → Int)
    (FillPolygon : List Vec3 → Mat Int → Int → Mat Int)
    (po : DPPayoffs) (geom : DPGeometry) (dp dp1 : ManhattanDP)
    (hW : 1 ≤ geom.grid_size.1)
    (h : Compute roundi FillPolygon po geom dp = Except.ok dp1) :
    dp1.solution.score =
      Score.fin (dp1.solution.pathSum po - (dp1.solution.num_walls : ℚ) * po.wall_penalty -
        (dp1.solution.num_occlusions : ℚ) * po.occl_penalty) ∧
    ((po.wall_scores 0).cols = geom.grid_size.1 →
      (po.wall_scores 0).rows = (po.wall_scores 1).rows →
      (po.wall_scores 0).cols = (po.wall_scores 1).cols →
      dp1.solution.GetTotalPayoff po true =
        some (dp1.solution.pathSum po - (dp1.solution.num_walls : ℚ) * po.wall_penalty -
          (dp1.solution.num_occlusions : ℚ) * po.occl_penalty)) := by
  obtain ⟨h1, _, _, e1, e2⟩ := score_decomposition roundi FillPolygon po geom dp dp1 hW h
  refine ⟨h1, ?_⟩
  intro hc hr hc2
  unfold DPSolution.GetTotalPayoff
  rw [← hc] at e1 e2
  simp [e1, e2, hr, hc2]

theorem exists_ok_of_isOk (r : Except DPError ManhattanDP) (h : isOk r = true) :
    ∃ d, r = Except.ok d := by
  cases r with
  | error e => simp [isOk] at h
  | ok d => exact ⟨d, rfl⟩

/-- C9 (amended). Single-column scenario: every successful solve on a grid of
width 1 has exactly one wall, closed by the `DIR_IN` state in column 0 that
ends the backtrack, and no occlusion. -/
theorem C9_single_column (roundi : ℚ → Int) (FillPolygon : List Vec3 → Mat Int → Int → Mat Int)
    (po : DPPayoffs) (geom : DPGeometry) (dp dp1 : ManhattanDP)
    (hW : geom.grid_size.1 = 1)
    (h : Compute roundi FillPolygon po geom dp = Except.ok dp1) :
    dp1.solution.num_walls = 1 ∧ dp1.solution.num_occlusions = 0 := by
  have hf := feasible_of_ok roundi FillPolygon po geom dp dp1 h
  obtain ⟨d, p, _, _, _, _, _, _, _, _, _, hwalls, hoccl⟩ :=
    Compute_ok_fields roundi FillPolygon po geom dp dp1 h
  obtain ⟨t, qv, rest, htm, _, _, hch, hadm, hlast⟩ :=
    backChain_facts po geom dp.jump_thresh roundi hf
  obtain ⟨_, _, _, htc, htd⟩ := (mem_terminals geom t).1 htm
  have hlast' := hlast (by omega)
  rw [hch] at hadm hlast'
  -- the chain is the terminal state followed by one state in column 0
  have hshape : ∃ n : DPState, rest = [n] ∧ n.dir = DIR_IN := by
    cases hadm with
    | base _ h0 => rw [htc, hW] at h0; exact absurd h0 (by decide)
    | step _ n rest' dd v h0 ht hadm' =>
      obtain ⟨_, j, hj, hc, _⟩ := transitions_out po geom dp.jump_thresh roundi t htd (n, dd) ht
      simp only at hc
      have hn0 : n.col = 0 := by
        rw [htc, hW] at hj
        rw [hc]
        have : j = 0 := by simpa using hj
        rw [this]
        rfl
      cases hadm' with
      | base _ _ =>
        refine ⟨n, rfl, ?_⟩
        exact hlast' n (by simp)
      | step _ n' rest'' d' v' h0' _ _ => exact absurd hn0 h0'
  obtain ⟨n, hrest, hnd⟩ := hshape
  rw [hwalls, hoccl, hch, hrest]
  have hne : t.dir ≠ DIR_IN := by rw [htd]; decide
  rw [stepsOver_cons, stepsOver_cons]
  simp only [List.head?_cons, Option.getD_some, List.head?_nil, Option.getD_none, stepsOver]
  have hout : (backtrackStep geom FillPolygon t n Option.none
      (initBacktrack geom (bestTerminal po geom dp.jump_thresh roundi) d)).2 = some t := by
    rw [backtrackStep_out, if_neg hne, if_pos htd]
    rfl
  obtain ⟨c1, c2⟩ := backtrackStep_counts geom FillPolygon t n Option.none
    (initBacktrack geom (bestTerminal po geom dp.jump_thresh roundi) d) (Or.inl hne)
  rw [hout]
  obtain ⟨e1, e2, _⟩ := backtrackStep_in geom FillPolygon n DPState.none t
    (backtrackStep geom FillPolygon t n Option.none
      (initBacktrack geom (bestTerminal po geom dp.jump_thresh roundi) d)).1 hnd
  rw [e1, e2, c1, c2]
  simp [initBacktrack, DPState.none]

/-- Witness of `C9_single_column`: a grid of one column and three rows. -/
theorem C9_single_column_witness :
    ∃ dp1, (gridGeom 1 3 1 100000000 (-100000000)).grid_size.1 = 1 ∧
      Compute roundHalfUp noFill (zeroPayoffs 1 3) (gridGeom 1 3 1 100000000 (-100000000))
        (freshSolver 0) = Except.ok dp1 ∧
      dp1.solution.num_walls = 1 ∧ dp1.solution.num_occlusions = 0 := by
  obtain ⟨d, hd⟩ := exists_ok_of_isOk (Compute roundHalfUp noFill (zeroPayoffs 1 3)
    (gridGeom 1 3 1 100000000 (-100000000)) (freshSolver 0)) (by decide!)
  exact ⟨d, rfl, hd, C9_single_column roundHalfUp noFill (zeroPayoffs 1 3)
    (gridGeom 1 3 1 100000000 (-100000000)) (freshSolver 0) d rfl hd⟩

/-- On a grid of one column and three rows with horizon row 1 and a zero cost
field the solve succeeds with one wall, not with zero walls. -/
theorem C9_counterexample :
    (solutionOf (Compute roundHalfUp noFill (zeroPayoffs 1 3)
      (gridGeom 1 3 1 100000000 (-100000000)) (freshSolver 0))).toOption.map
        (fun s => (s.num_walls, s.num_occlusions)) = some (1, 0) := by
  decide!

/-- The counts of the backtrack over any list of states, in terms of the
positions that close a wall. `pre` holds the states met before the list. -/
theorem stepsOver_count (geom : DPGeometry) (FillPolygon : List Vec3 → Mat Int → Int → Mat Int)
    (l : List DPState) : ∀ (pre : List DPState) (out : Option DPState) (dp : ManhattanDP),
      out.isSome = unclosedOut pre.reverse →
      (stepsOver geom FillPolygon l out dp).solution.num_walls =
        dp.solution.num_walls +
          ∑ i ∈ Finset.range l.length,
            (if closesWall (pre ++ l) (pre.length + i) = true then (1 : Int) else 0) ∧
      (stepsOver geom FillPolygon l out dp).solution.num_occlusions =
        dp.solution.num_occlusions +
          ∑ i ∈ Finset.range l.length,
            (if closesOcclusion (pre ++ l) (pre.length + i) = true then (1 : Int) else 0) := by
  induction l with
  | nil => intro pre out dp _; simp [stepsOver]
  | cons cur rest ih =>
    intro pre out dp hout
    rw [stepsOver_cons]
    have hout' : (backtrackStep geom FillPolygon cur (rest.head?.getD DPState.none) out dp).2.isSome =
        unclosedOut (pre ++ [cur]).reverse := by
      rw [backtrackStep_out]
      simp only [List.reverse_append, List.reverse_cons, List.reverse_nil, List.nil_append,
        List.singleton_append, unclosedOut]
      by_cases h1 : cur.dir = DIR_OUT
      · have h2 : cur.dir ≠ DIR_IN := by rw [h1]; decide
        rw [if_neg h2, if_pos h1, if_pos h1]
        cases out <;> simp
      · by_cases h2 : cur.dir = DIR_IN
        · rw [if_pos h2, if_neg h1, if_pos h2]; rfl
        · rw [if_neg h2, if_neg h1, if_neg h1, if_neg h2]; exact hout
    obtain ⟨k1, k2⟩ := ih (pre ++ [cur])
      (backtrackStep geom FillPolygon cur (rest.head?.getD DPState.none) out dp).2
      (backtrackStep geom FillPolygon cur (rest.head?.getD DPState.none) out dp).1 hout'
    have hidx : ∀ i : Nat, (pre ++ [cur]).length + i = pre.length + (i + 1) := by
      intro i; simp; omega
    have hlist : pre ++ [cur] ++ rest = pre ++ cur :: rest := by simp
    simp only [hidx, hlist] at k1 k2
    rw [k1, k2, List.length_cons, Finset.sum_range_succ', Finset.sum_range_succ']
    have hget0 : (pre ++ cur :: rest).getD (pre.length + 0) DPState.none = cur := by
      simp only [add_zero, List.getD_eq_getElem?_getD]
      rw [List.getElem?_append_right (le_refl _)]
      simp
    have hget1 : (pre ++ cur :: rest).getD (pre.length + 0 + 1) DPState.none =
        rest.head?.getD DPState.none := by
      simp only [add_zero, List.getD_eq_getElem?_getD]
      rw [List.getElem?_append_right (by omega)]
      simp only [add_tsub_cancel_left, List.getElem?_cons_succ]
      cases rest <;> simp
    have htake : ((pre ++ cur :: rest).take (pre.length + 0)).reverse = pre.reverse := by
      simp
    have hcw : closesWall (pre ++ cur :: rest) (pre.length + 0) =
        (decide (cur.dir = DIR_IN) && out.isSome) := by
      unfold closesWall
      rw [hget0, htake, hout]
    have hco : closesOcclusion (pre ++ cur :: rest) (pre.length + 0) =
        (decide (cur.dir = DIR_IN) && out.isSome &&
          decide ((rest.head?.getD DPState.none).dir = DIR_UP ∨
            (rest.head?.getD DPState.none).dir = DIR_DOWN)) := by
      unfold closesOcclusion
      rw [hcw, hget1]
    rw [hcw, hco]
    by_cases hd : cur.dir = DIR_IN
    · cases out with
      | none =>
        obtain ⟨e1, e2⟩ := backtrackStep_counts geom FillPolygon cur
          (rest.head?.getD DPState.none) Option.none dp (Or.inr rfl)
        rw [e1, e2]
        simp
      | some o =>
        obtain ⟨e1, e2, _⟩ := backtrackStep_in geom FillPolygon cur
          (rest.head?.getD DPState.none) o dp hd
        rw [e1, e2]
        simp only [hd, decide_True, Option.isSome_some, Bool.and_self, if_true, Bool.true_and,
          decide_eq_true_eq]
        constructor <;> ring
    · obtain ⟨e1, e2⟩ := backtrackStep_counts geom FillPolygon cur
        (rest.head?.getD DPState.none) out dp (Or.inl hd)
      rw [e1, e2]
      simp [hd]

theorem closesOcclusion_le (l : List DPState) (i : Nat) (h : closesOcclusion l i = true) :
    closesWall l i = true := by
  unfold closesOcclusion at h
  simp only [Bool.and_eq_true] at h
  exact h.1

/-- Count consistency of the backtrack, for any memo-table contents. -/
theorem count_consistency (roundi : ℚ → Int) (FillPolygon : List Vec3 → Mat Int → Int → Mat Int)
    (po : DPPayoffs) (geom : DPGeometry) (dp dp1 : ManhattanDP)
    (h : Compute roundi FillPolygon po geom dp = Except.ok dp1) :
    dp1.solution.num_walls =
      (((Finset.range dp1.full_backtrack.length).filter
        (fun i => closesWall dp1.full_backtrack i = true)).card : Int) ∧
    dp1.solution.num_occlusions =
      (((Finset.range dp1.full_backtrack.length).filter
        (fun i => closesOcclusion dp1.full_backtrack i = true)).card : Int) ∧
    dp1.solution.num_occlusions ≤ dp1.solution.num_walls := by
  obtain ⟨d, p, _, _, _, _, hfull, _, _, _, _, hwalls, hoccl⟩ :=
    Compute_ok_fields roundi FillPolygon po geom dp dp1 h
  obtain ⟨k1, k2⟩ := stepsOver_count geom FillPolygon (backChain po geom dp.jump_thresh roundi)
    [] Option.none (initBacktrack geom (bestTerminal po geom dp.jump_thresh roundi) d) rfl
  simp only [List.nil_append, List.length_nil, zero_add] at k1 k2
  have e1 : dp1.solution.num_walls =
      (((Finset.range dp1.full_backtrack.length).filter
        (fun i => closesWall dp1.full_backtrack i = true)).card : Int) := by
    rw [hwalls, k1, hfull, Finset.card_filter]
    simp [initBacktrack]
  have e2 : dp1.solution.num_occlusions =
      (((Finset.range dp1.full_backtrack.length).filter
        (fun i => closesOcclusion dp1.full_backtrack i = true)).card : Int) := by
    rw [hoccl, k2, hfull, Finset.card_filter]
    simp [initBacktrack]
  refine ⟨e1, e2, ?_⟩
  rw [e1, e2]
  exact_mod_cast Finset.card_le_card (fun i hi => by
    rw [Finset.mem_filter] at hi ⊢
    exact ⟨hi.1, closesOcclusion_le _ _ hi.2⟩)

/-- Along the chain of links of a state that the memo table holds, every state
is held by the table, and its entry links it to the next state of the chain;
the last state is linked to `DPState::none`. -/
theorem chain_links (po : DPPayoffs) (geom : DPGeometry) (jump_thresh : ℚ) (roundi : ℚ → Int)
    (c : DPCache) (hc : CacheOK po geom jump_thresh roundi c) (fuel : Nat) :
    ∀ s : DPState, rank geom s < fuel → (c.get s).score.isnan = false →
      ∀ i : Nat, i < (chain (value po geom jump_thresh roundi) fuel s).length →
        (c.get ((chain (value po geom jump_thresh roundi) fuel s).getD i DPState.none)).score.isnan
          = false ∧
        (c.get ((chain (value po geom jump_thresh roundi) fuel s).getD i DPState.none)).src =
          (chain (value po geom jump_thresh roundi) fuel s).getD (i + 1) DPState.none := by
  induction fuel with
  | zero => intro s h; omega
  | succ fuel ih =>
    intro s hrank hnn i hi
    rw [chain_succ] at hi ⊢
    by_cases hsrc : (value po geom jump_thresh roundi s).src = DPState.none
    · simp only [hsrc, ne_eq, not_true_eq_false, if_false, List.length_singleton] at hi ⊢
      have hi0 : i = 0 := by omega
      subst hi0
      simp only [List.getD_cons_zero]
      refine ⟨hnn, ?_⟩
      rw [(hc s hnn).1, hsrc]
      rfl
    · obtain ⟨h0, t, ht, hts, _, _⟩ := value_src po geom jump_thresh roundi s hsrc
      have hlt : rank geom (value po geom jump_thresh roundi s).src < fuel := by
        have := rank_lt po geom jump_thresh roundi s t ht
        rw [hts] at this
        omega
      have hnn' : (c.get (value po geom jump_thresh roundi s).src).score.isnan = false := by
        rw [← hts]
        exact (hc s hnn).2 h0 t ht
      rw [if_pos hsrc] at hi ⊢
      cases i with
      | zero =>
        simp only [List.getD_cons_zero, zero_add, List.getD_cons_succ]
        refine ⟨hnn, ?_⟩
        rw [(hc s hnn).1]
        obtain ⟨f1, hf1⟩ : ∃ f1, fuel = f1 + 1 := ⟨fuel - 1, by omega⟩
        rw [hf1, chain_succ]
        rfl
      | succ i =>
        simp only [List.getD_cons_succ]
        simp only [List.length_cons] at hi
        exact ih _ hlt hnn' i (by omega)

/-- C8. Count consistency: after every successful `Compute`, `num_walls` is the
number of `DIR_IN` states on the backtrack that are reached while an unclosed
`DIR_OUT` state precedes them, `num_occlusions` is the number of those states
whose link points to a `DIR_UP` or `DIR_DOWN` state, and
`num_occlusions ≤ num_walls`. The link of a state on the backtrack, read from
the memo table of the returned solver, is the next state of the backtrack. -/
theorem C8_count_consistency (roundi : ℚ → Int)
    (FillPolygon : List Vec3 → Mat Int → Int → Mat Int)
    (po : DPPayoffs) (geom : DPGeometry) (dp dp1 : ManhattanDP)
    (h : Compute roundi FillPolygon po geom dp = Except.ok dp1) :
    dp1.solution.num_walls =
      (((Finset.range dp1.full_backtrack.length).filter
        (fun i => closesWall dp1.full_backtrack i = true)).card : Int) ∧
    dp1.solution.num_occlusions =
      (((Finset.range dp1.full_backtrack.length).filter
        (fun i => closesOcclusion dp1.full_backtrack i = true)).card : Int) ∧
    dp1.solution.num_occlusions ≤ dp1.solution.num_walls ∧
    ∀ i : Nat, i < dp1.full_backtrack.length →
      (dp1.cache.get (dp1.full_backtrack.getD i DPState.none)).src =
        dp1.full_backtrack.getD (i + 1) DPState.none := by
  obtain ⟨e1, e2, e3⟩ := count_consistency roundi FillPolygon po geom dp dp1 h
  refine ⟨e1, e2, e3, ?_⟩
  have hf := feasible_of_ok roundi FillPolygon po geom dp dp1 h
  obtain ⟨d, p, hd, hnn, _, hcache, hfull, _⟩ :=
    Compute_ok_fields roundi FillPolygon po geom dp dp1 h
  obtain ⟨t, qv, rest, htm, hbest, _, _, _, _⟩ := backChain_facts po geom dp.jump_thresh roundi hf
  have hsrc : (bestTerminal po geom dp.jump_thresh roundi).src = t := by rw [hbest]
  intro i hi
  rw [hfull] at hi ⊢
  rw [hcache]
  unfold backChain at hi ⊢
  rw [hsrc] at hi ⊢
  exact (chain_links po geom dp.jump_thresh roundi d.cache hd (solveFuel geom) t
    (rank_terminal geom t htm) (hnn t htm) i hi).2

set_option maxRecDepth 100000 in
/-- Witness of `C8_count_consistency`: the 4x4 scenario. -/
theorem C8_count_consistency_witness :
    ∃ dp1, Compute roundHalfUp noFill scenarioPayoffs
        (gridGeom 4 4 2 100000000 (-100000000)) (freshSolver 0) = Except.ok dp1 ∧
      dp1.solution.num_walls =
        (((Finset.range dp1.full_backtrack.length).filter
          (fun i => closesWall dp1.full_backtrack i = true)).card : Int) ∧
      dp1.solution.num_occlusions =
        (((Finset.range dp1.full_backtrack.length).filter
          (fun i => closesOcclusion dp1.full_backtrack i = true)).card : Int) ∧
      dp1.solution.num_occlusions ≤ dp1.solution.num_walls ∧
      ∀ i : Nat, i < dp1.full_backtrack.length →
        (dp1.cache.get (dp1.full_backtrack.getD i DPState.none)).src =
          dp1.full_backtrack.getD (i + 1) DPState.none := by
  obtain ⟨d, hd⟩ := exists_ok_of_isOk (Compute roundHalfUp noFill scenarioPayoffs
    (gridGeom 4 4 2 100000000 (-100000000)) (freshSolver 0)) (by decide!)
  exact ⟨d, hd, C8_count_consistency roundHalfUp noFill scenarioPayoffs
    (gridGeom 4 4 2 100000000 (-100000000)) (freshSolver 0) d hd⟩

theorem sameWalls_setPath (a b : DPSolution) (ys axes : VecI) (h : SameWalls a b) :
    ({ a with path_ys := ys, path_axes := axes } : DPSolution) =
      { b with path_ys := ys, path_axes := axes } := by
  obtain ⟨h1, h2, h3, h4, h5, h6, h7⟩ := h
  cases a
  cases b
  simp only at h1 h2 h3 h4 h5 h6 h7
  simp [h1, h2, h3, h4, h5, h6, h7]

/-- The solution of `Compute` is a function of the cost field, the geometry and
the jump threshold. -/
theorem solution_independent (roundi : ℚ → Int)
    (FillPolygon : List Vec3 → Mat Int → Int → Mat Int)
    (po : DPPayoffs) (geom : DPGeometry) (dp dp' : ManhattanDP)
    (hjt : dp.jump_thresh = dp'.jump_thresh) :
    solutionOf (Compute roundi FillPolygon po geom dp) =
      solutionOf (Compute roundi FillPolygon po geom dp') := by
  cases hf : isFeasible po geom dp.jump_thresh roundi
  · have hf' : isFeasible po geom dp'.jump_thresh roundi = false := by rw [← hjt]; exact hf
    rw [(Compute_infeasible_iff roundi FillPolygon po geom dp).2 hf,
      (Compute_infeasible_iff roundi FillPolygon po geom dp').2 hf']
  · have hf' : isFeasible po geom dp'.jump_thresh roundi = true := by rw [← hjt]; exact hf
    obtain ⟨d, p, _, _, hp, h1⟩ := Compute_feasible roundi FillPolygon po geom dp hf
    obtain ⟨d', p', _, _, hp', h1'⟩ := Compute_feasible roundi FillPolygon po geom dp' hf'
    rw [← hjt] at hp' h1'
    rw [hp] at hp'
    have hpp := Except.ok.inj hp'
    subst hpp
    rw [h1, h1']
    simp only [solutionOf]
    congr 1
    apply sameWalls_setPath
    apply stepsOver_same
    exact ⟨rfl, rfl, rfl, rfl, rfl, rfl, rfl⟩

/-- C7. Determinism and independence of history: the solution produced by
`Compute` (score, walls, occlusions, segments, orientations, path, pixel
labels), or its failure, depends only on the cost field, the geometry and the
jump threshold. Two solvers with the same jump threshold, whatever their memo
tables, counters and earlier solutions, produce the same solution. -/
theorem C7_determinism (roundi : ℚ → Int) (FillPolygon : List Vec3 → Mat Int → Int → Mat Int)
    (po : DPPayoffs) (geom : DPGeometry) (dp dp' : ManhattanDP)
    (hjt : dp.jump_thresh = dp'.jump_thresh) :
    solutionOf (Compute roundi FillPolygon po geom dp) =
      solutionOf (Compute roundi FillPolygon po geom dp') :=
  solution_independent roundi FillPolygon po geom dp dp' hjt

/-- Witness of `C7_determinism`: a fresh solver and a used one on the 4x4
scenario. -/
theorem C7_determinism_witness :
    (freshSolver (1 / 10)).jump_thresh = (usedSolver (1 / 10)).jump_thresh ∧
    solutionOf (Compute roundHalfUp noFill scenarioPayoffs
        (gridGeom 4 4 2 100000000 (-100000000)) (freshSolver (1 / 10))) =
      solutionOf (Compute roundHalfUp noFill scenarioPayoffs
        (gridGeom 4 4 2 100000000 (-100000000)) (usedSolver (1 / 10))) :=
  ⟨rfl, C7_determinism roundHalfUp noFill scenarioPayoffs
    (gridGeom 4 4 2 100000000 (-100000000)) (freshSolver (1 / 10)) (usedSolver (1 / 10)) rfl⟩

/-- The states reached by the leftward walk do not depend on the cost field. -/
theorem walkTrans_states (po po' : DPPayoffs) (geom : DPGeometry) (jump_thresh : ℚ)
    (roundi : ℚ → Int) (state : DPState) (vpt_col : Int) (m c : ℚ) (k : Nat) :
    ∀ delta delta' : ℚ,
      (walkTrans po geom jump_thresh roundi state vpt_col m c k delta).map Prod.fst =
        (walkTrans po' geom jump_thresh roundi state vpt_col m c k delta').map Prod.fst := by
  induction k with
  | zero => intro _ _; rfl
  | succ k ih =>
    intro delta delta'
    unfold walkTrans
    simp only
    split_ifs
    · rfl
    · rfl
    · rfl
    · simp only [List.map_cons, List.cons.injEq, true_and]
      exact ih _ _

/-- The states reached by the moves of a state do not depend on the cost field. -/
theorem transitions_states (po po' : DPPayoffs) (geom : DPGeometry) (jump_thresh : ℚ)
    (roundi : ℚ → Int) (s : DPState) :
    (transitions po geom jump_thresh roundi s).map Prod.fst =
      (transitions po' geom jump_thresh roundi s).map Prod.fst := by
  unfold transitions
  by_cases h1 : s.dir = DIR_IN
  · rw [if_pos h1, if_pos h1]
    unfold inTrans
    simp only [List.map_append]
    split_ifs <;> rfl
  · rw [if_neg h1, if_neg h1]
    by_cases h2 : s.dir = DIR_UP ∨ s.dir = DIR_DOWN
    · rw [if_pos h2, if_pos h2]
    · rw [if_neg h2, if_neg h2]
      by_cases h3 : s.dir = DIR_OUT
      · rw [if_pos h3, if_pos h3]
        simp only
        split_ifs
        · exact walkTrans_states po po' geom jump_thresh roundi _ _ _ _ _ _ _
        · rfl
      · rw [if_neg h3, if_neg h3]

/-- Whether a list of states is an admissible chain does not depend on the cost
field; only its score does. -/
theorem admissible_states (po po' : DPPayoffs) (geom : DPGeometry) (jump_thresh : ℚ)
    (roundi : ℚ → Int) (l : List DPState) (v : ℚ)
    (h : Admissible po geom jump_thresh roundi l v) :
    ∃ v', Admissible po' geom jump_thresh roundi l v' := by
  induction h with
  | base s h0 => exact ⟨0, Admissible.base s h0⟩
  | step s n rest d v h0 ht _ ih =>
    obtain ⟨v', hv'⟩ := ih
    have hmem : n ∈ (transitions po geom jump_thresh roundi s).map Prod.fst :=
      List.mem_map.2 ⟨(n, d), ht, rfl⟩
    rw [transitions_states po po' geom jump_thresh roundi s] at hmem
    obtain ⟨t, ht', htn⟩ := List.mem_map.1 hmem
    obtain ⟨n', d'⟩ := t
    simp only at htn
    subst htn
    exact ⟨v' + d', Admissible.step s n' rest d' v' h0 ht' hv'⟩

/-- The infeasibility error is raised exactly when no admissible chain starts
at a terminal state. -/
theorem infeasible_iff_no_chain (roundi : ℚ → Int)
    (FillPolygon : List Vec3 → Mat Int → Int → Mat Int)
    (po : DPPayoffs) (geom : DPGeometry) (dp : ManhattanDP) :
    Compute roundi FillPolygon po geom dp = Except.error DPError.infeasible ↔
      ¬ ∃ t ∈ terminals geom, ∃ (l : List DPState) (v : ℚ),
        Admissible po geom dp.jump_thresh roundi (t :: l) v := by
  rw [Compute_infeasible_iff]
  constructor
  · intro hf
    rintro ⟨t, ht, l, v, hadm⟩
    rcases search_cases po geom dp.jump_thresh roundi with ⟨_, h2⟩ | ⟨h1, _⟩
    · have h3 := h2 t ht
      rw [Score.val_add] at h3
      have h4 := admissible_le po geom dp.jump_thresh roundi _ v hadm t (by simp)
      have h5 : (value po geom dp.jump_thresh roundi t).score.val = ⊥ := by
        by_contra hc
        obtain ⟨q, hq⟩ := WithBot.ne_bot_iff_exists.1 hc
        rw [← hq] at h3
        exact absurd h3 (by simp [← WithBot.coe_add])
      rw [h5] at h4
      exact absurd h4 (by simp)
    · rw [hf] at h1; exact absurd h1 (by decide)
  · intro hno
    cases hf : isFeasible po geom dp.jump_thresh roundi
    · rfl
    · obtain ⟨t, qv, rest, htm, _, _, hch, hadm, _⟩ :=
        backChain_facts po geom dp.jump_thresh roundi hf
      rw [hch] at hadm
      exact absurd ⟨t, htm, rest, qv, hadm⟩ hno

/-- C5 (amended). Feasibility: for every grid, geometry, cost field and
penalties, `Compute` raises the infeasibility error if and only if no chain of
moves of the recurrence leads from a terminal state down to column 0; whether
it does so depends on the geometry and the jump threshold alone, not on the
cost field or the penalties. -/
theorem C5_feasibility (roundi : ℚ → Int) (FillPolygon : List Vec3 → Mat Int → Int → Mat Int)
    (po : DPPayoffs) (geom : DPGeometry) (dp : ManhattanDP) :
    (Compute roundi FillPolygon po geom dp = Except.error DPError.infeasible ↔
      ¬ ∃ t ∈ terminals geom, ∃ (l : List DPState) (v : ℚ),
        Admissible po geom dp.jump_thresh roundi (t :: l) v) ∧
    ∀ po' : DPPayoffs,
      (Compute roundi FillPolygon po' geom dp = Except.error DPError.infeasible ↔
        Compute roundi FillPolygon po geom dp = Except.error DPError.infeasible) := by
  refine ⟨infeasible_iff_no_chain roundi FillPolygon po geom dp, fun po' => ?_⟩
  rw [infeasible_iff_no_chain, infeasible_iff_no_chain]
  constructor
  · intro h
    rintro ⟨t, ht, l, v, hadm⟩
    obtain ⟨v', hv'⟩ := admissible_states po po' geom dp.jump_thresh roundi _ v hadm
    exact h ⟨t, ht, l, v', hv'⟩
  · intro h
    rintro ⟨t, ht, l, v, hadm⟩
    obtain ⟨v', hv'⟩ := admissible_states po' po geom dp.jump_thresh roundi _ v hadm
    exact h ⟨t, ht, l, v', hv'⟩

/-- On a 1x1 grid whose only row is the horizon row, with both vanishing points
far outside the grid and a zero cost field, `Compute` raises the infeasibility
error. -/
theorem C5_counterexample :
    Compute roundHalfUp noFill (zeroPayoffs 1 1) (gridGeom 1 1 0 100000000 (-100000000))
      (freshSolver 0) = Except.error DPError.infeasible := by
  have h : isOk (Compute roundHalfUp noFill (zeroPayoffs 1 1)
      (gridGeom 1 1 0 100000000 (-100000000)) (freshSolver 0)) = false := by decide!
  have h2 : (match Compute roundHalfUp noFill (zeroPayoffs 1 1)
      (gridGeom 1 1 0 100000000 (-100000000)) (freshSolver 0) with
      | Except.error e => some e
      | Except.ok _ => Option.none) = some DPError.infeasible := by decide!
  cases hc : Compute roundHalfUp noFill (zeroPayoffs 1 1)
      (gridGeom 1 1 0 100000000 (-100000000)) (freshSolver 0) with
  | error e =>
    rw [hc] at h2
    simp only [Option.some.injEq] at h2
    rw [h2]
  | ok d =>
    rw [hc] at h
    exact absurd h (by simp [isOk])

/-- When every column before `k` passes the checks of the leftward walk, the
walk offers a move into `DIR_IN` at some column `j < k` with the cost-field
values of the columns from `j` to `k - 1`, and either `j = 0` or it also offers
the kink move into `DIR_OUT` at that column. -/
theorem walkTrans_reach (po : DPPayoffs) (geom : DPGeometry) (jump_thresh : ℚ) (roundi : ℚ → Int)
    (state : DPState) (vpt_col : Int) (m c : ℚ) (k : Nat) :
    ∀ delta : ℚ, 0 < k →
      (∀ x : Nat, x < k → (x : Int) ≠ vpt_col ∧ 0 ≤ roundi (m * ((x : Int) : ℚ) + c) ∧
        roundi (m * ((x : Int) : ℚ) + c) < geom.grid_size.2 ∧
        roundi (m * ((x : Int) : ℚ) + c) ≠ geom.horizon_row) →
      ∃ j : Nat, j < k ∧
        ((⟨roundi (m * ((j : Int) : ℚ) + c), (j : Int), state.axis, DIR_IN⟩ : DPState),
          delta + ∑ x ∈ Finset.Ico j k,
            (po.wall_scores state.axis).elem (roundi (m * ((x : Int) : ℚ) + c)) (x : Int)) ∈
          walkTrans po geom jump_thresh roundi state vpt_col m c k delta ∧
        (j = 0 ∨
          ((⟨roundi (m * ((j : Int) : ℚ) + c), (j : Int), state.axis, DIR_OUT⟩ : DPState),
            delta + ∑ x ∈ Finset.Ico j k,
              (po.wall_scores state.axis).elem (roundi (m * ((x : Int) : ℚ) + c)) (x : Int)) ∈
            walkTrans po geom jump_thresh roundi state vpt_col m c k delta) := by
  induction k with
  | zero => intro _ h; omega
  | succ k ih =>
    intro delta _ hgood
    have hk := hgood k (Nat.lt_succ_self k)
    unfold walkTrans
    simp only
    rw [if_neg hk.1, if_neg (by push_neg; exact ⟨hk.2.1, hk.2.2.1, hk.2.2.2⟩)]
    by_cases hkink : |((roundi (m * ((k : Int) : ℚ) + c) : Int) : ℚ) - (m * ((k : Int) : ℚ) + c)| /
        ((|roundi (m * ((k : Int) : ℚ) + c) - state.row| + |(k : Int) - state.col| : Int) : ℚ) <
        jump_thresh
    · rw [if_pos hkink]
      refine ⟨k, Nat.lt_succ_self k, ?_, Or.inr ?_⟩
      · simp
      · simp
    · rw [if_neg hkink]
      by_cases hk0 : k = 0
      · subst hk0
        refine ⟨0, Nat.zero_lt_one, ?_, Or.inl rfl⟩
        simp
      · obtain ⟨j, hj, h1, h2⟩ := ih
          (delta + (po.wall_scores state.axis).elem (roundi (m * ((k : Int) : ℚ) + c)) (k : Int))
          (Nat.pos_of_ne_zero hk0) (fun x hx => hgood x (Nat.lt_succ_of_lt hx))
        have hsum : delta + ∑ x ∈ Finset.Ico j (k + 1),
            (po.wall_scores state.axis).elem (roundi (m * ((x : Int) : ℚ) + c)) (x : Int) =
            delta + (po.wall_scores state.axis).elem (roundi (m * ((k : Int) : ℚ) + c)) (k : Int) +
              ∑ x ∈ Finset.Ico j k,
                (po.wall_scores state.axis).elem (roundi (m * ((x : Int) : ℚ) + c)) (x : Int) := by
          rw [Finset.sum_Ico_succ_top (Nat.le_of_lt hj)]
          ring
        refine ⟨j, Nat.lt_succ_of_lt hj, ?_, ?_⟩
        · rw [hsum]
          exact List.mem_cons_of_mem _ h1
        · rcases h2 with h2 | h2
          · exact Or.inl h2
          · rw [hsum]
            exact Or.inr (List.mem_cons_of_mem _ h2)

/-- In the 4x4 scenario the line of a `DIR_OUT` state of row 1 towards a
vanishing point at column `±1e8` stays on row 1. -/
theorem scenario_row (roundi : ℚ → Int)
    (hround : ∀ (x : ℚ) (n : Int), |x - (n : ℚ)| < 1 / 2 → roundi x = n)
    (v : Int) (hv : v = 100000000 ∨ v = -100000000) (c x : Nat) (hc : c ≤ 4) (hx : x < c) :
    roundi (((1 - 2 : Int) : ℚ) / (((c : Int) - v : Int) : ℚ) * ((x : Int) : ℚ) +
      (((2 : Int) : ℚ) - ((1 - 2 : Int) : ℚ) / (((c : Int) - v : Int) : ℚ) * (v : ℚ))) = 1 := by
  apply hround
  have hden : (((c : Int) - v : Int) : ℚ) ≠ 0 := by
    have : (c : Int) - v ≠ 0 := by rcases hv with h | h <;> omega
    exact_mod_cast this
  have hxc : (x : ℚ) < (c : ℚ) := by exact_mod_cast hx
  have hc4 : (c : ℚ) ≤ 4 := by exact_mod_cast hc
  have hx0 : (0 : ℚ) ≤ (x : ℚ) := by exact_mod_cast Nat.zero_le x
  have heq : ((1 - 2 : Int) : ℚ) / (((c : Int) - v : Int) : ℚ) * ((x : Int) : ℚ) +
      (((2 : Int) : ℚ) - ((1 - 2 : Int) : ℚ) / (((c : Int) - v : Int) : ℚ) * (v : ℚ)) -
      ((1 : Int) : ℚ) = ((c : ℚ) - (x : ℚ)) / (((c : Int) - v : Int) : ℚ) := by
    have hden' : (c : ℚ) - (v : ℚ) ≠ 0 := by
      have := hden
      push_cast at this
      exact this
    push_cast
    field_simp
    ring
  rw [heq, abs_div, div_lt_iff₀ (abs_pos.2 hden)]
  rw [abs_of_pos (by linarith)]
  rcases hv with h | h
  · subst h
    have : (((c : Int) - (100000000 : Int) : Int) : ℚ) < 0 := by push_cast; linarith
    rw [abs_of_neg this]
    push_cast
    linarith
  · subst h
    have : 0 < (((c : Int) - (-100000000 : Int) : Int) : ℚ) := by push_cast; linarith
    rw [abs_of_pos this]
    push_cast
    linarith

theorem truncToInt_intCast (n : Int) : truncToInt (n : ℚ) = n := by
  unfold truncToInt
  simp

/-- In the 4x4 scenario a `DIR_OUT` state of row 1 and axis 0 is worth at least
the cost-field values of row 1 over the columns to its left. -/
theorem scenario_lower (roundi : ℚ → Int)
    (hround : ∀ (x : ℚ) (n : Int), |x - (n : ℚ)| < 1 / 2 → roundi x = n)
    (geom : DPGeometry) (jump_thresh : ℚ) (hgrid : geom.grid_size = (4, 4))
    (hhor : geom.horizon_row = 2)
    (hv0 : geom.vpt_cols 0 = 100000000 ∨ geom.vpt_cols 0 = -100000000) (c : Nat) :
    c ≤ 4 →
      (((∑ x ∈ Finset.Ico 0 c, (scenarioPayoffs.wall_scores 0).elem 1 (x : Int) : ℚ)) :
        WithBot ℚ) ≤
        (value scenarioPayoffs geom jump_thresh roundi ⟨1, (c : Int), 0, DIR_OUT⟩).score.val := by
  induction c using Nat.strong_induction_on with
  | _ c ih =>
    intro hc
    by_cases hc0 : c = 0
    · subst hc0
      rcases value_cases scenarioPayoffs geom jump_thresh roundi ⟨1, ((0 : Nat) : Int), 0, DIR_OUT⟩
        with ⟨_, h1⟩ | ⟨h1, _⟩ | ⟨h1, _⟩
      · rw [h1]
        simp [Score.val]
      · exact absurd rfl h1
      · exact absurd rfl h1
    · have hv : truncToInt (geom.vpt_cols 0) = 100000000 ∨
          truncToInt (geom.vpt_cols 0) = -100000000 := by
        rcases hv0 with h | h
        · left
          rw [h]
          exact_mod_cast truncToInt_intCast 100000000
        · right
          rw [h]
          exact_mod_cast truncToInt_intCast (-100000000)
      have hne : ((c : Int)) ≠ truncToInt (geom.vpt_cols 0) := by
        rcases hv with h | h <;> rw [h] <;> omega
      have hs0 : (⟨1, (c : Int), 0, DIR_OUT⟩ : DPState).col ≠ 0 := by
        simp only
        exact_mod_cast hc0
      have htrans : transitions scenarioPayoffs geom jump_thresh roundi ⟨1, (c : Int), 0, DIR_OUT⟩ =
          walkTrans scenarioPayoffs geom jump_thresh roundi ⟨1, (c : Int), 0, DIR_OUT⟩
            (truncToInt (geom.vpt_cols 0))
            (((1 - 2 : Int) : ℚ) / (((c : Int) - truncToInt (geom.vpt_cols 0) : Int) : ℚ))
            (((2 : Int) : ℚ) -
              ((1 - 2 : Int) : ℚ) / (((c : Int) - truncToInt (geom.vpt_cols 0) : Int) : ℚ) *
                (truncToInt (geom.vpt_cols 0) : ℚ)) c 0 := by
        unfold transitions
        rw [if_neg (show ¬ (1 : Int) = 0 by decide),
          if_neg (show ¬ ((1 : Int) = 2 ∨ (1 : Int) = 3) by decide), if_pos rfl]
        simp only [hhor]
        rw [if_pos hne]
        simp
      have hrow : ∀ x : Nat, x < c →
          roundi (((1 - 2 : Int) : ℚ) / (((c : Int) - truncToInt (geom.vpt_cols 0) : Int) : ℚ) *
            ((x : Int) : ℚ) + (((2 : Int) : ℚ) -
              ((1 - 2 : Int) : ℚ) / (((c : Int) - truncToInt (geom.vpt_cols 0) : Int) : ℚ) *
                (truncToInt (geom.vpt_cols 0) : ℚ))) = 1 :=
        fun x hx => scenario_row roundi hround _ hv c x hc hx
      obtain ⟨j, hj, hin, hout⟩ := walkTrans_reach scenarioPayoffs geom jump_thresh roundi
        ⟨1, (c : Int), 0, DIR_OUT⟩ (truncToInt (geom.vpt_cols 0))
        (((1 - 2 : Int) : ℚ) / (((c : Int) - truncToInt (geom.vpt_cols 0) : Int) : ℚ))
        (((2 : Int) : ℚ) -
          ((1 - 2 : Int) : ℚ) / (((c : Int) - truncToInt (geom.vpt_cols 0) : Int) : ℚ) *
            (truncToInt (geom.vpt_cols 0) : ℚ)) c 0 (Nat.pos_of_ne_zero hc0)
        (fun x hx => by
          rw [hrow x hx, hgrid, hhor]
          refine ⟨?_, by decide, by decide, by decide⟩
          rcases hv with h | h <;> rw [h] <;> omega)
      rw [← htrans] at hin hout
      have hsum : ∑ x ∈ Finset.Ico j c,
          (scenarioPayoffs.wall_scores (⟨1, (c : Int), 0, DIR_OUT⟩ : DPState).axis).elem
            (roundi (((1 - 2 : Int) : ℚ) /
              (((c : Int) - truncToInt (geom.vpt_cols 0) : Int) : ℚ) * ((x : Int) : ℚ) +
              (((2 : Int) : ℚ) -
                ((1 - 2 : Int) : ℚ) / (((c : Int) - truncToInt (geom.vpt_cols 0) : Int) : ℚ) *
                  (truncToInt (geom.vpt_cols 0) : ℚ)))) (x : Int) =
          ∑ x ∈ Finset.Ico j c, (scenarioPayoffs.wall_scores 0).elem 1 (x : Int) := by
        apply Finset.sum_congr rfl
        intro x hx
        rw [Finset.mem_Ico] at hx
        rw [hrow x hx.2]
      rw [hsum, hrow j hj] at hin hout
      have hsplit := Finset.sum_Ico_consecutive
        (fun x : Nat => (scenarioPayoffs.wall_scores 0).elem 1 (x : Int)) (Nat.zero_le j)
        (Nat.le_of_lt hj)
      rcases hout with hj0 | hout
      · -- the walk reaches column 0
        subst hj0
        have h1 := value_ge_offer scenarioPayoffs geom jump_thresh roundi _ hs0 _ hin
        refine le_trans ?_ h1
        unfold offer
        rw [Score.val_add]
        simp only
        rcases value_cases scenarioPayoffs geom jump_thresh roundi ⟨1, ((0 : Nat) : Int), 0, DIR_IN⟩
          with ⟨_, h2⟩ | ⟨h2, _⟩ | ⟨h2, _⟩
        · rw [h2]
          simp only [Score.val, zero_add]
          rw [← WithBot.coe_add]
          simp
        · exact absurd rfl h2
        · exact absurd rfl h2
      · -- the walk stops at a kink in column `j`
        have h1 := value_ge_offer scenarioPayoffs geom jump_thresh roundi _ hs0 _ hout
        refine le_trans ?_ h1
        unfold offer
        rw [Score.val_add]
        simp only
        have h2 := ih j hj (by omega)
        rw [← hsplit, zero_add]
        rw [WithBot.coe_add]
        exact add_le_add_right h2 _

/-- The 4x4 scenario, for any rounding to nearest, jump threshold and signs of
the two vanishing-point columns. -/
theorem scenario_solution (roundi : ℚ → Int)
    (hround : ∀ (x : ℚ) (n : Int), |x - (n : ℚ)| < 1 / 2 → roundi x = n)
    (FillPolygon : List Vec3 → Mat Int → Int → Mat Int)
    (geom : DPGeometry) (dp : ManhattanDP) (hgrid : geom.grid_size = (4, 4))
    (hhor : geom.horizon_row = 2)
    (hv0 : geom.vpt_cols 0 = 100000000 ∨ geom.vpt_cols 0 = -100000000) :
    ∃ dp1, Compute roundi FillPolygon scenarioPayoffs geom dp = Except.ok dp1 ∧
      dp1.solution.score = Score.fin 9 ∧
      VecI.get dp1.solution.path_ys 2 = 1 ∧ VecI.get dp1.solution.path_axes 2 = 0 ∧
      dp1.solution.num_walls = 1 ∧ dp1.solution.num_occlusions = 0 := by
  -- the terminal state of row 1 and axis 0 is worth at least 10
  have hlow := scenario_lower roundi hround geom dp.jump_thresh hgrid hhor hv0 4 (le_refl 4)
  have hS : (∑ x ∈ Finset.Ico 0 4, (scenarioPayoffs.wall_scores 0).elem 1 ((x : Nat) : Int) : ℚ) =
      10 := by
    simp [Finset.sum_Ico_eq_sum_range, Finset.sum_range_succ, scenarioPayoffs]
  rw [hS] at hlow
  have hT : (⟨1, ((4 : Nat) : Int), 0, DIR_OUT⟩ : DPState) ∈ terminals geom := by
    rw [mem_terminals, hgrid]
    simp
  have hoffer : ((9 : ℚ) : WithBot ℚ) ≤
      ((value scenarioPayoffs geom dp.jump_thresh roundi
        ⟨1, ((4 : Nat) : Int), 0, DIR_OUT⟩).score.add (-scenarioPayoffs.wall_penalty)).val := by
    rw [Score.val_add]
    have : ((9 : ℚ) : WithBot ℚ) = ((10 : ℚ) : WithBot ℚ) + ((-scenarioPayoffs.wall_penalty : ℚ) : WithBot ℚ) := by
      rw [← WithBot.coe_add]
      have : (10 : ℚ) + -scenarioPayoffs.wall_penalty = 9 := by
        simp only [scenarioPayoffs]
        norm_num
      rw [this]
    rw [this]
    exact add_le_add_right hlow _
  -- hence the search is feasible and the best score is at least 9
  have hbest : isFeasible scenarioPayoffs geom dp.jump_thresh roundi = true ∧
      ((9 : ℚ) : WithBot ℚ) ≤ (bestTerminal scenarioPayoffs geom dp.jump_thresh roundi).score.val := by
    rcases search_cases scenarioPayoffs geom dp.jump_thresh roundi with ⟨_, h2⟩ |
      ⟨h1, l1, t, l2, k1, k2, _, k4, k5⟩
    · have := h2 _ hT
      rw [this] at hoffer
      exact absurd hoffer (by simp)
    · refine ⟨h1, ?_⟩
      rw [k2]
      refine le_trans hoffer ?_
      rw [k1] at hT
      rcases List.mem_append.1 hT with hm | hm
      · exact le_of_lt (k4 _ hm)
      · rcases List.mem_cons.1 hm with hm | hm
        · rw [hm]
        · exact k5 _ hm
  obtain ⟨hf, h9⟩ := hbest
  obtain ⟨d, p, _, _, _, hc⟩ := Compute_feasible roundi FillPolygon scenarioPayoffs geom dp hf
  refine ⟨_, hc, ?_⟩
  obtain ⟨_, _, _, _, _, _, _, _, _, hscore, _, _, _⟩ :=
    Compute_ok_fields roundi FillPolygon scenarioPayoffs geom dp _ hc
  obtain ⟨hdec, hO, hWO, hlen1, hlen2⟩ := score_decomposition roundi FillPolygon scenarioPayoffs
    geom dp _ (by rw [hgrid]; decide) hc
  rw [← hscore] at h9
  generalize hdp1 : ({ stepsOver geom FillPolygon (backChain scenarioPayoffs geom dp.jump_thresh roundi)
      Option.none (initBacktrack geom (bestTerminal scenarioPayoffs geom dp.jump_thresh roundi) d) with
      solution := { (stepsOver geom FillPolygon
        (backChain scenarioPayoffs geom dp.jump_thresh roundi) Option.none
        (initBacktrack geom (bestTerminal scenarioPayoffs geom dp.jump_thresh roundi) d)).solution with
        path_ys := p.1, path_axes := p.2 } } : ManhattanDP) = dp1 at hdec hO hWO hlen1 hlen2 h9 ⊢
  -- the path collects 10 only through row 1, axis 0 in column 2
  have hlen : dp1.solution.path_ys.length = 4 := by
    rw [hgrid] at hlen1
    simp only at hlen1
    exact_mod_cast hlen1
  have hsum : dp1.solution.pathSum scenarioPayoffs =
      if VecI.get dp1.solution.path_axes 2 = 0 ∧ VecI.get dp1.solution.path_ys 2 = 1 then 10
      else 0 := by
    unfold DPSolution.pathSum
    rw [hlen]
    simp [List.range_succ, scenarioPayoffs]
  rw [hdec, hsum, Score.val_fin, WithBot.coe_le_coe] at h9
  have hwp : scenarioPayoffs.wall_penalty = 1 := rfl
  have hop : scenarioPayoffs.occl_penalty = 1 / 2 := rfl
  rw [hwp, hop] at h9 hdec
  have hOq : (0 : ℚ) ≤ (dp1.solution.num_occlusions : ℚ) := by exact_mod_cast hO
  have hWq : (dp1.solution.num_occlusions : ℚ) + 1 ≤ (dp1.solution.num_walls : ℚ) := by
    exact_mod_cast hWO
  by_cases hcond : VecI.get dp1.solution.path_axes 2 = 0 ∧ VecI.get dp1.solution.path_ys 2 = 1
  · rw [if_pos hcond] at h9
    have hO0 : (dp1.solution.num_occlusions : ℚ) = 0 := by linarith
    have hW1 : (dp1.solution.num_walls : ℚ) = 1 := by linarith
    refine ⟨?_, hcond.2, hcond.1, by exact_mod_cast hW1, by exact_mod_cast hO0⟩
    rw [hdec, hsum, if_pos hcond, hO0, hW1]
    norm_num
  · rw [if_neg hcond] at h9
    linarith

theorem roundHalfUp_nearest (x : ℚ) (n : Int) (h : |x - (n : ℚ)| < 1 / 2) : roundHalfUp x = n := by
  unfold roundHalfUp
  show ⌊x + 1 / 2⌋ = n
  rw [Int.floor_eq_iff]
  rw [abs_lt] at h
  constructor <;> linarith [h.1, h.2]

/-- C10. The 4x4 scenario: on a 4x4 grid with horizon row 2, wall penalty 1,
occlusion penalty 1/2 and all wall scores 0 except `wall_scores[0][1][2] = 10`,
with both vanishing-point columns at `+1e8` or `-1e8`, for any jump threshold
(that of the solver `dp`) and any `roundi` that rounds to the nearest integer,
`Compute` succeeds with score 9, `path_ys[2] = 1`, `path_axes[2] = 0`, one wall
and no occlusion. -/
theorem C10_scenario (roundi : ℚ → Int)
    (hround : ∀ (x : ℚ) (n : Int), |x - (n : ℚ)| < 1 / 2 → roundi x = n)
    (FillPolygon : List Vec3 → Mat Int → Int → Mat Int)
    (geom : DPGeometry) (dp : ManhattanDP) (hgrid : geom.grid_size = (4, 4))
    (hhor : geom.horizon_row = 2)
    (hv0 : geom.vpt_cols 0 = 100000000 ∨ geom.vpt_cols 0 = -100000000)
    (_hv1 : geom.vpt_cols 1 = 100000000 ∨ geom.vpt_cols 1 = -100000000) :
    ∃ dp1, Compute roundi FillPolygon scenarioPayoffs geom dp = Except.ok dp1 ∧
      dp1.solution.score = Score.fin 9 ∧
      VecI.get dp1.solution.path_ys 2 = 1 ∧ VecI.get dp1.solution.path_axes 2 = 0 ∧
      dp1.solution.num_walls = 1 ∧ dp1.solution.num_occlusions = 0 :=
  scenario_solution roundi hround FillPolygon geom dp hgrid hhor hv0

/-- Witness of `C10_scenario`: rounding halves upward, jump threshold 1/10,
vanishing-point columns `+1e8` and `-1e8`. -/
theorem C10_scenario_witness :
    (∀ (x : ℚ) (n : Int), |x - (n : ℚ)| < 1 / 2 → roundHalfUp x = n) ∧
    (gridGeom 4 4 2 100000000 (-100000000)).grid_size = (4, 4) ∧
    (gridGeom 4 4 2 100000000 (-100000000)).horizon_row = 2 ∧
    ∃ dp1, Compute roundHalfUp noFill scenarioPayoffs (gridGeom 4 4 2 100000000 (-100000000))
        (freshSolver (1 / 10)) = Except.ok dp1 ∧
      dp1.solution.score = Score.fin 9 ∧
      VecI.get dp1.solution.path_ys 2 = 1 ∧ VecI.get dp1.solution.path_axes 2 = 0 ∧
      dp1.solution.num_walls = 1 ∧ dp1.solution.num_occlusions = 0 :=
  ⟨roundHalfUp_nearest, rfl, rfl,
    C10_scenario roundHalfUp roundHalfUp_nearest noFill (gridGeom 4 4 2 100000000 (-100000000))
      (freshSolver (1 / 10)) rfl rfl (Or.inl rfl) (Or.inr rfl)⟩

set_option maxRecDepth 100000 in
/-- The 4x4 scenario with jump threshold 0 succeeds. -/
theorem scenario_ok :
    ∃ d, Compute roundHalfUp noFill scenarioPayoffs (gridGeom 4 4 2 100000000 (-100000000))
      (freshSolver 0) = Except.ok d :=
  exists_ok_of_isOk _ (by decide!)

/-- Witness of `C1_score_decomposition`: the 4x4 scenario. -/
theorem C1_score_decomposition_witness :
    1 ≤ (gridGeom 4 4 2 100000000 (-100000000)).grid_size.1 ∧
    ∃ dp1, Compute roundHalfUp noFill scenarioPayoffs (gridGeom 4 4 2 100000000 (-100000000))
        (freshSolver 0) = Except.ok dp1 ∧
      dp1.solution.score =
        Score.fin (dp1.solution.pathSum scenarioPayoffs -
          (dp1.solution.num_walls : ℚ) * scenarioPayoffs.wall_penalty -
          (dp1.solution.num_occlusions : ℚ) * scenarioPayoffs.occl_penalty) ∧
      ((scenarioPayoffs.wall_scores 0).cols = (gridGeom 4 4 2 100000000 (-100000000)).grid_size.1 →
        (scenarioPayoffs.wall_scores 0).rows = (scenarioPayoffs.wall_scores 1).rows →
        (scenarioPayoffs.wall_scores 0).cols = (scenarioPayoffs.wall_scores 1).cols →
        dp1.solution.GetTotalPayoff scenarioPayoffs true =
          some (dp1.solution.pathSum scenarioPayoffs -
            (dp1.solution.num_walls : ℚ) * scenarioPayoffs.wall_penalty -
            (dp1.solution.num_occlusions : ℚ) * scenarioPayoffs.occl_penalty)) := by
  obtain ⟨d, hd⟩ := scenario_ok
  exact ⟨by decide, d, hd, C1_score_decomposition roundHalfUp noFill scenarioPayoffs
    (gridGeom 4 4 2 100000000 (-100000000)) (freshSolver 0) d (by decide) hd⟩

/-- On a grid of width 0 and height 1 `Compute` succeeds with score
`-wall_penalty = -1`, while the sum over the (empty set of) columns minus the
penalties of the zero walls and occlusions, and `GetTotalPayoff`, are 0. -/
theorem C1_counterexample :
    ∃ dp1, Compute roundHalfUp noFill (zeroPayoffs 0 1) (gridGeom 0 1 0 100000000 (-100000000))
        (freshSolver 0) = Except.ok dp1 ∧
      dp1.solution.score = Score.fin (-1) ∧
      dp1.solution.GetTotalPayoff (zeroPayoffs 0 1) true = some 0 ∧
      dp1.solution.score ≠
        Score.fin (dp1.solution.pathSum (zeroPayoffs 0 1) -
          (dp1.solution.num_walls : ℚ) * (zeroPayoffs 0 1).wall_penalty -
          (dp1.solution.num_occlusions : ℚ) * (zeroPayoffs 0 1).occl_penalty) := by
  obtain ⟨d, hd⟩ := exists_ok_of_isOk (Compute roundHalfUp noFill (zeroPayoffs 0 1)
    (gridGeom 0 1 0 100000000 (-100000000)) (freshSolver 0)) (by decide!)
  have h1 : (solutionOf (Compute roundHalfUp noFill (zeroPayoffs 0 1)
      (gridGeom 0 1 0 100000000 (-100000000)) (freshSolver 0))).toOption.map
        (fun s => s.score) = some (Score.fin (-1)) := by decide!
  have h2 : (solutionOf (Compute roundHalfUp noFill (zeroPayoffs 0 1)
      (gridGeom 0 1 0 100000000 (-100000000)) (freshSolver 0))).toOption.map
        (fun s => s.GetTotalPayoff (zeroPayoffs 0 1) true) = some (some 0) := by decide!
  have h3 : (solutionOf (Compute roundHalfUp noFill (zeroPayoffs 0 1)
      (gridGeom 0 1 0 100000000 (-100000000)) (freshSolver 0))).toOption.map
        (fun s => decide (s.score = Score.fin (s.pathSum (zeroPayoffs 0 1) -
          (s.num_walls : ℚ) * (zeroPayoffs 0 1).wall_penalty -
          (s.num_occlusions : ℚ) * (zeroPayoffs 0 1).occl_penalty))) = some false := by decide!
  rw [hd] at h1 h2 h3
  simp only [solutionOf, Except.toOption, Option.map_some', Option.some.injEq,
    decide_eq_false_iff_not] at h1 h2 h3
  exact ⟨d, hd, h1, h2, h3⟩

set_option maxRecDepth 100000 in
/-- Witness of `C2_optimality`: the 4x4 scenario. -/
theorem C2_optimality_witness :
    ∃ dp1, Compute roundHalfUp noFill scenarioPayoffs
        (gridGeom 4 4 2 100000000 (-100000000)) (freshSolver 0) = Except.ok dp1 ∧
      ∃ q : ℚ, dp1.solution.score = Score.fin q ∧
        (∀ t ∈ terminals (gridGeom 4 4 2 100000000 (-100000000)), ∀ (l : List DPState) (v : ℚ),
          Admissible scenarioPayoffs (gridGeom 4 4 2 100000000 (-100000000))
            (freshSolver 0).jump_thresh roundHalfUp (t :: l) v →
          v - scenarioPayoffs.wall_penalty ≤ q) ∧
        (∃ t ∈ terminals (gridGeom 4 4 2 100000000 (-100000000)), ∃ rest,
          dp1.full_backtrack = t :: rest) ∧
        Admissible scenarioPayoffs (gridGeom 4 4 2 100000000 (-100000000))
          (freshSolver 0).jump_thresh roundHalfUp dp1.full_backtrack
          (q + scenarioPayoffs.wall_penalty) := by
  obtain ⟨d, hd⟩ := scenario_ok
  exact ⟨d, hd, C2_optimality roundHalfUp noFill scenarioPayoffs
    (gridGeom 4 4 2 100000000 (-100000000)) (freshSolver 0) d hd⟩

/-- Witness of `C3_column_coverage`: the 4x4 scenario. -/
theorem C3_column_coverage_witness :
    Compute roundHalfUp noFill scenarioPayoffs (gridGeom 4 4 2 100000000 (-100000000))
        (freshSolver 0) ≠ Except.error DPError.infeasible ∧
    ∃ dp1, Compute roundHalfUp noFill scenarioPayoffs (gridGeom 4 4 2 100000000 (-100000000))
        (freshSolver 0) = Except.ok dp1 ∧
      (dp1.solution.path_ys.length : Int) =
        (gridGeom 4 4 2 100000000 (-100000000)).grid_size.1 ∧
      (dp1.solution.path_axes.length : Int) =
        (gridGeom 4 4 2 100000000 (-100000000)).grid_size.1 ∧
      ∀ x : Int, 0 ≤ x → x < (gridGeom 4 4 2 100000000 (-100000000)).grid_size.1 →
        VecI.get dp1.solution.path_ys x ≠ -1 ∧ VecI.get dp1.solution.path_axes x ≠ -1 := by
  obtain ⟨d, hd⟩ := scenario_ok
  have hne : Compute roundHalfUp noFill scenarioPayoffs (gridGeom 4 4 2 100000000 (-100000000))
      (freshSolver 0) ≠ Except.error DPError.infeasible := by
    rw [hd]
    exact fun hc => by cases hc
  exact ⟨hne, C3_column_coverage roundHalfUp noFill scenarioPayoffs
    (gridGeom 4 4 2 100000000 (-100000000)) (freshSolver 0) hne⟩

/-- Witness of `C6_terminal_selection`: the 4x4 scenario. -/
theorem C6_terminal_selection_witness :
    ∃ dp1, Compute roundHalfUp noFill scenarioPayoffs (gridGeom 4 4 2 100000000 (-100000000))
        (freshSolver 0) = Except.ok dp1 ∧
      (∀ u ∈ terminals (gridGeom 4 4 2 100000000 (-100000000)),
        dp1.cache.find u = some (value scenarioPayoffs (gridGeom 4 4 2 100000000 (-100000000))
          (freshSolver 0).jump_thresh roundHalfUp u)) ∧
      ∃ l1 t l2, terminals (gridGeom 4 4 2 100000000 (-100000000)) = l1 ++ t :: l2 ∧
        dp1.solution.node.src = t ∧
        dp1.solution.score = (value scenarioPayoffs (gridGeom 4 4 2 100000000 (-100000000))
          (freshSolver 0).jump_thresh roundHalfUp t).score.add (-scenarioPayoffs.wall_penalty) ∧
        (∀ u ∈ l1, ((value scenarioPayoffs (gridGeom 4 4 2 100000000 (-100000000))
            (freshSolver 0).jump_thresh roundHalfUp u).score.add
              (-scenarioPayoffs.wall_penalty)).val < dp1.solution.score.val) ∧
        (∀ u ∈ l2, ((value scenarioPayoffs (gridGeom 4 4 2 100000000 (-100000000))
            (freshSolver 0).jump_thresh roundHalfUp u).score.add
              (-scenarioPayoffs.wall_penalty)).val ≤ dp1.solution.score.val) := by
  obtain ⟨d, hd⟩ := scenario_ok
  exact ⟨d, hd, C6_terminal_selection roundHalfUp noFill scenarioPayoffs
    (gridGeom 4 4 2 100000000 (-100000000)) (freshSolver 0) d hd⟩

/-- A matrix-vector product commutes with scaling the vector. -/
theorem mulVec_scale (m : Mat3) (k : ℚ) (v : Vec3) :
    m.mulVec (k * v.1, k * v.2.1, k * v.2.2) =
      (k * (m.mulVec v).1, k * (m.mulVec v).2.1, k * (m.mulVec v).2.2) := by
  simp only [Mat3.mulVec, dot3, Prod.mk.injEq]
  refine ⟨?_, ?_, ?_⟩ <;> ring

theorem project_scale (k : ℚ) (hk : k ≠ 0) (v : Vec3) :
    project (k * v.1, k * v.2.1, k * v.2.2) = project v := by
  simp only [project, Prod.mk.injEq]
  constructor
  · rw [mul_div_mul_left _ _ hk]
  · rw [mul_div_mul_left _ _ hk]

theorem project_unproject (q : Vec2) : project (unproject q) = q := by
  simp [project, unproject]

/-- The vector `unproject (project v)` is `v` scaled by the inverse of its
last coordinate. -/
theorem unproject_project (v : Vec3) (hw : v.2.2 ≠ 0) :
    unproject (project v) = (v.2.2⁻¹ * v.1, v.2.2⁻¹ * v.2.1, v.2.2⁻¹ * v.2.2) := by
  simp only [project, unproject, Prod.mk.injEq]
  refine ⟨by ring, by ring, ?_⟩
  rw [inv_mul_cancel₀ hw]

/-- C13. Round trip: when `gridToImage` is the exact inverse of `imageToGrid`,
for every homogeneous image point `p` whose rectified image has non-zero third
coordinate `w`, `GridToImage(ImageToGrid(p))` is `p` scaled by `1/w`, so it
denotes the same point as `p` and is equal to it after dehomogenisation; and
`ImageToGrid(GridToImage(q)) = q` for every grid point `q`. -/
theorem C13_round_trip (g : DPGeometry) (hinv : IsInverse g.gridToImage g.imageToGrid) :
    (∀ p : Vec3, (g.imageToGrid.mulVec p).2.2 ≠ 0 →
      g.GridToImage (g.ImageToGrid p) =
        ((g.imageToGrid.mulVec p).2.2⁻¹ * p.1, (g.imageToGrid.mulVec p).2.2⁻¹ * p.2.1,
          (g.imageToGrid.mulVec p).2.2⁻¹ * p.2.2) ∧
      project (g.GridToImage (g.ImageToGrid p)) = project p) ∧
    (∀ q : Vec2, g.ImageToGrid (g.GridToImage q) = q) := by
  constructor
  · intro p hw
    have h1 : g.GridToImage (g.ImageToGrid p) =
        ((g.imageToGrid.mulVec p).2.2⁻¹ * p.1, (g.imageToGrid.mulVec p).2.2⁻¹ * p.2.1,
          (g.imageToGrid.mulVec p).2.2⁻¹ * p.2.2) := by
      unfold DPGeometry.GridToImage DPGeometry.ImageToGrid
      rw [unproject_project _ hw, mulVec_scale, hinv.1 p]
    refine ⟨h1, ?_⟩
    rw [h1]
    exact project_scale _ (inv_ne_zero hw) p
  · intro q
    unfold DPGeometry.GridToImage DPGeometry.ImageToGrid
    rw [hinv.2, project_unproject]

/-- Witness of `C13_round_trip`: a rectifier that doubles and shifts. -/
theorem C13_round_trip_witness :
    IsInverse mirrorGeom.gridToImage mirrorGeom.imageToGrid ∧
    ((∀ p : Vec3, (mirrorGeom.imageToGrid.mulVec p).2.2 ≠ 0 →
      mirrorGeom.GridToImage (mirrorGeom.ImageToGrid p) =
        ((mirrorGeom.imageToGrid.mulVec p).2.2⁻¹ * p.1,
          (mirrorGeom.imageToGrid.mulVec p).2.2⁻¹ * p.2.1,
          (mirrorGeom.imageToGrid.mulVec p).2.2⁻¹ * p.2.2) ∧
      project (mirrorGeom.GridToImage (mirrorGeom.ImageToGrid p)) = project p) ∧
    (∀ q : Vec2, mirrorGeom.ImageToGrid (mirrorGeom.GridToImage q) = q)) := by
  have h : IsInverse mirrorGeom.gridToImage mirrorGeom.imageToGrid := by
    constructor
    · intro v
      simp only [mirrorGeom, Mat3.mulVec, dot3]
      refine Prod.ext ?_ (Prod.ext ?_ ?_) <;> simp only <;> ring
    · intro v
      simp only [mirrorGeom, Mat3.mulVec, dot3]
      refine Prod.ext ?_ (Prod.ext ?_ ?_) <;> simp only <;> ring
  exact ⟨h, C13_round_trip mirrorGeom h⟩

theorem Transfer3_lt (g : DPGeometry) (v : Vec3) (h : v.2.1 < (g.horizon_row : ℚ)) :
    g.Transfer3 v = g.grid_ceilToFloor.mulVec v := by
  unfold DPGeometry.Transfer3
  rw [if_pos h]

theorem Transfer3_ge (g : DPGeometry) (v : Vec3) (h : ¬ v.2.1 < (g.horizon_row : ℚ)) :
    g.Transfer3 v = g.grid_floorToCeil.mulVec v := by
  unfold DPGeometry.Transfer3
  rw [if_neg h]

/-- C19 (amended). Transfer applies the ceiling-to-floor homology
(`grid_ceilToFloor`) when the row of the point is strictly less than
`horizon_row` and the floor-to-ceiling homology (`grid_floorToCeil`) otherwise,
a point exactly on the horizon row included. When `grid_ceilToFloor` is the
exact inverse of `grid_floorToCeil`, the transferred point is finite (the
third homogeneous coordinate of its image is not zero) and it lands on the
other side of the horizon, `Transfer(Transfer(p)) = p`. -/
theorem C19_transfer (g : DPGeometry) (hinv : IsInverse g.grid_ceilToFloor g.grid_floorToCeil)
    (p : Vec2) :
    (p.2 < (g.horizon_row : ℚ) →
      g.Transfer p = project (g.grid_ceilToFloor.mulVec (unproject p))) ∧
    ((g.horizon_row : ℚ) ≤ p.2 →
      g.Transfer p = project (g.grid_floorToCeil.mulVec (unproject p))) ∧
    ((g.Transfer3 (unproject p)).2.2 ≠ 0 →
      (p.2 < (g.horizon_row : ℚ) ↔ ¬ (g.Transfer p).2 < (g.horizon_row : ℚ)) →
      g.Transfer (g.Transfer p) = p) := by
  refine ⟨?_, ?_, ?_⟩
  · intro h
    unfold DPGeometry.Transfer DPGeometry.Transfer3
    have h1 : (unproject p).2.1 < (g.horizon_row : ℚ) := h
    rw [if_pos h1]
  · intro h
    unfold DPGeometry.Transfer DPGeometry.Transfer3
    have h1 : ¬ (unproject p).2.1 < (g.horizon_row : ℚ) := not_lt.2 h
    rw [if_neg h1]
  · intro hw hside
    have hT : g.Transfer p = project (g.Transfer3 (unproject p)) := rfl
    have hrow : (unproject (project (g.Transfer3 (unproject p)))).2.1 = (g.Transfer p).2 := rfl
    have hstep : g.Transfer (g.Transfer p) =
        project (g.Transfer3 (unproject (project (g.Transfer3 (unproject p))))) := rfl
    rw [hstep]
    by_cases h : p.2 < (g.horizon_row : ℚ)
    · have h1 : (unproject p).2.1 < (g.horizon_row : ℚ) := h
      have h2 : ¬ (g.Transfer p).2 < (g.horizon_row : ℚ) := hside.1 h
      have e1 : g.Transfer3 (unproject p) = g.grid_ceilToFloor.mulVec (unproject p) := by
        unfold DPGeometry.Transfer3
        rw [if_pos h1]
      have e2 : g.Transfer3 (unproject (project (g.Transfer3 (unproject p)))) =
          g.grid_floorToCeil.mulVec (unproject (project (g.Transfer3 (unproject p)))) :=
        Transfer3_ge g _ (by rw [hrow]; exact h2)
      rw [e2, unproject_project _ hw, mulVec_scale, e1, hinv.2,
        project_scale _ (inv_ne_zero (by rw [← e1]; exact hw)), project_unproject]
    · have h1 : ¬ (unproject p).2.1 < (g.horizon_row : ℚ) := h
      have h2 : (g.Transfer p).2 < (g.horizon_row : ℚ) := by
        by_contra hc
        exact h (hside.2 hc)
      have e1 : g.Transfer3 (unproject p) = g.grid_floorToCeil.mulVec (unproject p) := by
        unfold DPGeometry.Transfer3
        rw [if_neg h1]
      have e2 : g.Transfer3 (unproject (project (g.Transfer3 (unproject p)))) =
          g.grid_ceilToFloor.mulVec (unproject (project (g.Transfer3 (unproject p)))) :=
        Transfer3_lt g _ (by rw [hrow]; exact h2)
      rw [e2, unproject_project _ hw, mulVec_scale, e1, hinv.1,
        project_scale _ (inv_ne_zero (by rw [← e1]; exact hw)), project_unproject]

theorem mirror_inverse : IsInverse mirrorGeom.grid_ceilToFloor mirrorGeom.grid_floorToCeil := by
  constructor
  · intro v
    simp only [mirrorGeom, Mat3.mulVec, dot3]
    refine Prod.ext ?_ (Prod.ext ?_ ?_) <;> simp only <;> ring
  · intro v
    simp only [mirrorGeom, Mat3.mulVec, dot3]
    refine Prod.ext ?_ (Prod.ext ?_ ?_) <;> simp only <;> ring

/-- Witness of `C19_transfer`: the point `(1, 1)` above the horizon row 3 of a
geometry whose homology mirrors the rows; it is transferred to `(1, 5)` and
back. -/
theorem C19_transfer_witness :
    IsInverse mirrorGeom.grid_ceilToFloor mirrorGeom.grid_floorToCeil ∧
    mirrorGeom.Transfer (1, 1) = (1, 5) ∧
    mirrorGeom.Transfer (mirrorGeom.Transfer (1, 1)) = (1, 1) := by
  have hw : (mirrorGeom.Transfer3 (unproject (1, 1))).2.2 ≠ 0 := by decide!
  have hside : ((1, 1) : Vec2).2 < (mirrorGeom.horizon_row : ℚ) ↔
      ¬ (mirrorGeom.Transfer (1, 1)).2 < (mirrorGeom.horizon_row : ℚ) := by decide!
  exact ⟨mirror_inverse, by decide!,
    (C19_transfer mirrorGeom mirror_inverse (1, 1)).2.2 hw hside⟩

/-- When the homology sends the point to infinity, the double transfer is not
the identity: in `vanishingGeom` the point `(0, 1)` on the horizon row has an
image with third homogeneous coordinate 0 (where `project` divides by zero),
the transferred point has a row below `horizon_row`, and transferring it again
does not give `(0, 1)`. -/
theorem C19_counterexample :
    IsInverse vanishingGeom.grid_ceilToFloor vanishingGeom.grid_floorToCeil ∧
    (vanishingGeom.Transfer3 (unproject (0, 1))).2.2 = 0 ∧
    ¬ ((0, 1) : Vec2).2 < (vanishingGeom.horizon_row : ℚ) ∧
    (vanishingGeom.Transfer (0, 1)).2 < (vanishingGeom.horizon_row : ℚ) ∧
    vanishingGeom.Transfer (vanishingGeom.Transfer (0, 1)) ≠ (0, 1) := by
  refine ⟨⟨?_, ?_⟩, by decide!, by decide!, by decide!, by decide!⟩
  · intro v
    simp only [vanishingGeom, Mat3.mulVec, dot3]
    refine Prod.ext ?_ (Prod.ext ?_ ?_) <;> simp only <;> ring
  · intro v
    simp only [vanishingGeom, Mat3.mulVec, dot3]
    refine Prod.ext ?_ (Prod.ext ?_ ?_) <;> simp only <;> ring

/-- C14 (amended). The reserved state `DPState::none` (the default-constructed
`DPState`) has row, column, axis and direction all equal to -1. Its direction
is none of the four directions `DIR_IN`, `DIR_OUT`, `DIR_UP`, `DIR_DOWN`, and
is not an index of the direction dimension of the memo table. It is the source
link of a default-constructed `DPSubSolution`. -/
theorem C14_sentinel :
    DPState.none.row = -1 ∧ DPState.none.col = -1 ∧ DPState.none.axis = -1 ∧
    DPState.none.dir = -1 ∧
    DPState.none.dir ≠ DIR_IN ∧ DPState.none.dir ≠ DIR_OUT ∧ DPState.none.dir ≠ DIR_UP ∧
    DPState.none.dir ≠ DIR_DOWN ∧
    (∀ (c : DPCache) (grid_size : Int × Int),
      ¬ (0 ≤ DPState.none.dir ∧ DPState.none.dir < (c.reset grid_size).dims.2.2.2)) ∧
    DPSubSolution.default.src = DPState.none := by
  refine ⟨rfl, rfl, rfl, rfl, by decide, by decide, by decide, by decide, ?_, rfl⟩
  intro c gs h
  exact absurd h.1 (by decide)

/-- The direction of `DPState::none` is not `DIR_OUT`. -/
theorem C14_counterexample :
    ¬ (DPState.none.row = -1 ∧ DPState.none.col = -1 ∧ DPState.none.axis = -1 ∧
      DPState.none.dir = DIR_OUT) := by
  decide

/-- C16. Memo table reset: after `DPCache::reset(grid_size)` with grid size
`(W, H)` the table has dimensions `(W+1) x H x 2 x 4` and `find(x)` reports
"not present" for every state `x`, whatever the table held before. -/
theorem C16_cache_reset (c : DPCache) (grid_size : Int × Int) :
    (c.reset grid_size).dims = (grid_size.1 + 1, grid_size.2, 2, 4) ∧
    ∀ x : DPState, (c.reset grid_size).find x = Option.none := by
  refine ⟨rfl, fun x => ?_⟩
  simp [DPCache.find, DPCache.get, DPCache.reset, DPCache.clear, DPSubSolution.default,
    Score.isnan]

theorem Clamp_bounds (x lo hi : Int) (h : lo ≤ hi) : lo ≤ Clamp x lo hi ∧ Clamp x lo hi ≤ hi := by
  unfold Clamp
  split_ifs <;> omega

/-- C18. The interval of `GetWallExtent`: for every grid point and every grid
height `H ≥ 1`, `0 ≤ y0 ≤ y1 ≤ H-1`, where `y0` is the lesser and `y1` the
greater of the row of the point rounded by `roundi` and clamped to `[0, H-1]`
and the row of `Transfer(point)` converted to an integer and clamped to
`[0, H-1]`. -/
theorem C18_wall_extent (g : DPGeometry) (roundi : ℚ → Int) (p : Vec2)
    (hH : 1 ≤ g.grid_size.2) :
    0 ≤ (g.GetWallExtent roundi p).1 ∧
    (g.GetWallExtent roundi p).1 ≤ (g.GetWallExtent roundi p).2 ∧
    (g.GetWallExtent roundi p).2 ≤ g.grid_size.2 - 1 ∧
    (g.GetWallExtent roundi p).1 =
      min (Clamp (roundi p.2) 0 (g.grid_size.2 - 1))
        (Clamp (truncToInt (g.Transfer p).2) 0 (g.grid_size.2 - 1)) ∧
    (g.GetWallExtent roundi p).2 =
      max (Clamp (roundi p.2) 0 (g.grid_size.2 - 1))
        (Clamp (truncToInt (g.Transfer p).2) 0 (g.grid_size.2 - 1)) := by
  have h1 := Clamp_bounds (roundi p.2) 0 (g.grid_size.2 - 1) (by omega)
  have h2 := Clamp_bounds (truncToInt (g.Transfer p).2) 0 (g.grid_size.2 - 1) (by omega)
  have e1 : (g.GetWallExtent roundi p).1 =
      min (Clamp (roundi p.2) 0 (g.grid_size.2 - 1))
        (Clamp (truncToInt (g.Transfer p).2) 0 (g.grid_size.2 - 1)) := rfl
  have e2 : (g.GetWallExtent roundi p).2 =
      max (Clamp (roundi p.2) 0 (g.grid_size.2 - 1))
        (Clamp (truncToInt (g.Transfer p).2) 0 (g.grid_size.2 - 1)) := rfl
  rw [e1, e2]
  exact ⟨le_min h1.1 h2.1, le_trans (min_le_left _ _) (le_max_left _ _),
    max_le h1.2 h2.2, rfl, rfl⟩

/-- Witness of `C18_wall_extent`: the point `(1, 1)` of the mirror geometry,
whose wall runs from row 1 to row 5. -/
theorem C18_wall_extent_witness :
    (1 : Int) ≤ mirrorGeom.grid_size.2 ∧
    mirrorGeom.GetWallExtent roundHalfUp (1, 1) = (1, 5) ∧
    0 ≤ (mirrorGeom.GetWallExtent roundHalfUp (1, 1)).1 ∧
    (mirrorGeom.GetWallExtent roundHalfUp (1, 1)).1 ≤
      (mirrorGeom.GetWallExtent roundHalfUp (1, 1)).2 ∧
    (mirrorGeom.GetWallExtent roundHalfUp (1, 1)).2 ≤ mirrorGeom.grid_size.2 - 1 :=
  ⟨by decide, by decide!,
    (C18_wall_extent mirrorGeom roundHalfUp (1, 1) (by decide)).1,
    (C18_wall_extent mirrorGeom roundHalfUp (1, 1) (by decide)).2.1,
    (C18_wall_extent mirrorGeom roundHalfUp (1, 1) (by decide)).2.2.1⟩

/-- The sum of the loop of `DPSolution::GetPathSum`. -/
theorem getPathSum_eq (s : DPSolution) (payoffs : Mat ℚ)
    (h1 : (s.path_ys.length : Int) = payoffs.cols)
    (h2 : (s.path_axes.length : Int) = payoffs.cols) :
    s.GetPathSum payoffs = some (∑ x ∈ Finset.range s.path_ys.length,
      payoffs.elem (VecI.get s.path_ys (x : Int)) (x : Int)) := by
  unfold DPSolution.GetPathSum
  rw [if_neg (not_not.2 h1), if_neg (not_not.2 h2), sum_map_range, Finset.range_eq_Ico]

/-- C20. Shape mismatch: `DPSolution::GetTotalPayoff` fails exactly when
`path_ys` or `path_axes` has a length different from the number of columns of
the cost field or the two per-axis score grids differ in size, and
`GetPathSum` fails exactly when one of the two path vectors has a length
different from the number of columns of the matrix; when the sizes agree they
return the sums: the cost-field values along the path, less the wall and
occlusion penalties when these are asked for, and the matrix entries along the
path. -/
theorem C20_shape_mismatch (s : DPSolution) (po : DPPayoffs) (payoffs : Mat ℚ)
    (subtract_penalties : Bool) :
    (s.GetTotalPayoff po subtract_penalties = Option.none ↔
      ((s.path_ys.length : Int) ≠ (po.wall_scores 0).cols ∨
       (s.path_axes.length : Int) ≠ (po.wall_scores 0).cols ∨
       ¬ ((po.wall_scores 0).rows = (po.wall_scores 1).rows ∧
          (po.wall_scores 0).cols = (po.wall_scores 1).cols))) ∧
    (s.GetTotalPayoff po subtract_penalties ≠ Option.none →
      s.GetTotalPayoff po subtract_penalties =
        some ((∑ x ∈ Finset.range s.path_ys.length,
            (po.wall_scores (VecI.get s.path_axes (x : Int))).elem
              (VecI.get s.path_ys (x : Int)) (x : Int)) -
          (if subtract_penalties then
            (s.num_walls : ℚ) * po.wall_penalty + (s.num_occlusions : ℚ) * po.occl_penalty
           else 0))) ∧
    (s.GetPathSum payoffs = Option.none ↔
      ((s.path_ys.length : Int) ≠ payoffs.cols ∨ (s.path_axes.length : Int) ≠ payoffs.cols)) ∧
    (s.GetPathSum payoffs ≠ Option.none →
      s.GetPathSum payoffs = some (∑ x ∈ Finset.range s.path_ys.length,
        payoffs.elem (VecI.get s.path_ys (x : Int)) (x : Int))) := by
  have hsum : s.pathSum po = ∑ x ∈ Finset.range s.path_ys.length,
      (po.wall_scores (VecI.get s.path_axes (x : Int))).elem
        (VecI.get s.path_ys (x : Int)) (x : Int) := by
    unfold DPSolution.pathSum
    rw [sum_map_range, Finset.range_eq_Ico]
  refine ⟨?_, ?_, ?_, ?_⟩
  · unfold DPSolution.GetTotalPayoff
    by_cases h1 : (s.path_ys.length : Int) ≠ (po.wall_scores 0).cols
    · simp [h1]
    · by_cases h2 : (s.path_axes.length : Int) ≠ (po.wall_scores 0).cols
      · simp [h2]
      · by_cases h3 : ¬ ((po.wall_scores 0).rows = (po.wall_scores 1).rows ∧
            (po.wall_scores 0).cols = (po.wall_scores 1).cols)
        · rw [if_neg h1, if_neg h2, if_pos h3]
          simp only [true_iff]
          exact Or.inr (Or.inr h3)
        · rw [if_neg h1, if_neg h2, if_neg h3]
          cases subtract_penalties <;> simp [h1, h2, h3]
  · intro hne
    unfold DPSolution.GetTotalPayoff at hne ⊢
    by_cases h1 : (s.path_ys.length : Int) ≠ (po.wall_scores 0).cols
    · rw [if_pos h1] at hne; exact absurd rfl hne
    · by_cases h2 : (s.path_axes.length : Int) ≠ (po.wall_scores 0).cols
      · rw [if_neg h1, if_pos h2] at hne; exact absurd rfl hne
      · by_cases h3 : ¬ ((po.wall_scores 0).rows = (po.wall_scores 1).rows ∧
            (po.wall_scores 0).cols = (po.wall_scores 1).cols)
        · rw [if_neg h1, if_neg h2, if_pos h3] at hne; exact absurd rfl hne
        · rw [if_neg h1, if_neg h2, if_neg h3]
          cases subtract_penalties
          · simp [hsum]
          · simp only [if_true, hsum]
            congr 1
            ring
  · unfold DPSolution.GetPathSum
    by_cases h1 : (s.path_ys.length : Int) ≠ payoffs.cols
    · simp [h1]
    · by_cases h2 : (s.path_axes.length : Int) ≠ payoffs.cols
      · simp [h2]
      · rw [if_neg h1, if_neg h2]
        simp [h1, h2]
  · intro hne
    by_cases h1 : (s.path_ys.length : Int) ≠ payoffs.cols
    · unfold DPSolution.GetPathSum at hne
      rw [if_pos h1] at hne; exact absurd rfl hne
    · by_cases h2 : (s.path_axes.length : Int) ≠ payoffs.cols
      · unfold DPSolution.GetPathSum at hne
        rw [if_neg h1, if_pos h2] at hne; exact absurd rfl hne
      · exact getPathSum_eq s payoffs (not_not.1 h1) (not_not.1 h2)

/-- The first loop of `PathToOrients`: it fails exactly when a column in its
range has an entry -1, and otherwise records the wall extent of every column
in its range. -/
theorem extentLoop_spec (g : DPGeometry) (roundi : ℚ → Int) (ys axes : VecI) (n : Nat) :
    ∀ (x : Int) (acc : VecI × VecI), 0 ≤ x → x + n ≤ acc.1.length → x + n ≤ acc.2.length →
      (g.extentLoop roundi ys axes n x acc = Option.none ↔
        ∃ i : Int, x ≤ i ∧ i < x + n ∧ (VecI.get ys i = -1 ∨ VecI.get axes i = -1)) ∧
      ∀ r, g.extentLoop roundi ys axes n x acc = some r →
        ∀ i : Int,
          (x ≤ i → i < x + n →
            VecI.get r.1 i = (g.GetWallExtent roundi ((i : ℚ), (VecI.get ys i : ℚ))).1 ∧
            VecI.get r.2 i = (g.GetWallExtent roundi ((i : ℚ), (VecI.get ys i : ℚ))).2) ∧
          (i < x → VecI.get r.1 i = VecI.get acc.1 i ∧ VecI.get r.2 i = VecI.get acc.2 i) := by
  induction n with
  | zero =>
    intro x acc _ _ _
    refine ⟨?_, ?_⟩
    · simp only [DPGeometry.extentLoop]
      constructor
      · intro h
        exact absurd h (by simp)
      · rintro ⟨i, h1, h2, _⟩
        simp only [Nat.cast_zero, add_zero] at h2
        omega
    · intro r hr i
      simp only [DPGeometry.extentLoop, Option.some.injEq] at hr
      subst hr
      refine ⟨fun h1 h2 => ?_, fun _ => ⟨rfl, rfl⟩⟩
      simp only [Nat.cast_zero, add_zero] at h2
      omega
  | succ n ih =>
    intro x acc hx h1 h2
    obtain ⟨y0s, y1s⟩ := acc
    simp only at h1 h2
    push_cast at h1 h2
    unfold DPGeometry.extentLoop
    by_cases hy : VecI.get ys x = -1
    · rw [if_pos hy]
      refine ⟨?_, fun r hr => by simp at hr⟩
      simp only [true_iff]
      exact ⟨x, le_refl _, by push_cast; omega, Or.inl hy⟩
    · rw [if_neg hy]
      by_cases ha : VecI.get axes x = -1
      · rw [if_pos ha]
        refine ⟨?_, fun r hr => by simp at hr⟩
        simp only [true_iff]
        exact ⟨x, le_refl _, by push_cast; omega, Or.inr ha⟩
      · rw [if_neg ha]
        simp only
        obtain ⟨k1, k2⟩ := ih (x + 1)
          (VecI.set y0s x (g.GetWallExtent roundi ((x : ℚ), (VecI.get ys x : ℚ))).1,
            VecI.set y1s x (g.GetWallExtent roundi ((x : ℚ), (VecI.get ys x : ℚ))).2)
          (by omega) (by simp only [VecI.length_set]; omega)
          (by simp only [VecI.length_set]; omega)
        refine ⟨?_, ?_⟩
        · rw [k1]
          constructor
          · rintro ⟨i, e1, e2, e3⟩
            exact ⟨i, by omega, by push_cast; omega, e3⟩
          · rintro ⟨i, e1, e2, e3⟩
            push_cast at e2
            have hne : i ≠ x := by
              rintro rfl
              rcases e3 with e3 | e3
              · exact hy e3
              · exact ha e3
            exact ⟨i, by omega, by omega, e3⟩
        · intro r hr i
          obtain ⟨e1, e2⟩ := k2 r hr i
          refine ⟨fun hi1 hi2 => ?_, fun hi => ?_⟩
          · push_cast at hi2
            by_cases hix : i = x
            · subst hix
              have := e2 (by omega)
              rw [VecI.get_of_set _ _ _ _ hx (by omega), VecI.get_of_set _ _ _ _ hx (by omega),
                if_pos rfl, if_pos rfl] at this
              exact this
            · exact e1 (by omega) (by omega)
          · have := e2 (by omega)
            rw [VecI.get_of_set _ _ _ _ hx (by omega), VecI.get_of_set _ _ _ _ hx (by omega),
              if_neg (by omega), if_neg (by omega)] at this
            exact this

theorem Mat.set_elem {α : Type} (m : Mat α) (y x : Int) (a : α) (y1 x1 : Int) :
    (m.set y x a).elem y1 x1 = if y1 = y ∧ x1 = x then a else m.elem y1 x1 := rfl

/-- The cells written by the inner loop of `PathToOrients` over the first `n`
columns of row `y`. -/
theorem orientRow_fold (path_axes y0s y1s : VecI) (y : Int) (m : Mat Int) (n : Nat) :
    ((List.range n).foldl
      (fun (m : Mat Int) (x : Nat) =>
        m.set y (x : Int)
          (if y ≥ VecI.get y0s (x : Int) ∧ y ≤ VecI.get y1s (x : Int) then
            1 - VecI.get path_axes (x : Int)
           else kVerticalAxis)) m).rows = m.rows ∧
    ((List.range n).foldl
      (fun (m : Mat Int) (x : Nat) =>
        m.set y (x : Int)
          (if y ≥ VecI.get y0s (x : Int) ∧ y ≤ VecI.get y1s (x : Int) then
            1 - VecI.get path_axes (x : Int)
           else kVerticalAxis)) m).cols = m.cols ∧
    ∀ y1 x1 : Int, ((List.range n).foldl
      (fun (m : Mat Int) (x : Nat) =>
        m.set y (x : Int)
          (if y ≥ VecI.get y0s (x : Int) ∧ y ≤ VecI.get y1s (x : Int) then
            1 - VecI.get path_axes (x : Int)
           else kVerticalAxis)) m).elem y1 x1 =
      if y1 = y ∧ 0 ≤ x1 ∧ x1 < (n : Int) then orientCell path_axes y0s y1s y x1
      else m.elem y1 x1 := by
  induction n with
  | zero =>
    refine ⟨rfl, rfl, fun y1 x1 => ?_⟩
    simp only [List.range_zero, List.foldl_nil, Nat.cast_zero]
    rw [if_neg (by omega)]
  | succ n ih =>
    obtain ⟨h1, h2, h3⟩ := ih
    rw [List.range_succ, List.foldl_append]
    simp only [List.foldl_cons, List.foldl_nil]
    refine ⟨h1, h2, fun y1 x1 => ?_⟩
    rw [Mat.set_elem, h3]
    by_cases hc : y1 = y ∧ x1 = (n : Int)
    · have hr : y1 = y ∧ 0 ≤ x1 ∧ x1 < ((n + 1 : Nat) : Int) :=
        ⟨hc.1, by omega, by push_cast; omega⟩
      rw [if_pos hc, if_pos hr]
      unfold orientCell
      rw [hc.2]
    · rw [if_neg hc]
      by_cases hd : y1 = y ∧ 0 ≤ x1 ∧ x1 < (n : Int)
      · have hr : y1 = y ∧ 0 ≤ x1 ∧ x1 < ((n + 1 : Nat) : Int) :=
          ⟨hd.1, hd.2.1, by push_cast; omega⟩
        rw [if_pos hd, if_pos hr]
      · have hr : ¬ (y1 = y ∧ 0 ≤ x1 ∧ x1 < ((n + 1 : Nat) : Int)) := by
          rintro ⟨e1, e2, e3⟩
          push_cast at e3
          by_cases hx : x1 = (n : Int)
          · exact hc ⟨e1, hx⟩
          · exact hd ⟨e1, e2, by omega⟩
        rw [if_neg hd, if_neg hr]

/-- The cells written by one row of the second loop of `PathToOrients`. -/
theorem orientRow_spec (g : DPGeometry) (path_axes y0s y1s : VecI) (y : Int) (m : Mat Int) :
    (g.orientRow path_axes y0s y1s y m).rows = m.rows ∧
    (g.orientRow path_axes y0s y1s y m).cols = m.cols ∧
    ∀ y1 x1 : Int, (g.orientRow path_axes y0s y1s y m).elem y1 x1 =
      if y1 = y ∧ 0 ≤ x1 ∧ x1 < (g.grid_size.1.toNat : Int) then
        orientCell path_axes y0s y1s y x1
      else m.elem y1 x1 :=
  orientRow_fold path_axes y0s y1s y m g.grid_size.1.toNat

/-- The cells written by the second loop of `PathToOrients` over the first `n`
rows. -/
theorem orientRows_fold (g : DPGeometry) (path_axes y0s y1s : VecI) (m : Mat Int) (n : Nat) :
    ((List.range n).foldl
      (fun (m : Mat Int) (y : Nat) => g.orientRow path_axes y0s y1s (y : Int) m) m).rows =
        m.rows ∧
    ((List.range n).foldl
      (fun (m : Mat Int) (y : Nat) => g.orientRow path_axes y0s y1s (y : Int) m) m).cols =
        m.cols ∧
    ∀ y1 x1 : Int, ((List.range n).foldl
      (fun (m : Mat Int) (y : Nat) => g.orientRow path_axes y0s y1s (y : Int) m) m).elem y1 x1 =
      if (0 ≤ y1 ∧ y1 < (n : Int)) ∧ 0 ≤ x1 ∧ x1 < (g.grid_size.1.toNat : Int) then
        orientCell path_axes y0s y1s y1 x1
      else m.elem y1 x1 := by
  induction n with
  | zero =>
    refine ⟨rfl, rfl, fun y1 x1 => ?_⟩
    simp only [List.range_zero, List.foldl_nil, Nat.cast_zero]
    rw [if_neg (by omega)]
  | succ n ih =>
    obtain ⟨h1, h2, h3⟩ := ih
    rw [List.range_succ, List.foldl_append]
    simp only [List.foldl_cons, List.foldl_nil]
    obtain ⟨k1, k2, k3⟩ := orientRow_spec g path_axes y0s y1s (n : Int)
      ((List.range n).foldl
        (fun (m : Mat Int) (y : Nat) => g.orientRow path_axes y0s y1s (y : Int) m) m)
    refine ⟨by rw [k1, h1], by rw [k2, h2], fun y1 x1 => ?_⟩
    rw [k3, h3]
    by_cases hc : y1 = (n : Int) ∧ 0 ≤ x1 ∧ x1 < (g.grid_size.1.toNat : Int)
    · have hr : (0 ≤ y1 ∧ y1 < ((n + 1 : Nat) : Int)) ∧ 0 ≤ x1 ∧
          x1 < (g.grid_size.1.toNat : Int) := ⟨⟨by omega, by push_cast; omega⟩, hc.2⟩
      rw [if_pos hc, if_pos hr, hc.1]
    · rw [if_neg hc]
      by_cases hd : (0 ≤ y1 ∧ y1 < (n : Int)) ∧ 0 ≤ x1 ∧ x1 < (g.grid_size.1.toNat : Int)
      · have hr : (0 ≤ y1 ∧ y1 < ((n + 1 : Nat) : Int)) ∧ 0 ≤ x1 ∧
            x1 < (g.grid_size.1.toNat : Int) := ⟨⟨hd.1.1, by push_cast; omega⟩, hd.2⟩
        rw [if_pos hd, if_pos hr]
      · have hr : ¬ ((0 ≤ y1 ∧ y1 < ((n + 1 : Nat) : Int)) ∧ 0 ≤ x1 ∧
            x1 < (g.grid_size.1.toNat : Int)) := by
          rintro ⟨⟨e1, e2⟩, e3⟩
          push_cast at e2
          by_cases hy : y1 = (n : Int)
          · exact hc ⟨hy, e3⟩
          · exact hd ⟨⟨e1, by omega⟩, e3⟩
        rw [if_neg hd, if_neg hr]

/-- C17. PathToOrients fails exactly when one of the two path vectors has a
length different from `W` or a column has an entry -1. For every path of length
`W` with no -1 entry it returns a grid of `H` rows and `W` columns in which
`grid_orients[y][x]` is `1 - path_axes[x]` when `y` lies in the closed interval
`[y0, y1]` returned by `GetWallExtent((x, path_ys[x]))`, and the
vertical-surface label `kVerticalAxis` otherwise. -/
theorem C17_path_to_orients (g : DPGeometry) (roundi : ℚ → Int) (path_ys path_axes : VecI)
    (grid_orients : Mat Int) :
    (g.PathToOrients roundi path_ys path_axes grid_orients = Option.none ↔
      ((path_ys.length : Int) ≠ g.grid_size.1 ∨ (path_axes.length : Int) ≠ g.grid_size.1 ∨
        ∃ x : Int, 0 ≤ x ∧ x < g.grid_size.1 ∧
          (VecI.get path_ys x = -1 ∨ VecI.get path_axes x = -1))) ∧
    ∀ out : Mat Int, g.PathToOrients roundi path_ys path_axes grid_orients = some out →
      out.rows = g.grid_size.2 ∧ out.cols = g.grid_size.1 ∧
      ∀ x y : Int, 0 ≤ x → x < g.grid_size.1 → 0 ≤ y → y < g.grid_size.2 →
        out.elem y x =
          if (g.GetWallExtent roundi ((x : ℚ), (VecI.get path_ys x : ℚ))).1 ≤ y ∧
              y ≤ (g.GetWallExtent roundi ((x : ℚ), (VecI.get path_ys x : ℚ))).2 then
            1 - VecI.get path_axes x
          else kVerticalAxis := by
  unfold DPGeometry.PathToOrients
  by_cases h1 : (path_ys.length : Int) ≠ g.grid_size.1
  · rw [if_pos h1]
    exact ⟨by simp [h1], fun out h => by simp at h⟩
  · rw [if_neg h1]
    by_cases h2 : (path_axes.length : Int) ≠ g.grid_size.1
    · rw [if_pos h2]
      exact ⟨by simp [h2], fun out h => by simp at h⟩
    · rw [if_neg h2]
      have hW : (g.grid_size.1.toNat : Int) = g.grid_size.1 := by
        have := not_not.1 h1
        omega
      obtain ⟨k1, k2⟩ := extentLoop_spec g roundi path_ys path_axes g.grid_size.1.toNat 0
        (List.replicate g.grid_size.1.toNat 0, List.replicate g.grid_size.1.toNat 0)
        (le_refl _) (by simp) (by simp)
      simp only [zero_add, hW] at k1 k2
      dsimp only
      cases hloop : g.extentLoop roundi path_ys path_axes g.grid_size.1.toNat 0
          (List.replicate g.grid_size.1.toNat 0, List.replicate g.grid_size.1.toNat 0) with
      | none =>
        refine ⟨⟨fun _ => Or.inr (Or.inr (k1.1 hloop)), fun _ => rfl⟩,
          fun out h => absurd h (by simp)⟩
      | some r =>
        obtain ⟨y0s, y1s⟩ := r
        refine ⟨?_, ?_⟩
        · constructor
          · intro h
            exact absurd h (by simp)
          · rintro (h | h | h)
            · exact absurd h h1
            · exact absurd h h2
            · have := k1.2 h
              rw [hloop] at this
              exact absurd this (by simp)
        · intro out hout
          simp only [Option.some.injEq] at hout
          subst hout
          obtain ⟨e1, e2, e3⟩ := orientRows_fold g path_axes y0s y1s
            { grid_orients with rows := g.grid_size.2, cols := g.grid_size.1 }
            g.grid_size.2.toNat
          refine ⟨e1, e2, fun x y hx0 hx1 hy0 hy1 => ?_⟩
          rw [e3, if_pos ⟨⟨hy0, by omega⟩, hx0, by omega⟩]
          obtain ⟨c1, c2⟩ := (k2 (y0s, y1s) hloop x).1 hx0 hx1
          unfold orientCell
          simp only at c1 c2
          rw [c1, c2]

/-- An instance of `C17_path_to_orients`: in the mirror geometry, the path
through rows `1, 1, 5, 5` with axes `0, 0, 1, 1` labels the cell in row 3 of
column 0, inside the wall extent `[1, 5]`, with orientation 1, and the cell in
row 0 with the vertical-surface label. -/
theorem C17_path_to_orients_witness :
    (mirrorGeom.PathToOrients roundHalfUp [1, 1, 5, 5] [0, 0, 1, 1] ⟨0, 0, fun _ _ => 0⟩).map
      (fun m => (m.rows, m.cols, m.elem 3 0, m.elem 0 0, m.elem 3 3)) =
        some (7, 4, 1, kVerticalAxis, 0) ∧
    mirrorGeom.PathToOrients roundHalfUp [1, -1, 5, 5] [0, 0, 1, 1] ⟨0, 0, fun _ _ => 0⟩ =
      Option.none := by
  refine ⟨by decide!, ?_⟩
  exact (C17_path_to_orients mirrorGeom roundHalfUp [1, -1, 5, 5] [0, 0, 1, 1]
    ⟨0, 0, fun _ _ => 0⟩).1.2 (Or.inr (Or.inr ⟨1, by decide, by decide, Or.inl (by decide)⟩))

theorem Frame.trans {Q : DPState → Prop} {B : Int} {a b c : ManhattanDP}
    (h1 : Frame Q B a b) (h2 : Frame Q B b c) : Frame Q B a c := by
  obtain ⟨a1, a2, a3, a4, a5⟩ := h1
  obtain ⟨b1, b2, b3, b4, b5⟩ := h2
  refine ⟨b1.trans a1, fun x hx => ?_, b3.trans a3, ?_, le_trans a5 b5⟩
  · rcases b2 x hx with h | h
    · exact a2 x h
    · exact Or.inr h
  · rw [a3] at b4
    omega

theorem Frame.mono {Q : DPState → Prop} {B B1 : Int} {a b : ManhattanDP}
    (h : Frame Q B a b) (hB : B ≤ B1) : Frame Q B1 a b := by
  obtain ⟨a1, a2, a3, a4, a5⟩ := h
  exact ⟨a1, a2, a3, by omega, a5⟩

theorem Frame.same (Q : DPState → Prop) (B : Int) (a b : ManhattanDP)
    (h1 : b.cache = a.cache) (h2 : b.cur_depth = a.cur_depth) (h3 : b.max_depth = a.max_depth) :
    Frame Q B a b := by
  refine ⟨by rw [h1], fun x hx => Or.inl (by rw [h1] at hx; exact hx), h2, Or.inl (by omega),
    by omega⟩

/-- The frame of a list of moves solved one after the other. -/
theorem foldSolve_frame (Q : DPState → Prop) (B : Int) (solve : Solver)
    (l : List (DPState × ℚ))
    (hsolve : ∀ t ∈ l, ∀ (dp : ManhattanDP) (r : DPSubSolution) (dp1 : ManhattanDP),
      solve t.1 dp = some (r, dp1) → Frame Q B dp dp1) :
    ∀ (best : DPSubSolution) (dp : ManhattanDP) (b : DPSubSolution) (dp1 : ManhattanDP),
      foldSolve solve l best dp = some (b, dp1) → Frame Q B dp dp1 := by
  induction l with
  | nil =>
    intro best dp b dp1 h
    simp only [foldSolve, Option.some.injEq, Prod.mk.injEq] at h
    obtain ⟨_, rfl⟩ := h
    exact Frame.same Q B dp dp rfl rfl rfl
  | cons t rest ih =>
    intro best dp b dp1 h
    simp only [foldSolve, trySolve] at h
    cases hs : solve t.1 dp with
    | none =>
      rw [hs] at h
      exact absurd h (by simp)
    | some p =>
      obtain ⟨sub, dp2⟩ := p
      rw [hs] at h
      simp only at h
      exact Frame.trans (hsolve t (List.mem_cons_self _ _) dp sub dp2 hs)
        (ih (fun u hu => hsolve u (List.mem_cons_of_mem _ hu)) _ dp2 b dp1 h)

/-- The frame of `Solve`: it keeps the dimensions of the memo table and the
current depth, stores only states with a property `Q` that the moves of the
recurrence preserve, and raises the depth record to at most the current depth
plus the rank of the state plus one. -/
theorem Solve_frame (po : DPPayoffs) (geom : DPGeometry) (jump_thresh : ℚ) (roundi : ℚ → Int)
    (Q : DPState → Prop)
    (hQ : ∀ s, Q s → s.col ≠ 0 → ∀ t ∈ transitions po geom jump_thresh roundi s, Q t.1)
    (f : Nat) : ∀ (s : DPState) (dp : ManhattanDP) (r : DPSubSolution) (dp1 : ManhattanDP),
      Q s → Solve po geom jump_thresh roundi f s dp = some (r, dp1) →
      Frame Q ((rank geom s : Int) + 1) dp dp1 := by
  induction f with
  | zero =>
    intro s dp r dp1 _ h
    simp [Solve] at h
  | succ f ih =>
    intro s dp r dp1 hs h
    unfold Solve at h
    simp only at h
    by_cases hnan : (dp.cache.get s).score.isnan = true
    · have hfind : dp.cache.find s = Option.none := by
        unfold DPCache.find
        rw [if_pos hnan]
      simp only [hfind] at h
      rw [Solve_Impl_eq] at h
      by_cases h0 : s.col = 0
      · rw [if_pos h0] at h
        simp only [Option.some.injEq, Prod.mk.injEq] at h
        obtain ⟨_, rfl⟩ := h
        refine ⟨rfl, fun x hx => ?_, by simp, ?_, ?_⟩
        · simp only [DPCache.get_set] at hx
          by_cases hxs : x = s
          · subst hxs; exact Or.inr hs
          · rw [if_neg hxs] at hx; exact Or.inl hx
        · simp only
          rcases le_total dp.max_depth (dp.cur_depth + 1) with hm | hm
          · rw [max_eq_right hm]; right; omega
          · rw [max_eq_left hm]; left; omega
        · exact le_max_left _ _
      · rw [if_neg h0] at h
        cases hfold : foldSolve (Solve po geom jump_thresh roundi f)
            (transitions po geom jump_thresh roundi s) (DPSubSolution.ofScore Score.negInf)
            ({ dp with cache_lookups := dp.cache_lookups + 1, cur_depth := dp.cur_depth + 1,
                       max_depth := max dp.max_depth (dp.cur_depth + 1) } : ManhattanDP) with
        | none =>
          rw [hfold] at h
          exact absurd h (by simp)
        | some p =>
          obtain ⟨soln, dp2⟩ := p
          rw [hfold] at h
          simp only [Option.some.injEq, Prod.mk.injEq] at h
          obtain ⟨_, rfl⟩ := h
          obtain ⟨a1, a2, a3, a4, a5⟩ := foldSolve_frame Q (rank geom s : Int)
            (Solve po geom jump_thresh roundi f) (transitions po geom jump_thresh roundi s)
            (fun t ht d r d1 hd =>
              Frame.mono (ih t.1 d r d1 (hQ s hs h0 t ht) hd)
                (by have := rank_lt po geom jump_thresh roundi s t ht; omega))
            _ _ soln dp2 hfold
          simp only at a1 a2 a3 a4 a5
          refine ⟨a1, fun x hx => ?_, by simp only [a3]; omega, ?_, ?_⟩
          · simp only [DPCache.get_set] at hx
            by_cases hxs : x = s
            · subst hxs; exact Or.inr hs
            · rw [if_neg hxs] at hx; exact a2 x hx
          · simp only
            rcases le_total dp.max_depth (dp.cur_depth + 1) with hm | hm
            · rw [max_eq_right hm] at a4; right; omega
            · rw [max_eq_left hm] at a4; omega
          · exact le_trans (le_max_left _ _) a5
    · have hnn : (dp.cache.get s).score.isnan = false := by
        cases h1 : (dp.cache.get s).score.isnan
        · rfl
        · exact absurd h1 hnan
      have hfind : dp.cache.find s = some (dp.cache.get s) := by
        unfold DPCache.find
        rw [if_neg hnan]
      simp only [hfind, Option.some.injEq, Prod.mk.injEq] at h
      obtain ⟨_, rfl⟩ := h
      exact Frame.same Q _ dp _ rfl rfl rfl

/-- The frame of the search loops of `Compute`. -/
theorem searchLoop_frame (po : DPPayoffs) (geom : DPGeometry) (jump_thresh : ℚ)
    (roundi : ℚ → Int) (Q : DPState → Prop)
    (hQ : ∀ s, Q s → s.col ≠ 0 → ∀ t ∈ transitions po geom jump_thresh roundi s, Q t.1)
    (B : Int) (l : List DPState) (hl : ∀ t ∈ l, Q t ∧ (rank geom t : Int) + 1 ≤ B) :
    ∀ (acc r : DPSubSolution × Bool × ManhattanDP),
      searchLoop po geom jump_thresh roundi l acc = some r → Frame Q B acc.2.2 r.2.2 := by
  induction l with
  | nil =>
    intro acc r h
    simp only [searchLoop, Option.some.injEq] at h
    subst h
    exact Frame.same Q B _ _ rfl rfl rfl
  | cons t rest ih =>
    intro acc r h
    obtain ⟨best, feasible, dp⟩ := acc
    simp only [searchLoop] at h
    cases hs : Solve po geom jump_thresh roundi (solveFuel geom) t dp with
    | none =>
      rw [hs] at h
      exact absurd h (by simp)
    | some p =>
      obtain ⟨sub, dp2⟩ := p
      rw [hs] at h
      simp only at h
      have h1 := Frame.mono (Solve_frame po geom jump_thresh roundi Q hQ (solveFuel geom) t dp
        sub dp2 (hl t (List.mem_cons_self _ _)).1 hs) (hl t (List.mem_cons_self _ _)).2
      exact Frame.trans h1 (ih (fun u hu => hl u (List.mem_cons_of_mem _ hu)) _ r h)

/-- The terminal states of a grid of non-negative width are in range. -/
theorem terminal_inRange (geom : DPGeometry) (hW : 0 ≤ geom.grid_size.1) (t : DPState)
    (ht : t ∈ terminals geom) : InRange geom t := by
  obtain ⟨ha, h0, h1, hc, hd⟩ := (mem_terminals geom t).1 ht
  exact ⟨⟨h0, h1⟩, ⟨by omega, by omega⟩, ha, Or.inr (Or.inl hd), fun _ => hd⟩

/-- The moves of the recurrence keep the state in range. -/
theorem transitions_inRange (po : DPPayoffs) (geom : DPGeometry) (jump_thresh : ℚ)
    (roundi : ℚ → Int) (s : DPState) (hs : InRange geom s) (t : DPState × ℚ)
    (ht : t ∈ transitions po geom jump_thresh roundi s) : InRange geom t.1 := by
  obtain ⟨⟨r0, r1⟩, ⟨c0, c1⟩, ha, _, hcw⟩ := hs
  rcases dir_cases po geom jump_thresh roundi s t ht with hd | hd | hd
  · obtain ⟨e1, e2, e3, e4⟩ := transitions_in po geom jump_thresh roundi s hd t ht
    have hlt : s.col ≠ geom.grid_size.1 := by
      intro hc
      have := hcw hc
      rw [hd] at this
      exact absurd this (by decide)
    refine ⟨⟨by omega, by omega⟩, ⟨by omega, by omega⟩, e3, ?_, fun hc => ?_⟩
    · rcases e4 with ⟨e, _⟩ | ⟨e | e, _⟩
      · exact Or.inr (Or.inl e)
      · exact Or.inr (Or.inr (Or.inl e))
      · exact Or.inr (Or.inr (Or.inr e))
    · rw [e2] at hc
      exact absurd hc hlt
  · obtain ⟨e1, e2, _, e4⟩ := transitions_vert po geom jump_thresh roundi s hd t ht
    have hlt : s.col ≠ geom.grid_size.1 := by
      intro hc
      have := hcw hc
      rcases hd with hd | hd <;> rw [hd] at this <;> exact absurd this (by decide)
    have hcol : t.1.col = geom.grid_size.1 → t.1.dir = DIR_OUT := by
      intro hc
      rw [e1] at hc
      exact absurd hc hlt
    rcases e4 with ⟨k1, k2⟩ | ⟨k1, _, _, k3, k4⟩
    · exact ⟨⟨by omega, by omega⟩, ⟨by omega, by omega⟩, by rw [e2]; exact ha,
        Or.inr (Or.inl k1), hcol⟩
    · refine ⟨⟨k3, k4⟩, ⟨by omega, by omega⟩, by rw [e2]; exact ha, ?_, hcol⟩
      rw [k1]
      rcases hd with hd | hd
      · exact Or.inr (Or.inr (Or.inl hd))
      · exact Or.inr (Or.inr (Or.inr hd))
  · obtain ⟨_, j, hj, e1, e2, e3, e4, e5, _⟩ := transitions_out po geom jump_thresh roundi s hd t ht
    obtain ⟨_, k1, k2, _⟩ := e5 j (le_refl _) hj
    refine ⟨⟨by rw [e2]; exact k1, by rw [e2]; exact k2⟩, ⟨by omega, by omega⟩,
      by rw [e3]; exact ha, ?_, fun hc => ?_⟩
    · rcases e4 with e | e
      · exact Or.inl e
      · exact Or.inr (Or.inl e)
    · omega

/-- Every state on which `Solve` is invoked is in range. -/
theorem reached_inRange (po : DPPayoffs) (geom : DPGeometry) (jump_thresh : ℚ)
    (roundi : ℚ → Int) (hW : 0 ≤ geom.grid_size.1) (x : DPState)
    (h : Reached po geom jump_thresh roundi x) : InRange geom x := by
  induction h with
  | terminal t ht => exact terminal_inRange geom hW t ht
  | move s t _ _ ht ih => exact transitions_inRange po geom jump_thresh roundi s ih t ht

theorem backtrackStep_search (geom : DPGeometry)
    (FillPolygon : List Vec3 → Mat Int → Int → Mat Int)
    (cur next : DPState) (out : Option DPState) (dp : ManhattanDP) :
    (backtrackStep geom FillPolygon cur next out dp).1.cache = dp.cache ∧
    (backtrackStep geom FillPolygon cur next out dp).1.max_depth = dp.max_depth := by
  unfold backtrackStep
  cases out with
  | none => simp only; split_ifs <;> exact ⟨rfl, rfl⟩
  | some o => simp only; split_ifs <;> exact ⟨rfl, rfl⟩

/-- The backtrack leaves the memo table and the depth record alone. -/
theorem backtrack_search (geom : DPGeometry) (FillPolygon : List Vec3 → Mat Int → Int → Mat Int)
    (fuel : Nat) : ∀ (cur : DPState) (out : Option DPState) (dp dp1 : ManhattanDP),
      backtrack geom FillPolygon fuel cur out dp = Except.ok dp1 →
      dp1.cache = dp.cache ∧ dp1.max_depth = dp.max_depth := by
  induction fuel with
  | zero =>
    intro cur out dp dp1 h
    simp [backtrack] at h
  | succ fuel ih =>
    intro cur out dp dp1 h
    unfold backtrack at h
    simp only at h
    split_ifs at h with h1 h2
    · obtain ⟨e1, e2⟩ := ih _ _ _ _ h
      obtain ⟨k1, k2⟩ := backtrackStep_search geom FillPolygon cur (dp.cache.get cur).src out dp
      exact ⟨e1.trans k1, e2.trans k2⟩
    · simp only [Except.ok.injEq] at h
      rw [← h]
      exact backtrackStep_search geom FillPolygon cur (dp.cache.get cur).src out dp

/-- `PopulateSolution` leaves the memo table and the depth record alone. -/
theorem PopulateSolution_search (geom : DPGeometry) (roundi : ℚ → Int)
    (FillPolygon : List Vec3 → Mat Int → Int → Mat Int) (best : DPSubSolution)
    (dp dp1 : ManhattanDP)
    (h : PopulateSolution geom roundi FillPolygon best dp = Except.ok dp1) :
    dp1.cache = dp.cache ∧ dp1.max_depth = dp.max_depth := by
  unfold PopulateSolution at h
  simp only at h
  split at h
  · exact absurd h (by simp)
  · rename_i d hd
    obtain ⟨e1, e2⟩ := backtrack_search geom FillPolygon _ _ _ _ _ hd
    split at h
    · exact absurd h (by simp)
    · split at h
      · exact absurd h (by simp)
      · simp only [Except.ok.injEq] at h
        rw [← h]
        exact ⟨e1, e2⟩

/-- The search loops of `Compute` end, and a successful `Compute` returns the
memo table and the depth record that they leave. -/
theorem Compute_search_state (roundi : ℚ → Int)
    (FillPolygon : List Vec3 → Mat Int → Int → Mat Int)
    (po : DPPayoffs) (geom : DPGeometry) (dp : ManhattanDP) :
    ∃ r, searchLoop po geom dp.jump_thresh roundi (terminals geom)
        (DPSubSolution.ofScore Score.negInf, false, searchStart geom dp) = some r ∧
      CacheOK po geom dp.jump_thresh roundi r.2.2.cache ∧
      (∀ t ∈ terminals geom, (r.2.2.cache.get t).score.isnan = false) ∧
      ∀ dp1, Compute roundi FillPolygon po geom dp = Except.ok dp1 →
        dp1.cache = r.2.2.cache ∧ dp1.max_depth = r.2.2.max_depth := by
  obtain ⟨d, h1, h2, _, h4⟩ := searchLoop_ok po geom dp.jump_thresh roundi (terminals geom)
    (rank_terminal geom) (DPSubSolution.ofScore Score.negInf) false (searchStart geom dp)
    (CacheOK_reset po geom dp.jump_thresh roundi dp.cache geom.grid_size)
  refine ⟨_, h1, h2, h4, fun dp1 hc => ?_⟩
  unfold Compute at hc
  simp only at hc
  have h1' : searchLoop po geom dp.jump_thresh roundi (terminals geom)
      (DPSubSolution.ofScore Score.negInf, false,
        ({ dp with cache_lookups := 0, cache_hits := 0, cache := dp.cache.reset geom.grid_size,
                   max_depth := 0, cur_depth := 0 } : ManhattanDP)) = _ := h1
  rw [h1'] at hc
  simp only at hc
  split_ifs at hc
  exact PopulateSolution_search geom roundi FillPolygon _ _ _ hc

theorem find_ne_none (c : DPCache) (x : DPState) :
    c.find x ≠ Option.none ↔ (c.get x).score.isnan = false := by
  unfold DPCache.find
  cases h : (c.get x).score.isnan <;> simp

/-- C15. State-range invariant, on a grid of width `W ≥ 0`. The search loops of
`Compute` end. `Solve` stores the sub-solution of every state it is invoked on,
so the states on which it is invoked are those present in the memo table when
the search ends; they are exactly the states `Reached` from the terminal states
by the moves of `Solve_Impl`. Every such state has `0 ≤ row < H`,
`0 ≤ col ≤ W`, axis 0 or 1 and one of the four directions, with `col = W` only
when the direction is `DIR_OUT`; it is a valid index of the memo table (of
dimensions `(W+1) x H x 2 x 4`) and is not `DPState::none`. The cost field is
read at the `DIR_IN` states, where `0 ≤ col < W`, `0 ≤ row < H` and the axis is
0 or 1. -/
theorem C15_state_range (roundi : ℚ → Int) (FillPolygon : List Vec3 → Mat Int → Int → Mat Int)
    (po : DPPayoffs) (geom : DPGeometry) (dp : ManhattanDP) (hW : 0 ≤ geom.grid_size.1) :
    ∃ r, searchLoop po geom dp.jump_thresh roundi (terminals geom)
        (DPSubSolution.ofScore Score.negInf, false, searchStart geom dp) = some r ∧
      (∀ dp1, Compute roundi FillPolygon po geom dp = Except.ok dp1 →
        dp1.cache = r.2.2.cache) ∧
      r.2.2.cache.dims = (geom.grid_size.1 + 1, geom.grid_size.2, 2, 4) ∧
      (∀ x, r.2.2.cache.find x ≠ Option.none ↔ Reached po geom dp.jump_thresh roundi x) ∧
      ∀ x, Reached po geom dp.jump_thresh roundi x →
        InRange geom x ∧ InTable r.2.2.cache x ∧ x ≠ DPState.none ∧
        (x.dir = DIR_IN →
          (x.axis = 0 ∨ x.axis = 1) ∧ (0 ≤ x.row ∧ x.row < geom.grid_size.2) ∧
          (0 ≤ x.col ∧ x.col < geom.grid_size.1)) := by
  obtain ⟨r, h1, h2, h3, h4⟩ := Compute_search_state roundi FillPolygon po geom dp
  have hfr := searchLoop_frame po geom dp.jump_thresh roundi
    (Reached po geom dp.jump_thresh roundi)
    (fun s hs h0 t ht => Reached.move s t hs h0 ht) (solveFuel geom) (terminals geom)
    (fun t ht => ⟨Reached.terminal t ht, by have := rank_terminal geom t ht; omega⟩) _ r h1
  obtain ⟨a1, a2, _, _, _⟩ := hfr
  have hdims : r.2.2.cache.dims = (geom.grid_size.1 + 1, geom.grid_size.2, 2, 4) := by
    rw [a1]
    rfl
  refine ⟨r, h1, fun dp1 hc => (h4 dp1 hc).1, hdims, fun x => ?_, fun x hx => ?_⟩
  · rw [find_ne_none]
    constructor
    · intro hx
      rcases a2 x hx with h | h
      · simp [searchStart, DPCache.reset, DPCache.clear, DPCache.get, DPSubSolution.default,
          Score.isnan] at h
      · exact h
    · intro hx
      induction hx with
      | terminal t ht => exact h3 t ht
      | move s t _ h0 ht ih => exact (h2 s ih).2 h0 t ht
  · have hr := reached_inRange po geom dp.jump_thresh roundi hW x hx
    obtain ⟨⟨r0, r1⟩, ⟨c0, c1⟩, ha, hd, hcw⟩ := hr
    refine ⟨⟨⟨r0, r1⟩, ⟨c0, c1⟩, ha, hd, hcw⟩, ?_, ?_, fun hin => ?_⟩
    · unfold InTable
      rw [hdims]
      simp only
      refine ⟨⟨c0, by omega⟩, ⟨r0, r1⟩, ?_, ?_⟩
      · rcases ha with ha | ha <;> rw [ha] <;> decide
      · rcases hd with hd | hd | hd | hd <;> rw [hd] <;> decide
    · intro hc
      rw [hc] at r0
      exact absurd r0 (by decide)
    · refine ⟨ha, ⟨r0, r1⟩, c0, ?_⟩
      have hne : x.col ≠ geom.grid_size.1 := by
        intro hc
        have := hcw hc
        rw [hin] at this
        exact absurd this (by decide)
      omega

/-- Witness of `C15_state_range`: the 4x4 scenario. -/
theorem C15_state_range_witness :
    0 ≤ (gridGeom 4 4 2 100000000 (-100000000)).grid_size.1 ∧
    ∃ r, searchLoop scenarioPayoffs (gridGeom 4 4 2 100000000 (-100000000))
        (freshSolver 0).jump_thresh roundHalfUp
        (terminals (gridGeom 4 4 2 100000000 (-100000000)))
        (DPSubSolution.ofScore Score.negInf, false,
          searchStart (gridGeom 4 4 2 100000000 (-100000000)) (freshSolver 0)) = some r ∧
      (∀ dp1, Compute roundHalfUp noFill scenarioPayoffs (gridGeom 4 4 2 100000000 (-100000000))
        (freshSolver 0) = Except.ok dp1 → dp1.cache = r.2.2.cache) ∧
      r.2.2.cache.dims = ((gridGeom 4 4 2 100000000 (-100000000)).grid_size.1 + 1,
        (gridGeom 4 4 2 100000000 (-100000000)).grid_size.2, 2, 4) ∧
      (∀ x, r.2.2.cache.find x ≠ Option.none ↔
        Reached scenarioPayoffs (gridGeom 4 4 2 100000000 (-100000000))
          (freshSolver 0).jump_thresh roundHalfUp x) ∧
      ∀ x, Reached scenarioPayoffs (gridGeom 4 4 2 100000000 (-100000000))
          (freshSolver 0).jump_thresh roundHalfUp x →
        InRange (gridGeom 4 4 2 100000000 (-100000000)) x ∧ InTable r.2.2.cache x ∧
        x ≠ DPState.none ∧
        (x.dir = DIR_IN →
          (x.axis = 0 ∨ x.axis = 1) ∧
          (0 ≤ x.row ∧ x.row < (gridGeom 4 4 2 100000000 (-100000000)).grid_size.2) ∧
          (0 ≤ x.col ∧ x.col < (gridGeom 4 4 2 100000000 (-100000000)).grid_size.1)) :=
  ⟨by decide, C15_state_range roundHalfUp noFill scenarioPayoffs
    (gridGeom 4 4 2 100000000 (-100000000)) (freshSolver 0) (by decide)⟩

/-- The rank of a terminal state. -/
theorem rank_terminal_eq (geom : DPGeometry) (t : DPState) (ht : t ∈ terminals geom) :
    rank geom t = geom.grid_size.1.toNat * (geom.grid_size.2.toNat + 4) := by
  obtain ⟨_, _, _, hc, hd⟩ := (mem_terminals geom t).1 ht
  unfold rank
  simp only [hc, hd]
  simp

/-- C12 (amended). Recursion depth bound: for every `Compute` on a `W x H` grid
the search loops end, and the greatest nesting depth of `Solve` calls that miss
the memo table (the diagnostic `max_depth`) is at most `W * (H + 4) + 1`; a
successful `Compute` returns this `max_depth`. -/
theorem C12_depth_bound (roundi : ℚ → Int) (FillPolygon : List Vec3 → Mat Int → Int → Mat Int)
    (po : DPPayoffs) (geom : DPGeometry) (dp : ManhattanDP) :
    ∃ r, searchLoop po geom dp.jump_thresh roundi (terminals geom)
        (DPSubSolution.ofScore Score.negInf, false, searchStart geom dp) = some r ∧
      r.2.2.max_depth ≤
        ((geom.grid_size.1.toNat * (geom.grid_size.2.toNat + 4) + 1 : Nat) : Int) ∧
      ∀ dp1, Compute roundi FillPolygon po geom dp = Except.ok dp1 →
        dp1.max_depth = r.2.2.max_depth ∧
        dp1.max_depth ≤
          ((geom.grid_size.1.toNat * (geom.grid_size.2.toNat + 4) + 1 : Nat) : Int) := by
  obtain ⟨r, h1, _, _, h4⟩ := Compute_search_state roundi FillPolygon po geom dp
  have hfr := searchLoop_frame po geom dp.jump_thresh roundi (fun _ => True)
    (fun _ _ _ _ _ => trivial)
    ((geom.grid_size.1.toNat * (geom.grid_size.2.toNat + 4) + 1 : Nat) : Int) (terminals geom)
    (fun t ht => ⟨trivial, by rw [rank_terminal_eq geom t ht]; push_cast; omega⟩) _ r h1
  obtain ⟨_, _, _, a4, _⟩ := hfr
  have hb : r.2.2.max_depth ≤
      ((geom.grid_size.1.toNat * (geom.grid_size.2.toNat + 4) + 1 : Nat) : Int) := by
    simp only [searchStart] at a4
    omega
  exact ⟨r, h1, hb, fun dp1 hc => ⟨(h4 dp1 hc).2, by rw [(h4 dp1 hc).2]; exact hb⟩⟩

set_option maxRecDepth 100000 in
/-- On the 4x4 scenario with jump threshold 0 the depth record is 10, which is
more than `W + H = 8`. -/
theorem C12_counterexample :
    depthOf (Compute roundHalfUp noFill scenarioPayoffs (gridGeom 4 4 2 100000000 (-100000000))
      (freshSolver 0)) = some 10 ∧
    ¬ ((10 : Int) ≤ (gridGeom 4 4 2 100000000 (-100000000)).grid_size.1 +
      (gridGeom 4 4 2 100000000 (-100000000)).grid_size.2) := by
  constructor
  · decide!
  · decide

/-- What `exactLines` says about the first two states of a list. -/
theorem exactLines_cons (geom : DPGeometry) (roundi : ℚ → Int) (s n : DPState)
    (rest : List DPState) (h : exactLines geom roundi (s :: n :: rest) = true) :
    (s.dir = DIR_OUT → ∀ x : Nat, n.col.toNat ≤ x → x < s.col.toNat →
      ((lineRow geom roundi s (x : Int) : Int) : ℚ) =
        lineSlope geom s * ((x : Int) : ℚ) + lineOffset geom s) ∧
    exactLines geom roundi (n :: rest) = true := by
  unfold exactLines at h
  rw [Bool.and_eq_true] at h
  refine ⟨fun hd x hx1 hx2 => ?_, h.2⟩
  have h1 := h.1
  rw [if_pos hd, List.all_eq_true] at h1
  have := h1 (x - n.col.toNat) (List.mem_range.2 (by omega))
  rw [decide_eq_true_eq] at this
  have hx : n.col.toNat + (x - n.col.toNat) = x := by omega
  rw [hx] at this
  exact this

/-- The moves of a state that is not a `DIR_OUT` state do not depend on the
jump threshold. -/
theorem transitions_thresh (po : DPPayoffs) (geom : DPGeometry) (jt jt1 : ℚ) (roundi : ℚ → Int)
    (s : DPState) (hs : s.dir ≠ DIR_OUT) :
    transitions po geom jt roundi s = transitions po geom jt1 roundi s := by
  unfold transitions
  by_cases h1 : s.dir = DIR_IN
  · rw [if_pos h1, if_pos h1]
  · rw [if_neg h1, if_neg h1]
    by_cases h2 : s.dir = DIR_UP ∨ s.dir = DIR_DOWN
    · rw [if_pos h2, if_pos h2]
    · rw [if_neg h2, if_neg h2, if_neg hs, if_neg hs]

/-- With a jump threshold that is not positive, the leftward walk offers no
kink move. -/
theorem walkTrans_nokink (po : DPPayoffs) (geom : DPGeometry) (jt : ℚ) (hjt : jt ≤ 0)
    (roundi : ℚ → Int) (state : DPState) (vpt_col : Int) (m c : ℚ) (k : Nat) :
    ∀ (delta : ℚ) (t : DPState × ℚ),
      t ∈ walkTrans po geom jt roundi state vpt_col m c k delta → t.1.dir = DIR_IN := by
  induction k with
  | zero =>
    intro delta t ht
    simp [walkTrans] at ht
  | succ k ih =>
    intro delta t ht
    unfold walkTrans at ht
    simp only at ht
    split_ifs at ht with h1 h2 h3
    · simp at ht
    · simp at ht
    · exfalso
      have : (0 : ℚ) ≤ |((roundi (m * ((k : Int) : ℚ) + c) : Int) : ℚ) - (m * ((k : Int) : ℚ) + c)| /
          ((|roundi (m * ((k : Int) : ℚ) + c) - state.row| + |(k : Int) - state.col| : Int) : ℚ) :=
        div_nonneg (abs_nonneg _) (by exact_mod_cast add_nonneg (abs_nonneg _) (abs_nonneg _))
      linarith
    · rcases List.mem_cons.1 ht with rfl | ht
      · rfl
      · exact ih _ t ht

/-- A `DIR_OUT` state on the line of another has the same line. -/
theorem line_eq (geom : DPGeometry) (s s1 : DPState) (ha : s1.axis = s.axis)
    (hv : s1.col ≠ truncToInt (geom.vpt_cols s.axis))
    (hrow : (s1.row : ℚ) = lineSlope geom s * (s1.col : ℚ) + lineOffset geom s) :
    lineSlope geom s1 = lineSlope geom s ∧ lineOffset geom s1 = lineOffset geom s := by
  have hne : ((s1.col : ℚ) - (truncToInt (geom.vpt_cols s.axis) : ℚ)) ≠ 0 := by
    intro hc
    apply hv
    have : (s1.col : ℚ) = (truncToInt (geom.vpt_cols s.axis) : ℚ) := by linarith
    exact_mod_cast this
  have h1 : lineSlope geom s1 = lineSlope geom s := by
    conv_lhs => unfold lineSlope
    rw [ha]
    push_cast
    rw [hrow]
    unfold lineOffset
    field_simp
    ring
  refine ⟨h1, ?_⟩
  unfold lineOffset
  rw [h1, ha]

/-- A `DIR_OUT` state lies on its own line. -/
theorem line_self (geom : DPGeometry) (s : DPState)
    (hv : s.col ≠ truncToInt (geom.vpt_cols s.axis)) :
    (s.row : ℚ) = lineSlope geom s * (s.col : ℚ) + lineOffset geom s := by
  have hne : ((s.col : ℚ) - (truncToInt (geom.vpt_cols s.axis) : ℚ)) ≠ 0 := by
    intro hc
    apply hv
    have : (s.col : ℚ) = (truncToInt (geom.vpt_cols s.axis) : ℚ) := by linarith
    exact_mod_cast this
  unfold lineOffset lineSlope
  push_cast
  field_simp
  ring

/-- The first moves of a `DIR_OUT` state in column `K + 1` whose line passes
the checks of the walk in column `K`: the move into `DIR_IN` there and, when the
relative jump error is below the threshold, the kink move. -/
theorem transitions_out_first (po : DPPayoffs) (geom : DPGeometry) (jt : ℚ) (roundi : ℚ → Int)
    (s : DPState) (K : Nat) (hd : s.dir = DIR_OUT) (hc : s.col = ((K + 1 : Nat) : Int))
    (hv : s.col ≠ truncToInt (geom.vpt_cols s.axis))
    (hKv : (K : Int) ≠ truncToInt (geom.vpt_cols s.axis))
    (h0 : 0 ≤ lineRow geom roundi s (K : Int))
    (h1 : lineRow geom roundi s (K : Int) < geom.grid_size.2)
    (h2 : lineRow geom roundi s (K : Int) ≠ geom.horizon_row) :
    ((⟨lineRow geom roundi s (K : Int), (K : Int), s.axis, DIR_IN⟩ : DPState),
        (po.wall_scores s.axis).elem (lineRow geom roundi s (K : Int)) (K : Int)) ∈
      transitions po geom jt roundi s ∧
    (((lineRow geom roundi s (K : Int) : Int) : ℚ) =
        lineSlope geom s * ((K : Int) : ℚ) + lineOffset geom s → 0 < jt →
      ((⟨lineRow geom roundi s (K : Int), (K : Int), s.axis, DIR_OUT⟩ : DPState),
        (po.wall_scores s.axis).elem (lineRow geom roundi s (K : Int)) (K : Int)) ∈
      transitions po geom jt roundi s) := by
  have hne : s.dir ≠ DIR_IN := by rw [hd]; decide
  have hne2 : ¬ (s.dir = DIR_UP ∨ s.dir = DIR_DOWN) := by rw [hd]; decide
  have hK : s.col.toNat = K + 1 := by omega
  unfold transitions
  rw [if_neg hne, if_neg hne2, if_pos hd]
  simp only
  rw [if_pos hv, hK]
  unfold walkTrans
  simp only
  have hrow : roundi (((s.row - geom.horizon_row : Int) : ℚ) /
      ((s.col - truncToInt (geom.vpt_cols s.axis) : Int) : ℚ) * ((K : Int) : ℚ) +
      ((geom.horizon_row : ℚ) - ((s.row - geom.horizon_row : Int) : ℚ) /
        ((s.col - truncToInt (geom.vpt_cols s.axis) : Int) : ℚ) *
          (truncToInt (geom.vpt_cols s.axis) : ℚ))) = lineRow geom roundi s (K : Int) := rfl
  have hy : ((s.row - geom.horizon_row : Int) : ℚ) /
      ((s.col - truncToInt (geom.vpt_cols s.axis) : Int) : ℚ) * ((K : Int) : ℚ) +
      ((geom.horizon_row : ℚ) - ((s.row - geom.horizon_row : Int) : ℚ) /
        ((s.col - truncToInt (geom.vpt_cols s.axis) : Int) : ℚ) *
          (truncToInt (geom.vpt_cols s.axis) : ℚ)) =
      lineSlope geom s * ((K : Int) : ℚ) + lineOffset geom s := rfl
  rw [if_neg hKv, hrow, if_neg (by push_neg; exact ⟨h0, h1, h2⟩), zero_add]
  refine ⟨List.mem_cons_self _ _, fun hex hjt => ?_⟩
  rw [hy, hex, sub_self, abs_zero, zero_div, if_pos hjt]
  exact List.mem_cons_of_mem _ (List.mem_singleton.2 rfl)

/-- With a jump threshold that is not positive, every move of a `DIR_OUT` state
goes into a `DIR_IN` state. -/
theorem transitions_nokink (po : DPPayoffs) (geom : DPGeometry) (jt : ℚ) (hjt : jt ≤ 0)
    (roundi : ℚ → Int) (s : DPState) (hd : s.dir = DIR_OUT) (t : DPState × ℚ)
    (ht : t ∈ transitions po geom jt roundi s) : t.1.dir = DIR_IN := by
  have hne : s.dir ≠ DIR_IN := by rw [hd]; decide
  have hne2 : ¬ (s.dir = DIR_UP ∨ s.dir = DIR_DOWN) := by rw [hd]; decide
  unfold transitions at ht
  rw [if_neg hne, if_neg hne2, if_pos hd] at ht
  simp only at ht
  split_ifs at ht
  · exact walkTrans_nokink po geom jt hjt roundi _ _ _ _ _ _ t ht
  · simp at ht

/-- A wall line that passes exactly through grid rows can be followed one
column at a time by kink moves: from a `DIR_OUT` state on the line of `s`, in
column `j + k + 1`, a chain of `k` kink moves and a move into the `DIR_IN` state
of column `j` collects the cost-field values of the line over the columns
`j .. j + k`. -/
theorem kink_chain (po : DPPayoffs) (geom : DPGeometry) (jt : ℚ) (hjt : 0 < jt)
    (roundi : ℚ → Int) (s : DPState) (j : Nat) (l1 : List DPState) (v : ℚ)
    (hadm : Admissible po geom jt roundi
      ((⟨lineRow geom roundi s (j : Int), (j : Int), s.axis, DIR_IN⟩ : DPState) :: l1) v)
    (hgood : ∀ x : Nat, j ≤ x → x < s.col.toNat →
      (x : Int) ≠ truncToInt (geom.vpt_cols s.axis) ∧ 0 ≤ lineRow geom roundi s (x : Int) ∧
      lineRow geom roundi s (x : Int) < geom.grid_size.2 ∧
      lineRow geom roundi s (x : Int) ≠ geom.horizon_row)
    (hex : ∀ x : Nat, j ≤ x → x < s.col.toNat →
      ((lineRow geom roundi s (x : Int) : Int) : ℚ) =
        lineSlope geom s * ((x : Int) : ℚ) + lineOffset geom s) :
    ∀ (k : Nat) (s1 : DPState), s1.dir = DIR_OUT → s1.axis = s.axis →
      s1.col = ((j + k + 1 : Nat) : Int) → j + k + 1 ≤ s.col.toNat →
      s1.col ≠ truncToInt (geom.vpt_cols s.axis) →
      (s1.row : ℚ) = lineSlope geom s * (s1.col : ℚ) + lineOffset geom s →
      ∃ l2, Admissible po geom jt roundi (s1 :: l2)
        (v + segCost po geom roundi s j (j + k + 1)) := by
  intro k
  induction k with
  | zero =>
    intro s1 hd ha hc hle hv hrow
    obtain ⟨q1, q2⟩ := line_eq geom s s1 ha hv hrow
    have hlr : ∀ x : Int, lineRow geom roundi s1 x = lineRow geom roundi s x := by
      intro x
      unfold lineRow
      rw [q1, q2]
    obtain ⟨g1, g2, g3, g4⟩ := hgood j (le_refl _) (by omega)
    have hfirst := (transitions_out_first po geom jt roundi s1 j hd hc (by rw [ha]; exact hv)
      (by rw [ha]; exact g1) (by rw [hlr]; exact g2) (by rw [hlr]; exact g3)
      (by rw [hlr]; exact g4)).1
    rw [hlr, ha] at hfirst
    have h0 : s1.col ≠ 0 := by rw [hc]; push_cast; omega
    have hstep := Admissible.step s1 _ l1 _ v h0 hfirst hadm
    have hsum : segCost po geom roundi s j (j + 0 + 1) =
        (po.wall_scores s.axis).elem (lineRow geom roundi s (j : Int)) (j : Int) := by
      unfold segCost
      rw [add_zero, Finset.sum_Ico_succ_top (le_refl j), Finset.Ico_self, Finset.sum_empty,
        zero_add]
    rw [hsum]
    exact ⟨_, hstep⟩
  | succ k ih =>
    intro s1 hd ha hc hle hv hrow
    obtain ⟨q1, q2⟩ := line_eq geom s s1 ha hv hrow
    have hlr : ∀ x : Int, lineRow geom roundi s1 x = lineRow geom roundi s x := by
      intro x
      unfold lineRow
      rw [q1, q2]
    obtain ⟨g1, g2, g3, g4⟩ := hgood (j + k + 1) (by omega) (by omega)
    have hexK := hex (j + k + 1) (by omega) (by omega)
    have hkink := (transitions_out_first po geom jt roundi s1 (j + k + 1) hd hc
      (by rw [ha]; exact hv) (by rw [ha]; exact g1) (by rw [hlr]; exact g2)
      (by rw [hlr]; exact g3) (by rw [hlr]; exact g4)).2
      (by rw [hlr, q1, q2]; exact hexK) hjt
    rw [hlr, ha] at hkink
    have h0 : s1.col ≠ 0 := by rw [hc]; push_cast; omega
    obtain ⟨l2, hl2⟩ := ih
      (⟨lineRow geom roundi s ((j + k + 1 : Nat) : Int), ((j + k + 1 : Nat) : Int), s.axis,
        DIR_OUT⟩ : DPState) rfl rfl rfl (by omega) g1 hexK
    have hstep := Admissible.step s1 _ l2 _ _ h0 hkink hl2
    have hsum : segCost po geom roundi s j (j + (k + 1) + 1) =
        segCost po geom roundi s j (j + k + 1) +
          (po.wall_scores s.axis).elem (lineRow geom roundi s ((j + k + 1 : Nat) : Int))
            ((j + k + 1 : Nat) : Int) := by
      unfold segCost
      rw [show j + (k + 1) + 1 = (j + k + 1) + 1 by omega,
        Finset.sum_Ico_succ_top (by omega : j ≤ j + k + 1)]
    rw [hsum, ← add_assoc]
    exact ⟨_, hstep⟩

/-- A chain admitted with jump threshold 0 whose wall lines pass exactly through
grid rows can be followed with any positive jump threshold: there is a chain
from the same state, admitted with that threshold, with the same score. -/
theorem exact_emulate (po : DPPayoffs) (geom : DPGeometry) (jt : ℚ) (hjt : 0 < jt)
    (roundi : ℚ → Int) (l : List DPState) (v : ℚ)
    (h : Admissible po geom 0 roundi l v) :
    exactLines geom roundi l = true →
      ∀ s ∈ l.head?, ∃ l1, Admissible po geom jt roundi (s :: l1) v := by
  induction h with
  | base s h0 =>
    intro _ s1 hs1
    simp only [List.head?_cons, Option.mem_def, Option.some.injEq] at hs1
    subst hs1
    exact ⟨[], Admissible.base s h0⟩
  | step s n rest d v h0 ht _ ih =>
    intro hex s1 hs1
    simp only [List.head?_cons, Option.mem_def, Option.some.injEq] at hs1
    subst hs1
    obtain ⟨hex1, hex2⟩ := exactLines_cons geom roundi s n rest hex
    obtain ⟨l1, hl1⟩ := ih hex2 n (by simp)
    by_cases hd : s.dir = DIR_OUT
    · obtain ⟨hv, j, hj, e1, e2, e3, _, e5, e6⟩ :=
        transitions_out po geom 0 roundi s hd (n, d) ht
      have e4 := transitions_nokink po geom 0 (le_refl _) roundi s hd (n, d) ht
      simp only at e1 e2 e3 e4 e6
      have hn : n = ⟨lineRow geom roundi s (j : Int), (j : Int), s.axis, DIR_IN⟩ := by
        cases n
        simp only [DPState.mk.injEq]
        simp only at e1 e2 e3 e4
        exact ⟨e2, e1, e3, e4⟩
      have hnc : n.col.toNat = j := by rw [e1]; simp
      rw [hn] at hl1
      have hcol : s.col = ((j + (s.col.toNat - j - 1) + 1 : Nat) : Int) := by omega
      obtain ⟨l2, hl2⟩ := kink_chain po geom jt hjt roundi s j l1 v hl1 e5
        (fun x hx1 hx2 => hex1 hd x (by omega) hx2) (s.col.toNat - j - 1) s hd rfl hcol
        (by omega) hv (line_self geom s hv)
      have hk : j + (s.col.toNat - j - 1) + 1 = s.col.toNat := by omega
      rw [hk, ← e6] at hl2
      exact ⟨l2, hl2⟩
    · have ht1 : (n, d) ∈ transitions po geom jt roundi s := by
        rw [transitions_thresh po geom jt 0 roundi s hd]
        exact ht
      exact ⟨n :: l1, Admissible.step s n l1 d v h0 ht1 hl1⟩

/-- The score of a successful `Compute` is at least the score, less one wall
penalty, of any chain admitted from a terminal state. -/
theorem score_ge_chain (roundi : ℚ → Int) (FillPolygon : List Vec3 → Mat Int → Int → Mat Int)
    (po : DPPayoffs) (geom : DPGeometry) (dp dp1 : ManhattanDP)
    (h : Compute roundi FillPolygon po geom dp = Except.ok dp1)
    (u : DPState) (hu : u ∈ terminals geom) (l : List DPState) (v : ℚ)
    (hadm : Admissible po geom dp.jump_thresh roundi (u :: l) v) :
    ∃ q : ℚ, dp1.solution.score = Score.fin q ∧ v - po.wall_penalty ≤ q := by
  have hf := feasible_of_ok roundi FillPolygon po geom dp dp1 h
  obtain ⟨d, p, _, _, _, _, _, _, _, hscore, _, _, _⟩ :=
    Compute_ok_fields roundi FillPolygon po geom dp dp1 h
  obtain ⟨t, qv, rest, htm, hbest, hval, _, _, _⟩ :=
    backChain_facts po geom dp.jump_thresh roundi hf
  refine ⟨qv + -po.wall_penalty, by rw [hscore, hbest], ?_⟩
  have h1 := admissible_le po geom dp.jump_thresh roundi _ v hadm u (by simp)
  rcases search_cases po geom dp.jump_thresh roundi with ⟨h2, _⟩ | ⟨_, l1, t1, l2, k1, k2, _, k4, k5⟩
  · rw [h2] at hf; exact absurd hf (by decide)
  · have ht1 : t1 = t := by
      have := congrArg DPSubSolution.src k2
      rw [hbest] at this
      exact this.symm
    subst ht1
    have hu1 : ((value po geom dp.jump_thresh roundi u).score.add (-po.wall_penalty)).val ≤
        ((value po geom dp.jump_thresh roundi t1).score.add (-po.wall_penalty)).val := by
      rw [k1] at hu
      rcases List.mem_append.1 hu with hm | hm
      · exact le_of_lt (k4 u hm)
      · rcases List.mem_cons.1 hm with rfl | hm
        · exact le_refl _
        · exact k5 u hm
    rw [Score.val_add, Score.val_add, hval, Score.val_fin] at hu1
    have h3 : ((v : ℚ) : WithBot ℚ) + ((-po.wall_penalty : ℚ) : WithBot ℚ) ≤
        ((qv : ℚ) : WithBot ℚ) + ((-po.wall_penalty : ℚ) : WithBot ℚ) :=
      le_trans (add_le_add_right h1 _) hu1
    rw [← WithBot.coe_add, ← WithBot.coe_add, WithBot.coe_le_coe] at h3
    linarith

/-- C11 (amended). Approximation: when `Compute` with jump threshold 0 succeeds
and the wall lines of its optimal solution pass exactly through integer grid
rows at every column they cross, `Compute` with any positive jump threshold
succeeds too, and its solution score is at least the score obtained with
threshold 0. -/
theorem C11_approximation (roundi : ℚ → Int) (FillPolygon : List Vec3 → Mat Int → Int → Mat Int)
    (po : DPPayoffs) (geom : DPGeometry) (dp0 dpL d0 : ManhattanDP)
    (h0 : dp0.jump_thresh = 0) (hL : 0 < dpL.jump_thresh)
    (hc : Compute roundi FillPolygon po geom dp0 = Except.ok d0)
    (hex : exactLines geom roundi d0.full_backtrack = true) :
    ∃ (dL : ManhattanDP) (q0 qL : ℚ),
      Compute roundi FillPolygon po geom dpL = Except.ok dL ∧
      d0.solution.score = Score.fin q0 ∧ dL.solution.score = Score.fin qL ∧ q0 ≤ qL := by
  have hf := feasible_of_ok roundi FillPolygon po geom dp0 d0 hc
  obtain ⟨d, p, _, _, _, _, hfull, _, _, hscore, _, _, _⟩ :=
    Compute_ok_fields roundi FillPolygon po geom dp0 d0 hc
  obtain ⟨t, qv, rest, htm, hbest, _, hch, hadm, _⟩ :=
    backChain_facts po geom dp0.jump_thresh roundi hf
  rw [hfull] at hex
  rw [h0] at hadm hex hch
  obtain ⟨l1, hl1⟩ := exact_emulate po geom dpL.jump_thresh hL roundi _ qv hadm hex t
    (by rw [hch]; simp)
  have hfL : isFeasible po geom dpL.jump_thresh roundi = true := by
    cases hfe : isFeasible po geom dpL.jump_thresh roundi
    · have hinf := (Compute_infeasible_iff roundi FillPolygon po geom dpL).2 hfe
      exact absurd ⟨t, htm, l1, qv, hl1⟩
        ((infeasible_iff_no_chain roundi FillPolygon po geom dpL).1 hinf)
    · rfl
  obtain ⟨_, _, _, _, _, hcL⟩ := Compute_feasible roundi FillPolygon po geom dpL hfL
  obtain ⟨qL, hqL, hle⟩ := score_ge_chain roundi FillPolygon po geom dpL _ hcL t htm l1 qv hl1
  exact ⟨_, qv + -po.wall_penalty, qL, hcL, by rw [hscore, hbest], hqL, by linarith⟩

set_option maxRecDepth 100000 in
/-- The run of `Compute` on the cost field `kinkPayoffs` with jump threshold 0
succeeds. -/
theorem kink_ok :
    ∃ d, Compute roundHalfUp noFill kinkPayoffs kinkGeom (freshSolver 0) = Except.ok d :=
  exists_ok_of_isOk _ (by decide!)

set_option maxRecDepth 100000 in
/-- Witness of `C11_approximation`: the cost field `kinkPayoffs`, whose optimal
wall with threshold 0 runs from row 0 of column 2 through row 1 of column 1 to
row 2 of column 0, on a line of slope -1. -/
theorem C11_approximation_witness :
    (freshSolver 0).jump_thresh = 0 ∧ 0 < (freshSolver 1000).jump_thresh ∧
    ∃ d0, Compute roundHalfUp noFill kinkPayoffs kinkGeom (freshSolver 0) = Except.ok d0 ∧
      exactLines kinkGeom roundHalfUp d0.full_backtrack = true ∧
      ∃ (dL : ManhattanDP) (q0 qL : ℚ),
        Compute roundHalfUp noFill kinkPayoffs kinkGeom (freshSolver 1000) = Except.ok dL ∧
        d0.solution.score = Score.fin q0 ∧ dL.solution.score = Score.fin qL ∧ q0 ≤ qL := by
  obtain ⟨d, hd⟩ := kink_ok
  have hex : exactRun kinkGeom roundHalfUp
      (Compute roundHalfUp noFill kinkPayoffs kinkGeom (freshSolver 0)) = true := by decide!
  rw [hd] at hex
  have hL : (0 : ℚ) < (freshSolver 1000).jump_thresh := by decide!
  exact ⟨rfl, hL, d, hd, hex, C11_approximation roundHalfUp noFill kinkPayoffs kinkGeom
    (freshSolver 0) (freshSolver 1000) d rfl hL hd hex⟩

set_option maxRecDepth 100000 in
/-- On the cost field `kinkPayoffs` the two scores differ. With jump threshold 0
the optimal solution is one wall on a line that passes exactly through rows 1
and 2 (score 37/2); with jump threshold 1000 it is a wall that kinks from row 7
through row 6 to row 5 (score 19). -/
theorem C11_counterexample :
    (solutionOf (Compute roundHalfUp noFill kinkPayoffs kinkGeom (freshSolver 0))).toOption.map
      (fun s => s.score) = some (Score.fin (37 / 2)) ∧
    exactRun kinkGeom roundHalfUp
      (Compute roundHalfUp noFill kinkPayoffs kinkGeom (freshSolver 0)) = true ∧
    (solutionOf (Compute roundHalfUp noFill kinkPayoffs kinkGeom
      (freshSolver 1000))).toOption.map (fun s => s.score) = some (Score.fin 19) := by
  refine ⟨by decide!, by decide!, by decide!⟩

/-- C21. Base case: for every state with `col = 0`, whatever its row, axis and
direction, `Solve_Impl` returns score 0 with predecessor `DPState::none` and
leaves the solver as it is, whatever the cost field and whatever `Solve` would
return (so without consulting the one or calling the other); this is also the
value of the state under the recurrence. -/
theorem C21_base_case (po : DPPayoffs) (geom : DPGeometry) (jump_thresh : ℚ) (roundi : ℚ → Int)
    (solve : Solver) (s : DPState) (dp : ManhattanDP) (h0 : s.col = 0) :
    Solve_Impl po geom jump_thresh roundi solve s dp =
      some (⟨Score.fin 0, DPState.none⟩, dp) ∧
    value po geom jump_thresh roundi s = ⟨Score.fin 0, DPState.none⟩ := by
  refine ⟨?_, ?_⟩
  · rw [Solve_Impl_eq, if_pos h0]
  · rw [value_eq]
    unfold recurrence
    rw [if_pos h0]

/-- Witness of `C21_base_case`: a state in column 0 with row 5, axis 7 and
direction 9, and a solver that never returns. -/
theorem C21_base_case_witness :
    (⟨5, 0, 7, 9⟩ : DPState).col = 0 ∧
    Solve_Impl scenarioPayoffs (gridGeom 4 4 2 100000000 (-100000000)) 0 roundHalfUp noSolver
      ⟨5, 0, 7, 9⟩ (freshSolver 0) = some (⟨Score.fin 0, DPState.none⟩, freshSolver 0) ∧
    value scenarioPayoffs (gridGeom 4 4 2 100000000 (-100000000)) 0 roundHalfUp ⟨5, 0, 7, 9⟩ =
      ⟨Score.fin 0, DPState.none⟩ :=
  ⟨rfl, C21_base_case scenarioPayoffs (gridGeom 4 4 2 100000000 (-100000000)) 0 roundHalfUp
    noSolver ⟨5, 0, 7, 9⟩ (freshSolver 0) rfl⟩

theorem beq_decide_iff (A B : Prop) [Decidable A] [Decidable B] :
    (decide A == decide B) = true ↔ (A ↔ B) := by
  by_cases ha : A <;> by_cases hb : B <;> simp [ha, hb]

/-- With unbounded integers, `OcclusionValid` returns true exactly when two
conditions agree: (a) the vanishing column of the occluding axis lies on the
occluding side of `col` (side -1 when the vanishing column is less than `col`,
else +1; the occluding axis is `left_axis` when `occl_side < 0` and `right_axis`
otherwise), and (b) the vanishing column of the other axis (`1 -` the occluding
axis) lies on the same side of `col` as the occluding vanishing column and
strictly closer to `col`. The program computes with 32-bit integers; see
`OcclusionValid32_eq` for where the two agree. -/
theorem occlusionValid_iff (geom : DPGeometry) (col left_axis right_axis occl_side : Int) :
    OcclusionValid geom col left_axis right_axis occl_side = true ↔
      (occl_side =
          (if truncToInt (geom.vpt_cols (if occl_side < 0 then left_axis else right_axis)) < col
            then -1 else 1) ↔
        ((if truncToInt (geom.vpt_cols (1 - (if occl_side < 0 then left_axis else right_axis))) <
              col then (-1 : Int) else 1) =
            (if truncToInt (geom.vpt_cols (if occl_side < 0 then left_axis else right_axis)) < col
              then -1 else 1) ∧
          |col - truncToInt (geom.vpt_cols (1 - (if occl_side < 0 then left_axis else right_axis)))| <
            |col - truncToInt (geom.vpt_cols (if occl_side < 0 then left_axis else right_axis))|)) := by
  unfold OcclusionValid
  simp only
  rw [← Bool.decide_and]
  exact beq_decide_iff _ _

/-- C27. CanMoveVert is `OcclusionValid(cur.col, next.axis, cur.axis, side)` with
`side = -1` when `cur.row < horizon_row` and `next.dir = DIR_UP` are both true
or both false and `side = +1` otherwise; the result does not depend on
`next.row`, `next.col` or `cur.dir`. -/
theorem C27_can_move_vert (geom : DPGeometry) (cur next : DPState) :
    CanMoveVert geom cur next =
      OcclusionValid geom cur.col next.axis cur.axis
        (if (cur.row < geom.horizon_row ↔ next.dir = DIR_UP) then -1 else 1) ∧
    ∀ row col dir : Int,
      CanMoveVert geom { cur with dir := dir } { next with row := row, col := col } =
        CanMoveVert geom cur next := by
  refine ⟨?_, fun _ _ _ => rfl⟩
  unfold CanMoveVert
  simp only
  by_cases h1 : cur.row < geom.horizon_row <;> by_cases h2 : next.dir = DIR_UP <;>
    simp [h1, h2]

/-- The value of a state that is not a base case is the greatest score offered
by its moves, taken from the first move that offers it; when no move offers
more than negative infinity, the value is negative infinity with no
predecessor. -/
theorem value_is_max (po : DPPayoffs) (geom : DPGeometry) (jump_thresh : ℚ) (roundi : ℚ → Int)
    (s : DPState) (h0 : s.col ≠ 0) :
    (∀ u ∈ transitions po geom jump_thresh roundi s,
      (offer (value po geom jump_thresh roundi) u).val ≤
        (value po geom jump_thresh roundi s).score.val) ∧
    (transitions po geom jump_thresh roundi s ≠ [] →
      ∃ u ∈ transitions po geom jump_thresh roundi s,
        (offer (value po geom jump_thresh roundi) u).val =
          (value po geom jump_thresh roundi s).score.val) ∧
    (⊥ < (value po geom jump_thresh roundi s).score.val →
      ∃ l1 t l2, transitions po geom jump_thresh roundi s = l1 ++ t :: l2 ∧
        value po geom jump_thresh roundi s = ⟨offer (value po geom jump_thresh roundi) t, t.1⟩ ∧
        (∀ u ∈ l1, (offer (value po geom jump_thresh roundi) u).val <
          (offer (value po geom jump_thresh roundi) t).val) ∧
        (∀ u ∈ l2, (offer (value po geom jump_thresh roundi) u).val ≤
          (offer (value po geom jump_thresh roundi) t).val)) ∧
    ((value po geom jump_thresh roundi s).score.val = ⊥ →
      value po geom jump_thresh roundi s = DPSubSolution.ofScore Score.negInf) := by
  rcases value_cases po geom jump_thresh roundi s with ⟨h, _⟩ | ⟨_, h1, h2⟩ |
    ⟨_, l1, t, l2, h1, h2, h3, h4, h5⟩
  · exact absurd h h0
  · have hv : (value po geom jump_thresh roundi s).score.val = ⊥ := by
      rw [h1]; rfl
    refine ⟨fun u hu => by rw [h2 u hu]; exact bot_le, fun hne => ?_, fun hlt => ?_,
      fun _ => h1⟩
    · obtain ⟨u, hu⟩ := List.exists_mem_of_ne_nil _ hne
      exact ⟨u, hu, by rw [h2 u hu, hv]⟩
    · rw [hv] at hlt
      exact absurd hlt (lt_irrefl _)
  · have hv : (value po geom jump_thresh roundi s).score.val =
        (offer (value po geom jump_thresh roundi) t).val := by rw [h2]
    refine ⟨fun u hu => ?_, fun _ => ⟨t, by rw [h1]; simp, hv.symm⟩,
      fun _ => ⟨l1, t, l2, h1, h2, h4, h5⟩, fun hb => ?_⟩
    · rw [hv]
      rw [h1] at hu
      rcases List.mem_append.1 hu with hm | hm
      · exact le_of_lt (h4 u hm)
      · rcases List.mem_cons.1 hm with rfl | hm
        · exact le_refl _
        · exact h5 u hm
    · rw [hv] at hb
      rw [hb] at h3
      exact absurd h3 (lt_irrefl _)

/-- C22 (amended). DIR_IN recurrence: for every `DIR_IN` state at `(row, col)`
with `col ≠ 0`, `Solve_Impl` tries, for the next axis 0 and then 1, the moves
into `DIR_OUT` at the same point (delta `-wall_penalty`), into `DIR_UP` if
`CanMoveVert` allows it and into `DIR_DOWN` if `CanMoveVert` allows it (delta
`-wall_penalty - occl_penalty` each). The score is the greatest of the scores
they offer. When it is greater than negative infinity the predecessor is the
first move that offers it, in that order; when every move offers negative
infinity the score is negative infinity and the predecessor is
`DPState::none`. -/
theorem C22_dir_in (po : DPPayoffs) (geom : DPGeometry) (jump_thresh : ℚ) (roundi : ℚ → Int)
    (s : DPState) (hd : s.dir = DIR_IN) (h0 : s.col ≠ 0) :
    transitions po geom jump_thresh roundi s =
      ([0, 1] : List Int).flatMap (fun a =>
        [((⟨s.row, s.col, a, DIR_OUT⟩ : DPState), -po.wall_penalty)] ++
        ((if CanMoveVert geom s ⟨s.row, s.col, a, DIR_UP⟩ then
            [((⟨s.row, s.col, a, DIR_UP⟩ : DPState), -po.wall_penalty - po.occl_penalty)]
          else []) ++
         (if CanMoveVert geom s ⟨s.row, s.col, a, DIR_DOWN⟩ then
            [((⟨s.row, s.col, a, DIR_DOWN⟩ : DPState), -po.wall_penalty - po.occl_penalty)]
          else []))) ∧
    (∀ (solve : Solver) (dp : ManhattanDP),
      Solve_Impl po geom jump_thresh roundi solve s dp =
        foldSolve solve (transitions po geom jump_thresh roundi s)
          (DPSubSolution.ofScore Score.negInf) dp) ∧
    (∀ u ∈ transitions po geom jump_thresh roundi s,
      (offer (value po geom jump_thresh roundi) u).val ≤
        (value po geom jump_thresh roundi s).score.val) ∧
    (∃ u ∈ transitions po geom jump_thresh roundi s,
      (offer (value po geom jump_thresh roundi) u).val =
        (value po geom jump_thresh roundi s).score.val) ∧
    (⊥ < (value po geom jump_thresh roundi s).score.val →
      ∃ l1 t l2, transitions po geom jump_thresh roundi s = l1 ++ t :: l2 ∧
        value po geom jump_thresh roundi s = ⟨offer (value po geom jump_thresh roundi) t, t.1⟩ ∧
        (∀ u ∈ l1, (offer (value po geom jump_thresh roundi) u).val <
          (offer (value po geom jump_thresh roundi) t).val) ∧
        (∀ u ∈ l2, (offer (value po geom jump_thresh roundi) u).val ≤
          (offer (value po geom jump_thresh roundi) t).val)) ∧
    ((value po geom jump_thresh roundi s).score.val = ⊥ →
      value po geom jump_thresh roundi s = ⟨Score.negInf, DPState.none⟩) := by
  have hlist : transitions po geom jump_thresh roundi s =
      ([0, 1] : List Int).flatMap (fun a =>
        [((⟨s.row, s.col, a, DIR_OUT⟩ : DPState), -po.wall_penalty)] ++
        ((if CanMoveVert geom s ⟨s.row, s.col, a, DIR_UP⟩ then
            [((⟨s.row, s.col, a, DIR_UP⟩ : DPState), -po.wall_penalty - po.occl_penalty)]
          else []) ++
         (if CanMoveVert geom s ⟨s.row, s.col, a, DIR_DOWN⟩ then
            [((⟨s.row, s.col, a, DIR_DOWN⟩ : DPState), -po.wall_penalty - po.occl_penalty)]
          else []))) := by
    unfold transitions
    rw [if_pos hd]
    simp only [inTrans, List.flatMap_cons, List.flatMap_nil, List.append_nil, neg_add']
  obtain ⟨m1, m2, m3, m4⟩ := value_is_max po geom jump_thresh roundi s h0
  refine ⟨hlist, fun solve dp => ?_, m1, m2 ?_, m3, m4⟩
  · rw [Solve_Impl_eq, if_neg h0]
  · rw [hlist]
    simp

/-- Witness of `C22_dir_in`: the state in row 1 of column 3 of the 4x4
scenario. -/
theorem C22_dir_in_witness :
    (⟨1, 3, 0, DIR_IN⟩ : DPState).dir = DIR_IN ∧ (⟨1, 3, 0, DIR_IN⟩ : DPState).col ≠ 0 ∧
    ∃ u ∈ transitions scenarioPayoffs (gridGeom 4 4 2 100000000 (-100000000)) 0 roundHalfUp
        ⟨1, 3, 0, DIR_IN⟩,
      (offer (value scenarioPayoffs (gridGeom 4 4 2 100000000 (-100000000)) 0 roundHalfUp) u).val =
        (value scenarioPayoffs (gridGeom 4 4 2 100000000 (-100000000)) 0 roundHalfUp
          ⟨1, 3, 0, DIR_IN⟩).score.val :=
  ⟨rfl, by decide, (C22_dir_in scenarioPayoffs (gridGeom 4 4 2 100000000 (-100000000)) 0
    roundHalfUp ⟨1, 3, 0, DIR_IN⟩ rfl (by decide)).2.2.2.1⟩

/-- A `DIR_IN` state all of whose moves offer negative infinity: in
`obliqueGeom` the state in row 0 of column 1, whose column holds both vanishing
points. The first move, into `DIR_OUT` on axis 0, offers the greatest score
(negative infinity, like all the others), and yet the predecessor is
`DPState::none`. -/
theorem C22_counterexample :
    (transitions (zeroPayoffs 2 3) obliqueGeom 0 roundHalfUp ⟨0, 1, 0, DIR_IN⟩).head? =
      some (⟨0, 1, 0, DIR_OUT⟩, -1) ∧
    (∀ u ∈ transitions (zeroPayoffs 2 3) obliqueGeom 0 roundHalfUp ⟨0, 1, 0, DIR_IN⟩,
      offer (value (zeroPayoffs 2 3) obliqueGeom 0 roundHalfUp) u = Score.negInf) ∧
    value (zeroPayoffs 2 3) obliqueGeom 0 roundHalfUp ⟨0, 1, 0, DIR_IN⟩ =
      ⟨Score.negInf, DPState.none⟩ ∧
    (value (zeroPayoffs 2 3) obliqueGeom 0 roundHalfUp ⟨0, 1, 0, DIR_IN⟩).src ≠
      ⟨0, 1, 0, DIR_OUT⟩ := by
  refine ⟨by decide!, by decide!, by decide!, by decide!⟩

theorem Score.val_add_zero (x : Score) : (x.add 0).val = x.val := by
  cases x <;> simp [Score.add, Score.val]

/-- C23. DIR_UP / DIR_DOWN recurrence: for every `DIR_UP` or `DIR_DOWN` state
at `(row, col, axis)` with `col ≠ 0`, `Solve_Impl` tries the exit to `DIR_OUT`
at the same point and axis and then, only when the adjacent row (`row - 1` for
UP, `row + 1` for DOWN) is within `[0, H)` and is not the horizon row, the same
direction one row further, both with delta 0. The score is the greater of the
scores of the two (of the exit alone when there is no second move). The move
one row further is the predecessor only when its score is strictly greater
than that of the exit, so the exit is preferred on ties: when the score is
greater than negative infinity and the exit attains it, the exit is the
predecessor. A vertical move never enters the horizon row or leaves the
grid. -/
theorem C23_dir_vert (po : DPPayoffs) (geom : DPGeometry) (jump_thresh : ℚ) (roundi : ℚ → Int)
    (s : DPState) (hd : s.dir = DIR_UP ∨ s.dir = DIR_DOWN) (h0 : s.col ≠ 0) :
    transitions po geom jump_thresh roundi s =
      ((⟨s.row, s.col, s.axis, DIR_OUT⟩ : DPState), (0 : ℚ)) ::
        (if (0 ≤ s.row + (if s.dir = DIR_UP then -1 else 1) ∧
              s.row + (if s.dir = DIR_UP then -1 else 1) < geom.grid_size.2) ∧
            s.row + (if s.dir = DIR_UP then -1 else 1) ≠ geom.horizon_row then
          [((⟨s.row + (if s.dir = DIR_UP then -1 else 1), s.col, s.axis, s.dir⟩ : DPState),
            (0 : ℚ))]
        else []) ∧
    (∀ (solve : Solver) (dp : ManhattanDP),
      Solve_Impl po geom jump_thresh roundi solve s dp =
        foldSolve solve (transitions po geom jump_thresh roundi s)
          (DPSubSolution.ofScore Score.negInf) dp) ∧
    (value po geom jump_thresh roundi s).score.val =
      max (value po geom jump_thresh roundi ⟨s.row, s.col, s.axis, DIR_OUT⟩).score.val
        (if (0 ≤ s.row + (if s.dir = DIR_UP then -1 else 1) ∧
              s.row + (if s.dir = DIR_UP then -1 else 1) < geom.grid_size.2) ∧
            s.row + (if s.dir = DIR_UP then -1 else 1) ≠ geom.horizon_row then
          (value po geom jump_thresh roundi
            ⟨s.row + (if s.dir = DIR_UP then -1 else 1), s.col, s.axis, s.dir⟩).score.val
        else ⊥) ∧
    ((value po geom jump_thresh roundi s).src =
        ⟨s.row + (if s.dir = DIR_UP then -1 else 1), s.col, s.axis, s.dir⟩ →
      (value po geom jump_thresh roundi ⟨s.row, s.col, s.axis, DIR_OUT⟩).score.val <
        (value po geom jump_thresh roundi
          ⟨s.row + (if s.dir = DIR_UP then -1 else 1), s.col, s.axis, s.dir⟩).score.val) ∧
    (⊥ < (value po geom jump_thresh roundi s).score.val →
      (value po geom jump_thresh roundi ⟨s.row, s.col, s.axis, DIR_OUT⟩).score.val =
        (value po geom jump_thresh roundi s).score.val →
      (value po geom jump_thresh roundi s).src = ⟨s.row, s.col, s.axis, DIR_OUT⟩) ∧
    ((value po geom jump_thresh roundi s).score.val = ⊥ →
      (value po geom jump_thresh roundi s).src = DPState.none) ∧
    (∀ t ∈ transitions po geom jump_thresh roundi s, t.1.dir = s.dir →
      (0 ≤ t.1.row ∧ t.1.row < geom.grid_size.2) ∧ t.1.row ≠ geom.horizon_row) := by
  have hne : s.dir ≠ DIR_IN := by rcases hd with h | h <;> rw [h] <;> decide
  have hno : s.dir ≠ DIR_OUT := by rcases hd with h | h <;> rw [h] <;> decide
  have hlist : transitions po geom jump_thresh roundi s =
      ((⟨s.row, s.col, s.axis, DIR_OUT⟩ : DPState), (0 : ℚ)) ::
        (if (0 ≤ s.row + (if s.dir = DIR_UP then -1 else 1) ∧
              s.row + (if s.dir = DIR_UP then -1 else 1) < geom.grid_size.2) ∧
            s.row + (if s.dir = DIR_UP then -1 else 1) ≠ geom.horizon_row then
          [((⟨s.row + (if s.dir = DIR_UP then -1 else 1), s.col, s.axis, s.dir⟩ : DPState),
            (0 : ℚ))]
        else []) := by
    unfold transitions
    rw [if_neg hne, if_pos hd]
    simp only
    congr 1
    by_cases hc : (0 ≤ s.row + (if s.dir = DIR_UP then -1 else 1) ∧
        s.row + (if s.dir = DIR_UP then -1 else 1) < geom.grid_size.2) ∧
        s.row + (if s.dir = DIR_UP then -1 else 1) ≠ geom.horizon_row
    · rw [if_pos hc, if_pos ⟨hc.2, hc.1.1, hc.1.2⟩]
    · rw [if_neg hc, if_neg (fun h => hc ⟨⟨h.2.1, h.2.2⟩, h.1⟩)]
  have hvert := transitions_vert po geom jump_thresh roundi s hd
  obtain ⟨m1, m2, m3, m4⟩ := value_is_max po geom jump_thresh roundi s h0
  have hoff : ∀ t : DPState, (offer (value po geom jump_thresh roundi) (t, (0 : ℚ))).val =
      (value po geom jump_thresh roundi t).score.val := fun t => Score.val_add_zero _
  have hdiff : (⟨s.row + (if s.dir = DIR_UP then -1 else 1), s.col, s.axis, s.dir⟩ : DPState) ≠
      ⟨s.row, s.col, s.axis, DIR_OUT⟩ := by
    intro hc
    simp only [DPState.mk.injEq] at hc
    exact hno hc.2.2.2
  refine ⟨hlist, fun solve dp => by rw [Solve_Impl_eq, if_neg h0], ?_, ?_, ?_, ?_, ?_⟩
  · -- the score is the greater of the two
    apply le_antisymm
    · obtain ⟨u, hu, hu2⟩ := m2 (by rw [hlist]; simp)
      rw [← hu2]
      rw [hlist] at hu
      rcases List.mem_cons.1 hu with rfl | hu
      · rw [hoff]; exact le_max_left _ _
      · by_cases hc : (0 ≤ s.row + (if s.dir = DIR_UP then -1 else 1) ∧
            s.row + (if s.dir = DIR_UP then -1 else 1) < geom.grid_size.2) ∧
            s.row + (if s.dir = DIR_UP then -1 else 1) ≠ geom.horizon_row
        · rw [if_pos hc] at hu
          simp only [List.mem_singleton] at hu
          subst hu
          rw [hoff, if_pos hc]; exact le_max_right _ _
        · rw [if_neg hc] at hu
          simp at hu
    · apply max_le
      · have := m1 (⟨s.row, s.col, s.axis, DIR_OUT⟩, 0) (by rw [hlist]; simp)
        rw [hoff] at this
        exact this
      · by_cases hc : (0 ≤ s.row + (if s.dir = DIR_UP then -1 else 1) ∧
            s.row + (if s.dir = DIR_UP then -1 else 1) < geom.grid_size.2) ∧
            s.row + (if s.dir = DIR_UP then -1 else 1) ≠ geom.horizon_row
        · rw [if_pos hc]
          have := m1 (⟨s.row + (if s.dir = DIR_UP then -1 else 1), s.col, s.axis, s.dir⟩, 0)
            (by rw [hlist, if_pos hc]; simp)
          rw [hoff] at this
          exact this
        · rw [if_neg hc]
          exact bot_le
  · -- the move one row further wins only when strictly greater
    intro hsrc
    have hfin : ⊥ < (value po geom jump_thresh roundi s).score.val := by
      by_contra hc
      rw [not_bot_lt_iff] at hc
      rw [m4 hc] at hsrc
      simp only [DPSubSolution.ofScore, DPState.none, DPState.mk.injEq] at hsrc
      rcases hd with h | h <;> rw [h] at hsrc <;> exact absurd hsrc.2.2.2 (by decide)
    obtain ⟨l1, t, l2, k1, k2, k3, _⟩ := m3 hfin
    rw [k2] at hsrc
    simp only at hsrc
    have hmem : t ∈ transitions po geom jump_thresh roundi s := by rw [k1]; simp
    rw [hlist] at k1
    rcases List.cons_eq_append_iff.1 k1 with ⟨e1, e2⟩ | ⟨l1r, e1, _⟩
    · have := (List.cons.inj e2).1
      rw [this] at hsrc
      exact absurd hsrc.symm hdiff
    · have := k3 (⟨s.row, s.col, s.axis, DIR_OUT⟩, 0) (by rw [e1]; simp)
      rw [hoff] at this
      have ht : t = (t.1, (0 : ℚ)) := by
        have hz := (hvert t hmem).2.2.1
        exact Prod.ext rfl hz
      rw [ht, hoff, hsrc] at this
      exact this
  · -- the exit wins ties
    intro hfin hatt
    obtain ⟨l1, t, l2, k1, k2, k3, _⟩ := m3 hfin
    rw [hlist] at k1
    rcases List.cons_eq_append_iff.1 k1 with ⟨e1, e2⟩ | ⟨l1r, e1, _⟩
    · have := (List.cons.inj e2).1
      rw [k2, this]
    · have := k3 (⟨s.row, s.col, s.axis, DIR_OUT⟩, 0) (by rw [e1]; simp)
      rw [hoff, hatt, k2] at this
      exact absurd this (lt_irrefl _)
  · intro hb
    rw [m4 hb]
    rfl
  · intro t ht htd
    obtain ⟨_, _, _, h4⟩ := hvert t ht
    rcases h4 with ⟨k1, _⟩ | ⟨_, _, k3, k4, k5⟩
    · rw [k1] at htd
      exact absurd htd.symm hno
    · exact ⟨⟨k4, k5⟩, k3⟩

/-- Witness of `C23_dir_vert`: the `DIR_UP` state in row 1 of column 3 of the
4x4 scenario, which may exit or move on to row 0. -/
theorem C23_dir_vert_witness :
    ((⟨1, 3, 0, DIR_UP⟩ : DPState).dir = DIR_UP ∨ (⟨1, 3, 0, DIR_UP⟩ : DPState).dir = DIR_DOWN) ∧
    (⟨1, 3, 0, DIR_UP⟩ : DPState).col ≠ 0 ∧
    ∀ t ∈ transitions scenarioPayoffs (gridGeom 4 4 2 100000000 (-100000000)) 0 roundHalfUp
        ⟨1, 3, 0, DIR_UP⟩, t.1.dir = (⟨1, 3, 0, DIR_UP⟩ : DPState).dir →
      (0 ≤ t.1.row ∧ t.1.row < (gridGeom 4 4 2 100000000 (-100000000)).grid_size.2) ∧
      t.1.row ≠ (gridGeom 4 4 2 100000000 (-100000000)).horizon_row :=
  ⟨Or.inl rfl, by decide, (C23_dir_vert scenarioPayoffs (gridGeom 4 4 2 100000000 (-100000000))
    0 roundHalfUp ⟨1, 3, 0, DIR_UP⟩ (Or.inl rfl) (by decide)).2.2.2.2.2.2⟩

/-- C24 (amended). Oblique skip: a `DIR_OUT` state with `col ≠ 0` whose column
is the integer-truncated vanishing-point column of its axis has no move:
`Solve_Impl` calls `Solve` on nothing and returns score negative infinity with
predecessor `DPState::none`. In the leftward walk of any `DIR_OUT` state no
column equal to the vanishing column is visited, every visited column is left
of the state, and when the vanishing column lies left of the state every
visited column lies strictly right of the vanishing column. -/
theorem C24_oblique_skip (po : DPPayoffs) (geom : DPGeometry) (jump_thresh : ℚ)
    (roundi : ℚ → Int) (s : DPState) (hd : s.dir = DIR_OUT) :
    (s.col ≠ 0 → s.col = truncToInt (geom.vpt_cols s.axis) →
      transitions po geom jump_thresh roundi s = [] ∧
      (∀ (solve : Solver) (dp : ManhattanDP),
        Solve_Impl po geom jump_thresh roundi solve s dp =
          some (⟨Score.negInf, DPState.none⟩, dp)) ∧
      value po geom jump_thresh roundi s = ⟨Score.negInf, DPState.none⟩) ∧
    (∀ t ∈ transitions po geom jump_thresh roundi s,
      t.1.col ≠ truncToInt (geom.vpt_cols s.axis) ∧ t.1.col < s.col ∧
      (truncToInt (geom.vpt_cols s.axis) < s.col →
        truncToInt (geom.vpt_cols s.axis) < t.1.col)) := by
  have hne : s.dir ≠ DIR_IN := by rw [hd]; decide
  have hne2 : ¬ (s.dir = DIR_UP ∨ s.dir = DIR_DOWN) := by rw [hd]; decide
  constructor
  · intro h0 hv
    have hlist : transitions po geom jump_thresh roundi s = [] := by
      unfold transitions
      rw [if_neg hne, if_neg hne2, if_pos hd]
      simp only
      rw [if_neg (not_not.2 hv)]
    refine ⟨hlist, fun solve dp => ?_, ?_⟩
    · rw [Solve_Impl_eq, if_neg h0, hlist]
      rfl
    · rw [value_eq]
      unfold recurrence
      rw [if_neg h0, hlist]
      rfl
  · intro t ht
    obtain ⟨_, j, hj, e1, _, _, _, e5, _⟩ := transitions_out po geom jump_thresh roundi s hd t ht
    refine ⟨?_, by omega, fun hlt => ?_⟩
    · rw [e1]
      exact (e5 j (le_refl _) hj).1
    · by_contra hc
      have hv0 : 0 ≤ truncToInt (geom.vpt_cols s.axis) := by omega
      have := (e5 (truncToInt (geom.vpt_cols s.axis)).toNat (by omega) (by omega)).1
      apply this
      omega

/-- Witness of `C24_oblique_skip`: in `obliqueGeom` the `DIR_OUT` state in
column 1, the column of the vanishing point of its axis. -/
theorem C24_oblique_skip_witness :
    (⟨0, 1, 0, DIR_OUT⟩ : DPState).dir = DIR_OUT ∧
    transitions (zeroPayoffs 2 3) obliqueGeom 0 roundHalfUp ⟨0, 1, 0, DIR_OUT⟩ = [] ∧
    (∀ (solve : Solver) (dp : ManhattanDP),
      Solve_Impl (zeroPayoffs 2 3) obliqueGeom 0 roundHalfUp solve ⟨0, 1, 0, DIR_OUT⟩ dp =
        some (⟨Score.negInf, DPState.none⟩, dp)) ∧
    value (zeroPayoffs 2 3) obliqueGeom 0 roundHalfUp ⟨0, 1, 0, DIR_OUT⟩ =
      ⟨Score.negInf, DPState.none⟩ :=
  ⟨rfl, (C24_oblique_skip (zeroPayoffs 2 3) obliqueGeom 0 roundHalfUp ⟨0, 1, 0, DIR_OUT⟩ rfl).1
    (by decide) (by decide!)⟩

/-- In the 4x4 scenario the vanishing point of axis 0 lies far to the right of
the grid, and the walk of the terminal state in row 1 visits column 3, which is
left of the vanishing column. -/
theorem C24_counterexample :
    ((⟨1, 3, 0, DIR_IN⟩ : DPState), (0 : ℚ)) ∈
      transitions scenarioPayoffs (gridGeom 4 4 2 100000000 (-100000000)) 0 roundHalfUp
        ⟨1, 4, 0, DIR_OUT⟩ ∧
    (3 : Int) < truncToInt ((gridGeom 4 4 2 100000000 (-100000000)).vpt_cols 0) := by
  refine ⟨by decide!, by decide!⟩

/-- A list of moves is solved when `solve` returns on each of them. -/
theorem foldSolve_total (solve : Solver) (l : List (DPState × ℚ))
    (hsolve : ∀ t ∈ l, ∀ dp : ManhattanDP, ∃ r dp1, solve t.1 dp = some (r, dp1)) :
    ∀ (best : DPSubSolution) (dp : ManhattanDP),
      ∃ b dp1, foldSolve solve l best dp = some (b, dp1) := by
  induction l with
  | nil => intro best dp; exact ⟨best, dp, rfl⟩
  | cons t rest ih =>
    intro best dp
    obtain ⟨r, dp1, h1⟩ := hsolve t (List.mem_cons_self _ _) dp
    obtain ⟨b, dp2, h2⟩ := ih (fun u hu => hsolve u (List.mem_cons_of_mem _ hu))
      (best.ReplaceIfSuperior r t.1 t.2).1 dp1
    refine ⟨b, dp2, ?_⟩
    simp only [foldSolve, trySolve, h1]
    exact h2

/-- `Solve` returns on every state and every solver, whatever the memo table
holds, once the fuel exceeds the rank of the state. -/
theorem Solve_total (po : DPPayoffs) (geom : DPGeometry) (jump_thresh : ℚ) (roundi : ℚ → Int)
    (f : Nat) : ∀ (s : DPState) (dp : ManhattanDP), rank geom s < f →
      ∃ r dp1, Solve po geom jump_thresh roundi f s dp = some (r, dp1) := by
  induction f with
  | zero => intro s dp h; omega
  | succ f ih =>
    intro s dp hrank
    unfold Solve
    simp only
    cases hfind : dp.cache.find s with
    | some soln => exact ⟨_, _, rfl⟩
    | none =>
      simp only
      rw [Solve_Impl_eq]
      by_cases h0 : s.col = 0
      · rw [if_pos h0]
        exact ⟨_, _, rfl⟩
      · rw [if_neg h0]
        obtain ⟨b, dp1, h1⟩ := foldSolve_total (Solve po geom jump_thresh roundi f)
          (transitions po geom jump_thresh roundi s)
          (fun t ht d => ih t.1 d
            (by have := rank_lt po geom jump_thresh roundi s t ht; omega))
          (DPSubSolution.ofScore Score.negInf)
          ({ dp with cache_lookups := dp.cache_lookups + 1, cur_depth := dp.cur_depth + 1,
                     max_depth := max dp.max_depth (dp.cur_depth + 1) } : ManhattanDP)
        rw [h1]
        exact ⟨_, _, rfl⟩

/-- The fuel that `Compute` gives to `Solve` exceeds the rank of every state
whose column is at most `W`. -/
theorem rank_lt_fuel (geom : DPGeometry) (s : DPState) (hc : s.col ≤ geom.grid_size.1) :
    rank geom s < solveFuel geom := by
  unfold rank solveFuel
  have h1 : s.col.toNat ≤ geom.grid_size.1.toNat := by omega
  have h2 : s.col.toNat * (geom.grid_size.2.toNat + 4) ≤
      geom.grid_size.1.toNat * (geom.grid_size.2.toNat + 4) := Nat.mul_le_mul_right _ h1
  have h3 : (geom.grid_size.1.toNat + 1) * (geom.grid_size.2.toNat + 4) =
      geom.grid_size.1.toNat * (geom.grid_size.2.toNat + 4) + (geom.grid_size.2.toNat + 4) := by
    ring
  simp only
  split_ifs <;> omega

/-- The rank decreases along every chain of dependences. -/
theorem rank_transGen (po : DPPayoffs) (geom : DPGeometry) (jump_thresh : ℚ) (roundi : ℚ → Int)
    (s t : DPState) (h : Relation.TransGen (DependsOn po geom jump_thresh roundi) s t) :
    rank geom t < rank geom s := by
  induction h with
  | single h1 =>
    obtain ⟨_, d, hd⟩ := h1
    exact rank_lt po geom jump_thresh roundi s (_, d) hd
  | tail _ h2 ih =>
    obtain ⟨_, d, hd⟩ := h2
    exact lt_trans (rank_lt po geom jump_thresh roundi _ (_, d) hd) ih

/-- C30. Termination: the recurrence is well-founded. The dependence of a state
on the states that `Solve_Impl` calls `Solve` on is a well-founded relation, and
no state depends on itself, directly or through other states: a `DIR_OUT` state
depends only on states in strictly smaller columns, a `DIR_IN` state only on
`DIR_OUT`, `DIR_UP` and `DIR_DOWN` states at the same point, and a `DIR_UP` or
`DIR_DOWN` state only on the `DIR_OUT` state at the same point and the state of
the same direction one row further. So `Solve` returns on every state, for
every geometry, cost field, jump threshold and memo table, once its fuel
exceeds the rank of the state; the fuel that `Compute` supplies is enough for
every in-range state. -/
theorem C30_termination (po : DPPayoffs) (geom : DPGeometry) (jump_thresh : ℚ)
    (roundi : ℚ → Int) :
    WellFounded (fun t s => DependsOn po geom jump_thresh roundi s t) ∧
    (∀ s, ¬ Relation.TransGen (DependsOn po geom jump_thresh roundi) s s) ∧
    (∀ s t, DependsOn po geom jump_thresh roundi s t →
      (s.dir = DIR_OUT → t.col < s.col) ∧
      (s.dir = DIR_IN → t.row = s.row ∧ t.col = s.col ∧
        (t.dir = DIR_OUT ∨ t.dir = DIR_UP ∨ t.dir = DIR_DOWN)) ∧
      (s.dir = DIR_UP ∨ s.dir = DIR_DOWN → t.col = s.col ∧ t.axis = s.axis ∧
        ((t.dir = DIR_OUT ∧ t.row = s.row) ∨
         (t.dir = s.dir ∧ t.row = s.row + (if s.dir = DIR_UP then -1 else 1))))) ∧
    (∀ (f : Nat) (s : DPState) (dp : ManhattanDP), rank geom s < f →
      ∃ r dp1, Solve po geom jump_thresh roundi f s dp = some (r, dp1)) ∧
    (∀ (s : DPState) (dp : ManhattanDP), InRange geom s →
      ∃ r dp1, Solve po geom jump_thresh roundi (solveFuel geom) s dp = some (r, dp1)) := by
  refine ⟨?_, ?_, ?_, Solve_total po geom jump_thresh roundi, ?_⟩
  · apply Subrelation.wf (r := InvImage (· < ·) (rank geom))
    · intro t s h
      obtain ⟨_, d, hd⟩ := h
      exact rank_lt po geom jump_thresh roundi s (t, d) hd
    · exact InvImage.wf _ Nat.lt_wfRel.wf
  · intro s h
    exact lt_irrefl _ (rank_transGen po geom jump_thresh roundi s s h)
  · intro s t h
    obtain ⟨_, d, hd⟩ := h
    refine ⟨fun hs => ?_, fun hs => ?_, fun hs => ?_⟩
    · obtain ⟨_, j, hj, e1, _⟩ := transitions_out po geom jump_thresh roundi s hs (t, d) hd
      simp only at e1
      omega
    · obtain ⟨e1, e2, _, e4⟩ := transitions_in po geom jump_thresh roundi s hs (t, d) hd
      refine ⟨e1, e2, ?_⟩
      rcases e4 with ⟨e, _⟩ | ⟨e | e, _⟩
      · exact Or.inl e
      · exact Or.inr (Or.inl e)
      · exact Or.inr (Or.inr e)
    · obtain ⟨e1, e2, _, e4⟩ := transitions_vert po geom jump_thresh roundi s hs (t, d) hd
      refine ⟨e1, e2, ?_⟩
      rcases e4 with ⟨k1, k2⟩ | ⟨k1, k2, _⟩
      · exact Or.inl ⟨k1, k2⟩
      · exact Or.inr ⟨k1, k2⟩
  · intro s dp hs
    exact Solve_total po geom jump_thresh roundi (solveFuel geom) s dp
      (rank_lt_fuel geom s hs.2.1.2)

/-- The moves of the leftward walk, column by column: a column `j` is reached
when every column from `j` up to the start passes the checks and no column
strictly between made a kink; it offers the move into `DIR_IN` and, when the
kink test holds there, the kink move. -/
theorem walkTrans_iff (po : DPPayoffs) (geom : DPGeometry) (jump_thresh : ℚ) (roundi : ℚ → Int)
    (state : DPState) (vpt_col : Int) (m c : ℚ) (k : Nat) :
    ∀ (delta : ℚ) (t : DPState × ℚ),
      t ∈ walkTrans po geom jump_thresh roundi state vpt_col m c k delta ↔
        ∃ j : Nat, j < k ∧
          (∀ x : Nat, j ≤ x → x < k → (x : Int) ≠ vpt_col ∧
            0 ≤ roundi (m * ((x : Int) : ℚ) + c) ∧
            roundi (m * ((x : Int) : ℚ) + c) < geom.grid_size.2 ∧
            roundi (m * ((x : Int) : ℚ) + c) ≠ geom.horizon_row) ∧
          (∀ x : Nat, j < x → x < k →
            ¬ |((roundi (m * ((x : Int) : ℚ) + c) : Int) : ℚ) - (m * ((x : Int) : ℚ) + c)| /
              ((|roundi (m * ((x : Int) : ℚ) + c) - state.row| + |(x : Int) - state.col| : Int) : ℚ) <
                jump_thresh) ∧
          (t = (⟨roundi (m * ((j : Int) : ℚ) + c), (j : Int), state.axis, DIR_IN⟩,
              delta + ∑ x ∈ Finset.Ico j k,
                (po.wall_scores state.axis).elem (roundi (m * ((x : Int) : ℚ) + c)) (x : Int)) ∨
           (|((roundi (m * ((j : Int) : ℚ) + c) : Int) : ℚ) - (m * ((j : Int) : ℚ) + c)| /
              ((|roundi (m * ((j : Int) : ℚ) + c) - state.row| + |(j : Int) - state.col| : Int) : ℚ) <
                jump_thresh ∧
            t = (⟨roundi (m * ((j : Int) : ℚ) + c), (j : Int), state.axis, DIR_OUT⟩,
              delta + ∑ x ∈ Finset.Ico j k,
                (po.wall_scores state.axis).elem (roundi (m * ((x : Int) : ℚ) + c)) (x : Int)))) := by
  induction k with
  | zero =>
    intro delta t
    simp [walkTrans]
  | succ k ih =>
    intro delta t
    have hsum1 : ∑ x ∈ Finset.Ico k (k + 1),
        (po.wall_scores state.axis).elem (roundi (m * ((x : Int) : ℚ) + c)) (x : Int) =
        (po.wall_scores state.axis).elem (roundi (m * ((k : Int) : ℚ) + c)) (k : Int) := by
      rw [Finset.sum_Ico_succ_top (le_refl k), Finset.Ico_self, Finset.sum_empty, zero_add]
    unfold walkTrans
    simp only
    by_cases h1 : (k : Int) = vpt_col
    · rw [if_pos h1]
      simp only [List.not_mem_nil, false_iff]
      rintro ⟨j, hj, hok, _⟩
      exact (hok k (by omega) (by omega)).1 h1
    · rw [if_neg h1]
      by_cases h2 : roundi (m * ((k : Int) : ℚ) + c) < 0 ∨
          roundi (m * ((k : Int) : ℚ) + c) ≥ geom.grid_size.2 ∨
          roundi (m * ((k : Int) : ℚ) + c) = geom.horizon_row
      · rw [if_pos h2]
        simp only [List.not_mem_nil, false_iff]
        rintro ⟨j, hj, hok, _⟩
        obtain ⟨_, a1, a2, a3⟩ := hok k (by omega) (by omega)
        rcases h2 with h | h | h
        · omega
        · omega
        · exact a3 h
      · rw [if_neg h2]
        push_neg at h2
        have hokk : (k : Int) ≠ vpt_col ∧ 0 ≤ roundi (m * ((k : Int) : ℚ) + c) ∧
            roundi (m * ((k : Int) : ℚ) + c) < geom.grid_size.2 ∧
            roundi (m * ((k : Int) : ℚ) + c) ≠ geom.horizon_row := ⟨h1, h2.1, h2.2.1, h2.2.2⟩
        rw [List.mem_cons]
        constructor
        · rintro (rfl | ht)
          · refine ⟨k, by omega, fun x hx1 hx2 => ?_, fun x hx1 hx2 => by omega, Or.inl ?_⟩
            · have : x = k := by omega
              subst this
              exact hokk
            · rw [hsum1]
          · by_cases hk : |((roundi (m * ((k : Int) : ℚ) + c) : Int) : ℚ) - (m * ((k : Int) : ℚ) + c)| /
                ((|roundi (m * ((k : Int) : ℚ) + c) - state.row| + |(k : Int) - state.col| : Int) : ℚ) <
                  jump_thresh
            · rw [if_pos hk] at ht
              simp only [List.mem_singleton] at ht
              refine ⟨k, by omega, fun x hx1 hx2 => ?_, fun x hx1 hx2 => by omega,
                Or.inr ⟨hk, ?_⟩⟩
              · have : x = k := by omega
                subst this
                exact hokk
              · rw [hsum1]
                exact ht
            · rw [if_neg hk] at ht
              obtain ⟨j, hj, hok, hnk, hcase⟩ := (ih _ t).1 ht
              have hs : delta + (po.wall_scores state.axis).elem
                  (roundi (m * ((k : Int) : ℚ) + c)) (k : Int) + ∑ x ∈ Finset.Ico j k,
                    (po.wall_scores state.axis).elem (roundi (m * ((x : Int) : ℚ) + c)) (x : Int) =
                  delta + ∑ x ∈ Finset.Ico j (k + 1),
                    (po.wall_scores state.axis).elem (roundi (m * ((x : Int) : ℚ) + c)) (x : Int) := by
                rw [Finset.sum_Ico_succ_top (Nat.le_of_lt hj)]
                ring
              rw [hs] at hcase
              refine ⟨j, by omega, fun x hx1 hx2 => ?_, fun x hx1 hx2 => ?_, hcase⟩
              · by_cases hxk : x = k
                · subst hxk; exact hokk
                · exact hok x hx1 (by omega)
              · by_cases hxk : x = k
                · subst hxk; exact hk
                · exact hnk x hx1 (by omega)
        · rintro ⟨j, hj, hok, hnk, hcase⟩
          by_cases hjk : j = k
          · subst hjk
            rw [hsum1] at hcase
            rcases hcase with rfl | ⟨hk, rfl⟩
            · exact Or.inl rfl
            · right
              rw [if_pos hk]
              exact List.mem_singleton.2 rfl
          · right
            have hk := hnk k (by omega) (by omega)
            rw [if_neg hk]
            apply (ih _ t).2
            have hs : delta + (po.wall_scores state.axis).elem
                (roundi (m * ((k : Int) : ℚ) + c)) (k : Int) + ∑ x ∈ Finset.Ico j k,
                  (po.wall_scores state.axis).elem (roundi (m * ((x : Int) : ℚ) + c)) (x : Int) =
                delta + ∑ x ∈ Finset.Ico j (k + 1),
                  (po.wall_scores state.axis).elem (roundi (m * ((x : Int) : ℚ) + c)) (x : Int) := by
              rw [Finset.sum_Ico_succ_top (by omega : j ≤ k)]
              ring
            refine ⟨j, by omega, fun x hx1 hx2 => hok x hx1 (by omega),
              fun x hx1 hx2 => hnk x hx1 (by omega), ?_⟩
            rw [hs]
            exact hcase

/-- The moves of the leftward walk are listed by decreasing column, the move
into `DIR_IN` before the kink move of the same column. -/
theorem walkTrans_sorted (po : DPPayoffs) (geom : DPGeometry) (jump_thresh : ℚ) (roundi : ℚ → Int)
    (state : DPState) (vpt_col : Int) (m c : ℚ) (k : Nat) :
    ∀ delta : ℚ, (walkTrans po geom jump_thresh roundi state vpt_col m c k delta).Pairwise
      (fun a b => b.1.col < a.1.col ∨
        (b.1.col = a.1.col ∧ a.1.dir = DIR_IN ∧ b.1.dir = DIR_OUT)) := by
  induction k with
  | zero =>
    intro delta
    simp [walkTrans]
  | succ k ih =>
    intro delta
    unfold walkTrans
    simp only
    split_ifs with h1 h2 h3
    · exact List.Pairwise.nil
    · exact List.Pairwise.nil
    · rw [List.pairwise_cons]
      refine ⟨fun b hb => ?_, List.pairwise_singleton _ _⟩
      simp only [List.mem_singleton] at hb
      subst hb
      exact Or.inr ⟨rfl, rfl, rfl⟩
    · rw [List.pairwise_cons]
      refine ⟨fun b hb => ?_, ih _⟩
      obtain ⟨j, hj, e1, _⟩ := walkTrans_mem po geom jump_thresh roundi state vpt_col m c k _ b hb
      left
      rw [e1]
      simp only
      omega

/-- The moves of a `DIR_OUT` state that is not in the vanishing column are the
moves of the leftward walk along the line of the state. -/
theorem transitions_out_eq (po : DPPayoffs) (geom : DPGeometry) (jt : ℚ) (roundi : ℚ → Int)
    (s : DPState) (hd : s.dir = DIR_OUT) (hv : s.col ≠ truncToInt (geom.vpt_cols s.axis)) :
    transitions po geom jt roundi s =
      walkTrans po geom jt roundi s (truncToInt (geom.vpt_cols s.axis)) (lineSlope geom s)
        (lineOffset geom s) s.col.toNat 0 := by
  have hne : s.dir ≠ DIR_IN := by rw [hd]; decide
  have hne2 : ¬ (s.dir = DIR_UP ∨ s.dir = DIR_DOWN) := by rw [hd]; decide
  unfold transitions
  rw [if_neg hne, if_neg hne2, if_pos hd]
  simp only
  rw [if_pos hv]
  rfl

/-- With unbounded integers and exact arithmetic: the leftward walk of a
`DIR_OUT` state outside the first column and outside the vanishing column of
its axis (see `lineRow32_eq` for where the line agrees with the one computed
with 32-bit integers). The line `row = m*col + c` passes
through the state and through the horizon row in the vanishing column. The
moves tried are exactly these: a column `k` left of the state is visited when
every column from `k` up to the state passes the checks (it is not the vanishing
column, its row `round(m*k + c)` is inside the grid and is not the horizon row)
and no column strictly between `k` and the state passed the kink test; a visited
column offers the move into `DIR_IN` at `(row_k, k)` with the cost-field values
of the axis summed over the columns from `k` up to the state, and, when the kink
test `|row_k - (m*k + c)| / (|row_k - row| + |k - col|) < jump_thresh` holds, the
move into `DIR_OUT` there with the same sum, after which no further column is
visited. The moves are tried by decreasing column, the move into `DIR_IN` before
the kink move, and with a zero threshold no kink move is tried. -/
theorem out_walk_moves (po : DPPayoffs) (geom : DPGeometry) (jump_thresh : ℚ) (roundi : ℚ → Int)
    (s : DPState) (hd : s.dir = DIR_OUT) (h0 : s.col ≠ 0)
    (hv : s.col ≠ truncToInt (geom.vpt_cols s.axis)) :
    (∀ (solve : Solver) (dp : ManhattanDP),
      Solve_Impl po geom jump_thresh roundi solve s dp =
        foldSolve solve (transitions po geom jump_thresh roundi s)
          (DPSubSolution.ofScore Score.negInf) dp) ∧
    ((s.row : ℚ) = lineSlope geom s * (s.col : ℚ) + lineOffset geom s ∧
      (geom.horizon_row : ℚ) =
        lineSlope geom s * (truncToInt (geom.vpt_cols s.axis) : ℚ) + lineOffset geom s) ∧
    (∀ t : DPState × ℚ, t ∈ transitions po geom jump_thresh roundi s ↔
      ∃ k : Nat, (k : Int) < s.col ∧
        (∀ x : Nat, k ≤ x → (x : Int) < s.col → walkOK geom roundi s x) ∧
        (∀ x : Nat, k < x → (x : Int) < s.col → ¬ kinkAt geom jump_thresh roundi s x) ∧
        (t = (⟨lineRow geom roundi s (k : Int), (k : Int), s.axis, DIR_IN⟩,
            segCost po geom roundi s k s.col.toNat) ∨
         (kinkAt geom jump_thresh roundi s k ∧
          t = (⟨lineRow geom roundi s (k : Int), (k : Int), s.axis, DIR_OUT⟩,
            segCost po geom roundi s k s.col.toNat)))) ∧
    (transitions po geom jump_thresh roundi s).Pairwise
      (fun a b => b.1.col < a.1.col ∨
        (b.1.col = a.1.col ∧ a.1.dir = DIR_IN ∧ b.1.dir = DIR_OUT)) ∧
    (jump_thresh = 0 → ∀ t ∈ transitions po geom jump_thresh roundi s, t.1.dir = DIR_IN) := by
  refine ⟨fun solve dp => ?_, ⟨line_self geom s hv, ?_⟩, fun t => ?_, ?_, fun hj t ht => ?_⟩
  · rw [Solve_Impl_eq, if_neg h0]
  · unfold lineOffset
    ring
  · rw [transitions_out_eq po geom jump_thresh roundi s hd hv, walkTrans_iff]
    unfold walkOK kinkAt lineRow segCost
    simp only [zero_add]
    constructor
    · rintro ⟨j, hj, hok, hnk, hcase⟩
      exact ⟨j, by omega, fun x hx1 hx2 => hok x hx1 (by omega),
        fun x hx1 hx2 => hnk x hx1 (by omega), hcase⟩
    · rintro ⟨j, hj, hok, hnk, hcase⟩
      exact ⟨j, by omega, fun x hx1 hx2 => hok x hx1 (by omega),
        fun x hx1 hx2 => hnk x hx1 (by omega), hcase⟩
  · rw [transitions_out_eq po geom jump_thresh roundi s hd hv]
    exact walkTrans_sorted _ _ _ _ _ _ _ _ _ _
  · exact transitions_nokink po geom jump_thresh (le_of_eq hj) roundi s hd t ht

/-- The walk theorem at the terminal state `(row 1, column 4, axis 0,
DIR_OUT)` of the four-by-four scenario, with threshold `1/10`. -/
theorem out_walk_moves_example :
    (⟨1, 4, 0, DIR_OUT⟩ : DPState).dir = DIR_OUT ∧
    (⟨1, 4, 0, DIR_OUT⟩ : DPState).col ≠ 0 ∧
    (transitions scenarioPayoffs (gridGeom 4 4 2 100000000 (-100000000)) (1 / 10) roundHalfUp ⟨1, 4, 0, DIR_OUT⟩).Pairwise
      (fun a b => b.1.col < a.1.col ∨
        (b.1.col = a.1.col ∧ a.1.dir = DIR_IN ∧ b.1.dir = DIR_OUT)) :=
  ⟨rfl, by decide,
    (out_walk_moves scenarioPayoffs (gridGeom 4 4 2 100000000 (-100000000)) (1 / 10) roundHalfUp ⟨1, 4, 0, DIR_OUT⟩ rfl
      (by decide) (by decide!)).2.2.2.1⟩

/-- The walls written by the backtrack over any list of states: one segment
and one label for every pair of `wallPairs`, in order. -/
theorem stepsOver_walls (geom : DPGeometry) (FillPolygon : List Vec3 → Mat Int → Int → Mat Int)
    (l : List DPState) : ∀ (out : Option DPState) (dp : ManhattanDP),
      (stepsOver geom FillPolygon l out dp).solution.wall_segments =
        dp.solution.wall_segments ++ (wallPairs l out).map (fun p => wallSegment geom p.1 p.2) ∧
      (stepsOver geom FillPolygon l out dp).solution.wall_orients =
        dp.solution.wall_orients ++ (wallPairs l out).map (fun p => 1 - p.1.axis) ∧
      (stepsOver geom FillPolygon l out dp).solution.num_walls =
        dp.solution.num_walls + ((wallPairs l out).length : Int) := by
  induction l with
  | nil => intro out dp; simp [stepsOver, wallPairs]
  | cons cur rest ih =>
    intro out dp
    rw [stepsOver_cons]
    obtain ⟨k1, k2, k3⟩ := ih
      (backtrackStep geom FillPolygon cur (rest.head?.getD DPState.none) out dp).2
      (backtrackStep geom FillPolygon cur (rest.head?.getD DPState.none) out dp).1
    rw [k1, k2, k3]
    cases out with
    | none =>
      unfold backtrackStep
      simp only [wallPairs]
      by_cases hd : cur.dir = DIR_OUT
      · simp [hd]
      · simp [hd]
    | some o =>
      unfold backtrackStep
      simp only [wallPairs]
      by_cases hd : cur.dir = DIR_IN
      · simp only [if_pos hd]
        refine ⟨?_, ?_, ?_⟩
        · split_ifs <;> simp
        · split_ifs <;> simp
        · split_ifs <;> (simp only [List.length_cons]; push_cast; ring)
      · simp [hd]

/-- Along an admissible chain a pending `DIR_OUT` state is followed by kink
states of its axis until a `DIR_IN` state of its axis closes the wall. -/
theorem admissible_pairs (po : DPPayoffs) (geom : DPGeometry) (jump_thresh : ℚ) (roundi : ℚ → Int)
    (l : List DPState) (v : ℚ) (h : Admissible po geom jump_thresh roundi l v) :
    ∀ out : Option DPState,
      (∀ o, out = some o → ∀ cur ∈ l.head?, o.dir = DIR_OUT ∧ o.axis = cur.axis ∧
        (cur.dir = DIR_IN ∨ cur.dir = DIR_OUT)) →
      ∀ p ∈ wallPairs l out, p.1.dir = DIR_IN ∧ p.2.dir = DIR_OUT ∧ p.1.axis = p.2.axis := by
  induction h with
  | base s h0 =>
    intro out hout p hp
    cases out with
    | none =>
      simp only [wallPairs] at hp
      split_ifs at hp <;> simp [wallPairs] at hp
    | some o =>
      simp only [wallPairs] at hp
      obtain ⟨a1, a2, _⟩ := hout o rfl s (by simp)
      split_ifs at hp with hd
      · simp only [wallPairs, List.mem_singleton] at hp
        subst hp
        exact ⟨hd, a1, a2.symm⟩
      · simp [wallPairs] at hp
  | step s n rest d v h0 hmem _ ih =>
    intro out hout p hp
    cases out with
    | none =>
      simp only [wallPairs] at hp
      by_cases hd : s.dir = DIR_OUT
      · rw [if_pos hd] at hp
        refine ih (some s) ?_ p hp
        intro o ho cur hcur
        simp only [List.head?_cons, Option.mem_def, Option.some.injEq] at hcur
        subst hcur
        simp only [Option.some.injEq] at ho
        subst ho
        obtain ⟨_, j, _, _, _, ha, hdir, _⟩ :=
          transitions_out po geom jump_thresh roundi s hd (n, d) hmem
        exact ⟨hd, ha.symm, hdir⟩
      · rw [if_neg hd] at hp
        exact ih Option.none (fun o ho => absurd ho (by simp)) p hp
    | some o =>
      simp only [wallPairs] at hp
      obtain ⟨a1, a2, a3⟩ := hout o rfl s (by simp)
      by_cases hd : s.dir = DIR_IN
      · rw [if_pos hd, List.mem_cons] at hp
        rcases hp with rfl | hp
        · exact ⟨hd, a1, a2.symm⟩
        · exact ih Option.none (fun o ho => absurd ho (by simp)) p hp
      · rw [if_neg hd] at hp
        have hso : s.dir = DIR_OUT := by
          rcases a3 with h | h
          · exact absurd h hd
          · exact h
        refine ih (some o) ?_ p hp
        intro o1 ho cur hcur
        simp only [List.head?_cons, Option.mem_def, Option.some.injEq] at hcur
        subst hcur
        simp only [Option.some.injEq] at ho
        subst ho
        obtain ⟨_, j, _, _, _, ha, hdir, _⟩ :=
          transitions_out po geom jump_thresh roundi s hso (n, d) hmem
        exact ⟨a1, a2.trans ha.symm, hdir⟩

/-- C28. Wall emission. One round of the backtrack loop at a `DIR_IN` state
`cur` with a pending `DIR_OUT` state `o` appends exactly one wall, the segment
from `GridToImage` of the grid point `(cur.col, cur.row)` to `GridToImage` of
the grid point `(o.col, o.row)`, and one label `1 - cur.axis`, raises
`num_walls` by one and clears the pending state; any other round leaves the two
lists and `num_walls` as they are. After a successful `Compute` the lists
`wall_segments` and `wall_orients` hold, in order, one entry for every closing
`DIR_IN` state of the backtrack paired with its pending `DIR_OUT` state; in
every such pair the two states have the same axis, so the label is also
`1 - o.axis`; and both lists have length `num_walls`. -/
theorem C28_wall_emission (roundi : ℚ → Int)
    (FillPolygon : List Vec3 → Mat Int → Int → Mat Int)
    (po : DPPayoffs) (geom : DPGeometry) (dp dp1 : ManhattanDP)
    (h : Compute roundi FillPolygon po geom dp = Except.ok dp1) :
    (∀ (cur next o : DPState) (d : ManhattanDP), cur.dir = DIR_IN →
      (backtrackStep geom FillPolygon cur next (some o) d).1.solution.wall_segments =
        d.solution.wall_segments ++
          [⟨geom.GridToImage (project ((cur.col : ℚ), (cur.row : ℚ), 1)),
            geom.GridToImage (project ((o.col : ℚ), (o.row : ℚ), 1))⟩] ∧
      (backtrackStep geom FillPolygon cur next (some o) d).1.solution.wall_orients =
        d.solution.wall_orients ++ [1 - cur.axis] ∧
      (backtrackStep geom FillPolygon cur next (some o) d).1.solution.num_walls =
        d.solution.num_walls + 1 ∧
      (backtrackStep geom FillPolygon cur next (some o) d).2 = Option.none) ∧
    (∀ (cur next : DPState) (out : Option DPState) (d : ManhattanDP),
      ¬ (cur.dir = DIR_IN ∧ out.isSome = true) →
      (backtrackStep geom FillPolygon cur next out d).1.solution.wall_segments =
        d.solution.wall_segments ∧
      (backtrackStep geom FillPolygon cur next out d).1.solution.wall_orients =
        d.solution.wall_orients ∧
      (backtrackStep geom FillPolygon cur next out d).1.solution.num_walls =
        d.solution.num_walls) ∧
    dp1.solution.wall_segments =
      (wallPairs dp1.full_backtrack Option.none).map (fun p =>
        (⟨geom.GridToImage (project ((p.1.col : ℚ), (p.1.row : ℚ), 1)),
          geom.GridToImage (project ((p.2.col : ℚ), (p.2.row : ℚ), 1))⟩ : LineSeg)) ∧
    dp1.solution.wall_orients =
      (wallPairs dp1.full_backtrack Option.none).map (fun p => 1 - p.1.axis) ∧
    (∀ p ∈ wallPairs dp1.full_backtrack Option.none,
      p.1.dir = DIR_IN ∧ p.2.dir = DIR_OUT ∧ 1 - p.1.axis = 1 - p.2.axis) ∧
    (dp1.solution.wall_segments.length : Int) = dp1.solution.num_walls ∧
    (dp1.solution.wall_orients.length : Int) = dp1.solution.num_walls := by
  have hf := feasible_of_ok roundi FillPolygon po geom dp dp1 h
  obtain ⟨d, p, _, _, _, hc⟩ := Compute_feasible roundi FillPolygon po geom dp hf
  rw [hc] at h
  have hdp1 := Except.ok.inj h
  obtain ⟨t, qv, rest, _, _, _, _, hadm, _⟩ := backChain_facts po geom dp.jump_thresh roundi hf
  obtain ⟨k1, k2, k3⟩ := stepsOver_walls geom FillPolygon (backChain po geom dp.jump_thresh roundi)
    Option.none (initBacktrack geom (bestTerminal po geom dp.jump_thresh roundi) d)
  have hfull : dp1.full_backtrack = backChain po geom dp.jump_thresh roundi := by
    rw [← hdp1]
    simp only
    rw [stepsOver_full]
    rfl
  have hseg : dp1.solution.wall_segments =
      (wallPairs dp1.full_backtrack Option.none).map (fun p => wallSegment geom p.1 p.2) := by
    rw [hfull, ← hdp1]
    simp only
    rw [k1]
    rfl
  have hor : dp1.solution.wall_orients =
      (wallPairs dp1.full_backtrack Option.none).map (fun p => 1 - p.1.axis) := by
    rw [hfull, ← hdp1]
    simp only
    rw [k2]
    rfl
  have hnum : dp1.solution.num_walls = ((wallPairs dp1.full_backtrack Option.none).length : Int) := by
    rw [hfull, ← hdp1]
    simp only
    rw [k3]
    simp [initBacktrack]
  refine ⟨?_, ?_, hseg, hor, ?_, ?_, ?_⟩
  · intro cur next o d hd
    unfold backtrackStep
    simp only [if_pos hd]
    refine ⟨?_, ?_, ?_, trivial⟩
    · split_ifs <;> rfl
    · split_ifs <;> rfl
    · split_ifs <;> rfl
  · intro cur next out d hn
    unfold backtrackStep
    cases out with
    | none => simp only; split_ifs <;> exact ⟨rfl, rfl, rfl⟩
    | some o =>
      have hd : ¬ cur.dir = DIR_IN := fun hc => hn ⟨hc, by simp⟩
      simp [hd]
  · intro p hp
    rw [hfull] at hp
    obtain ⟨a1, a2, a3⟩ := admissible_pairs po geom dp.jump_thresh roundi _ _ hadm Option.none
      (fun o ho => absurd ho (by simp)) p hp
    exact ⟨a1, a2, by rw [a3]⟩
  · rw [hseg, hnum, List.length_map]
  · rw [hor, hnum, List.length_map]

/-- Witness of `C28_wall_emission`: the 4x4 scenario. -/
theorem C28_wall_emission_witness :
    ∃ dp1, Compute roundHalfUp noFill scenarioPayoffs
        (gridGeom 4 4 2 100000000 (-100000000)) (freshSolver 0) = Except.ok dp1 ∧
      dp1.solution.wall_orients =
        (wallPairs dp1.full_backtrack Option.none).map (fun p => 1 - p.1.axis) ∧
      (dp1.solution.wall_segments.length : Int) = dp1.solution.num_walls ∧
      (dp1.solution.wall_orients.length : Int) = dp1.solution.num_walls := by
  obtain ⟨d, hd⟩ := exists_ok_of_isOk (Compute roundHalfUp noFill scenarioPayoffs
    (gridGeom 4 4 2 100000000 (-100000000)) (freshSolver 0)) (by decide!)
  have k := C28_wall_emission roundHalfUp noFill scenarioPayoffs
    (gridGeom 4 4 2 100000000 (-100000000)) (freshSolver 0) d hd
  exact ⟨d, hd, k.2.2.2.1, k.2.2.2.2.2.1, k.2.2.2.2.2.2⟩

theorem tableStates_card (geom : DPGeometry) :
    (tableStates geom).card ≤ (geom.grid_size.1 + 1).toNat * geom.grid_size.2.toNat * 2 * 4 := by
  unfold tableStates
  refine le_trans Finset.card_image_le ?_
  simp only [Finset.card_product, Finset.card_range]
  apply le_of_eq
  ring

/-- A state in range indexes the memo table. -/
theorem inRange_mem (geom : DPGeometry) (s : DPState) (h : InRange geom s) :
    s ∈ tableStates geom := by
  obtain ⟨⟨r0, r1⟩, ⟨c0, c1⟩, ha, hd, _⟩ := h
  unfold tableStates
  rw [Finset.mem_image]
  refine ⟨(s.col.toNat, s.row.toNat, s.axis.toNat, s.dir.toNat), ?_, ?_⟩
  · simp only [Finset.mem_product, Finset.mem_range]
    refine ⟨by omega, by omega, ?_, ?_⟩
    · rcases ha with h | h <;> (rw [h]; decide)
    · rcases hd with h | h | h | h <;> (rw [h]; decide)
  · have ha0 : 0 ≤ s.axis := by omega
    have hd0 : 0 ≤ s.dir := by rcases hd with h | h | h | h <;> simp [h]
    cases s
    simp only [DPState.mk.injEq]
    simp only at r0 c0 ha0 hd0
    exact ⟨Int.toNat_of_nonneg r0, Int.toNat_of_nonneg c0, Int.toNat_of_nonneg ha0,
      Int.toNat_of_nonneg hd0⟩

theorem filled_le (geom : DPGeometry) (c : DPCache) :
    filled geom c ≤ (geom.grid_size.1 + 1).toNat * geom.grid_size.2.toNat * 2 * 4 :=
  le_trans (Finset.card_filter_le _ _) (tableStates_card geom)

/-- Storing a present entry at a state of the table that was absent raises the
number of present entries by one. -/
theorem filled_set (geom : DPGeometry) (c : DPCache) (s : DPState) (v : DPSubSolution)
    (hs : s ∈ tableStates geom) (hn : (c.get s).score.isnan = true)
    (hv : v.score.isnan = false) : filled geom (c.set s v) = filled geom c + 1 := by
  unfold filled
  have hset : (tableStates geom).filter (fun x => ((c.set s v).get x).score.isnan = false) =
      insert s ((tableStates geom).filter (fun x => (c.get x).score.isnan = false)) := by
    ext x
    simp only [Finset.mem_filter, Finset.mem_insert, DPCache.get_set]
    by_cases hx : x = s
    · subst hx
      simp [hs, hv]
    · simp [hx]
  rw [hset, Finset.card_insert_of_not_mem]
  simp [hn]

/-- A cleared memo table has no present entry. -/
theorem filled_reset (geom : DPGeometry) (c : DPCache) (grid_size : Int × Int) :
    filled geom (c.reset grid_size) = 0 := by
  unfold filled
  rw [Finset.card_eq_zero, Finset.filter_eq_empty_iff]
  intro x _
  simp [DPCache.reset, DPCache.clear, DPCache.get, DPSubSolution.default, Score.isnan]

/-- The lookups that miss while a list of moves is solved are as many as the
entries that become present, when that holds for each move. -/
theorem foldSolve_count (po : DPPayoffs) (geom : DPGeometry) (jump_thresh : ℚ) (roundi : ℚ → Int)
    (solve : Solver) (l : List (DPState × ℚ))
    (hsolve : ∀ t ∈ l, ∀ (dp : ManhattanDP) (r : DPSubSolution) (dp1 : ManhattanDP),
      CacheOK po geom jump_thresh roundi dp.cache → solve t.1 dp = some (r, dp1) →
      CacheOK po geom jump_thresh roundi dp1.cache ∧
        misses dp1 + (filled geom dp.cache : Int) = misses dp + (filled geom dp1.cache : Int)) :
    ∀ (best : DPSubSolution) (dp : ManhattanDP) (b : DPSubSolution) (dp1 : ManhattanDP),
      CacheOK po geom jump_thresh roundi dp.cache → foldSolve solve l best dp = some (b, dp1) →
      CacheOK po geom jump_thresh roundi dp1.cache ∧
        misses dp1 + (filled geom dp.cache : Int) = misses dp + (filled geom dp1.cache : Int) := by
  induction l with
  | nil =>
    intro best dp b dp1 hdp h
    simp only [foldSolve, Option.some.injEq, Prod.mk.injEq] at h
    obtain ⟨_, rfl⟩ := h
    exact ⟨hdp, rfl⟩
  | cons t rest ih =>
    intro best dp b dp1 hdp h
    simp only [foldSolve, trySolve] at h
    cases hs : solve t.1 dp with
    | none =>
      rw [hs] at h
      exact absurd h (by simp)
    | some p =>
      obtain ⟨sub, dp2⟩ := p
      rw [hs] at h
      simp only at h
      obtain ⟨a1, a2⟩ := hsolve t (List.mem_cons_self _ _) dp sub dp2 hdp hs
      obtain ⟨b1, b2⟩ := ih (fun u hu => hsolve u (List.mem_cons_of_mem _ hu)) _ dp2 b dp1 a1 h
      exact ⟨b1, by omega⟩

/-- Every lookup of `Solve` that misses makes one entry of the memo table
present: over a call of `Solve` on a state in range, the misses and the present
entries grow by the same number. -/
theorem Solve_count (po : DPPayoffs) (geom : DPGeometry) (jump_thresh : ℚ) (roundi : ℚ → Int)
    (f : Nat) : ∀ (s : DPState) (dp : ManhattanDP) (r : DPSubSolution) (dp1 : ManhattanDP),
      InRange geom s → rank geom s < f → CacheOK po geom jump_thresh roundi dp.cache →
      Solve po geom jump_thresh roundi f s dp = some (r, dp1) →
      misses dp1 + (filled geom dp.cache : Int) = misses dp + (filled geom dp1.cache : Int) := by
  induction f with
  | zero => intro s dp r dp1 _ h; omega
  | succ f ih =>
    intro s dp r dp1 hs hrank hdp h
    obtain ⟨dpX, e1, _, _, e4⟩ := Solve_ok po geom jump_thresh roundi (f + 1) s dp hrank hdp
    have hfinal : (dp1.cache.get s).score.isnan = false := by
      rw [h] at e1
      simp only [Option.some.injEq, Prod.mk.injEq] at e1
      rw [e1.2]
      exact e4
    unfold Solve at h
    simp only at h
    by_cases hnan : (dp.cache.get s).score.isnan = true
    · have hfind : dp.cache.find s = Option.none := by
        unfold DPCache.find
        rw [if_pos hnan]
      simp only [hfind] at h
      rw [Solve_Impl_eq] at h
      by_cases h0 : s.col = 0
      · rw [if_pos h0] at h
        simp only [Option.some.injEq, Prod.mk.injEq] at h
        obtain ⟨_, rfl⟩ := h
        simp only at hfinal ⊢
        have hv : (⟨Score.fin 0, DPState.none⟩ : DPSubSolution).score.isnan = false := rfl
        rw [filled_set geom dp.cache s _ (inRange_mem geom s hs) hnan hv]
        simp only [misses]
        push_cast
        ring
      · rw [if_neg h0] at h
        cases hfold : foldSolve (Solve po geom jump_thresh roundi f)
            (transitions po geom jump_thresh roundi s) (DPSubSolution.ofScore Score.negInf)
            ({ dp with cache_lookups := dp.cache_lookups + 1, cur_depth := dp.cur_depth + 1,
                       max_depth := max dp.max_depth (dp.cur_depth + 1) } : ManhattanDP) with
        | none =>
          rw [hfold] at h
          exact absurd h (by simp)
        | some p =>
          obtain ⟨soln, dp2⟩ := p
          rw [hfold] at h
          simp only [Option.some.injEq, Prod.mk.injEq] at h
          obtain ⟨_, rfl⟩ := h
          -- the children
          obtain ⟨_, hcount⟩ := foldSolve_count po geom jump_thresh roundi
            (Solve po geom jump_thresh roundi f) (transitions po geom jump_thresh roundi s)
            (fun t ht d r d1 hd hsol => by
              have hrk : rank geom t.1 < f := by
                have := rank_lt po geom jump_thresh roundi s t ht
                omega
              obtain ⟨dY, k1, k2, _⟩ := Solve_ok po geom jump_thresh roundi f t.1 d hrk hd
              have hd1 : dY = d1 := by
                rw [hsol] at k1
                simp only [Option.some.injEq, Prod.mk.injEq] at k1
                exact k1.2.symm
              subst hd1
              exact ⟨k2, ih t.1 d r dY
                (transitions_inRange po geom jump_thresh roundi s hs t ht) hrk hd hsol⟩)
            (DPSubSolution.ofScore Score.negInf)
            ({ dp with cache_lookups := dp.cache_lookups + 1, cur_depth := dp.cur_depth + 1,
                       max_depth := max dp.max_depth (dp.cur_depth + 1) } : ManhattanDP)
            soln dp2 hdp hfold
          -- the state itself is still absent after the children
          obtain ⟨_, a2, _, _, _⟩ := foldSolve_frame (fun x => rank geom x < rank geom s)
            (rank geom s : Int) (Solve po geom jump_thresh roundi f)
            (transitions po geom jump_thresh roundi s)
            (fun t ht d r d1 hd =>
              Frame.mono (Solve_frame po geom jump_thresh roundi
                (fun x => rank geom x < rank geom s)
                (fun x hx _ u hu => lt_trans (rank_lt po geom jump_thresh roundi x u hu) hx)
                f t.1 d r d1 (rank_lt po geom jump_thresh roundi s t ht) hd)
                (by have := rank_lt po geom jump_thresh roundi s t ht; omega))
            _ _ soln dp2 hfold
          have hnan2 : (dp2.cache.get s).score.isnan = true := by
            cases hc : (dp2.cache.get s).score.isnan
            · rcases a2 s hc with k | k
              · simp only at k
                rw [hnan] at k
                exact absurd k (by decide)
              · exact absurd k (lt_irrefl _)
            · rfl
          simp only at hfinal ⊢
          have hv : soln.score.isnan = false := by
            rw [DPCache.get_set, if_pos rfl] at hfinal
            exact hfinal
          rw [filled_set geom dp2.cache s soln (inRange_mem geom s hs) hnan2 hv]
          simp only [misses] at hcount ⊢
          push_cast
          omega
    · have hfind : dp.cache.find s = some (dp.cache.get s) := by
        unfold DPCache.find
        rw [if_neg hnan]
      simp only [hfind, Option.some.injEq, Prod.mk.injEq] at h
      obtain ⟨_, rfl⟩ := h
      simp only [misses]
      omega

/-- The count of misses over the search loops of `Compute`. -/
theorem searchLoop_count (po : DPPayoffs) (geom : DPGeometry) (jump_thresh : ℚ)
    (roundi : ℚ → Int) (l : List DPState)
    (hl : ∀ t ∈ l, InRange geom t ∧ rank geom t < solveFuel geom) :
    ∀ (acc r : DPSubSolution × Bool × ManhattanDP),
      CacheOK po geom jump_thresh roundi acc.2.2.cache →
      searchLoop po geom jump_thresh roundi l acc = some r →
      CacheOK po geom jump_thresh roundi r.2.2.cache ∧
        misses r.2.2 + (filled geom acc.2.2.cache : Int) =
          misses acc.2.2 + (filled geom r.2.2.cache : Int) := by
  induction l with
  | nil =>
    intro acc r hacc h
    simp only [searchLoop, Option.some.injEq] at h
    subst h
    exact ⟨hacc, rfl⟩
  | cons t rest ih =>
    intro acc r hacc h
    obtain ⟨best, feasible, dp⟩ := acc
    simp only [searchLoop] at h
    cases hs : Solve po geom jump_thresh roundi (solveFuel geom) t dp with
    | none =>
      rw [hs] at h
      exact absurd h (by simp)
    | some p =>
      obtain ⟨sub, dp2⟩ := p
      rw [hs] at h
      simp only at h
      obtain ⟨ht1, ht2⟩ := hl t (List.mem_cons_self _ _)
      obtain ⟨dY, k1, k2, _⟩ := Solve_ok po geom jump_thresh roundi (solveFuel geom) t dp ht2 hacc
      have hd1 : dY = dp2 := by
        rw [hs] at k1
        simp only [Option.some.injEq, Prod.mk.injEq] at k1
        exact k1.2.symm
      subst hd1
      have c1 := Solve_count po geom jump_thresh roundi (solveFuel geom) t dp sub dY ht1 ht2 hacc hs
      obtain ⟨b1, b2⟩ := ih (fun u hu => hl u (List.mem_cons_of_mem _ hu)) _ r k2 h
      simp only at b2 c1 ⊢
      exact ⟨b1, by omega⟩

theorem backtrackStep_counters (geom : DPGeometry)
    (FillPolygon : List Vec3 → Mat Int → Int → Mat Int)
    (cur next : DPState) (out : Option DPState) (dp : ManhattanDP) :
    (backtrackStep geom FillPolygon cur next out dp).1.cache_lookups = dp.cache_lookups ∧
    (backtrackStep geom FillPolygon cur next out dp).1.cache_hits = dp.cache_hits := by
  unfold backtrackStep
  cases out with
  | none => simp only; split_ifs <;> exact ⟨rfl, rfl⟩
  | some o => simp only; split_ifs <;> exact ⟨rfl, rfl⟩

/-- The backtrack leaves the lookup counters alone. -/
theorem backtrack_counters (geom : DPGeometry) (FillPolygon : List Vec3 → Mat Int → Int → Mat Int)
    (fuel : Nat) : ∀ (cur : DPState) (out : Option DPState) (dp dp1 : ManhattanDP),
      backtrack geom FillPolygon fuel cur out dp = Except.ok dp1 →
      dp1.cache_lookups = dp.cache_lookups ∧ dp1.cache_hits = dp.cache_hits := by
  induction fuel with
  | zero =>
    intro cur out dp dp1 h
    simp [backtrack] at h
  | succ fuel ih =>
    intro cur out dp dp1 h
    unfold backtrack at h
    simp only at h
    split_ifs at h with h1 h2
    · obtain ⟨e1, e2⟩ := ih _ _ _ _ h
      obtain ⟨k1, k2⟩ := backtrackStep_counters geom FillPolygon cur (dp.cache.get cur).src out dp
      exact ⟨e1.trans k1, e2.trans k2⟩
    · simp only [Except.ok.injEq] at h
      rw [← h]
      exact backtrackStep_counters geom FillPolygon cur (dp.cache.get cur).src out dp

/-- `PopulateSolution` leaves the lookup counters alone. -/
theorem PopulateSolution_counters (geom : DPGeometry) (roundi : ℚ → Int)
    (FillPolygon : List Vec3 → Mat Int → Int → Mat Int) (best : DPSubSolution)
    (dp dp1 : ManhattanDP)
    (h : PopulateSolution geom roundi FillPolygon best dp = Except.ok dp1) :
    dp1.cache_lookups = dp.cache_lookups ∧ dp1.cache_hits = dp.cache_hits := by
  unfold PopulateSolution at h
  simp only at h
  split at h
  · exact absurd h (by simp)
  · rename_i d hd
    obtain ⟨e1, e2⟩ := backtrack_counters geom FillPolygon _ _ _ _ _ hd
    split at h
    · exact absurd h (by simp)
    · split at h
      · exact absurd h (by simp)
      · simp only [Except.ok.injEq] at h
        rw [← h]
        exact ⟨e1, e2⟩

/-- The lookup counters that a successful `Compute` leaves are those at the end
of its search loops. -/
theorem Compute_counters (roundi : ℚ → Int)
    (FillPolygon : List Vec3 → Mat Int → Int → Mat Int)
    (po : DPPayoffs) (geom : DPGeometry) (dp : ManhattanDP)
    (r : DPSubSolution × Bool × ManhattanDP)
    (h1 : searchLoop po geom dp.jump_thresh roundi (terminals geom)
        (DPSubSolution.ofScore Score.negInf, false, searchStart geom dp) = some r)
    (dp1 : ManhattanDP) (hc : Compute roundi FillPolygon po geom dp = Except.ok dp1) :
    dp1.cache_lookups = r.2.2.cache_lookups ∧ dp1.cache_hits = r.2.2.cache_hits := by
  unfold Compute at hc
  simp only at hc
  have h1' : searchLoop po geom dp.jump_thresh roundi (terminals geom)
      (DPSubSolution.ofScore Score.negInf, false,
        ({ dp with cache_lookups := 0, cache_hits := 0, cache := dp.cache.reset geom.grid_size,
                   max_depth := 0, cur_depth := 0 } : ManhattanDP)) = _ := h1
  rw [h1'] at hc
  simp only at hc
  split_ifs at hc
  exact PopulateSolution_counters geom roundi FillPolygon _ _ _ hc

/-- C29. Memoisation. From any sound memo table and with enough fuel, `Solve`
returns the value of the state under the unmemoised recurrence; that value is
never NaN, it is what the call leaves in the table, and entries that were
present stay as they were. `find` returns an entry whose score is negative
infinity and returns nothing for an entry whose score is NaN, so a state that
was computed and found infeasible is told apart from a state not yet visited. A
lookup of a present entry returns it and counts a hit without evaluating the
recurrence. Over the search loops of `Compute` on a grid of non-negative width,
the lookups that miss, `cache_lookups - cache_hits`, are exactly as many as the
entries of the `(W+1) x H x 2 x 4` table that are present at the end, hence at
most `(W+1)*H*2*4`; a successful `Compute` returns these counters. -/
theorem C29_memoisation (roundi : ℚ → Int)
    (FillPolygon : List Vec3 → Mat Int → Int → Mat Int)
    (po : DPPayoffs) (geom : DPGeometry) (dp : ManhattanDP) (hW : 0 ≤ geom.grid_size.1) :
    (∀ (jt : ℚ) (f : Nat) (s : DPState) (d : ManhattanDP), rank geom s < f →
      CacheOK po geom jt roundi d.cache →
      ∃ d1, Solve po geom jt roundi f s d = some (value po geom jt roundi s, d1) ∧
        value po geom jt roundi s = recurrence po geom jt roundi (value po geom jt roundi) s ∧
        (value po geom jt roundi s).score.isnan = false ∧
        d1.cache.find s = some (value po geom jt roundi s) ∧
        CacheOK po geom jt roundi d1.cache ∧
        ∀ x, (d.cache.get x).score.isnan = false → d1.cache.get x = d.cache.get x) ∧
    (∀ (c : DPCache) (x : DPState), (c.get x).score = Score.negInf → c.find x = some (c.get x)) ∧
    (∀ (c : DPCache) (x : DPState), (c.get x).score = Score.nan → c.find x = Option.none) ∧
    (∀ (jt : ℚ) (f : Nat) (s : DPState) (d : ManhattanDP),
      (d.cache.get s).score.isnan = false →
      Solve po geom jt roundi (f + 1) s d =
        some (d.cache.get s,
          { d with cache_lookups := d.cache_lookups + 1, cache_hits := d.cache_hits + 1 })) ∧
    ∃ r, searchLoop po geom dp.jump_thresh roundi (terminals geom)
        (DPSubSolution.ofScore Score.negInf, false, searchStart geom dp) = some r ∧
      r.2.2.cache_lookups - r.2.2.cache_hits = (filled geom r.2.2.cache : Int) ∧
      r.2.2.cache_lookups - r.2.2.cache_hits ≤
        (((geom.grid_size.1 + 1).toNat * geom.grid_size.2.toNat * 2 * 4 : Nat) : Int) ∧
      (0 ≤ geom.grid_size.2 →
        r.2.2.cache_lookups - r.2.2.cache_hits ≤
          (geom.grid_size.1 + 1) * geom.grid_size.2 * 2 * 4) ∧
      ∀ dp1, Compute roundi FillPolygon po geom dp = Except.ok dp1 →
        dp1.cache_lookups = r.2.2.cache_lookups ∧ dp1.cache_hits = r.2.2.cache_hits ∧
        dp1.cache = r.2.2.cache ∧
        (0 ≤ geom.grid_size.2 →
          dp1.cache_lookups - dp1.cache_hits ≤
            (geom.grid_size.1 + 1) * geom.grid_size.2 * 2 * 4) := by
  refine ⟨fun jt f s d hrank hd => ?_, fun c x hx => ?_, fun c x hx => ?_,
    fun jt f s d hnn => ?_, ?_⟩
  · obtain ⟨d1, e1, e2, e3, e4⟩ := Solve_ok po geom jt roundi f s d hrank hd
    refine ⟨d1, e1, value_eq po geom jt roundi s, value_not_nan po geom jt roundi s, ?_, e2,
      fun x hx => ?_⟩
    · unfold DPCache.find
      rw [e4, (e2 s e4).1]
      rfl
    · rw [(e2 x (e3 x hx)).1, (hd x hx).1]
  · unfold DPCache.find
    rw [hx]
    rfl
  · unfold DPCache.find
    rw [hx]
    rfl
  · have hfind : d.cache.find s = some (d.cache.get s) := by
      unfold DPCache.find
      rw [hnn]
      rfl
    simp only [Solve, hfind]
  · obtain ⟨r, h1, _, _, h4⟩ := Compute_search_state roundi FillPolygon po geom dp
    obtain ⟨_, hc⟩ := searchLoop_count po geom dp.jump_thresh roundi (terminals geom)
      (fun t ht => ⟨terminal_inRange geom hW t ht, rank_terminal geom t ht⟩)
      (DPSubSolution.ofScore Score.negInf, false, searchStart geom dp) r
      (CacheOK_reset po geom dp.jump_thresh roundi dp.cache geom.grid_size) h1
    have hstart : (filled geom (searchStart geom dp).cache : Int) = 0 := by
      have := filled_reset geom dp.cache geom.grid_size
      simp only [searchStart]
      exact_mod_cast this
    have hm0 : misses (searchStart geom dp) = 0 := by
      simp [misses, searchStart]
    simp only at hc
    rw [hstart, hm0] at hc
    have heq : r.2.2.cache_lookups - r.2.2.cache_hits = (filled geom r.2.2.cache : Int) := by
      simp only [misses] at hc
      omega
    have hle : r.2.2.cache_lookups - r.2.2.cache_hits ≤
        (((geom.grid_size.1 + 1).toNat * geom.grid_size.2.toNat * 2 * 4 : Nat) : Int) := by
      rw [heq]
      exact_mod_cast filled_le geom r.2.2.cache
    have hle2 : 0 ≤ geom.grid_size.2 → r.2.2.cache_lookups - r.2.2.cache_hits ≤
        (geom.grid_size.1 + 1) * geom.grid_size.2 * 2 * 4 := by
      intro hH
      have e : (((geom.grid_size.1 + 1).toNat * geom.grid_size.2.toNat * 2 * 4 : Nat) : Int) =
          (geom.grid_size.1 + 1) * geom.grid_size.2 * 2 * 4 := by
        push_cast
        rw [Int.toNat_of_nonneg (by omega : 0 ≤ geom.grid_size.1 + 1), Int.toNat_of_nonneg hH]
      rw [← e]
      exact hle
    refine ⟨r, h1, heq, hle, hle2, fun dp1 hc1 => ?_⟩
    obtain ⟨k1, k2⟩ := Compute_counters roundi FillPolygon po geom dp r h1 dp1 hc1
    exact ⟨k1, k2, (h4 dp1 hc1).1, fun hH => by rw [k1, k2]; exact hle2 hH⟩

/-- Witness of `C29_memoisation`: the 4x4 scenario. -/
theorem C29_memoisation_witness :
    0 ≤ (gridGeom 4 4 2 100000000 (-100000000)).grid_size.1 ∧
    ∃ r, searchLoop scenarioPayoffs (gridGeom 4 4 2 100000000 (-100000000))
        (freshSolver 0).jump_thresh roundHalfUp (terminals (gridGeom 4 4 2 100000000 (-100000000)))
        (DPSubSolution.ofScore Score.negInf, false,
          searchStart (gridGeom 4 4 2 100000000 (-100000000)) (freshSolver 0)) = some r ∧
      r.2.2.cache_lookups - r.2.2.cache_hits ≤
        ((gridGeom 4 4 2 100000000 (-100000000)).grid_size.1 + 1) *
          (gridGeom 4 4 2 100000000 (-100000000)).grid_size.2 * 2 * 4 := by
  refine ⟨by decide, ?_⟩
  obtain ⟨r, h1, _, _, h4, _⟩ := (C29_memoisation roundHalfUp noFill scenarioPayoffs
    (gridGeom 4 4 2 100000000 (-100000000)) (freshSolver 0) (by decide)).2.2.2.2
  exact ⟨r, h1, h4 (by decide)⟩

/-- C34. Same-axis occlusion exclusivity: when the continuation keeps the axis
of the current state, `CanMoveVert` for the continuation with direction
`DIR_UP` is the negation of `CanMoveVert` for the continuation with direction
`DIR_DOWN`, so exactly one of the two vertical directions passes the test. -/
theorem C34_vert_exclusive (geom : DPGeometry) (cur next : DPState)
    (ha : next.axis = cur.axis) :
    CanMoveVert geom cur { next with dir := DIR_UP } =
      !CanMoveVert geom cur { next with dir := DIR_DOWN } := by
  unfold CanMoveVert OcclusionValid
  simp only [ha]
  have hne : ¬ (DIR_DOWN = DIR_UP) := by decide
  simp only [ite_self]
  by_cases hc : cur.row < geom.horizon_row
  · by_cases hv : truncToInt (geom.vpt_cols cur.axis) < cur.col
    · simp [hc, hv, hne]
    · simp [hc, hv, hne]
  · by_cases hv : truncToInt (geom.vpt_cols cur.axis) < cur.col
    · simp [hc, hv, hne]
    · simp [hc, hv, hne]

/-- The exclusivity at a `DIR_IN` state of the 4x4 scenario geometry. -/
theorem C34_vert_exclusive_witness :
    (⟨1, 2, 0, DIR_OUT⟩ : DPState).axis = (⟨1, 2, 0, DIR_IN⟩ : DPState).axis ∧
    CanMoveVert (gridGeom 4 4 2 100000000 (-100000000)) ⟨1, 2, 0, DIR_IN⟩
        { (⟨1, 2, 0, DIR_OUT⟩ : DPState) with dir := DIR_UP } =
      !CanMoveVert (gridGeom 4 4 2 100000000 (-100000000)) ⟨1, 2, 0, DIR_IN⟩
        { (⟨1, 2, 0, DIR_OUT⟩ : DPState) with dir := DIR_DOWN } :=
  ⟨rfl, C34_vert_exclusive (gridGeom 4 4 2 100000000 (-100000000)) ⟨1, 2, 0, DIR_IN⟩
    ⟨1, 2, 0, DIR_OUT⟩ rfl⟩

theorem chain_length (value : DPState → DPSubSolution) (fuel : Nat) :
    ∀ s : DPState, (chain value fuel s).length ≤ fuel := by
  induction fuel with
  | zero => intro s; simp [chain]
  | succ fuel ih =>
    intro s
    rw [chain_succ]
    split_ifs
    · simp only [List.length_cons]
      have := ih (value s).src
      omega
    · simp

/-- Every state of an admissible chain has a finite value. -/
theorem admissible_finite (po : DPPayoffs) (geom : DPGeometry) (jump_thresh : ℚ)
    (roundi : ℚ → Int) (l : List DPState) (v : ℚ)
    (h : Admissible po geom jump_thresh roundi l v) :
    ∀ x ∈ l, ∃ q, (value po geom jump_thresh roundi x).score = Score.fin q := by
  induction h with
  | base s h0 =>
    intro x hx
    simp only [List.mem_singleton] at hx
    subst hx
    rcases value_cases po geom jump_thresh roundi x with ⟨_, h1⟩ | ⟨h1, _⟩ | ⟨h1, _⟩
    · exact ⟨0, by rw [h1]⟩
    · exact absurd h0 h1
    · exact absurd h0 h1
  | step s n rest d v h0 hmem hadm ih =>
    intro x hx
    rcases List.mem_cons.1 hx with rfl | hx
    · have hle := admissible_le po geom jump_thresh roundi _ _
        (Admissible.step x n rest d v h0 hmem hadm) x (by simp)
      have hnn := value_not_nan po geom jump_thresh roundi x
      cases hs : (value po geom jump_thresh roundi x).score with
      | nan => rw [hs] at hnn; exact absurd hnn (by decide)
      | negInf =>
        rw [hs] at hle
        simp [Score.val] at hle
      | fin q => exact ⟨q, rfl⟩
    · exact ih x hx

/-- An admissible chain ends in column 0. -/
theorem admissible_last_col (po : DPPayoffs) (geom : DPGeometry) (jump_thresh : ℚ)
    (roundi : ℚ → Int) (l : List DPState) (v : ℚ)
    (h : Admissible po geom jump_thresh roundi l v) : ∀ x ∈ l.getLast?, x.col = 0 := by
  induction h with
  | base s h0 =>
    intro x hx
    simp only [List.getLast?_singleton, Option.mem_def, Option.some.injEq] at hx
    subst hx
    exact h0
  | step s n rest d v _ _ _ ih =>
    intro x hx
    rw [List.getLast?_cons_cons] at hx
    exact ih x hx

/-- The sub-solution that the search loops of `Compute` return is
`bestTerminal`. -/
theorem searchLoop_best (po : DPPayoffs) (geom : DPGeometry) (dp : ManhattanDP)
    (roundi : ℚ → Int) (r : DPSubSolution × Bool × ManhattanDP)
    (h : searchLoop po geom dp.jump_thresh roundi (terminals geom)
      (DPSubSolution.ofScore Score.negInf, false, searchStart geom dp) = some r) :
    r.1 = bestTerminal po geom dp.jump_thresh roundi := by
  obtain ⟨d, h1, _⟩ := searchLoop_ok po geom dp.jump_thresh roundi (terminals geom)
    (rank_terminal geom) (DPSubSolution.ofScore Score.negInf) false (searchStart geom dp)
    (CacheOK_reset po geom dp.jump_thresh roundi dp.cache geom.grid_size)
  rw [h] at h1
  simp only [Option.some.injEq] at h1
  rw [h1]
  rfl

/-- C31. Backtrack safety: when the search of `Compute` is feasible, the
winning terminal state starts a chain of predecessor links in the memo table;
every state of the chain has a memo entry that is present with a finite score,
the link of each state is the next state of the chain, the chain has at most
`(W+1)*(H+4)+1` states, its last state is in column 0 and its link is the
sentinel `DPState::none`. `Compute` then succeeds and its backtrack is this
chain. Whatever the input, `Compute` never fails with the error "a state in the
backtrack has no cached solution". -/
theorem C31_backtrack_safety (roundi : ℚ → Int)
    (FillPolygon : List Vec3 → Mat Int → Int → Mat Int)
    (po : DPPayoffs) (geom : DPGeometry) (dp : ManhattanDP)
    (hfeas : Compute roundi FillPolygon po geom dp ≠ Except.error DPError.infeasible) :
    (∃ r, searchLoop po geom dp.jump_thresh roundi (terminals geom)
        (DPSubSolution.ofScore Score.negInf, false, searchStart geom dp) = some r ∧
      (∃ rest, r.1.src ∈ terminals geom ∧
        backChain po geom dp.jump_thresh roundi = r.1.src :: rest) ∧
      (∀ i : Nat, i < (backChain po geom dp.jump_thresh roundi).length →
        r.2.2.cache.find ((backChain po geom dp.jump_thresh roundi).getD i DPState.none) ≠
          Option.none ∧
        (∃ q : ℚ, (r.2.2.cache.get
          ((backChain po geom dp.jump_thresh roundi).getD i DPState.none)).score = Score.fin q) ∧
        (r.2.2.cache.get ((backChain po geom dp.jump_thresh roundi).getD i DPState.none)).src =
          (backChain po geom dp.jump_thresh roundi).getD (i + 1) DPState.none) ∧
      (backChain po geom dp.jump_thresh roundi).length ≤
        (geom.grid_size.1.toNat + 1) * (geom.grid_size.2.toNat + 4) + 1 ∧
      (∀ x ∈ (backChain po geom dp.jump_thresh roundi).getLast?,
        x.col = 0 ∧ (r.2.2.cache.get x).src = DPState.none) ∧
      ∃ dp1, Compute roundi FillPolygon po geom dp = Except.ok dp1 ∧
        dp1.full_backtrack = backChain po geom dp.jump_thresh roundi ∧
        dp1.cache = r.2.2.cache) ∧
    ∀ dp0 : ManhattanDP,
      Compute roundi FillPolygon po geom dp0 ≠ Except.error DPError.noCachedSolution := by
  constructor
  · have hf : isFeasible po geom dp.jump_thresh roundi = true := by
      cases hc : isFeasible po geom dp.jump_thresh roundi
      · exact absurd ((Compute_infeasible_iff roundi FillPolygon po geom dp).2 hc) hfeas
      · rfl
    obtain ⟨t, qv, rest, htm, hbest, _, hch, hadm, _⟩ :=
      backChain_facts po geom dp.jump_thresh roundi hf
    obtain ⟨r, h1, hOK, hterm, h4⟩ := Compute_search_state roundi FillPolygon po geom dp
    have hr1 := searchLoop_best po geom dp roundi r h1
    have hsrc : r.1.src = t := by rw [hr1, hbest]
    have hchain : backChain po geom dp.jump_thresh roundi =
        chain (value po geom dp.jump_thresh roundi) (solveFuel geom) t := by
      unfold backChain
      rw [hbest]
    have hlinks := chain_links po geom dp.jump_thresh roundi r.2.2.cache hOK (solveFuel geom) t
      (rank_terminal geom t htm) (hterm t htm)
    rw [← hchain] at hlinks
    have hmemOf : ∀ i : Nat, i < (backChain po geom dp.jump_thresh roundi).length →
        (backChain po geom dp.jump_thresh roundi).getD i DPState.none ∈
          backChain po geom dp.jump_thresh roundi := by
      intro i hi
      rw [List.getD_eq_getElem _ _ hi]
      exact List.getElem_mem hi
    obtain ⟨d, p, _, _, _, hc⟩ := Compute_feasible roundi FillPolygon po geom dp hf
    refine ⟨r, h1, ⟨rest, by rw [hsrc]; exact htm, by rw [hsrc]; exact hch⟩, fun i hi => ?_, ?_,
      fun x hx => ?_, ⟨_, hc, ?_, (h4 _ hc).1⟩⟩
    · obtain ⟨k1, k2⟩ := hlinks i hi
      refine ⟨?_, ?_, k2⟩
      · rw [find_ne_none]
        exact k1
      · obtain ⟨q, hq⟩ := admissible_finite po geom dp.jump_thresh roundi _ _ hadm _
          (hmemOf i hi)
        exact ⟨q, by rw [(hOK _ k1).1, hq]⟩
    · rw [hchain]
      exact chain_length _ _ _
    · have hcol := admissible_last_col po geom dp.jump_thresh roundi _ _ hadm x hx
      refine ⟨hcol, ?_⟩
      have hne : backChain po geom dp.jump_thresh roundi ≠ [] := by rw [hch]; simp
      have hlen : 0 < (backChain po geom dp.jump_thresh roundi).length :=
        List.length_pos.2 hne
      have hx' : x = (backChain po geom dp.jump_thresh roundi).getD
          ((backChain po geom dp.jump_thresh roundi).length - 1) DPState.none := by
        rw [List.getLast?_eq_getLast _ hne] at hx
        simp only [Option.mem_def, Option.some.injEq] at hx
        rw [← hx, List.getLast_eq_getElem, List.getD_eq_getElem _ _ (by omega)]
      obtain ⟨_, k2⟩ := hlinks ((backChain po geom dp.jump_thresh roundi).length - 1) (by omega)
      rw [← hx'] at k2
      rw [k2, List.getD_eq_default _ _ (by omega)]
    · simp only
      rw [stepsOver_full]
      rfl
  · intro dp0 hc
    cases hf : isFeasible po geom dp0.jump_thresh roundi
    · rw [(Compute_infeasible_iff roundi FillPolygon po geom dp0).2 hf] at hc
      exact absurd hc (by simp)
    · obtain ⟨d, p, _, _, _, hok⟩ := Compute_feasible roundi FillPolygon po geom dp0 hf
      rw [hok] at hc
      exact absurd hc (by simp)

/-- Witness of `C31_backtrack_safety`: the 4x4 scenario. -/
theorem C31_backtrack_safety_witness :
    Compute roundHalfUp noFill scenarioPayoffs (gridGeom 4 4 2 100000000 (-100000000))
        (freshSolver 0) ≠ Except.error DPError.infeasible ∧
    ∀ dp0 : ManhattanDP,
      Compute roundHalfUp noFill scenarioPayoffs (gridGeom 4 4 2 100000000 (-100000000)) dp0 ≠
        Except.error DPError.noCachedSolution := by
  obtain ⟨d, hd⟩ := scenario_ok
  have hne : Compute roundHalfUp noFill scenarioPayoffs (gridGeom 4 4 2 100000000 (-100000000))
      (freshSolver 0) ≠ Except.error DPError.infeasible := by
    rw [hd]
    exact fun hc => by cases hc
  exact ⟨hne, (C31_backtrack_safety roundHalfUp noFill scenarioPayoffs
    (gridGeom 4 4 2 100000000 (-100000000)) (freshSolver 0) hne).2⟩

theorem getLast?_cons_of_ne_nil {α : Type} (a : α) (l : List α) (h : l ≠ []) :
    (a :: l).getLast? = l.getLast? := by
  cases l with
  | nil => exact absurd rfl h
  | cons b t => exact List.getLast?_cons_cons

/-- The walls along an admissible chain: every wall runs from a `DIR_OUT` state
to a `DIR_IN` state strictly to its left, the first wall starts in the column
of the pending state (or of the first state), each wall starts in the column
where the one before it ended, and a chain that ends in a `DIR_IN` state ends
with the wall closed by that state. -/
theorem admissible_walls (po : DPPayoffs) (geom : DPGeometry) (jump_thresh : ℚ)
    (roundi : ℚ → Int) (l : List DPState) (v : ℚ)
    (h : Admissible po geom jump_thresh roundi l v) :
    ∀ out : Option DPState, (∀ s ∈ l.head?, PendOK out s) →
      (∀ p ∈ wallPairs l out, p.1.col < p.2.col ∧ p.1.dir = DIR_IN ∧ p.2.dir = DIR_OUT) ∧
      (∀ p ∈ (wallPairs l out).head?, ∀ s ∈ l.head?, p.2.col = pendCol out s) ∧
      List.Chain' (fun p q : DPState × DPState => q.2.col = p.1.col) (wallPairs l out) ∧
      (∀ x ∈ l.getLast?, x.dir = DIR_IN → ∃ o, (wallPairs l out).getLast? = some (x, o)) := by
  induction h with
  | base s h0 =>
    intro out hout
    have hs := hout s (by simp)
    cases out with
    | none =>
      have hd : s.dir ≠ DIR_IN := hs
      have hnil : wallPairs [s] Option.none = [] := by
        simp only [wallPairs]
        split_ifs <;> rfl
      rw [hnil]
      refine ⟨by simp, by simp, List.chain'_nil, fun x hx hxd => ?_⟩
      simp only [List.getLast?_singleton, Option.mem_def, Option.some.injEq] at hx
      subst hx
      exact absurd hxd hd
    | some o =>
      obtain ⟨a1, a2, a3, a4, a5⟩ : o.dir = DIR_OUT ∧ o.axis = s.axis ∧
        (s.dir = DIR_IN ∨ s.dir = DIR_OUT) ∧ s.col ≤ o.col ∧ (s.dir = DIR_IN → s.col < o.col) := hs
      by_cases hd : s.dir = DIR_IN
      · have hp : wallPairs [s] (some o) = [(s, o)] := by
          simp only [wallPairs, if_pos hd]
        rw [hp]
        refine ⟨fun p hp1 => ?_, fun p hp1 s1 _ => ?_, List.chain'_singleton _, fun x hx _ => ?_⟩
        · simp only [List.mem_singleton] at hp1
          subst hp1
          exact ⟨a5 hd, hd, a1⟩
        · simp only [List.head?_cons, Option.mem_def, Option.some.injEq] at hp1
          subst hp1
          rfl
        · simp only [List.getLast?_singleton, Option.mem_def, Option.some.injEq] at hx
          subst hx
          exact ⟨o, rfl⟩
      · have hnil : wallPairs [s] (some o) = [] := by
          simp only [wallPairs, if_neg hd]
        rw [hnil]
        refine ⟨by simp, by simp, List.chain'_nil, fun x hx hxd => ?_⟩
        simp only [List.getLast?_singleton, Option.mem_def, Option.some.injEq] at hx
        subst hx
        exact absurd hxd hd
  | step s n rest d v h0 hmem _ ih =>
    intro out hout
    have hs := hout s (by simp)
    have hlast : (s :: n :: rest).getLast? = (n :: rest).getLast? := List.getLast?_cons_cons
    cases out with
    | none =>
      have hd : s.dir ≠ DIR_IN := hs
      by_cases hso : s.dir = DIR_OUT
      · have hp : wallPairs (s :: n :: rest) Option.none = wallPairs (n :: rest) (some s) := by
          simp only [wallPairs, if_pos hso]
        obtain ⟨_, j, hj, hc, _, ha, hdir, _⟩ :=
          transitions_out po geom jump_thresh roundi s hso (n, d) hmem
        simp only at hc ha hdir
        have hcol : n.col < s.col := by omega
        have hpend : ∀ s1 ∈ (n :: rest).head?, PendOK (some s) s1 := by
          intro s1 hs1
          simp only [List.head?_cons, Option.mem_def, Option.some.injEq] at hs1
          subst hs1
          exact ⟨hso, ha.symm, hdir, le_of_lt hcol, fun _ => hcol⟩
        obtain ⟨b1, b2, b3, b4⟩ := ih (some s) hpend
        rw [hp, hlast]
        refine ⟨b1, fun p hp1 s1 hs1 => ?_, b3, b4⟩
        simp only [List.head?_cons, Option.mem_def, Option.some.injEq] at hs1
        subst hs1
        exact b2 p hp1 n (by simp)
      · have hp : wallPairs (s :: n :: rest) Option.none = wallPairs (n :: rest) Option.none := by
          simp only [wallPairs, if_neg hso]
        have hvert : s.dir = DIR_UP ∨ s.dir = DIR_DOWN := by
          rcases dir_cases po geom jump_thresh roundi s (n, d) hmem with k | k | k
          · exact absurd k hd
          · exact k
          · exact absurd k hso
        obtain ⟨hc, _, _, hdir⟩ := transitions_vert po geom jump_thresh roundi s hvert (n, d) hmem
        simp only at hc hdir
        have hpend : ∀ s1 ∈ (n :: rest).head?, PendOK Option.none s1 := by
          intro s1 hs1
          simp only [List.head?_cons, Option.mem_def, Option.some.injEq] at hs1
          subst hs1
          show n.dir ≠ DIR_IN
          rcases hdir with ⟨k, _⟩ | ⟨k, _⟩
          · rw [k]; decide
          · rw [k]
            rcases hvert with k1 | k1 <;> rw [k1] <;> decide
        obtain ⟨b1, b2, b3, b4⟩ := ih Option.none hpend
        rw [hp, hlast]
        refine ⟨b1, fun p hp1 s1 hs1 => ?_, b3, b4⟩
        simp only [List.head?_cons, Option.mem_def, Option.some.injEq] at hs1
        subst hs1
        have := b2 p hp1 n (by simp)
        simp only [pendCol] at this ⊢
        rw [this, hc]
    | some o =>
      obtain ⟨a1, a2, a3, a4, a5⟩ : o.dir = DIR_OUT ∧ o.axis = s.axis ∧
        (s.dir = DIR_IN ∨ s.dir = DIR_OUT) ∧ s.col ≤ o.col ∧ (s.dir = DIR_IN → s.col < o.col) := hs
      by_cases hd : s.dir = DIR_IN
      · have hp : wallPairs (s :: n :: rest) (some o) =
            (s, o) :: wallPairs (n :: rest) Option.none := by
          simp only [wallPairs, if_pos hd]
        obtain ⟨_, hc, _, hdir⟩ := transitions_in po geom jump_thresh roundi s hd (n, d) hmem
        simp only at hc hdir
        have hpend : ∀ s1 ∈ (n :: rest).head?, PendOK Option.none s1 := by
          intro s1 hs1
          simp only [List.head?_cons, Option.mem_def, Option.some.injEq] at hs1
          subst hs1
          show n.dir ≠ DIR_IN
          rcases hdir with ⟨k, _⟩ | ⟨k | k, _⟩ <;> rw [k] <;> decide
        obtain ⟨b1, b2, b3, b4⟩ := ih Option.none hpend
        rw [hp, hlast]
        refine ⟨fun p hp1 => ?_, fun p hp1 s1 _ => ?_, ?_, fun x hx hxd => ?_⟩
        · rcases List.mem_cons.1 hp1 with rfl | hp1
          · exact ⟨a5 hd, hd, a1⟩
          · exact b1 p hp1
        · simp only [List.head?_cons, Option.mem_def, Option.some.injEq] at hp1
          subst hp1
          rfl
        · rw [List.chain'_cons']
          refine ⟨fun q hq => ?_, b3⟩
          have := b2 q hq n (by simp)
          simp only [pendCol] at this
          rw [this, hc]
        · obtain ⟨o1, ho1⟩ := b4 x hx hxd
          have hne : wallPairs (n :: rest) Option.none ≠ [] := by
            intro hc1
            rw [hc1] at ho1
            simp at ho1
          exact ⟨o1, by rw [getLast?_cons_of_ne_nil _ _ hne]; exact ho1⟩
      · have hp : wallPairs (s :: n :: rest) (some o) = wallPairs (n :: rest) (some o) := by
          simp only [wallPairs, if_neg hd]
        have hso : s.dir = DIR_OUT := by
          rcases a3 with k | k
          · exact absurd k hd
          · exact k
        obtain ⟨_, j, hj, hc, _, ha, hdir, _⟩ :=
          transitions_out po geom jump_thresh roundi s hso (n, d) hmem
        simp only at hc ha hdir
        have hcol : n.col < s.col := by omega
        have hpend : ∀ s1 ∈ (n :: rest).head?, PendOK (some o) s1 := by
          intro s1 hs1
          simp only [List.head?_cons, Option.mem_def, Option.some.injEq] at hs1
          subst hs1
          exact ⟨a1, a2.trans ha.symm, hdir, by omega, fun _ => by omega⟩
        obtain ⟨b1, b2, b3, b4⟩ := ih (some o) hpend
        rw [hp, hlast]
        refine ⟨b1, fun p hp1 s1 _ => ?_, b3, b4⟩
        exact b2 p hp1 n (by simp)

/-- The backtrack and the walls of a successful `Compute`: the backtrack is an
admissible chain that starts at a terminal state, and the walls are the images
of the pairs of `wallPairs` along it. -/
theorem Compute_walls (roundi : ℚ → Int) (FillPolygon : List Vec3 → Mat Int → Int → Mat Int)
    (po : DPPayoffs) (geom : DPGeometry) (dp dp1 : ManhattanDP)
    (h : Compute roundi FillPolygon po geom dp = Except.ok dp1) :
    ∃ (t : DPState) (rest : List DPState) (qv : ℚ), t ∈ terminals geom ∧
      dp1.solution.node.src = t ∧
      dp1.full_backtrack = t :: rest ∧
      Admissible po geom dp.jump_thresh roundi dp1.full_backtrack qv ∧
      (geom.grid_size.1 ≠ 0 → ∀ x ∈ dp1.full_backtrack.getLast?, x.dir = DIR_IN) ∧
      dp1.solution.wall_segments =
        (wallPairs dp1.full_backtrack Option.none).map (fun p => wallSegment geom p.1 p.2) ∧
      dp1.solution.num_walls = ((wallPairs dp1.full_backtrack Option.none).length : Int) := by
  have hf := feasible_of_ok roundi FillPolygon po geom dp dp1 h
  obtain ⟨d, p, _, _, _, hc⟩ := Compute_feasible roundi FillPolygon po geom dp hf
  rw [hc] at h
  have hdp1 := Except.ok.inj h
  obtain ⟨t, qv, rest, htm, hbest, _, hch, hadm, hlast⟩ :=
    backChain_facts po geom dp.jump_thresh roundi hf
  obtain ⟨k1, _, k3⟩ := stepsOver_walls geom FillPolygon (backChain po geom dp.jump_thresh roundi)
    Option.none (initBacktrack geom (bestTerminal po geom dp.jump_thresh roundi) d)
  have hfull : dp1.full_backtrack = backChain po geom dp.jump_thresh roundi := by
    rw [← hdp1]
    simp only
    rw [stepsOver_full]
    rfl
  refine ⟨t, rest, qv, htm, ?_, by rw [hfull, hch], by rw [hfull]; exact hadm,
    by rw [hfull]; exact hlast, ?_, ?_⟩
  · rw [← hdp1]
    simp only
    rw [(stepsOver_score geom FillPolygon _ _ _).2]
    simp only [initBacktrack]
    rw [hbest]
  · rw [hfull, ← hdp1]
    simp only
    rw [k1]
    rfl
  · rw [hfull, ← hdp1]
    simp only
    rw [k3]
    simp [initBacktrack]

/-- C33. At least one wall: after a successful `Compute` on a grid of width
`W ≥ 1`, the backtrack ends in a `DIR_IN` state in column 0, this state closes
the last wall of the solution, `num_walls ≥ 1` and `wall_segments` is not
empty. -/
theorem C33_at_least_one_wall (roundi : ℚ → Int)
    (FillPolygon : List Vec3 → Mat Int → Int → Mat Int)
    (po : DPPayoffs) (geom : DPGeometry) (dp dp1 : ManhattanDP)
    (hW : 1 ≤ geom.grid_size.1)
    (h : Compute roundi FillPolygon po geom dp = Except.ok dp1) :
    (∃ x o : DPState, dp1.full_backtrack.getLast? = some x ∧ x.dir = DIR_IN ∧ x.col = 0 ∧
      (wallPairs dp1.full_backtrack Option.none).getLast? = some (x, o) ∧
      dp1.solution.wall_segments.getLast? = some (wallSegment geom x o)) ∧
    1 ≤ dp1.solution.num_walls ∧
    dp1.solution.wall_segments ≠ [] := by
  obtain ⟨t, rest, qv, htm, _, hfull, hadm, hlast, hseg, hnum⟩ :=
    Compute_walls roundi FillPolygon po geom dp dp1 h
  obtain ⟨_, _, _, _, hdir⟩ := (mem_terminals geom t).1 htm
  have hpend : ∀ s ∈ dp1.full_backtrack.head?, PendOK Option.none s := by
    intro s hs
    rw [hfull] at hs
    simp only [List.head?_cons, Option.mem_def, Option.some.injEq] at hs
    subst hs
    show t.dir ≠ DIR_IN
    rw [hdir]
    decide
  obtain ⟨_, _, _, b4⟩ := admissible_walls po geom dp.jump_thresh roundi _ _ hadm Option.none hpend
  have hne : dp1.full_backtrack ≠ [] := by rw [hfull]; simp
  have hx : dp1.full_backtrack.getLast? = some (dp1.full_backtrack.getLast hne) :=
    List.getLast?_eq_getLast _ hne
  have hxd := hlast (by omega) _ hx
  have hxc := admissible_last_col po geom dp.jump_thresh roundi _ _ hadm _ hx
  obtain ⟨o, ho⟩ := b4 _ hx hxd
  have hpne : wallPairs dp1.full_backtrack Option.none ≠ [] := by
    intro hc
    rw [hc] at ho
    simp at ho
  have hlen : 0 < (wallPairs dp1.full_backtrack Option.none).length := List.length_pos.2 hpne
  refine ⟨⟨_, o, hx, hxd, hxc, ho, ?_⟩, by rw [hnum]; exact_mod_cast hlen, ?_⟩
  · rw [hseg, List.getLast?_map, ho]
    rfl
  · rw [hseg]
    intro hc
    exact hpne (List.map_eq_nil_iff.1 hc)

/-- Witness of `C33_at_least_one_wall`: the 4x4 scenario. -/
theorem C33_at_least_one_wall_witness :
    1 ≤ (gridGeom 4 4 2 100000000 (-100000000)).grid_size.1 ∧
    ∃ dp1, Compute roundHalfUp noFill scenarioPayoffs (gridGeom 4 4 2 100000000 (-100000000))
        (freshSolver 0) = Except.ok dp1 ∧
      1 ≤ dp1.solution.num_walls ∧ dp1.solution.wall_segments ≠ [] := by
  obtain ⟨d, hd⟩ := scenario_ok
  exact ⟨by decide, d, hd, (C33_at_least_one_wall roundHalfUp noFill scenarioPayoffs
    (gridGeom 4 4 2 100000000 (-100000000)) (freshSolver 0) d (by decide) hd).2⟩

/-- C35. Contiguous walls: after a successful `Compute` on a grid of width
`W ≥ 1`, the walls are the images of the pairs (closing `DIR_IN` state, pending
`DIR_OUT` state) met along the backtrack, in that order. In every pair the
column of the `DIR_IN` state is strictly less than the column of the `DIR_OUT`
state; the `DIR_OUT` column of the first pair is `W`; the `DIR_IN` column of the
last pair is 0; and the `DIR_OUT` column of every further pair is the `DIR_IN`
column of the pair before it. There is at least one pair. -/
theorem C35_contiguous_walls (roundi : ℚ → Int)
    (FillPolygon : List Vec3 → Mat Int → Int → Mat Int)
    (po : DPPayoffs) (geom : DPGeometry) (dp dp1 : ManhattanDP)
    (hW : 1 ≤ geom.grid_size.1)
    (h : Compute roundi FillPolygon po geom dp = Except.ok dp1) :
    dp1.solution.wall_segments =
      (wallPairs dp1.full_backtrack Option.none).map (fun p =>
        (⟨geom.GridToImage (project ((p.1.col : ℚ), (p.1.row : ℚ), 1)),
          geom.GridToImage (project ((p.2.col : ℚ), (p.2.row : ℚ), 1))⟩ : LineSeg)) ∧
    wallPairs dp1.full_backtrack Option.none ≠ [] ∧
    (∀ p ∈ wallPairs dp1.full_backtrack Option.none,
      p.1.dir = DIR_IN ∧ p.2.dir = DIR_OUT ∧ p.1.col < p.2.col) ∧
    (∀ p ∈ (wallPairs dp1.full_backtrack Option.none).head?, p.2.col = geom.grid_size.1) ∧
    (∀ p ∈ (wallPairs dp1.full_backtrack Option.none).getLast?, p.1.col = 0) ∧
    List.Chain' (fun p q : DPState × DPState => q.2.col = p.1.col)
      (wallPairs dp1.full_backtrack Option.none) := by
  obtain ⟨t, rest, qv, htm, _, hfull, hadm, hlast, hseg, _⟩ :=
    Compute_walls roundi FillPolygon po geom dp dp1 h
  obtain ⟨_, _, _, hcol, hdir⟩ := (mem_terminals geom t).1 htm
  have hpend : ∀ s ∈ dp1.full_backtrack.head?, PendOK Option.none s := by
    intro s hs
    rw [hfull] at hs
    simp only [List.head?_cons, Option.mem_def, Option.some.injEq] at hs
    subst hs
    show t.dir ≠ DIR_IN
    rw [hdir]
    decide
  obtain ⟨b1, b2, b3, b4⟩ :=
    admissible_walls po geom dp.jump_thresh roundi _ _ hadm Option.none hpend
  have hne : dp1.full_backtrack ≠ [] := by rw [hfull]; simp
  have hx : dp1.full_backtrack.getLast? = some (dp1.full_backtrack.getLast hne) :=
    List.getLast?_eq_getLast _ hne
  have hxd := hlast (by omega) _ hx
  have hxc := admissible_last_col po geom dp.jump_thresh roundi _ _ hadm _ hx
  obtain ⟨o, ho⟩ := b4 _ hx hxd
  refine ⟨hseg, ?_, fun p hp => ?_, fun p hp => ?_, fun p hp => ?_, b3⟩
  · intro hc
    rw [hc] at ho
    simp at ho
  · obtain ⟨k1, k2, k3⟩ := b1 p hp
    exact ⟨k2, k3, k1⟩
  · have := b2 p hp t (by rw [hfull]; simp)
    simp only [pendCol] at this
    rw [this, hcol]
  · rw [ho] at hp
    simp only [Option.mem_def, Option.some.injEq] at hp
    rw [← hp]
    exact hxc

/-- Witness of `C35_contiguous_walls`: the 4x4 scenario. -/
theorem C35_contiguous_walls_witness :
    1 ≤ (gridGeom 4 4 2 100000000 (-100000000)).grid_size.1 ∧
    ∃ dp1, Compute roundHalfUp noFill scenarioPayoffs (gridGeom 4 4 2 100000000 (-100000000))
        (freshSolver 0) = Except.ok dp1 ∧
      (∀ p ∈ wallPairs dp1.full_backtrack Option.none,
        p.1.dir = DIR_IN ∧ p.2.dir = DIR_OUT ∧ p.1.col < p.2.col) ∧
      (∀ p ∈ (wallPairs dp1.full_backtrack Option.none).head?,
        p.2.col = (gridGeom 4 4 2 100000000 (-100000000)).grid_size.1) ∧
      (∀ p ∈ (wallPairs dp1.full_backtrack Option.none).getLast?, p.1.col = 0) ∧
      List.Chain' (fun p q : DPState × DPState => q.2.col = p.1.col)
        (wallPairs dp1.full_backtrack Option.none) := by
  obtain ⟨d, hd⟩ := scenario_ok
  exact ⟨by decide, d, hd, (C35_contiguous_walls roundHalfUp noFill scenarioPayoffs
    (gridGeom 4 4 2 100000000 (-100000000)) (freshSolver 0) d (by decide) hd).2.2⟩

theorem wrap32_of_fits (n : Int) (h : Fits32 n) : wrap32 n = n := by
  unfold Fits32 at h
  unfold wrap32
  omega

theorem toInt32_of_fits (x : ℚ) (h : Fits32 (truncToInt x)) : toInt32 x = truncToInt x := by
  unfold toInt32
  exact if_pos h

theorem abs32_of_fits (n : Int) (h : Fits32 |n|) : abs32 n = |n| := by
  unfold abs32
  exact wrap32_of_fits _ h

/-- Where no 32-bit operation of `OcclusionValid` overflows, the method with
32-bit arithmetic returns what the method with unbounded integers returns. -/
theorem OcclusionValid32_eq (geom : DPGeometry) (col left_axis right_axis occl_side : Int)
    (hax : Fits32 (1 - (if occl_side < 0 then left_axis else right_axis)))
    (h1 : Fits32 (truncToInt (geom.vpt_cols (if occl_side < 0 then left_axis else right_axis))))
    (h2 : Fits32 (truncToInt
      (geom.vpt_cols (1 - (if occl_side < 0 then left_axis else right_axis)))))
    (h3 : Fits32 |col -
      truncToInt (geom.vpt_cols (if occl_side < 0 then left_axis else right_axis))|)
    (h4 : Fits32 |col -
      truncToInt (geom.vpt_cols (1 - (if occl_side < 0 then left_axis else right_axis)))|) :
    OcclusionValid32 geom col left_axis right_axis occl_side =
      OcclusionValid geom col left_axis right_axis occl_side := by
  have f3 : Fits32 (col -
      truncToInt (geom.vpt_cols (if occl_side < 0 then left_axis else right_axis))) := by
    unfold Fits32 at h3 ⊢
    have := abs_le.1 (le_trans (le_refl _) h3.2)
    omega
  have f4 : Fits32 (col -
      truncToInt (geom.vpt_cols (1 - (if occl_side < 0 then left_axis else right_axis)))) := by
    unfold Fits32 at h4 ⊢
    have := abs_le.1 (le_trans (le_refl _) h4.2)
    omega
  unfold OcclusionValid32 OcclusionValid
  simp only
  rw [wrap32_of_fits _ hax, toInt32_of_fits _ h1, toInt32_of_fits _ h2, wrap32_of_fits _ f3,
    wrap32_of_fits _ f4, abs32_of_fits _ h3, abs32_of_fits _ h4]

/-- Where no 32-bit operation overflows, the line computed by the walk with
32-bit arithmetic is the line computed with unbounded integers. -/
theorem lineRow32_eq (geom : DPGeometry) (roundi : ℚ → Int) (s : DPState) (x : Int)
    (h1 : Fits32 (s.row - geom.horizon_row))
    (h2 : Fits32 (truncToInt (geom.vpt_cols s.axis)))
    (h3 : Fits32 (s.col - truncToInt (geom.vpt_cols s.axis))) :
    lineRow32 geom roundi s x = lineRow geom roundi s x := by
  unfold lineRow32 lineRow lineOffset32 lineOffset lineSlope32 lineSlope
  rw [toInt32_of_fits _ h2, wrap32_of_fits _ h1, wrap32_of_fits _ h3]

set_option maxRecDepth 100000 in
/-- C25. A walk that is not on the line of the claim. In the geometry `farGeom`
(4x4 grid, horizon row 2, vanishing column `1e10` for axis 0) the `DIR_OUT`
state in row 3, column 4, axis 0 is not in the vanishing column; the line
through (row 3, column 4) and (horizon row 2, column `1e10`) meets the columns
3, 2, 1 and 0 in row 3 after rounding. With 32-bit arithmetic `vpt_col` is
`INT_MIN`, `state.col - vpt_col` wraps to `-2147483644`, the computed line does
not pass through (row 3, column 4), and the rows of the columns 3, 2, 1 and 0
are all 1; each passes the checks of the walk, so the walk scores the cells of
row 1 and tries the `DIR_IN` states of row 1. -/
theorem C25_counterexample :
    toInt32 (farGeom.vpt_cols 0) = -2147483648 ∧
    (4 : Int) ≠ toInt32 (farGeom.vpt_cols 0) ∧
    wrap32 (4 - toInt32 (farGeom.vpt_cols 0)) = -2147483644 ∧
    lineSlope32 farGeom ⟨3, 4, 0, DIR_OUT⟩ * 4 + lineOffset32 farGeom ⟨3, 4, 0, DIR_OUT⟩ ≠ 3 ∧
    (∀ x ∈ ([3, 2, 1, 0] : List Int),
      lineRow32 farGeom roundHalfUp ⟨3, 4, 0, DIR_OUT⟩ x = 1 ∧
      lineRow farGeom roundHalfUp ⟨3, 4, 0, DIR_OUT⟩ x = 3) ∧
    (0 : Int) ≤ 1 ∧ (1 : Int) < farGeom.grid_size.2 ∧ (1 : Int) ≠ farGeom.horizon_row := by
  decide!

/-- Where no 32-bit operation of `OcclusionValid` overflows, the method as the
program computes it returns true exactly when the two conditions of
`occlusionValid_iff` agree. -/
theorem OcclusionValid32_iff (geom : DPGeometry) (col left_axis right_axis occl_side : Int)
    (hax : Fits32 (1 - (if occl_side < 0 then left_axis else right_axis)))
    (h1 : Fits32 (truncToInt (geom.vpt_cols (if occl_side < 0 then left_axis else right_axis))))
    (h2 : Fits32 (truncToInt
      (geom.vpt_cols (1 - (if occl_side < 0 then left_axis else right_axis)))))
    (h3 : Fits32 |col -
      truncToInt (geom.vpt_cols (if occl_side < 0 then left_axis else right_axis))|)
    (h4 : Fits32 |col -
      truncToInt (geom.vpt_cols (1 - (if occl_side < 0 then left_axis else right_axis)))|) :
    OcclusionValid32 geom col left_axis right_axis occl_side = true ↔
      (occl_side =
          (if truncToInt (geom.vpt_cols (if occl_side < 0 then left_axis else right_axis)) < col
            then -1 else 1) ↔
        ((if truncToInt (geom.vpt_cols (1 - (if occl_side < 0 then left_axis else right_axis))) <
              col then (-1 : Int) else 1) =
            (if truncToInt (geom.vpt_cols (if occl_side < 0 then left_axis else right_axis)) < col
              then -1 else 1) ∧
          |col - truncToInt (geom.vpt_cols (1 - (if occl_side < 0 then left_axis else right_axis)))| <
            |col - truncToInt (geom.vpt_cols (if occl_side < 0 then left_axis else right_axis))|)) := by
  rw [OcclusionValid32_eq geom col left_axis right_axis occl_side hax h1 h2 h3 h4]
  exact occlusionValid_iff geom col left_axis right_axis occl_side

end ManhattanDP

namespace FastSobel

/-- The loop of `ConvolveRowX` writes the interior formula at the columns it
visits and leaves the others alone. -/
theorem ConvolveRowX_loop_spec (w : Int) (r1 r2 r3 : Int → ℚ) (n : Nat) :
    ∀ (c : Int) (out : Int → ℚ) (x : Int),
      ConvolveRowX.loop w r1 r2 r3 n c out x =
        if c ≤ x ∧ x < c + n ∧ x < w - 1 then
          r1 (x - 1) - r1 (x + 1) + 2 * (r2 (x - 1) - r2 (x + 1)) + r3 (x - 1) - r3 (x + 1)
        else out x := by
  induction n with
  | zero =>
    intro c out x
    have hn : ¬ (c ≤ x ∧ x < c + ((0 : Nat) : Int) ∧ x < w - 1) := by
      push_cast
      omega
    rw [if_neg hn]
    rfl
  | succ n ih =>
    intro c out x
    unfold ConvolveRowX.loop
    by_cases hc : c < w - 1
    · rw [if_pos hc, ih]
      by_cases hx : x = c
      · subst hx
        have h1 : ¬ (x + 1 ≤ x ∧ x < x + 1 + (n : Int) ∧ x < w - 1) := by omega
        have h2 : x ≤ x ∧ x < x + ((n + 1 : Nat) : Int) ∧ x < w - 1 := by
          push_cast
          omega
        rw [if_neg h1, if_pos h2, Function.update_same]
      · rw [Function.update_noteq hx]
        by_cases h1 : c + 1 ≤ x ∧ x < c + 1 + (n : Int) ∧ x < w - 1
        · have h2 : c ≤ x ∧ x < c + ((n + 1 : Nat) : Int) ∧ x < w - 1 := by
            push_cast
            omega
          rw [if_pos h1, if_pos h2]
        · have h2 : ¬ (c ≤ x ∧ x < c + ((n + 1 : Nat) : Int) ∧ x < w - 1) := by
            push_cast
            omega
          rw [if_neg h1, if_neg h2]
    · rw [if_neg hc]
      have h2 : ¬ (c ≤ x ∧ x < c + ((n + 1 : Nat) : Int) ∧ x < w - 1) := by omega
      rw [if_neg h2]

/-- The loop of `ConvolveRowY` writes the interior formula at the columns it
visits and leaves the others alone. -/
theorem ConvolveRowY_loop_spec (w : Int) (r1 r3 : Int → ℚ) (n : Nat) :
    ∀ (c : Int) (out : Int → ℚ) (x : Int),
      ConvolveRowY.loop w r1 r3 n c out x =
        if c ≤ x ∧ x < c + n ∧ x < w - 1 then
          r1 (x - 1) + 2 * r1 x + r1 (x + 1) - r3 (x - 1) - 2 * r3 x - r3 (x + 1)
        else out x := by
  induction n with
  | zero =>
    intro c out x
    have hn : ¬ (c ≤ x ∧ x < c + ((0 : Nat) : Int) ∧ x < w - 1) := by
      push_cast
      omega
    rw [if_neg hn]
    rfl
  | succ n ih =>
    intro c out x
    unfold ConvolveRowY.loop
    by_cases hc : c < w - 1
    · rw [if_pos hc, ih]
      by_cases hx : x = c
      · subst hx
        have h1 : ¬ (x + 1 ≤ x ∧ x < x + 1 + (n : Int) ∧ x < w - 1) := by omega
        have h2 : x ≤ x ∧ x < x + ((n + 1 : Nat) : Int) ∧ x < w - 1 := by
          push_cast
          omega
        rw [if_neg h1, if_pos h2, Function.update_same]
      · rw [Function.update_noteq hx]
        by_cases h1 : c + 1 ≤ x ∧ x < c + 1 + (n : Int) ∧ x < w - 1
        · have h2 : c ≤ x ∧ x < c + ((n + 1 : Nat) : Int) ∧ x < w - 1 := by
            push_cast
            omega
          rw [if_pos h1, if_pos h2]
        · have h2 : ¬ (c ≤ x ∧ x < c + ((n + 1 : Nat) : Int) ∧ x < w - 1) := by
            push_cast
            omega
          rw [if_neg h1, if_neg h2]
    · rw [if_neg hc]
      have h2 : ¬ (c ≤ x ∧ x < c + ((n + 1 : Nat) : Int) ∧ x < w - 1) := by omega
      rw [if_neg h2]

theorem clampCol_of_mem (w c : Int) (h0 : 0 ≤ c) (h1 : c < w) : clampCol w c = c := by
  unfold clampCol
  omega

theorem clampCol_low (w : Int) (hw : 2 ≤ w) : clampCol w (0 - 1) = 0 := by
  unfold clampCol
  omega

theorem clampCol_high (w : Int) (hw : 2 ≤ w) : clampCol w (w - 1 + 1) = w - 1 := by
  unfold clampCol
  omega

/-- The row written by `ConvolveRowX`, column by column. -/
theorem ConvolveRowX_spec (w : Int) (hw : 2 ≤ w) (r1 r2 r3 out : Int → ℚ) (c : Int) :
    ConvolveRowX w r1 r2 r3 out c =
      if 0 ≤ c ∧ c < w then paddedX w r1 r2 r3 c else out c := by
  unfold ConvolveRowX
  by_cases hl : c = w - 1
  · subst hl
    rw [Function.update_same, if_pos ⟨by omega, by omega⟩]
    unfold paddedX
    rw [clampCol_high w hw, clampCol_of_mem w (w - 1 - 1) (by omega) (by omega)]
    rw [show w - 1 - 1 = w - 2 by ring]
  · rw [Function.update_noteq hl, ConvolveRowX_loop_spec]
    by_cases hm : 1 ≤ c ∧ c < 1 + ((w - 2).toNat : Int) ∧ c < w - 1
    · rw [if_pos hm, if_pos ⟨by omega, by omega⟩]
      unfold paddedX
      rw [clampCol_of_mem w (c - 1) (by omega) (by omega),
        clampCol_of_mem w (c + 1) (by omega) (by omega)]
    · rw [if_neg hm]
      by_cases h0 : c = 0
      · subst h0
        rw [Function.update_same, if_pos ⟨by omega, by omega⟩]
        unfold paddedX
        rw [clampCol_low w hw, clampCol_of_mem w (0 + 1) (by omega) (by omega)]
        rw [show (0 : Int) + 1 = 1 by ring]
      · rw [Function.update_noteq h0, if_neg (by omega)]

/-- The row written by `ConvolveRowY`, column by column. -/
theorem ConvolveRowY_spec (w : Int) (hw : 2 ≤ w) (r1 r2 r3 out : Int → ℚ) (c : Int) :
    ConvolveRowY w r1 r2 r3 out c =
      if 0 ≤ c ∧ c < w then paddedY w r1 r3 c else out c := by
  unfold ConvolveRowY
  by_cases hl : c = w - 1
  · subst hl
    rw [Function.update_same, if_pos ⟨by omega, by omega⟩]
    unfold paddedY
    rw [clampCol_high w hw, clampCol_of_mem w (w - 1 - 1) (by omega) (by omega)]
    rw [show w - 1 - 1 = w - 2 by ring]
    ring
  · rw [Function.update_noteq hl, ConvolveRowY_loop_spec]
    by_cases hm : 1 ≤ c ∧ c < 1 + ((w - 2).toNat : Int) ∧ c < w - 1
    · rw [if_pos hm, if_pos ⟨by omega, by omega⟩]
      unfold paddedY
      rw [clampCol_of_mem w (c - 1) (by omega) (by omega),
        clampCol_of_mem w (c + 1) (by omega) (by omega)]
    · rw [if_neg hm]
      by_cases h0 : c = 0
      · subst h0
        rw [Function.update_same, if_pos ⟨by omega, by omega⟩]
        unfold paddedY
        rw [clampCol_low w hw, clampCol_of_mem w (0 + 1) (by omega) (by omega)]
        rw [show (0 : Int) + 1 = 1 by ring]
        ring
      · rw [Function.update_noteq h0, if_neg (by omega)]

/-- C36. Sobel border handling: for every row width `w ≥ 2` and every three
input rows, `ConvolveRowX` and `ConvolveRowY` write at every column `c` in
`[0,w)`, the first and the last included, the value of their interior 3x3
formula with the column indices `c-1` and `c+1` clamped into `[0,w-1]`, and
they leave the other columns of the output alone. `ConvolveRowX` gives an
all-zero output whenever each of the three rows is constant; `ConvolveRowY`
gives an all-zero output when the first and the third row hold one common
constant, and on three constant rows in general it gives four times the
difference of the constants of the first and the third row. -/
theorem C36_sobel_border (w : Int) (hw : 2 ≤ w) (r1 r2 r3 out : Int → ℚ) :
    (∀ c, 0 ≤ c → c < w → ConvolveRowX w r1 r2 r3 out c = paddedX w r1 r2 r3 c) ∧
    (∀ c, 0 ≤ c → c < w → ConvolveRowY w r1 r2 r3 out c = paddedY w r1 r3 c) ∧
    (∀ c, ¬ (0 ≤ c ∧ c < w) →
      ConvolveRowX w r1 r2 r3 out c = out c ∧ ConvolveRowY w r1 r2 r3 out c = out c) ∧
    (∀ a1 a2 a3 : ℚ, (∀ x, r1 x = a1) → (∀ x, r2 x = a2) → (∀ x, r3 x = a3) →
      (∀ c, 0 ≤ c → c < w → ConvolveRowX w r1 r2 r3 out c = 0) ∧
      (∀ c, 0 ≤ c → c < w → ConvolveRowY w r1 r2 r3 out c = 4 * (a1 - a3))) ∧
    (∀ a : ℚ, (∀ x, r1 x = a) → (∀ x, r3 x = a) →
      ∀ c, 0 ≤ c → c < w → ConvolveRowY w r1 r2 r3 out c = 0) := by
  refine ⟨fun c h0 h1 => ?_, fun c h0 h1 => ?_, fun c hc => ?_, fun a1 a2 a3 k1 k2 k3 => ?_,
    fun a k1 k3 c h0 h1 => ?_⟩
  · rw [ConvolveRowX_spec w hw, if_pos ⟨h0, h1⟩]
  · rw [ConvolveRowY_spec w hw, if_pos ⟨h0, h1⟩]
  · rw [ConvolveRowX_spec w hw, ConvolveRowY_spec w hw, if_neg hc, if_neg hc]
    exact ⟨rfl, rfl⟩
  · refine ⟨fun c h0 h1 => ?_, fun c h0 h1 => ?_⟩
    · rw [ConvolveRowX_spec w hw, if_pos ⟨h0, h1⟩]
      unfold paddedX
      simp only [k1, k2, k3]
      ring
    · rw [ConvolveRowY_spec w hw, if_pos ⟨h0, h1⟩]
      unfold paddedY
      simp only [k1, k3]
      ring
  · rw [ConvolveRowY_spec w hw, if_pos ⟨h0, h1⟩]
    unfold paddedY
    simp only [k1, k3]
    ring

/-- The border theorem on rows of width 4. -/
theorem C36_sobel_border_witness :
    (2 : Int) ≤ 4 ∧
    (∀ c : Int, 0 ≤ c → c < 4 →
      ConvolveRowX 4 (fun x => x * x) (fun x => 3 * x) (fun _ => 7) (fun _ => 0) c =
        paddedX 4 (fun x => x * x) (fun x => 3 * x) (fun _ => 7) c) ∧
    (∀ c : Int, 0 ≤ c → c < 4 →
      ConvolveRowY 4 (fun x => x * x) (fun x => 3 * x) (fun _ => 7) (fun _ => 0) c =
        paddedY 4 (fun x => x * x) (fun _ => 7) c) :=
  ⟨by decide,
    (C36_sobel_border 4 (by decide) (fun x => x * x) (fun x => 3 * x) (fun _ => 7)
      (fun _ => 0)).1,
    (C36_sobel_border 4 (by decide) (fun x => x * x) (fun x => 3 * x) (fun _ => 7)
      (fun _ => 0)).2.1⟩

/-- Three constant rows on which `ConvolveRowY` is not zero: the first row
holds 1 everywhere, the second and the third hold 0; the output is 4 in both
columns of a row of width 2. -/
theorem C36_counterexample :
    (∀ x : Int, (fun _ : Int => (1 : ℚ)) x = 1) ∧
    (∀ x : Int, (fun _ : Int => (0 : ℚ)) x = 0) ∧
    ConvolveRowY 2 (fun _ => 1) (fun _ => 0) (fun _ => 0) (fun _ => 0) 0 = 4 ∧
    ConvolveRowY 2 (fun _ => 1) (fun _ => 0) (fun _ => 0) (fun _ => 0) 1 = 4 := by
  refine ⟨fun _ => rfl, fun _ => rfl, ?_, ?_⟩ <;> decide!

end FastSobel

end IndoorContext
